import Mathlib

/-!
# Virtual-memory core of the kernel: buddy allocator, page-table operations, VMAs

A shallow embedding of `kernel/mem/buddy.c`, `kernel/mem/walk.c`, `kernel/mem/insert.c`,
`kernel/mem/lookup.c`, `kernel/mem/remove.c`, `kernel/mem/protect.c`, `kernel/mem/ptbl.c`,
`kernel/sched/kernel_thread.c` and `kernel/vma/{insert,merge,remove}.c`.

Conventions.
* A `struct page_info *` is the index of the frame in the `pages` array; an intrusive list
  (`struct list`) is the Lean list of the indices of the frames linked on it, head first.
* A function that can hit a failed `assert` or a `panic` returns an `Option`; `none` is the
  panic.  A C function returning a pointer that may be `NULL` returns an inner `Option`.
* Machine words are natural numbers; where the C arithmetic can wrap, the wrap is explicit.
-/

namespace Kernel

/-! ## Constants -/

/-- Size of a page frame in bytes. -/
def PAGE_SIZE : Nat := 4096

/-- Modelled from the spec: the constant lives in a header that is not part of the sources
at hand.  `buddy_map_chunk` fixes it: `(1 << (12 + BUDDY_MAX_ORDER - 1)) / PAGE_SIZE` is
documented there to be 512. -/
def BUDDY_MAX_ORDER : Nat := 10

/-- Modelled from the spec: allocation flag `ZERO` (the header is not part of the sources at
hand); the lowest flag bit. -/
def ALLOC_ZERO : Nat := 1

/-- Modelled from the spec: allocation flag `HUGE`; `page_alloc` never reads it. -/
def ALLOC_HUGE : Nat := 2

/-- Number of 64-bit words in a page frame. -/
def PAGE_TABLE_ENTRIES : Nat := 512

/-! ## Physical frames and the allocator state -/

/-- The fields of `struct page_info` that the modelled code reads or writes.  The list nodes
`pp_node`, `pp_zero_node` and `swap_node` are represented by the lists of the state. -/
structure page_info where
  pp_ref : Nat
  pp_free : Bool
  pp_order : Nat
  pp_zero : Bool
  rmap : Nat
deriving DecidableEq, Repr

/-- One virtual-memory area.  `vm_name` is the `char *` itself (names are compared as
pointers), `rmap` the address of its reverse map, `vm_src`/`vm_len` the backing source. -/
structure vma where
  vm_name : Nat
  vm_base : Nat
  vm_end : Nat
  vm_flags : Nat
  vm_src : Nat
  vm_len : Nat
  rmap : Nat
deriving DecidableEq, Repr

/-- The tree of `struct rb_node`s embedded in the VMAs of a task: a node carries the
identity of its VMA.  Colours are left out: the code that reads them is not part of the
sources at hand. -/
inductive rb_node where
  | nil : rb_node
  | node (left : rb_node) (v : Nat) (right : rb_node) : rb_node
deriving DecidableEq, Repr

/-- The part of `struct task` used by the VMA code: the heap cells of its VMAs (indexed by
their identity), the tree `task_rb`, the sorted list `task_mmap`, the next identity
`kmalloc` hands out, the root page table, and the lists `vmas` of the reverse maps on the
heap (indexed by the address of the `struct rmap`): the VMAs of the task linked on each,
newest first. -/
structure task where
  vmas : Nat → vma
  task_rb : rb_node
  task_mmap : List Nat
  next_vma : Nat
  task_pml4 : Nat
  rmap_vmas : Nat → List Nat := fun _ => []

/-- Global state: the frame array `pages`, the buddy free lists, the list of frames waiting
to be zeroed (the frames the `next` links reach from the head of `zero_list`, each once, and
whether these links have been turned into a cycle, see `list_add_linked`), the swap list
`swap.pages`, physical memory as 512 words per frame, and the current task. -/
structure kstate where
  pages : Nat → page_info
  buddy_free_list : Nat → List Nat
  zero_list : List Nat
  swap_pages : List Nat
  mem : Nat → Nat → Nat
  cur_task : Option task
  zero_cycle : Bool := false

/-- Physical address of a frame. -/
def page2pa (page : Nat) : Nat := page * PAGE_SIZE

/-- Modelled from the spec: `pa2page` is declared in a header that is not part of the
sources at hand; it indexes the frame array with the frame number of the address. -/
def pa2page (pa : Nat) : Nat := pa / PAGE_SIZE

/-- Rewrite the descriptor of one frame. -/
def set_page (s : kstate) (i : Nat) (f : page_info → page_info) : kstate :=
  { s with pages := fun j => if j = i then f (s.pages j) else s.pages j }

/-- Modelled from the spec: `list_del` on the `pp_node` of a frame (list.h is not part of
the sources at hand).  The node is unlinked from the buddy list it is on and re-initialised;
on a node that is on no list it does nothing. -/
def list_del_pp (s : kstate) (node : Nat) : kstate :=
  { s with buddy_free_list := fun k => (s.buddy_free_list k).filter (fun x => x != node) }

/-- Modelled from the spec: `list_add(&buddy_free_list[order], &page->pp_node)` links the
node right behind the head. -/
def list_add_pp (s : kstate) (order node : Nat) : kstate :=
  { s with buddy_free_list :=
      fun k => if k = order then node :: s.buddy_free_list k else s.buddy_free_list k }

/-- Modelled from the spec: `list_pop(&buddy_free_list[order])` unlinks the first node and
returns it, `NULL` on an empty list. -/
def list_pop_pp (s : kstate) (order : Nat) : Option Nat × kstate :=
  match s.buddy_free_list order with
  | [] => (none, s)
  | node :: rest =>
    (some node, { s with buddy_free_list :=
      fun k => if k = order then rest else s.buddy_free_list k })

/-- Modelled from the spec: `list_add(head, node)` of list.h, which is not part of the
sources at hand, on the sequence of the nodes that the `next` links reach from the head.  It
stores `head->next` in `node->next` and makes `node` the first node.  For a node that is
linked already this turns the links into a cycle: they lead from the node through the nodes
that were in front of it and back to the node, and the nodes that were behind it are no
longer reached. -/
def list_add_linked (l : List Nat) (node : Nat) : List Nat :=
  node :: l.takeWhile (fun x => x != node)

/-- Counts the free blocks of one order (`count_free_pages`). -/
def count_free_pages (s : kstate) (order : Nat) : Nat :=
  if order ≥ BUDDY_MAX_ORDER then 0 else (s.buddy_free_list order).length

/-- The recursion of `buddy_split`, one unfolding per unit of fuel.  `none` means the fuel
ran out. -/
def buddy_split_fuel : Nat → kstate → Nat → Nat → Option (Nat × kstate)
  | 0, _, _, _ => none
  | fuel + 1, s, lhs, req_order =>
    if (s.pages lhs).pp_order = req_order then some (lhs, s)
    else
      let block_size := 2 ^ (s.pages lhs).pp_order
      let page_index := page2pa lhs / PAGE_SIZE
      let buddy_index := page_index + block_size / 2
      let s1 := list_del_pp s lhs
      let s2 := set_page s1 lhs (fun p => { p with pp_order := p.pp_order - 1 })
      let s3 := set_page s2 buddy_index
        (fun p => { p with pp_order := (s2.pages lhs).pp_order })
      let s4 := set_page s3 buddy_index (fun p => { p with pp_free := true })
      let s5 := list_add_pp s4 (s4.pages lhs).pp_order lhs
      let s6 := list_add_pp s5 (s5.pages lhs).pp_order buddy_index
      buddy_split_fuel fuel s6 lhs req_order

/-- Splits `lhs` down to `req_order` (`buddy_split`).  Every unfolding lowers `pp_order` by
one, so `pp_order + 1` unfoldings reach any `req_order ≤ pp_order`. -/
def buddy_split (s : kstate) (lhs req_order : Nat) : Option (Nat × kstate) :=
  buddy_split_fuel ((s.pages lhs).pp_order + 1) s lhs req_order

/-- The recursion of `buddy_merge`, one unfolding per unit of fuel; the result is the
returned pointer (`none` for `NULL`) and the state.  Outer `none`: the fuel ran out. -/
def buddy_merge_fuel : Nat → kstate → Nat → Option (Option Nat × kstate)
  | 0, _, _ => none
  | fuel + 1, s, page =>
    let block_size := 2 ^ (s.pages page).pp_order
    let page_index := page2pa page / PAGE_SIZE
    if (s.pages page).pp_order = BUDDY_MAX_ORDER - 1 then some (none, s)
    else if (s.buddy_free_list (s.pages page).pp_order).isEmpty then some (some page, s)
    else
      let buddy := if page_index % (block_size * 2) = 0 then page_index + block_size
                   else page_index - block_size
      let lhs := if page_index % (block_size * 2) = 0 then page else buddy
      if (s.pages page).pp_free && (s.pages buddy).pp_free
          && (s.pages page).pp_order == (s.pages buddy).pp_order then
        let s1 := list_del_pp s buddy
        let s2 := list_del_pp s1 page
        let s3 := if buddy = lhs then set_page s2 page (fun p => { p with pp_free := false })
                  else set_page s2 buddy (fun p => { p with pp_free := false })
        let s4 := set_page s3 lhs (fun p => { p with pp_order := p.pp_order + 1 })
        let s5 := list_add_pp s4 (s4.pages lhs).pp_order lhs
        match buddy_merge_fuel fuel s5 lhs with
        | none => none
        | some (_, s6) => some (none, s6)
      else some (some page, s)

/-- Merges the freed block with its free buddies (`buddy_merge`).  Every unfolding raises
the order by one and the recursion stops at `BUDDY_MAX_ORDER - 1`. -/
def buddy_merge (s : kstate) (page : Nat) : Option (Option Nat × kstate) :=
  buddy_merge_fuel (BUDDY_MAX_ORDER + 1) s page

/-- The scan of `buddy_find` over the orders above `req_order`: `n` orders starting at
`order`. -/
def buddy_find_loop : Nat → kstate → Nat → Nat → Option (Option Nat × kstate)
  | 0, s, _, _ => some (none, s)
  | n + 1, s, order, req_order =>
    if (s.buddy_free_list order).isEmpty then buddy_find_loop n s (order + 1) req_order
    else
      match list_pop_pp s order with
      | (none, s1) => some (none, s1)
      | (some page, s1) =>
        match buddy_split s1 page req_order with
        | none => none
        | some (p, s2) => some (some p, s2)

/-- Finds a free block of the requested order, splitting a larger one when the list of that
order is empty (`buddy_find`).  Outer `none`: the split ran out of fuel. -/
def buddy_find (s : kstate) (req_order : Nat) : Option (Option Nat × kstate) :=
  if !(s.buddy_free_list req_order).isEmpty then
    some (list_pop_pp s req_order)
  else
    buddy_find_loop (BUDDY_MAX_ORDER - (req_order + 1)) s (req_order + 1) req_order

/-- The `memset(page2kva(page), 0, PAGE_SIZE)` of a frame. -/
def zero_frame (s : kstate) (page : Nat) : kstate :=
  { s with mem := fun f => if f = page then (fun _ => 0) else s.mem f }

/-- Allocates a frame (`page_alloc`).  `none`: an assertion failed; `some (none, s)`: the
function returned `NULL`; `some (some page, s)`: it returned `page`. -/
def page_alloc (s : kstate) (alloc_flags : Nat) : Option (Option Nat × kstate) :=
  match buddy_find s 0 with
  | none => none
  | some (none, _) => none
  | some (some page, s1) =>
    if (s1.pages page).pp_free ≠ true then none
    else
      let s2 := if alloc_flags &&& ALLOC_ZERO ≠ 0 then
                  (if !(s1.pages page).pp_zero then zero_frame s1 page else s1)
                else s1
      let s3 := set_page s2 page (fun p => { p with pp_free := false })
      let s4 := list_del_pp s3 page
      some (some page, s4)

/-- Unlinks the frame from the swap list (`remove_swap_page`). -/
def remove_swap_page (s : kstate) (page : Nat) : kstate :=
  { s with swap_pages := s.swap_pages.filter (fun x => x != page) }

/-- Links the frame on the swap list unless it is on it already (`add_swap_page`). -/
def add_swap_page (s : kstate) (page : Nat) : kstate :=
  if s.swap_pages.contains page then s else { s with swap_pages := page :: s.swap_pages }

/-- Returns a frame to the free lists (`page_free`).  `none`: the assertion
`pp_ref == 0` failed, or the merge ran out of fuel.  The node `pp_zero_node` is linked on
`zero_list` whether it is on the list already or not: nothing but `zero_all_pages` takes
nodes off that list. -/
def page_free (s : kstate) (pp : Nat) : Option kstate :=
  if (s.pages pp).pp_ref ≠ 0 then none
  else
    let s1 := remove_swap_page s pp
    let s2 := set_page s1 pp (fun p => { p with pp_free := true })
    let r := if (s2.pages pp).pp_order ≠ BUDDY_MAX_ORDER - 1 then buddy_merge s2 pp
             else some (some pp, s2)
    match r with
    | none => none
    | some (none, s3) => some s3
    | some (some q, s3) =>
      let s4 := list_add_pp s3 (s3.pages q).pp_order q
      let s5 := set_page s4 q (fun p => { p with pp_zero := false })
      some { s5 with zero_list := list_add_linked s5.zero_list q,
                     zero_cycle := s5.zero_cycle || s5.zero_list.contains q }

/-- Drops one reference and frees the frame when none is left (`page_decref`).  The
counter is a 16-bit field: decrementing 0 wraps. -/
def page_decref (s : kstate) (pp : Nat) : Option kstate :=
  let s1 := set_page s pp (fun p => { p with pp_ref := (p.pp_ref + 65535) % 65536 })
  if (s1.pages pp).pp_ref = 0 then page_free s1 pp else some s1

/-- Modelled from the spec: the limit of user addresses (its header is not part of the
sources at hand); `sign_extend` in `walk.c` treats it as the first non-canonical address. -/
def USER_LIM : Nat := 0x800000000000

/-- Modelled from the spec: base of the kernel half of the address space. -/
def KERNEL_VMA : Nat := 0xFFFF800000000000

/-- Width of a pointer: pointer arithmetic wraps at this bound. -/
def WORD : Nat := 2 ^ 64

/-- `ROUNDDOWN(a, PAGE_SIZE)`. -/
def ROUNDDOWN (a : Nat) : Nat := a - a % PAGE_SIZE

/-- `ROUNDUP(a, PAGE_SIZE)` on 64-bit words. -/
def ROUNDUP (a : Nat) : Nat := ROUNDDOWN ((a + PAGE_SIZE - 1) % WORD)

/-- Modelled from the spec: type tags of `struct vma_info` (the header is not part of the
sources at hand); a cleared info describes a free gap. -/
def VMA_FREE : Nat := 0

/-- Modelled from the spec: tag of an anonymous VMA. -/
def VMA_ANONYMOUS : Nat := 1

/-- Modelled from the spec: tag of a VMA backed by an executable. -/
def VMA_EXECUTABLE : Nat := 2

/-- The fields of `struct vma_info` that `find_free_vma` fills and its callers read. -/
structure vma_info where
  vm_base : Nat
  vm_end : Nat
  vm_type : Nat
  vm_prot : Nat
deriving DecidableEq, Repr

/-- In-order sequence of the VMAs of a tree. -/
def rb_node.inorder : rb_node → List Nat
  | rb_node.nil => []
  | rb_node.node l v r => l.inorder ++ v :: r.inorder

/-- Modelled from the spec: `find_vma(NULL, NULL, &task->task_rb, addr)` is not part of the
sources at hand.  Its callers document it: it finds the VMA with an end address greater than
the requested address that is the closest to that address. -/
def find_vma (t : task) (addr : Nat) : Option Nat :=
  t.task_rb.inorder.find? (fun v => addr < (t.vmas v).vm_end)

/-- Modelled from the spec: `task_find_vma` is not part of the sources at hand; it returns
the VMA that contains the address, `NULL` when there is none. -/
def task_find_vma (t : task) (addr : Nat) : Option Nat :=
  match find_vma t addr with
  | none => none
  | some v => if (t.vmas v).vm_base ≤ addr then some v else none

/-- Modelled from the spec: `list_insert_after(pos, node)` of list.h, which is not part of
the sources at hand. -/
def list_insert_after (pos node : Nat) : List Nat → List Nat
  | [] => []
  | x :: xs => if x = pos then x :: node :: xs else x :: list_insert_after pos node xs

/-- Modelled from the spec: `list_insert_before(pos, node)` of list.h. -/
def list_insert_before (pos node : Nat) : List Nat → List Nat
  | [] => []
  | x :: xs => if x = pos then node :: x :: xs else x :: list_insert_before pos node xs

/-- Modelled from the spec: `list_prev(head, node)` of list.h: the node in front of `node`,
`NULL` when `node` is the first one. -/
def list_prev : List Nat → Nat → Option Nat
  | [], _ => none
  | [_], _ => none
  | x :: y :: xs, node => if x = node then none else if y = node then some x
                          else list_prev (y :: xs) node

/-- The descent of `insert_vma` through the tree.  `none`: an overlapping VMA was met.
Otherwise the tree with the new node attached below the last node visited, together with
that node (`vma_tmp`) and the last direction taken (`dir`), if any node was visited. -/
def insert_vma_walk (vmas : Nat → vma) (new : Nat) :
    rb_node → Option (rb_node × Option (Nat × Bool))
  | rb_node.nil => some (rb_node.node rb_node.nil new rb_node.nil, none)
  | rb_node.node l v r =>
    let dir := decide ((vmas new).vm_base ≥ (vmas v).vm_end)
    if !dir && decide ((vmas new).vm_end > (vmas v).vm_base) then none
    else
      match (if dir then insert_vma_walk vmas new r else insert_vma_walk vmas new l) with
      | none => none
      | some (c, last) =>
        some (if dir then rb_node.node l v c else rb_node.node c v r,
              some (last.getD (v, dir)))

/-- Modelled from the spec: `rb_balance` is not part of the sources at hand.  Rebalancing
recolours and rotates, which keeps the in-order sequence of the tree; the model keeps the
tree as it is and reports success. -/
def rb_balance (t : rb_node) (_node : Nat) : Int × rb_node := (0, t)

/-- Inserts the VMA `new` (a heap cell of the task) into the tree and the list
(`insert_vma`); returns the C return value and the task. -/
def insert_vma (t : task) (new : Nat) : Int × task :=
  match insert_vma_walk t.vmas new t.task_rb with
  | none => (-1, t)
  | some (tree, last) =>
    let (ret, tree') := rb_balance tree new
    if ret < 0 then (-1, { t with task_rb := tree' })
    else
      match last with
      | none => (0, { t with task_rb := tree', task_mmap := new :: t.task_mmap })
      | some (vma_tmp, dir) =>
        if dir then
          (0, { t with task_rb := tree',
                       task_mmap := list_insert_after vma_tmp new t.task_mmap })
        else
          (0, { t with task_rb := tree',
                       task_mmap := list_insert_before vma_tmp new t.task_mmap })

/-- Allocates a VMA and inserts it (`create_vma`).  `kmalloc` is taken to succeed and to
hand out the next two heap cells, one for the VMA and one for its reverse map, whose list is
initialised and gets the VMA linked on it. -/
def create_vma (t : task) (name addr size flags : Nat) : Option Nat × task :=
  let id := t.next_vma
  let cell : vma :=
    { vm_name := name, vm_base := ROUNDDOWN addr, vm_end := ROUNDUP ((addr + size) % WORD),
      vm_flags := flags, vm_src := 0, vm_len := 0, rmap := id + 1 }
  let t1 : task :=
    { t with vmas := fun i => if i = id then cell else t.vmas i, next_vma := id + 2,
             rmap_vmas := fun r => if r = id + 1 then [id] else t.rmap_vmas r }
  match insert_vma t1 id with
  | (ret, t2) => if ret < 0 then (none, t2) else (some id, t2)

/-- Describes the VMA or the free gap at `addr` (`find_free_vma`).  `vm_mapped` and
`vm_name`, which `add_vma` does not read, are left out. -/
def find_free_vma (t : task) (addr : Nat) : Int × vma_info :=
  let clear : vma_info := { vm_base := 0, vm_end := 0, vm_type := 0, vm_prot := 0 }
  if addr ≥ USER_LIM then (-1, clear)
  else
    match find_vma t addr with
    | none =>
      match t.task_mmap.getLast? with
      | none => (0, { clear with vm_end := USER_LIM })
      | some last => (0, { clear with vm_end := USER_LIM, vm_base := (t.vmas last).vm_end })
    | some v =>
      if addr < (t.vmas v).vm_base then
        match list_prev t.task_mmap v with
        | none => (0, { clear with vm_end := (t.vmas v).vm_base })
        | some prev =>
          (0, { clear with vm_end := (t.vmas v).vm_base, vm_base := (t.vmas prev).vm_end })
      else
        (0, { vm_base := (t.vmas v).vm_base, vm_end := (t.vmas v).vm_end,
              vm_prot := (t.vmas v).vm_flags,
              vm_type := if (t.vmas v).vm_src ≠ 0 then VMA_EXECUTABLE else VMA_ANONYMOUS })

/-- One of the two scanning loops of `add_vma`, one iteration per unit of fuel; `guard`
tells whether the loop is the first one, whose condition is `p > 0` (the condition
`p >= 0` of the second one holds for every pointer).  Outer `none`: the fuel ran out;
`some none`: the loop was left without a `return`; `some (some r)`: `add_vma` returned `r`.
-/
def add_vma_loop (guard : Bool) (name size flags : Nat) :
    Nat → task → Nat → Option (Option (Option Nat × task))
  | 0, _, _ => none
  | fuel + 1, t, p =>
    if guard && decide (p = 0) then some none
    else
      match find_free_vma t p with
      | (ret, info) =>
        if ret < 0 then some none
        else if info.vm_type = VMA_FREE then some (some (create_vma t name p size flags))
        else add_vma_loop guard name size flags fuel t ((info.vm_base + WORD - 1) % WORD)

/-- Adds a VMA at `addr` or in a free gap (`add_vma`); `addr = 0` is `NULL`.  Every
iteration that does not leave a loop moves `p` below the VMA it was in, so one iteration per
VMA and two more are enough.  `none`: the fuel ran out. -/
def add_vma (t : task) (name addr size flags : Nat) : Option (Option Nat × task) :=
  let addr := if addr = 0 then USER_LIM else addr
  match add_vma_loop true name size flags (t.task_mmap.length + 2) t addr with
  | none => none
  | some (some r) => some r
  | some none =>
    let p := ROUNDDOWN ((USER_LIM + WORD - size % WORD + WORD - 1) % WORD)
    match add_vma_loop false name size flags (t.task_mmap.length + 2) t p with
    | none => none
    | some (some r) => some r
    | some none => some (none, t)

/-- Modelled from the spec: `rb_remove` is not part of the sources at hand; it unlinks the
node of the VMA from the tree and keeps the order of the others.  The right subtree of a
removed inner node is hung below the last node of its left subtree. -/
def rb_node.graft : rb_node → rb_node → rb_node
  | rb_node.nil, r => r
  | rb_node.node l v m, r => rb_node.node l v (rb_node.graft m r)

/-- Modelled from the spec: `rb_remove`, see `rb_node.graft`. -/
def rb_remove : rb_node → Nat → rb_node
  | rb_node.nil, _ => rb_node.nil
  | rb_node.node l v r, x =>
    if v = x then rb_node.graft (rb_remove l x) (rb_remove r x)
    else rb_node.node (rb_remove l x) v (rb_remove r x)

/-- Removes a VMA from the tree and the list of its task (`remove_vma`); the task and the
VMA are not `NULL`. -/
def remove_vma (t : task) (v : Nat) : task :=
  { t with task_rb := rb_remove t.task_rb v,
           task_mmap := t.task_mmap.filter (fun x => x != v) }

/-- Merges `rhs` into `lhs` when they are compatible neighbours (`merge_vma`). -/
def merge_vma (t : task) (lhs rhs : Nat) : Option Nat × task :=
  if !(decide ((t.vmas lhs).vm_flags = (t.vmas rhs).vm_flags)
        && decide ((t.vmas lhs).vm_end = (t.vmas rhs).vm_base)
        && decide ((t.vmas lhs).vm_name = (t.vmas rhs).vm_name)) then (none, t)
  else
    let end_ := (t.vmas rhs).vm_end
    let t1 : task :=
      { t with vmas := fun i => if i = lhs then { t.vmas i with vm_end := end_ }
                                else t.vmas i }
    (some lhs, remove_vma t1 rhs)

/-! ## Page tables -/

/-- Modelled from the spec: the entry flags of the x86-64 page tables (their header is not
part of the sources at hand). -/
def PAGE_PRESENT : Nat := 0x1

/-- Modelled from the spec: writable. -/
def PAGE_WRITE : Nat := 0x2

/-- Modelled from the spec: accessible from user mode. -/
def PAGE_USER : Nat := 0x4

/-- Modelled from the spec: accessed. -/
def PAGE_ACCESSED : Nat := 0x20

/-- Modelled from the spec: dirty. -/
def PAGE_DIRTY : Nat := 0x40

/-- Modelled from the spec: huge page. -/
def PAGE_HUGE : Nat := 0x80

/-- Modelled from the spec: no-execute, the top bit of an entry. -/
def PAGE_NO_EXEC : Nat := 0x8000000000000000

/-- Modelled from the spec: `PAGE_ADDR` keeps the frame-address field of an entry, bits 12
to 51, and drops the flags on both sides of it. -/
def PAGE_ADDR (x : Nat) : Nat := x &&& 0x000FFFFFFFFFF000

/-- Modelled from the spec: index of an address in the page table. -/
def PAGE_TABLE_INDEX (addr : Nat) : Nat := addr / 0x1000 % 512

/-- Modelled from the spec: index of an address in the page directory. -/
def PAGE_DIR_INDEX (addr : Nat) : Nat := addr / 0x200000 % 512

/-- Modelled from the spec: index of an address in the PDPT. -/
def PDPT_INDEX (addr : Nat) : Nat := addr / 0x40000000 % 512

/-- Modelled from the spec: index of an address in the PML4. -/
def PML4_INDEX (addr : Nat) : Nat := addr / 0x8000000000 % 512

/-- Modelled from the spec: bytes mapped by one page table. -/
def PAGE_TABLE_SPAN : Nat := 0x200000

/-- Modelled from the spec: bytes mapped by one page directory. -/
def PAGE_DIR_SPAN : Nat := 0x40000000

/-- Modelled from the spec: bytes mapped by one PDPT. -/
def PDPT_SPAN : Nat := 0x8000000000

/-- Sign extension of a 48-bit address (`sign_extend`). -/
def sign_extend (addr : Nat) : Nat :=
  if addr < USER_LIM then addr else (0xffff000000000000 ||| addr)

/-- Last byte of the page of `addr` (`ptbl_end`). -/
def ptbl_end (addr : Nat) : Nat := addr ||| (PAGE_SIZE - 1)

/-- Last byte of the page-table span of `addr` (`pdir_end`). -/
def pdir_end (addr : Nat) : Nat := addr ||| (PAGE_TABLE_SPAN - 1)

/-- Last byte of the page-directory span of `addr` (`pdpt_end`). -/
def pdpt_end (addr : Nat) : Nat := addr ||| (PAGE_DIR_SPAN - 1)

/-- Last byte of the PDPT span of `addr` (`pml4_end`). -/
def pml4_end (addr : Nat) : Nat := addr ||| (PDPT_SPAN - 1)

/-- Frame of the table an entry points to: `KADDR(PAGE_ADDR(entry))` as a frame number. -/
def entry_table (e : Nat) : Nat := PAGE_ADDR e / PAGE_SIZE

/-- Store to the entry `idx` of the table in frame `tbl`. -/
def set_entry (s : kstate) (tbl idx v : Nat) : kstate :=
  { s with mem := fun f i => if f = tbl ∧ i = idx then v else s.mem f i }

/-- Result of a callback or of a walk: `none` is a panic, otherwise the C return value, the
user data of the walker and the state. -/
abbrev walk_result (υ : Type) := Option (Int × υ × kstate)

/-- An entry callback: table frame and index of the entry, `base`, `end`, user data,
state. -/
abbrev pt_callback (υ : Type) := Nat → Nat → Nat → Nat → υ → kstate → walk_result υ

/-- The hole callback: `base`, `end`, user data, state. -/
abbrev hole_callback (υ : Type) := Nat → Nat → υ → kstate → walk_result υ

/-- The callbacks of `struct page_walker`; `udata` is threaded through the walk. -/
structure page_walker (υ : Type) where
  pte_callback : Option (pt_callback υ) := none
  pde_callback : Option (pt_callback υ) := none
  pdpte_callback : Option (pt_callback υ) := none
  pml4e_callback : Option (pt_callback υ) := none
  pt_hole_callback : Option (hole_callback υ) := none
  pte_unmap : Option (pt_callback υ) := none
  pde_unmap : Option (pt_callback υ) := none
  pdpte_unmap : Option (pt_callback υ) := none
  pml4e_unmap : Option (pt_callback υ) := none

/-- Calls an entry callback if the walker has it: `if (cb) { ret = cb(...); }`. -/
def call_cb {υ : Type} (cb : Option (pt_callback υ)) (tbl idx base end_ : Nat) (u : υ)
    (s : kstate) : walk_result υ :=
  match cb with
  | none => some (0, u, s)
  | some f => f tbl idx base end_ u s

/-- Calls the hole callback if the walker has it. -/
def call_hole {υ : Type} (cb : Option (hole_callback υ)) (base end_ : Nat) (u : υ)
    (s : kstate) : walk_result υ :=
  match cb with
  | none => some (0, u, s)
  | some f => f base end_ u s

/-- The control flow `ret = ...; if (ret < 0) return ret;` followed by the rest. -/
def and_then {υ : Type} (r : walk_result υ) (rest : υ → kstate → walk_result υ) :
    walk_result υ :=
  match r with
  | none => none
  | some (ret, u, s) => if ret < 0 then some (ret, u, s) else rest u s

/-- Upper bound on the iterations of one walking loop: a table has 512 entries. -/
def WALK_FUEL : Nat := 513

/-- The loop of `ptbl_walk_range` from the state `(addr, next)` of its variables. -/
def ptbl_walk_loop {υ : Type} (w : page_walker υ) (ptbl end_ : Nat) :
    Nat → Nat → Nat → υ → kstate → walk_result υ
  | 0, _, _, _, _ => none
  | fuel + 1, addr, next, u, s =>
    if ¬ next < end_ then some (0, u, s)
    else
      let next1 := sign_extend ((ptbl_end addr + 1) % WORD)
      let next2 := if next1 > end_ ∨ next1 < addr then end_ else next1
      let idx := PAGE_TABLE_INDEX addr
      and_then (call_cb w.pte_callback ptbl idx addr (next2 - 1) u s) fun u1 s1 =>
      and_then
        (if s1.mem ptbl idx &&& PAGE_PRESENT ≠ 0 then
          call_cb w.pte_unmap ptbl idx addr (next2 - 1) u1 s1
        else call_hole w.pt_hole_callback addr (next2 - 1) u1 s1) fun u2 s2 =>
      ptbl_walk_loop w ptbl end_ fuel next2 next2 u2 s2

/-- Walks the entries of a page table (`ptbl_walk_range`). -/
def ptbl_walk_range {υ : Type} (w : page_walker υ) (ptbl base end_ : Nat) (u : υ)
    (s : kstate) : walk_result υ :=
  ptbl_walk_loop w ptbl end_ WALK_FUEL (sign_extend base) base u s

/-- The loop of `pdir_walk_range`. -/
def pdir_walk_loop {υ : Type} (w : page_walker υ) (pdir end_ : Nat) :
    Nat → Nat → Nat → υ → kstate → walk_result υ
  | 0, _, _, _, _ => none
  | fuel + 1, addr, next, u, s =>
    if ¬ next < end_ then some (0, u, s)
    else
      let next1 := sign_extend ((pdir_end addr + 1) % WORD)
      let next2 := if next1 > end_ ∨ next1 < addr then end_ else next1
      let idx := PAGE_DIR_INDEX addr
      and_then (call_cb w.pde_callback pdir idx addr (next2 - 1) u s) fun u1 s1 =>
      and_then
        (if s1.mem pdir idx &&& PAGE_PRESENT ≠ 0 then
          (if ¬ (s1.mem pdir idx &&& PAGE_HUGE ≠ 0) then
            and_then
              (ptbl_walk_range w (entry_table (s1.mem pdir idx)) addr (next2 - 1) u1 s1)
              fun u2 s2 => call_cb w.pde_unmap pdir idx addr (next2 - 1) u2 s2
          else some (0, u1, s1))
        else call_hole w.pt_hole_callback addr (next2 - 1) u1 s1) fun u3 s3 =>
      pdir_walk_loop w pdir end_ fuel next2 next2 u3 s3

/-- Walks the entries of a page directory (`pdir_walk_range`). -/
def pdir_walk_range {υ : Type} (w : page_walker υ) (pdir base end_ : Nat) (u : υ)
    (s : kstate) : walk_result υ :=
  pdir_walk_loop w pdir end_ WALK_FUEL (sign_extend base) base u s

/-- The loop of `pdpt_walk_range`. -/
def pdpt_walk_loop {υ : Type} (w : page_walker υ) (pdpt end_ : Nat) :
    Nat → Nat → Nat → υ → kstate → walk_result υ
  | 0, _, _, _, _ => none
  | fuel + 1, addr, next, u, s =>
    if ¬ next < end_ then some (0, u, s)
    else
      let next1 := sign_extend ((pdpt_end addr + 1) % WORD)
      let next2 := if next1 > end_ ∨ next1 < addr then end_ else next1
      let idx := PDPT_INDEX addr
      and_then (call_cb w.pdpte_callback pdpt idx addr (next2 - 1) u s) fun u1 s1 =>
      and_then
        (if s1.mem pdpt idx &&& PAGE_PRESENT ≠ 0 then
          (if ¬ (s1.mem pdpt idx &&& PAGE_HUGE ≠ 0) then
            and_then
              (pdir_walk_range w (entry_table (s1.mem pdpt idx)) addr (next2 - 1) u1 s1)
              fun u2 s2 => call_cb w.pdpte_unmap pdpt idx addr (next2 - 1) u2 s2
          else some (0, u1, s1))
        else call_hole w.pt_hole_callback addr (next2 - 1) u1 s1) fun u3 s3 =>
      pdpt_walk_loop w pdpt end_ fuel next2 next2 u3 s3

/-- Walks the entries of a PDPT (`pdpt_walk_range`). -/
def pdpt_walk_range {υ : Type} (w : page_walker υ) (pdpt base end_ : Nat) (u : υ)
    (s : kstate) : walk_result υ :=
  pdpt_walk_loop w pdpt end_ WALK_FUEL (sign_extend base) base u s

/-- The loop of `pml4_walk_range`. -/
def pml4_walk_loop {υ : Type} (w : page_walker υ) (pml4 end_ : Nat) :
    Nat → Nat → Nat → υ → kstate → walk_result υ
  | 0, _, _, _, _ => none
  | fuel + 1, addr, next, u, s =>
    if ¬ next < end_ then some (0, u, s)
    else
      let next1 := sign_extend ((pml4_end addr + 1) % WORD)
      let next2 := if next1 > end_ ∨ next1 < addr then end_ else next1
      let idx := PML4_INDEX addr
      and_then (call_cb w.pml4e_callback pml4 idx addr (next2 - 1) u s) fun u1 s1 =>
      and_then
        (if s1.mem pml4 idx &&& PAGE_PRESENT ≠ 0 then
          and_then
            (pdpt_walk_range w (entry_table (s1.mem pml4 idx)) addr (next2 - 1) u1 s1)
            fun u2 s2 => call_cb w.pml4e_unmap pml4 idx addr (next2 - 1) u2 s2
        else call_hole w.pt_hole_callback addr (next2 - 1) u1 s1) fun u3 s3 =>
      pml4_walk_loop w pml4 end_ fuel next2 next2 u3 s3

/-- Walks the entries of a PML4 (`pml4_walk_range`). -/
def pml4_walk_range {υ : Type} (w : page_walker υ) (pml4 base end_ : Nat) (u : υ)
    (s : kstate) : walk_result υ :=
  pml4_walk_loop w pml4 end_ WALK_FUEL (sign_extend base) base u s

/-- Walks the pages of `[base, end)` (`walk_page_range`). -/
def walk_page_range {υ : Type} (w : page_walker υ) (pml4 base end_ : Nat) (u : υ)
    (s : kstate) : walk_result υ :=
  pml4_walk_range w pml4 (ROUNDDOWN base) ((ROUNDUP end_ + WORD - 1) % WORD) u s

/-- Allocates a page table for a non-present entry (`ptbl_alloc`). -/
def ptbl_alloc {υ : Type} : pt_callback υ := fun tbl idx _ _ u s =>
  if s.mem tbl idx &&& PAGE_PRESENT ≠ 0 then some (0, u, s)
  else
    match page_alloc s ALLOC_ZERO with
    | none => none
    | some (none, s1) => some (-1, u, s1)
    | some (some page, s1) =>
      let s2 := set_page s1 page (fun p => { p with pp_ref := (p.pp_ref + 1) % 65536 })
      let s3 := set_entry s2 tbl idx 0
      let s4 := set_entry s3 tbl idx (page2pa page)
      let s5 := set_entry s4 tbl idx
        (s4.mem tbl idx ||| (PAGE_PRESENT ||| PAGE_WRITE ||| PAGE_USER))
      some (0, u, s5)

/-- Frees a page table none of whose entries is present (`ptbl_free`). -/
def ptbl_free {υ : Type} : pt_callback υ := fun tbl idx _ _ u s =>
  if ¬ (s.mem tbl idx &&& PAGE_PRESENT ≠ 0) then some (0, u, s)
  else
    let pt := entry_table (s.mem tbl idx)
    if (List.range PAGE_TABLE_ENTRIES).any (fun i => s.mem pt i &&& PAGE_PRESENT != 0) then
      some (0, u, s)
    else
      let page := pa2page (PAGE_ADDR (s.mem tbl idx))
      let s1 := set_page s page (fun p => { p with pp_ref := (p.pp_ref + 65535) % 65536 })
      let s2 := set_page s1 page (fun p => { p with pp_free := true })
      let s3 := set_entry s2 tbl idx 0
      match page_free s3 page with
      | none => none
      | some s4 => some (0, u, s4)

/-- The user data of the insertion walker (`struct insert_info`). -/
structure insert_info where
  pml4 : Nat
  page : Nat
  flags : Nat

/-- Installs the frame in the leaf entry (`insert_pte`). -/
def insert_pte : pt_callback insert_info := fun tbl idx base _ info s =>
  let page := info.page
  let r1 : Option kstate :=
    if s.mem tbl idx &&& PAGE_PRESENT ≠ 0 then
      page_decref s (pa2page (PAGE_ADDR (s.mem tbl idx)))
    else some s
  match r1 with
  | none => none
  | some s1 =>
    let r2 : Option kstate :=
      if info.flags &&& PAGE_USER ≠ 0 then
        match s1.cur_task with
        | none => none
        | some t =>
          if ¬ base < USER_LIM then none
          else
            match task_find_vma t base with
            | none => none
            | some v =>
              some (add_swap_page
                (set_page s1 page (fun p => { p with rmap := (t.vmas v).rmap })) page)
      else some (set_page s1 page (fun p => { p with rmap := 0 }))
    match r2 with
    | none => none
    | some s2 =>
      let s3 := set_page s2 page (fun p => { p with pp_ref := (p.pp_ref + 1) % 65536 })
      let s4 := set_entry s3 tbl idx 0
      let s5 := set_entry s4 tbl idx (page2pa page)
      let s6 := set_entry s5 tbl idx (s5.mem tbl idx ||| info.flags)
      let s7 := set_entry s6 tbl idx (s6.mem tbl idx ||| PAGE_PRESENT)
      some (0, info, s7)

/-- Makes sure the page directory entry points to a page table (`insert_pde`, built without
`BONUS_LAB2`). -/
def insert_pde : pt_callback insert_info := fun tbl idx base end_ info s =>
  match ptbl_alloc tbl idx base end_ info s with
  | none => none
  | some (_, u, s1) => some (0, u, s1)

/-- Makes sure the PDPT entry points to a page directory (`insert_pdpte`). -/
def insert_pdpte : pt_callback insert_info := fun tbl idx base end_ info s =>
  match ptbl_alloc tbl idx base end_ info s with
  | none => none
  | some (_, u, s1) => some (0, u, s1)

/-- Makes sure the PML4 entry points to a PDPT (`insert_pml4e`). -/
def insert_pml4e : pt_callback insert_info := fun tbl idx base end_ info s =>
  match ptbl_alloc tbl idx base end_ info s with
  | none => none
  | some (_, u, s1) => some (0, u, s1)

/-- Maps the frame `page` at `va` (`page_insert`); returns the C return value and the
state. -/
def page_insert (s : kstate) (pml4 page va flags : Nat) : Option (Int × kstate) :=
  let info : insert_info := { pml4 := pml4, page := page, flags := flags }
  let walker : page_walker insert_info :=
    { pte_callback := some insert_pte, pde_callback := some insert_pde,
      pdpte_callback := some insert_pdpte, pml4e_callback := some insert_pml4e }
  (walk_page_range walker pml4 va ((va + PAGE_SIZE) % WORD) info s).map
    fun r => (r.1, r.2.2)

/-- Records the leaf entry if it is present (`lookup_pte`); the user data is
`struct lookup_info`, the pointer to the entry found. -/
def lookup_pte : pt_callback (Option (Nat × Nat)) := fun tbl idx _ _ info s =>
  if s.mem tbl idx &&& PAGE_PRESENT ≠ 0 then some (0, some (tbl, idx), s)
  else some (0, info, s)

/-- Does nothing (`lookup_pde`). -/
def lookup_pde : pt_callback (Option (Nat × Nat)) := fun _ _ _ _ info s => some (0, info, s)

/-- The part of `page_lookup` that follows the walk: what it returns and stores for the
result of the walk.  `entry_store` is `none` for a `NULL` argument, otherwise the pointer it
points to. -/
def page_lookup_result (s : kstate) (entry_store : Option (Option (Nat × Nat))) :
    walk_result (Option (Nat × Nat)) → Option (Option Nat × Option (Option (Nat × Nat)))
  | none => none
  | some (ret, info, _) =>
    if ret < 0 then some (none, entry_store)
    else
      match info with
      | none => some (none, entry_store)
      | some (tbl, idx) =>
        if entry_store = none ∨ entry_store = some none then
          let pa := sign_extend (PAGE_ADDR (s.mem tbl idx))
          let pa := if pa ≥ KERNEL_VMA then pa - KERNEL_VMA else pa
          some (some (pa2page pa), entry_store)
        else
          let pa := sign_extend (PAGE_ADDR (s.mem tbl idx))
          some (some (pa2page pa), some (some (tbl, idx)))

/-- Looks up the frame mapped at `va` (`page_lookup`).  `entry_store` is `none` for a `NULL`
argument, otherwise the pointer it points to; the result is the frame returned (`none` for
`NULL`) and the pointer `*entry_store` holds afterwards. -/
def page_lookup (s : kstate) (pml4 va : Nat) (entry_store : Option (Option (Nat × Nat))) :
    Option (Option Nat × Option (Option (Nat × Nat))) :=
  let walker : page_walker (Option (Nat × Nat)) :=
    { pte_callback := some lookup_pte, pde_callback := some lookup_pde }
  page_lookup_result s entry_store
    (walk_page_range walker pml4 va ((va + PAGE_SIZE) % WORD) none s)

/-- Removes the mapping of a leaf entry (`remove_pte`); the test of the entry multiplies
where the documentation says it tests the present bit. -/
def remove_pte : pt_callback Nat := fun tbl idx _ _ info s =>
  if ¬ ((s.mem tbl idx * PAGE_PRESENT) % WORD ≠ 0) then some (0, info, s)
  else
    let pa := PAGE_ADDR (s.mem tbl idx)
    let page := pa2page pa
    match page_decref s page with
    | none => none
    | some s1 => some (0, info, set_entry s1 tbl idx 0)

/-- Does nothing (`remove_pde`). -/
def remove_pde : pt_callback Nat := fun _ _ _ _ info s => some (0, info, s)

/-- Unmaps the pages of `[va, va + size)` (`unmap_page_range`); the user data is the `pml4`
of `struct remove_info`. -/
def unmap_page_range (s : kstate) (pml4 va size : Nat) : Option kstate :=
  let walker : page_walker Nat :=
    { pte_callback := some remove_pte, pde_callback := some remove_pde,
      pte_unmap := some ptbl_free, pde_unmap := some ptbl_free,
      pdpte_unmap := some ptbl_free, pml4e_unmap := some ptbl_free }
  (walk_page_range walker pml4 va ((va + size) % WORD) pml4 s).map fun r => r.2.2

/-- Unmaps the page at `va` (`page_remove`). -/
def page_remove (s : kstate) (pml4 va : Nat) : Option kstate :=
  unmap_page_range s pml4 va PAGE_SIZE

/-- The user data of the protection walker (`struct protect_info`). -/
structure protect_info where
  pml4 : Nat
  flags : Nat
  base : Nat
  end_ : Nat

/-- Rewrites the permission bits of a leaf entry (`protect_pte`). -/
def protect_pte : pt_callback protect_info := fun tbl idx _ _ info s =>
  let flags := PAGE_PRESENT ||| PAGE_WRITE ||| PAGE_USER ||| PAGE_NO_EXEC
  if s.mem tbl idx &&& flags ≠ info.flags then
    let s1 := set_entry s tbl idx (s.mem tbl idx &&& (WORD - 1 - flags))
    let s2 := set_entry s1 tbl idx (s1.mem tbl idx ||| info.flags)
    let s3 := set_entry s2 tbl idx (s2.mem tbl idx ||| PAGE_PRESENT)
    some (0, info, s3)
  else some (0, info, s)

/-- Does nothing (`protect_pde`). -/
def protect_pde : pt_callback protect_info := fun _ _ _ _ info s => some (0, info, s)

/-- Changes the protection of `[va, va + size)` (`protect_region`). -/
def protect_region (s : kstate) (pml4 va size flags : Nat) : Option kstate :=
  let info : protect_info :=
    { pml4 := pml4, flags := flags, base := ROUNDDOWN va,
      end_ := (ROUNDUP ((va + size) % WORD) + WORD - 1) % WORD }
  let walker : page_walker protect_info :=
    { pte_callback := some protect_pte, pde_callback := some protect_pde }
  match walk_page_range walker pml4 va ((va + size) % WORD) info s with
  | none => none
  | some (_, _, s1) => some s1

/-! ## Concrete machine states -/

/-- The allocator right after the first loop of `page_init`: every list is empty, every
frame is in use with order 0 and no reference. -/
def boot_state : kstate :=
  { pages := fun _ => ⟨0, false, 0, false, 0⟩, buddy_free_list := fun _ => [],
    zero_list := [], swap_pages := [], mem := fun _ _ => 0, cur_task := none }

/-- Hands the listed frames to the allocator one after the other, as `page_init` does. -/
def free_all : List Nat → kstate → Option kstate
  | [], s => some s
  | p :: ps, s => (page_free s p).bind (free_all ps)

/-- What the allocator records for a frame: reference count, free flag, zeroed flag. -/
def frame_view (s : kstate) (i : Nat) : Nat × Bool × Bool :=
  ((s.pages i).pp_ref, (s.pages i).pp_free, (s.pages i).pp_zero)

/-- Frames 16 to 31 are free; frame 16 is allocated as a root page table, frame 17 as a data
frame, and frame 17 is mapped at 0x1000.  The result: root table, data frame, return value
of `page_insert`, state. -/
def mapped_state : Option (Nat × Nat × Int × kstate) :=
  (free_all ((List.range 16).map (· + 16)) boot_state).bind fun s =>
    match page_alloc s ALLOC_ZERO with
    | some (some pml4, s1) =>
      match page_alloc s1 0 with
      | some (some p, s2) =>
        (page_insert s2 pml4 p 0x1000 PAGE_WRITE).map fun r => (pml4, p, r.1, r.2)
      | _ => none
    | _ => none

/-- The frame of `mapped_state` is inserted a second time at the same address. -/
def reinserted_state : Option (Nat × Nat × Int × kstate) :=
  mapped_state.bind fun (pml4, p, _, s) =>
    (page_insert s pml4 p 0x1000 PAGE_WRITE).map fun r => (pml4, p, r.1, r.2)

/-- On top of `mapped_state` a second frame is allocated and mapped at 0x2000, and the entry
of 0x1000 is rewritten the way the swap engine rewrites an evicted page: present bit clear,
the disk address in the frame-address field.  The disk address is the one whose number
equals the physical address of the second frame.  The result: root table, second frame,
state. -/
def swapped_state : Option (Nat × Nat × kstate) :=
  mapped_state.bind fun (pml4, _, _, s) =>
    match page_alloc s 0 with
    | some (some q, s1) =>
      match page_insert s1 pml4 q 0x2000 PAGE_WRITE with
      | some (_, s2) =>
        match page_lookup s2 pml4 0x1000 (some (some (0, 0))) with
        | some (_, some (some (tbl, idx))) =>
          some (pml4, q, set_entry s2 tbl idx (page2pa q ||| PAGE_WRITE))
        | _ => none
      | none => none
    | _ => none

/-- The page at 0x1000 of `swapped_state`, which is swapped out, is removed. -/
def swapped_removed_state : Option (Nat × Nat × kstate) :=
  swapped_state.bind fun (pml4, q, s) => (page_remove s pml4 0x1000).map fun s1 => (pml4, q, s1)

/-- The protection of the unmapped page at 0x2000 of `mapped_state` is changed. -/
def protected_state : Option (Nat × kstate) :=
  mapped_state.bind fun (pml4, _, _, s) =>
    (protect_region s pml4 0x2000 PAGE_SIZE (PAGE_PRESENT ||| PAGE_WRITE ||| PAGE_USER)).map
      fun s1 => (pml4, s1)

/-- A task without VMAs. -/
def empty_task : task :=
  { vmas := fun _ => ⟨0, 0, 0, 0, 0, 0, 0⟩, task_rb := rb_node.nil, task_mmap := [],
    next_vma := 1, task_pml4 := 0 }

/-- The VMAs of a task in list order: identity, base, end. -/
def task_view (t : task) : List (Nat × Nat × Nat) :=
  t.task_mmap.map fun v => (v, (t.vmas v).vm_base, (t.vmas v).vm_end)

/-- A first `add_vma(task, name, NULL, PAGE_SIZE, flags)` on the empty task. -/
def first_mmap : Option (Option Nat × task) := add_vma empty_task 7 0 PAGE_SIZE 3

/-- A second `add_vma(task, name, NULL, PAGE_SIZE, flags)` right after the first. -/
def second_mmap : Option (Option Nat × task) :=
  first_mmap.bind fun r => add_vma r.2 7 0 PAGE_SIZE 3


/-! ## Predicates on the VMAs of a task -/

/-- Two VMAs overlap, by the test of `insert_vma`: each begins before the other ends. -/
def vma_overlap (a b : vma) : Prop := a.vm_base < b.vm_end ∧ b.vm_base < a.vm_end

instance (a b : vma) : Decidable (vma_overlap a b) := by
  unfold vma_overlap; infer_instance

/-- The tree of the task is ordered by base: the bases grow along the in-order sequence. -/
def tree_ordered (t : task) : Prop :=
  t.task_rb.inorder.Pairwise (fun a b => (t.vmas a).vm_base < (t.vmas b).vm_base)

/-- The VMAs of the task are ranges (no end below its base), and no two of them overlap. -/
def vmas_disjoint (t : task) : Prop :=
  (∀ a ∈ t.task_rb.inorder, (t.vmas a).vm_base ≤ (t.vmas a).vm_end) ∧
  ∀ a ∈ t.task_rb.inorder, ∀ b ∈ t.task_rb.inorder, a ≠ b →
    ¬ vma_overlap (t.vmas a) (t.vmas b)

/-- A task with the two VMAs [0x1000, 0x3000) and [0x3000, 0x4000), same flags and name,
and a third VMA [0x8000, 0x9000) with other flags. -/
def three_vma_task : task :=
  { vmas := fun i =>
      if i = 1 then ⟨7, 0x1000, 0x3000, 3, 0, 0, 2⟩
      else if i = 3 then ⟨7, 0x3000, 0x4000, 3, 0, 0, 4⟩
      else if i = 5 then ⟨7, 0x8000, 0x9000, 1, 0, 0, 6⟩
      else ⟨0, 0, 0, 0, 0, 0, 0⟩,
    task_rb := rb_node.node (rb_node.node rb_node.nil 1 rb_node.nil) 3
      (rb_node.node rb_node.nil 5 rb_node.nil),
    task_mmap := [1, 3, 5], next_vma := 7, task_pml4 := 0 }

/-- The list of the task lists its VMAs in the order of the tree. -/
def list_matches_tree (t : task) : Prop := t.task_mmap = t.task_rb.inorder

/-- The cell 9 of `three_vma_task` set to the range [0x5000, 0x6000), which is free. -/
def task_with_free_cell : task :=
  { three_vma_task with
    vmas := fun i => if i = 9 then ⟨7, 0x5000, 0x6000, 3, 0, 0, 10⟩ else three_vma_task.vmas i }

/-- The cell 9 of `three_vma_task` set to the range [0x2000, 0x3800), which intersects two
VMAs. -/
def task_with_taken_cell : task :=
  { three_vma_task with
    vmas := fun i => if i = 9 then ⟨7, 0x2000, 0x3800, 3, 0, 0, 10⟩ else three_vma_task.vmas i }

/-! ## The invariant of the buddy allocator -/

/-- The frame `p` lies in the block of order `k` that starts at frame `q`. -/
def in_block (q k p : Nat) : Prop := q ≤ p ∧ p < q + 2 ^ k

/-- The frame lies in a block that is on a free list. -/
def covered (s : kstate) (p : Nat) : Prop :=
  ∃ k q, q ∈ s.buddy_free_list k ∧ in_block q k p

/-- The buddy of the block of order `k` at frame `q`, as `buddy_merge` computes it. -/
def buddy_of (q k : Nat) : Nat := if q % (2 ^ k * 2) = 0 then q + 2 ^ k else q - 2 ^ k

/-- What holds of the free lists in every state, also in the middle of a split or a merge:
the lists hold blocks of their order below `BUDDY_MAX_ORDER`, flagged free, aligned, without
repetition and without a common frame. -/
structure core_inv (s : kstate) : Prop where
  ord : ∀ k q, q ∈ s.buddy_free_list k → k < BUDDY_MAX_ORDER
  free : ∀ k q, q ∈ s.buddy_free_list k →
    (s.pages q).pp_free = true ∧ (s.pages q).pp_order = k
  align : ∀ k q, q ∈ s.buddy_free_list k → 2 ^ k ∣ q
  nodup : ∀ k, (s.buddy_free_list k).Nodup
  disj : ∀ k1 q1 k2 q2 p, q1 ∈ s.buddy_free_list k1 → q2 ∈ s.buddy_free_list k2 →
    in_block q1 k1 p → in_block q2 k2 p → q1 = q2

/-- The invariant of the allocator between two calls: on top of `core_inv`, a frame flagged
free heads a block of its list, no two buddies below the top order are both free, and a
frame outside every free block has order 0. -/
structure buddy_inv (s : kstate) extends core_inv s : Prop where
  onlist : ∀ q, (s.pages q).pp_free = true → q ∈ s.buddy_free_list (s.pages q).pp_order
  nobuddy : ∀ k q, k + 1 < BUDDY_MAX_ORDER → q ∈ s.buddy_free_list k →
    buddy_of q k ∉ s.buddy_free_list k
  used : ∀ p, ¬ covered s p → (s.pages p).pp_order = 0

/-- The invariant in the middle of a split or a merge of the block of order `k` at frame
`x`: the block is flagged free and aligned, shares no frame with the listed blocks, may be on
its list or not, and may have a free buddy. -/
structure hole_inv (s : kstate) (x k : Nat) extends core_inv s : Prop where
  xfree : (s.pages x).pp_free = true
  xord : (s.pages x).pp_order = k
  xk : k < BUDDY_MAX_ORDER
  xalign : 2 ^ k ∣ x
  xdisj : ∀ k' q p, q ∈ s.buddy_free_list k' → q ≠ x → in_block q k' p → ¬ in_block x k p
  onlist : ∀ q, q ≠ x → (s.pages q).pp_free = true →
    q ∈ s.buddy_free_list (s.pages q).pp_order
  nobuddy : ∀ k' q, k' + 1 < BUDDY_MAX_ORDER → q ∈ s.buddy_free_list k' → q ≠ x →
    buddy_of q k' ≠ x → buddy_of q k' ∉ s.buddy_free_list k'
  used : ∀ p, ¬ covered s p → ¬ in_block x k p → (s.pages p).pp_order = 0

/-- A state as `page_init` leaves it before it hands the frames to the allocator: the free
lists are empty and every frame is in use, with order 0 and no reference. -/
def boot_like (s : kstate) : Prop :=
  (∀ k, s.buddy_free_list k = []) ∧
  ∀ p, (s.pages p).pp_free = false ∧ (s.pages p).pp_order = 0 ∧ (s.pages p).pp_ref = 0

/-- The states the allocator reaches from initialisation by `page_alloc` and by `page_free`
of a frame that is in use (a frame that lies in no free block). -/
inductive reachable : kstate → Prop
  | boot (s : kstate) : boot_like s → reachable s
  | alloc (s s' : kstate) (flags p : Nat) :
      reachable s → page_alloc s flags = some (some p, s') → reachable s'
  | free (s s' : kstate) (p : Nat) :
      reachable s → ¬ covered s p → page_free s p = some s' → reachable s'

/-- The state after one unfolding of `buddy_split` that splits. -/
def split_step (s : kstate) (lhs : Nat) : kstate :=
  let block_size := 2 ^ (s.pages lhs).pp_order
  let page_index := page2pa lhs / PAGE_SIZE
  let buddy_index := page_index + block_size / 2
  let s1 := list_del_pp s lhs
  let s2 := set_page s1 lhs (fun p => { p with pp_order := p.pp_order - 1 })
  let s3 := set_page s2 buddy_index (fun p => { p with pp_order := (s2.pages lhs).pp_order })
  let s4 := set_page s3 buddy_index (fun p => { p with pp_free := true })
  let s5 := list_add_pp s4 (s4.pages lhs).pp_order lhs
  list_add_pp s5 (s5.pages lhs).pp_order buddy_index

/-- The buddy `buddy_merge` looks at. -/
def merge_buddy (s : kstate) (page : Nat) : Nat :=
  let block_size := 2 ^ (s.pages page).pp_order
  let page_index := page2pa page / PAGE_SIZE
  if page_index % (block_size * 2) = 0 then page_index + block_size
  else page_index - block_size

/-- The left one of the two blocks `buddy_merge` merges. -/
def merge_lhs (s : kstate) (page : Nat) : Nat :=
  let block_size := 2 ^ (s.pages page).pp_order
  let page_index := page2pa page / PAGE_SIZE
  if page_index % (block_size * 2) = 0 then page else merge_buddy s page

/-- The state after one unfolding of `buddy_merge` that merges, before the recursive
call. -/
def merge_step (s : kstate) (page : Nat) : kstate :=
  let buddy := merge_buddy s page
  let lhs := merge_lhs s page
  let s1 := list_del_pp s buddy
  let s2 := list_del_pp s1 page
  let s3 := if buddy = lhs then set_page s2 page (fun p => { p with pp_free := false })
            else set_page s2 buddy (fun p => { p with pp_free := false })
  let s4 := set_page s3 lhs (fun p => { p with pp_order := p.pp_order + 1 })
  list_add_pp s4 (s4.pages lhs).pp_order lhs

/-- Frames 2 and 3 handed to the allocator on the boot state: one free block of order 1. -/
def two_frames_state : kstate := (free_all [2, 3] boot_state).getD boot_state

/-- What the list operations of the allocator leave alone: memory, the zero list, the swap
list, the current task, and the reference count, zeroed flag and reverse map of every
frame. -/
def buddy_frame (s s' : kstate) : Prop :=
  s'.mem = s.mem ∧ s'.zero_list = s.zero_list ∧ s'.swap_pages = s.swap_pages ∧
  s'.cur_task = s.cur_task ∧
  ∀ p, (s'.pages p).pp_ref = (s.pages p).pp_ref ∧ (s'.pages p).pp_zero = (s.pages p).pp_zero ∧
    (s'.pages p).rmap = (s.pages p).rmap

/-- Frame 2 handed to the allocator on the boot state. -/
def one_frame_state : kstate := (page_free boot_state 2).getD boot_state

/-- Frames 2 and 4 handed to the allocator on the boot state: two free blocks of order 0. -/
def two_free_state : kstate := (page_free one_frame_state 4).getD boot_state

/-- Frames 2, 4 and 6 handed to the allocator on the boot state: three free blocks of order
0, none the buddy of another. -/
def three_free_state : kstate := (page_free two_free_state 6).getD boot_state

/-- On `three_free_state`, with frame 1 as the root table, frame 8 is mapped writable at
0x1000: the result of `page_insert`. -/
def inserted : Option (Int × kstate) := page_insert three_free_state 1 8 0x1000 PAGE_WRITE

/-- The state `page_insert` leaves in `inserted`. -/
def inserted_state : kstate := (inserted.map (fun r => r.2)).getD boot_state

/-! ## Well-formed page tables -/

/-- The zeroed flag of a free frame tells the truth: a free frame flagged zeroed holds only
zero words. -/
def zero_ok (s : kstate) : Prop :=
  ∀ f, covered s f → (s.pages f).pp_zero = true → ∀ i, s.mem f i = 0

/-- Every free frame lies below the limit of the physical addresses the page tables can
name and `page_lookup` can return. -/
def free_bound (s : kstate) : Prop := ∀ f, covered s f → page2pa f < USER_LIM

/-- A canonical page-aligned address. -/
def canonical (va : Nat) : Prop :=
  va % PAGE_SIZE = 0 ∧ (va < USER_LIM ∨ (KERNEL_VMA ≤ va ∧ va < WORD))

/-- The PDPT the entry of `va` in the root table points to. -/
def pdpt_of (s : kstate) (pml4 va : Nat) : Nat := entry_table (s.mem pml4 (PML4_INDEX va))

/-- The page directory the entry of `va` in that PDPT points to. -/
def pdir_of (s : kstate) (pml4 va : Nat) : Nat :=
  entry_table (s.mem (pdpt_of s pml4 va) (PDPT_INDEX va))

/-- The page table the entry of `va` in that page directory points to. -/
def ptbl_of (s : kstate) (pml4 va : Nat) : Nat :=
  entry_table (s.mem (pdir_of s pml4 va) (PAGE_DIR_INDEX va))

/-- The tables on the path of `va` through the page table rooted at `pml4` are well formed:
the tables that exist are frames in use, different from each other, and no entry on the path
maps a huge page. -/
def path_ok (s : kstate) (pml4 va : Nat) : Prop :=
  ¬ covered s pml4 ∧
  (s.mem pml4 (PML4_INDEX va) &&& PAGE_PRESENT ≠ 0 →
    ¬ covered s (pdpt_of s pml4 va) ∧ pdpt_of s pml4 va ≠ pml4 ∧
    (s.mem (pdpt_of s pml4 va) (PDPT_INDEX va) &&& PAGE_PRESENT ≠ 0 →
      s.mem (pdpt_of s pml4 va) (PDPT_INDEX va) &&& PAGE_HUGE = 0 ∧
      ¬ covered s (pdir_of s pml4 va) ∧ pdir_of s pml4 va ≠ pml4 ∧
      pdir_of s pml4 va ≠ pdpt_of s pml4 va ∧
      (s.mem (pdir_of s pml4 va) (PAGE_DIR_INDEX va) &&& PAGE_PRESENT ≠ 0 →
        s.mem (pdir_of s pml4 va) (PAGE_DIR_INDEX va) &&& PAGE_HUGE = 0 ∧
        ¬ covered s (ptbl_of s pml4 va) ∧ ptbl_of s pml4 va ≠ pml4 ∧
        ptbl_of s pml4 va ≠ pdpt_of s pml4 va ∧ ptbl_of s pml4 va ≠ pdir_of s pml4 va)))

/-! ## Splitting VMAs, merging with the neighbours -/

/-- Modelled from the spec: the protection flags of a VMA (their header is not part of the
sources at hand); `sys_mmap` passes `prot` on as VMA flags, so `PROT_*` are the same bits. -/
def VM_READ : Nat := 1

/-- Modelled from the spec: the VMA may be written. -/
def VM_WRITE : Nat := 2

/-- Modelled from the spec: the VMA may be executed. -/
def VM_EXEC : Nat := 4

/-- Splits the VMA `lhs` at `addr` (`split_vma`): the VMA is cut back to `addr` and
`add_vma` adds a VMA for the rest.  `none`: `add_vma` ran out of fuel; otherwise the pointer
returned (`none` for `NULL`) and the task. -/
def split_vma (t : task) (lhs addr : Nat) : Option (Option Nat × task) :=
  let size := ((t.vmas lhs).vm_end + WORD - addr) % WORD
  if (t.vmas lhs).vm_base = addr then some (some lhs, t)
  else if (t.vmas lhs).vm_end = addr then some (none, t)
  else
    let t1 : task :=
      { t with vmas := fun i => if i = lhs then { t.vmas i with vm_end := addr }
                                else t.vmas i }
    add_vma t1 (t1.vmas lhs).vm_name addr size (t1.vmas lhs).vm_flags

/-- Splits the VMA at `base` and the right part at `base + size`, and returns the middle
(`split_vmas`). -/
def split_vmas (t : task) (vma base size : Nat) : Option (Option Nat × task) :=
  let rhs_addr := (base + size) % WORD
  match split_vma t vma base with
  | none => none
  | some (none, t1) => some (none, t1)
  | some (some mid, t1) =>
    match split_vma t1 mid rhs_addr with
    | none => none
    | some (_, t2) => some (some mid, t2)

/-- Modelled from the spec: `list_next(head, node)` of list.h, which is not part of the
sources at hand: the node behind `node`, `NULL` when `node` is the last one. -/
def list_next : List Nat → Nat → Option Nat
  | [], _ => none
  | [_], _ => none
  | x :: y :: xs, node => if x = node then some y else list_next (y :: xs) node

/-- Tries to merge the VMA with the one in front of it and then with the one behind it
(`merge_vmas`); returns the VMA that holds the range afterwards. -/
def merge_vmas (t : task) (vma : Nat) : Nat × task :=
  let r1 : Nat × task :=
    match list_prev t.task_mmap vma with
    | none => (vma, t)
    | some prev =>
      match merge_vma t prev vma with
      | (some new_vma, t1) => (new_vma, t1)
      | (none, t1) => (vma, t1)
  match list_next r1.2.task_mmap r1.1 with
  | none => r1
  | some next =>
    match merge_vma r1.2 r1.1 next with
    | (some new_vma, t2) => (new_vma, t2)
    | (none, t2) => (r1.1, t2)

/-- What a task maps: base, end and flags of the VMAs on its list, in list order. -/
def vma_ranges (t : task) : List (Nat × Nat × Nat) :=
  t.task_mmap.map fun v => ((t.vmas v).vm_base, (t.vmas v).vm_end, (t.vmas v).vm_flags)

/-- A task with the one VMA [0x1000, 0x3000), readable and writable. -/
def one_vma_task : task :=
  { vmas := fun i => if i = 1 then ⟨7, 0x1000, 0x3000, 3, 0, 0, 2⟩ else ⟨0, 0, 0, 0, 0, 0, 0⟩,
    task_rb := rb_node.node rb_node.nil 1 rb_node.nil, task_mmap := [1], next_vma := 3,
    task_pml4 := 0 }

/-- The VMA of `one_vma_task` is split at 0x1800, which is no page boundary: the pointer
returned and the ranges the task maps afterwards. -/
def unaligned_split : Option (Option Nat × List (Nat × Nat × Nat)) :=
  (split_vma one_vma_task 1 0x1800).map fun r => (r.1, vma_ranges r.2)

/-! ## Populating a region -/

/-- The user data of the populating walker (`struct populate_info`). -/
structure populate_info where
  flags : Nat
  base : Nat
  end_ : Nat

/-- Backs the page of a leaf entry with a fresh frame (`populate_pte`).  `none`: the
assertion that the entry is not present failed, `page_alloc` failed its assertion, or a user
page lies in no VMA of the current task. -/
def populate_pte : pt_callback populate_info := fun tbl idx base _ info s =>
  if s.mem tbl idx &&& PAGE_PRESENT ≠ 0 then none
  else
    match page_alloc s ALLOC_ZERO with
    | none => none
    | some (none, s1) => some (-1, info, s1)
    | some (some page, s1) =>
      let r2 : Option kstate :=
        if info.flags &&& PAGE_USER ≠ 0 then
          match s1.cur_task with
          | none => none
          | some t =>
            match task_find_vma t base with
            | none => none
            | some v =>
              some (add_swap_page
                (set_page s1 page (fun p => { p with rmap := (t.vmas v).rmap })) page)
        else some (set_page s1 page (fun p => { p with rmap := 0 }))
      match r2 with
      | none => none
      | some s2 =>
        let s3 := set_page s2 page (fun p => { p with pp_ref := (p.pp_ref + 1) % 65536 })
        let s4 := set_entry s3 tbl idx 0
        let s5 := set_entry s4 tbl idx (page2pa page)
        let s6 := set_entry s5 tbl idx (s5.mem tbl idx ||| info.flags)
        let s7 := set_entry s6 tbl idx (s6.mem tbl idx ||| PAGE_PRESENT)
        some (0, info, s7)

/-- Populates `[va, va + size)` with fresh frames (`populate_region`); the return value of
the walk is dropped, as in the source. -/
def populate_region (s : kstate) (pml4 va size flags : Nat) : Option kstate :=
  let info : populate_info :=
    { flags := flags, base := ROUNDDOWN va,
      end_ := (ROUNDUP ((va + size) % WORD) + WORD - 1) % WORD }
  let walker : page_walker populate_info :=
    { pte_callback := some populate_pte, pde_callback := some ptbl_alloc,
      pdpte_callback := some ptbl_alloc, pml4e_callback := some ptbl_alloc }
  (walk_page_range walker pml4 va ((va + size) % WORD) info s).map fun r => r.2.2

/-- Converts VMA flags to the flags of a page-table entry
(`convert_flags_from_vma_to_pages`). -/
def convert_flags_from_vma_to_pages (vma_flags : Nat) : Nat :=
  let f1 := if vma_flags &&& VM_READ ≠ 0 then PAGE_PRESENT else 0
  let f2 := if vma_flags &&& VM_WRITE ≠ 0 then f1 ||| PAGE_WRITE else f1
  if ¬ (vma_flags &&& VM_EXEC ≠ 0) then f2 ||| PAGE_NO_EXEC else f2

/-- Modelled from the spec: the address translation of the processor, which is no part of
the sources: the frame the four tables on the path of `va` lead to, if their entries are
present. -/
def translate (s : kstate) (pml4 va : Nat) : Option Nat :=
  if s.mem pml4 (PML4_INDEX va) &&& PAGE_PRESENT ≠ 0
      ∧ s.mem (pdpt_of s pml4 va) (PDPT_INDEX va) &&& PAGE_PRESENT ≠ 0
      ∧ s.mem (pdir_of s pml4 va) (PAGE_DIR_INDEX va) &&& PAGE_PRESENT ≠ 0
      ∧ s.mem (ptbl_of s pml4 va) (PAGE_TABLE_INDEX va) &&& PAGE_PRESENT ≠ 0 then
    some (entry_table (s.mem (ptbl_of s pml4 va) (PAGE_TABLE_INDEX va)))
  else none

/-- Modelled from the spec: `memset` and `memcpy` are not part of the sources at hand.  On
a user address they store `n` bytes at the virtual address `va` of the address space `pml4`:
byte `j` of the range gets `val j`.  A data frame is indexed by byte.  `none`: a page of the
range is not mapped (a fault in kernel mode). -/
def store_bytes (s : kstate) (pml4 va n : Nat) (val : Nat → Nat) : Option kstate :=
  let pages := (List.range ((va % PAGE_SIZE + n + PAGE_SIZE - 1) / PAGE_SIZE)).map
    fun k => ROUNDDOWN va + k * PAGE_SIZE
  if pages.all (fun p => (translate s pml4 p).isSome) then
    some { s with mem := fun f i =>
      match pages.find? (fun p => translate s pml4 p == some f
          && decide (i < PAGE_SIZE ∧ va ≤ p + i ∧ p + i < va + n)) with
      | some p => val (p + i - va)
      | none => s.mem f i }
  else none

/-- Checks that the access asks for no more than the VMA allows
(`check_vma_permissions`). -/
def check_vma_permissions (v : vma) (vma_flags : Nat) : Int :=
  if (vma_flags &&& VM_READ) > (v.vm_flags &&& VM_READ)
      ∨ (vma_flags &&& VM_WRITE) > (v.vm_flags &&& VM_WRITE)
      ∨ (vma_flags &&& VM_EXEC) > (v.vm_flags &&& VM_EXEC) then -1
  else 0

/-- Populates the part of `[base, base + size)` that lies in the VMA and, for a VMA backed
by an executable, copies the source in (`do_populate_vma`).  `image` are the bytes of kernel
memory that `vm_src` points into.  The struct that `task` points to is passed in and
returned next to the state. -/
def do_populate_vma (image : Nat → Nat) (s : kstate) (t : task) (base size vma udata : Nat) :
    Option (Int × kstate × task) :=
  let v := t.vmas vma
  if check_vma_permissions v udata < 0 then some (-1, s, t)
  else
    let end_ := (base + size) % WORD
    let p_base := if base > v.vm_base then base else v.vm_base
    let p_end := if end_ < v.vm_end then end_ else v.vm_end
    let p_size := (p_end + WORD - p_base) % WORD
    let offset := (p_base + WORD - v.vm_base) % WORD
    let src := (v.vm_src + offset) % WORD
    let len := if (v.vm_len + WORD - offset) % WORD < PAGE_SIZE
               then (v.vm_len + WORD - offset) % WORD else PAGE_SIZE
    if v.vm_src ≠ 0 then
      if v.vm_len = 0 then none
      else
        ((((populate_region s t.task_pml4 p_base p_size
              (PAGE_PRESENT ||| PAGE_WRITE ||| PAGE_USER)).bind
            fun s1 => store_bytes s1 t.task_pml4 p_base p_size (fun _ => 0)).bind
          fun s2 => store_bytes s2 t.task_pml4 p_base len (fun j => image (src + j))).bind
          fun s3 => protect_region s3 t.task_pml4 p_base p_size
            (convert_flags_from_vma_to_pages v.vm_flags ||| PAGE_USER)).map
          fun s4 => (0, s4, t)
    else
      (populate_region s t.task_pml4 p_base p_size
        (convert_flags_from_vma_to_pages v.vm_flags ||| PAGE_USER)).map fun s1 => (0, s1, t)

/-- The loop of `walk_vma_range`, one VMA per unit of fuel. -/
def walk_vma_loop
    (func : kstate → task → Nat → Nat → Nat → Option (Int × kstate × task)) (end_ : Nat) :
    Nat → kstate → task → Nat → Option Nat → Option (Int × kstate × task)
  | 0, _, _, _, _ => none
  | _ + 1, s, t, _, none => some (0, s, t)
  | fuel + 1, s, t, base, some v =>
    if ¬ (t.vmas v).vm_base < end_ then some (0, s, t)
    else
      let next := list_next t.task_mmap v
      let b := if base > (t.vmas v).vm_base then base else (t.vmas v).vm_base
      let e := if end_ < (t.vmas v).vm_end then end_ else (t.vmas v).vm_end
      match func s t b (e - b) v with
      | none => none
      | some (ret, s1, t1) =>
        if ret < 0 then some (ret, s1, t1) else walk_vma_loop func end_ fuel s1 t1 e next

/-- Modelled from the spec: `walk_vma_range` is not part of the sources at hand.  It calls
`func` on every VMA that meets `[base, base + size)`, in address order, with the part of the
range that lies in the VMA, and stops at the first negative return value. -/
def walk_vma_range
    (func : kstate → task → Nat → Nat → Nat → Option (Int × kstate × task))
    (s : kstate) (t : task) (base size : Nat) : Option (Int × kstate × task) :=
  walk_vma_loop func ((base + size) % WORD) (t.task_mmap.length + 1) s t base (find_vma t base)

/-- Populates the VMAs of `[base, base + size)` (`populate_vma_range`). -/
def populate_vma_range (image : Nat → Nat) (s : kstate) (t : task) (base size flags : Nat) :
    Option (Int × kstate × task) :=
  walk_vma_range (fun s1 t1 b sz v => do_populate_vma image s1 t1 b sz v flags) s t base size

/-- Cuts `[base, base + size)` out of the VMA, unmaps its pages and removes the VMA of the
range (`do_remove_vma`).  `none`: an assertion failed. -/
def do_remove_vma (s : kstate) (t : task) (base size vma : Nat) :
    Option (Int × kstate × task) :=
  let base_aligned := ROUNDDOWN base
  let size_aligned := ROUNDUP size
  let end_aligned := (base_aligned + size_aligned) % WORD
  if ¬ (base_aligned ≥ (t.vmas vma).vm_base) then none
  else if ¬ (end_aligned ≤ (t.vmas vma).vm_end) then none
  else
    match split_vmas t vma base_aligned size_aligned with
    | none => none
    | some (none, t1) => some (-1, s, t1)
    | some (some vma_to_remove, t1) =>
      (unmap_page_range s t1.task_pml4 base_aligned size_aligned).map
        fun s1 => (0, s1, remove_vma t1 vma_to_remove)

/-- Removes the VMAs of `[base, base + size)` and their pages (`remove_vma_range`). -/
def remove_vma_range (s : kstate) (t : task) (base size : Nat) :
    Option (Int × kstate × task) :=
  walk_vma_range do_remove_vma s t base size

/-- Changes the flags of the VMA from `base` on and the protection of the pages of
`[base, base + size)` (`do_protect_vma`); `udata` is the value of `*(int *)udata`. -/
def do_protect_vma (s : kstate) (t : task) (base size vma udata : Nat) :
    Option (Int × kstate × task) :=
  if (t.vmas vma).vm_flags = udata then some (0, s, t)
  else
    match split_vma t vma base with
    | none => none
    | some (none, t1) => some (-1, s, t1)
    | some (some s_vma, t1) =>
      let t2 : task :=
        { t1 with vmas := fun i => if i = s_vma then { t1.vmas i with vm_flags := udata }
                                   else t1.vmas i }
      let page_flags := convert_flags_from_vma_to_pages (t2.vmas s_vma).vm_flags
      (protect_region s t2.task_pml4 base size page_flags).map
        fun s1 => (0, s1, (merge_vmas t2 s_vma).2)

/-- Changes the flags of the VMAs of `[base, base + size)` (`protect_vma_range`). -/
def protect_vma_range (s : kstate) (t : task) (base size flags : Nat) :
    Option (Int × kstate × task) :=
  walk_vma_range (fun s1 t1 b sz v => do_protect_vma s1 t1 b sz v flags) s t base size

/-! ## mmap -/

/-- Modelled from the spec: the protection bits of `mmap`; `sys_mmap` stores `prot` as the
flags of the VMA, so they are the `VM_*` bits. -/
def PROT_READ : Nat := VM_READ

/-- Modelled from the spec: see `PROT_READ`. -/
def PROT_WRITE : Nat := VM_WRITE

/-- Modelled from the spec: see `PROT_READ`. -/
def PROT_EXEC : Nat := VM_EXEC

/-- Modelled from the spec: the flag bits of `mmap` (their header is not part of the sources
at hand); four different bits. -/
def MAP_PRIVATE : Nat := 1

/-- Modelled from the spec: see `MAP_PRIVATE`. -/
def MAP_ANONYMOUS : Nat := 2

/-- Modelled from the spec: see `MAP_PRIVATE`. -/
def MAP_POPULATE : Nat := 4

/-- Modelled from the spec: see `MAP_PRIVATE`. -/
def MAP_FIXED : Nat := 8

/-- Modelled from the spec: `MAP_FAILED` is `(void *)-1`. -/
def MAP_FAILED : Nat := WORD - 1

/-- The address of the string literal `"user"`, the name `sys_mmap` gives its VMAs. -/
def USER_NAME : Nat := 0x75736572

/-- Checks the arguments of `mmap` and `mprotect` (`check_permissions`); the sum
`addr + len` is a 64-bit sum. -/
def check_permissions (addr len prot flags : Nat) : Int :=
  if addr = 0 ∧ flags &&& MAP_FIXED ≠ 0 then -1
  else if (addr + len) % WORD > USER_LIM then -1
  else if prot = 0 then 0
  else if (prot &&& PROT_WRITE ≠ 0 ∨ prot &&& PROT_EXEC ≠ 0) ∧ ¬ (prot &&& PROT_READ ≠ 0)
    then -1
  else 0

/-- The part of `sys_mmap` behind `add_vma`: population, merging, the return value. -/
def sys_mmap_finish (image : Nat → Nat) (s : kstate) (addr flags : Nat) :
    Option (Option Nat × task) → Option (Nat × kstate)
  | none => none
  | some (none, t2) => some (MAP_FAILED, { s with cur_task := some t2 })
  | some (some v, t2) =>
    let s2 : kstate := { s with cur_task := some t2 }
    let r3 : Option (Int × kstate × task) :=
      if flags &&& MAP_POPULATE ≠ 0 then
        populate_vma_range image s2 t2 (t2.vmas v).vm_base
          (((t2.vmas v).vm_end + WORD - (t2.vmas v).vm_base) % WORD) flags
      else some (0, s2, t2)
    match r3 with
    | none => none
    | some (ret, s3, t3) =>
      if ret < 0 then some (MAP_FAILED, { s3 with cur_task := some t3 })
      else
        let t4 := (merge_vmas t3 v).2
        some (if addr ≠ 0 then addr else (t4.vmas v).vm_base, { s3 with cur_task := some t4 })

/-- Maps `[addr, addr + len)` in the current task (`sys_mmap`); `fd` and `offset` are not
read.  The struct of the current task is read from the state and stored back.  `none`: a
panic, or no current task. -/
def sys_mmap (image : Nat → Nat) (s : kstate) (addr len prot flags : Nat) :
    Option (Nat × kstate) :=
  match s.cur_task with
  | none => none
  | some t =>
    if check_permissions addr len prot flags < 0 then some (MAP_FAILED, s)
    else if flags &&& (0xFFFFFFFF - (MAP_ANONYMOUS ||| MAP_PRIVATE ||| MAP_FIXED
        ||| MAP_POPULATE)) ≠ 0 then some (MAP_FAILED, s)
    else
      let r1 : Option (Int × kstate × task) :=
        if flags &&& MAP_FIXED ≠ 0 then
          match task_find_vma t addr with
          | none => some (0, s, t)
          | some v =>
            remove_vma_range s t (t.vmas v).vm_base
              (((t.vmas v).vm_end + WORD - (t.vmas v).vm_base) % WORD)
        else some (0, s, t)
      match r1 with
      | none => none
      | some (ret, s1, t1) =>
        if ret < 0 then some (MAP_FAILED, { s1 with cur_task := some t1 })
        else sys_mmap_finish image s1 addr flags (add_vma t1 USER_NAME addr len prot)

/-! ## Page faults -/

/-- Moves the frame to the front of the swap list (`mru_swap_page`); the frame is not
`NULL`. -/
def mru_swap_page (s : kstate) (page : Nat) : kstate :=
  add_swap_page (remove_swap_page s page) page

/-- Gives the faulting task its own copy of the frame, or makes the entry writable when the
frame has a single reference (`copy_on_write`); `entry` is the leaf entry of the page. -/
def copy_on_write (s : kstate) (t : task) (va page : Nat) (entry : Nat × Nat) (vma : Nat) :
    Option (Int × kstate) :=
  if (s.pages page).pp_ref = 1 then
    some (0, set_entry s entry.1 entry.2 (s.mem entry.1 entry.2 ||| PAGE_WRITE))
  else
    match page_alloc s ALLOC_ZERO with
    | none => none
    | some (none, s1) => some (-1, s1)
    | some (some new_page, s1) =>
      let s2 : kstate :=
        { s1 with mem := fun f => if f = new_page then s1.mem page else s1.mem f }
      page_insert s2 t.task_pml4 new_page (ROUNDDOWN va)
        (convert_flags_from_vma_to_pages (t.vmas vma).vm_flags ||| PAGE_USER)

/-- The part of `task_page_fault_handler` behind `page_lookup`: `r` is the frame found
(`none` for `NULL`) and the pointer `entry` holds afterwards. -/
def fault_dispatch (image : Nat → Nat) (s : kstate) (t : task) (va flags vma : Nat)
    (r : Option Nat × Option (Option (Nat × Nat))) : Option (Int × kstate × task) :=
  match r with
  | (some page, some (some entry)) =>
    let s1 := mru_swap_page (add_swap_page s page) page
    if s1.mem entry.1 entry.2 ≠ 0 ∧ (t.vmas vma).vm_flags &&& VM_WRITE ≠ 0
        ∧ ¬ (s1.mem entry.1 entry.2 &&& PAGE_WRITE ≠ 0) then
      (copy_on_write s1 t va page entry vma).map fun x => (x.1, x.2, t)
    else populate_vma_range image s1 t (ROUNDDOWN va) PAGE_SIZE flags
  | (some page, _) =>
    let s1 := mru_swap_page (add_swap_page s page) page
    populate_vma_range image s1 t (ROUNDDOWN va) PAGE_SIZE flags
  | (none, _) => populate_vma_range image s t (ROUNDDOWN va) PAGE_SIZE flags

/-- Handles a page fault of the task at `va` (`task_page_fault_handler`).  The pointer
`entry` starts out as the cell `kmalloc` returns, written here as the entry (0, 0): it is
only read after `page_lookup` has stored a leaf entry in it. -/
def task_page_fault_handler (image : Nat → Nat) (s : kstate) (t : task) (va flags : Nat) :
    Option (Int × kstate × task) :=
  match task_find_vma t va with
  | none => some (-1, s, t)
  | some vma =>
    (page_lookup s t.task_pml4 (ROUNDDOWN va) (some (some (0, 0)))).bind
      (fault_dispatch image s t va flags vma)

/-! ## Fork and wait -/

/-- The body of the loop of `copy_page_range` behind `page_lookup`, for the page at `va`:
the new value of `page_flags` and the state; `none` in front: the loop goes on to the next
page without a change (`continue`). -/
def copy_page (parent_pml4 child_pml4 va page_flags : Nat) (s : kstate)
    (r : Option Nat × Option (Option (Nat × Nat))) : Option (Option (Int × Nat × kstate)) :=
  match r with
  | (some page, some (some entry)) =>
    if ¬ (s.mem entry.1 entry.2 &&& PAGE_PRESENT ≠ 0) then some none
    else
      let page_flags1 :=
        if s.mem entry.1 entry.2 &&& PAGE_WRITE ≠ 0 then
          PAGE_PRESENT ||| PAGE_NO_EXEC ||| PAGE_USER
        else if ¬ (s.mem entry.1 entry.2 &&& PAGE_NO_EXEC ≠ 0) then
          PAGE_PRESENT ||| PAGE_USER
        else page_flags
      (page_insert s child_pml4 page va page_flags1).bind fun x =>
        if x.1 < 0 then some (some (-1, page_flags1, x.2))
        else
          (protect_region x.2 parent_pml4 va PAGE_SIZE page_flags1).map fun s2 =>
            some (0, page_flags1, s2)
  | _ => some none

/-- The loop of `copy_page_range`, one page per unit of fuel.  `page_flags` is a local
variable without an initial value: it keeps what the last page left in it.  The pointer
`entry` keeps the leaf entry of the last page found. -/
def copy_page_loop (parent_pml4 child_pml4 end_va : Nat) :
    Nat → kstate → Nat → Nat → Option (Nat × Nat) → Option (Int × kstate)
  | 0, _, _, _, _ => none
  | fuel + 1, s, va, page_flags, entry =>
    if ¬ va < end_va then some (0, s)
    else
      match page_lookup s parent_pml4 va (some entry) with
      | none => none
      | some r =>
        match copy_page parent_pml4 child_pml4 va page_flags s r with
        | none => none
        | some none =>
          copy_page_loop parent_pml4 child_pml4 end_va fuel s ((va + PAGE_SIZE) % WORD)
            page_flags r.2.join
        | some (some (ret, page_flags1, s1)) =>
          if ret < 0 then some (ret, s1)
          else
            copy_page_loop parent_pml4 child_pml4 end_va fuel s1 ((va + PAGE_SIZE) % WORD)
              page_flags1 r.2.join

/-- Maps the present pages of `[start_va, end_va)` of the parent in the child, read-only in
both (`copy_page_range`).  `page_flags0` is what the uninitialised `page_flags` holds at the
start; `entry` starts as the cell `kmalloc` returns, written as the entry (0, 0). -/
def copy_page_range (s : kstate) (parent_pml4 child_pml4 start_va end_va page_flags0 : Nat) :
    Option (Int × kstate) :=
  copy_page_loop parent_pml4 child_pml4 end_va ((end_va - start_va) / PAGE_SIZE + 2) s start_va
    page_flags0 (some (0, 0))

/-- Modelled from the spec: `enum task_type` of task.h, which is not part of the sources at
hand: a task is a user task or a kernel thread. -/
inductive task_type where
  | user : task_type
  | kernel : task_type
deriving DecidableEq, Repr

/-- Modelled from the spec: the task states of task.h, which is not part of the sources at
hand. -/
inductive task_status where
  | dying : task_status
  | runnable : task_status
  | running : task_status
  | not_runnable : task_status
deriving DecidableEq, Repr

/-- The part of `struct task` that fork, wait, kill and the schedulers use on top of the
VMAs: the PID, the PID of the parent, the lists `task_children` and `task_zombies`, which
hold the PIDs of the tasks linked on them, the type and the status of the task, the task it
waits for (`task_wait`, a pointer to a task, here its PID), the saved return register
`task_frame.rax`, the ticks charged to the task (`jiffies`), and whether the links of
`task_children` have been turned into a cycle (see `list_add_linked`).  A task struct is identified
with the PID whose slot of the PID table points to it. -/
structure ktask where
  vm : task
  task_pid : Nat
  task_ppid : Nat
  task_children : List Nat
  task_zombies : List Nat
  task_type : task_type := task_type.user
  task_status : task_status := task_status.runnable
  task_wait : Option Nat := none
  rax : Int := 0
  jiffies : Nat := 0
  children_cycle : Bool := false

/-- The kernel with its tasks: the memory state, the PID table `tasks`, `pid_max`, the root
table of the kernel, the global run queue `runq` (the PIDs of the tasks linked on it, head
first), and the counters `nuser_tasks` and `nkernel_tasks`. -/
structure system where
  k : kstate
  tasks : Nat → Option ktask
  pid_max : Nat
  kernel_pml4 : Nat
  runq : List Nat := []
  nuser_tasks : Nat := 0
  nkernel_tasks : Nat := 0

/-- Modelled from the spec: the error code `ECHILD` (error.h is not part of the sources at
hand); a positive number. -/
def ECHILD : Int := 10

/-- The copy of the kernel half of the root table: entries `PML4_INDEX(KERNEL_VMA)` to 511
of `kernel_pml4` are copied to `pml4`. -/
def copy_kernel_half (s : kstate) (kernel_pml4 pml4 : Nat) : kstate :=
  { s with mem := fun f i =>
      if f = pml4 ∧ PML4_INDEX KERNEL_VMA ≤ i ∧ i < PAGE_TABLE_ENTRIES then
        s.mem kernel_pml4 i
      else s.mem f i }

/-- Allocates the root table of a task and copies the kernel half (`task_setup_vas`, and
`create_pml4`, which has the same body): the return value, the root table and the state. -/
def create_pml4 (s : kstate) (kernel_pml4 : Nat) : Option (Int × Nat × kstate) :=
  match page_alloc s ALLOC_ZERO with
  | none => none
  | some (none, s1) => some (-1, 0, s1)
  | some (some page, s1) =>
    let s2 := set_page s1 page (fun p => { p with pp_ref := (p.pp_ref + 1) % 65536 })
    some (0, page, copy_kernel_half s2 kernel_pml4 page)

/-- The search of `task_alloc` for a free PID: the loop `for (pid = ...; pid < pid_max;
++pid)` from `pid` on, one PID per unit of fuel; `none`: no PID is free. -/
def find_free_pid (tasks : Nat → Option ktask) (pid_max : Nat) : Nat → Nat → Option Nat
  | 0, _ => none
  | fuel + 1, pid =>
    if ¬ pid < pid_max then none
    else if (tasks pid).isNone then some pid
    else find_free_pid tasks pid_max fuel (pid + 1)

/-- Allocates a task with an empty address space and the first free PID (`task_alloc`);
`kmalloc` is taken to succeed.  Returns the PID of the task, `none` for `NULL`. -/
def task_alloc (st : system) (ppid : Nat) : Option (Option Nat × system) :=
  match create_pml4 st.k st.kernel_pml4 with
  | none => none
  | some (ret, pml4, k1) =>
    if ret < 0 then some (none, { st with k := k1 })
    else
      match find_free_pid st.tasks st.pid_max st.pid_max 1 with
      | none => some (none, { st with k := k1 })
      | some pid =>
        let task : ktask :=
          { vm := { vmas := fun _ => ⟨0, 0, 0, 0, 0, 0, 0⟩, task_rb := rb_node.nil,
                    task_mmap := [], next_vma := 1, task_pml4 := pml4 },
            task_pid := pid, task_ppid := ppid, task_children := [], task_zombies := [],
            task_status := task_status.runnable }
        some (some pid, { st with k := k1,
                                  tasks := fun i => if i = pid then some task else st.tasks i })

/-- The body of the loop of `task_clone` for one VMA of the parent: the VMA is copied to a
new cell of the child and inserted, the child is linked on the list of children of the
parent, and the pages of the VMA are shared.  The return values of `insert_vma` and
`copy_page_range` are dropped, as in the source.  The `list_add` of the child sits inside
the loop: from the second VMA on it links a node that is the first node of the list already,
which makes the links of the list a cycle through that node and cuts off the children linked
before (`list_add_linked`); the functions that read `task_children` are modelled for lists
without a cycle.  The copy shares the reverse map of the VMA of the parent and is linked on
its list. -/
def task_clone_vma (st : system) (parent child page_flags0 : Nat) (parent_vma : Nat) :
    Option system :=
  match st.tasks parent, st.tasks child with
  | some p, some c =>
    let id := c.vm.next_vma
    let c1 : task :=
      { c.vm with vmas := fun i => if i = id then p.vm.vmas parent_vma else c.vm.vmas i,
                  next_vma := id + 1,
                  rmap_vmas := fun r =>
                    if r = (p.vm.vmas parent_vma).rmap then id :: c.vm.rmap_vmas r
                    else c.vm.rmap_vmas r }
    let c2 := (insert_vma c1 id).2
    let p1 : ktask :=
      { p with task_children := list_add_linked p.task_children child,
               children_cycle := p.children_cycle || p.task_children.contains child }
    let tasks1 : Nat → Option ktask := fun i =>
      if i = parent then some p1 else if i = child then some { c with vm := c2 }
      else st.tasks i
    (copy_page_range st.k p.vm.task_pml4 c2.task_pml4 (p.vm.vmas parent_vma).vm_base
      (p.vm.vmas parent_vma).vm_end page_flags0).map
      fun r => { st with k := r.2, tasks := tasks1 }
  | _, _ => none

/-- The loop of `task_clone` over the VMAs on the list of the parent. -/
def task_clone_loop (parent child page_flags0 : Nat) : List Nat → system → Option system
  | [], st => some st
  | v :: vs, st =>
    (task_clone_vma st parent child page_flags0 v).bind
      (task_clone_loop parent child page_flags0 vs)

/-- Clones the task with PID `parent` (`task_clone`): returns the PID of the child.  `none`:
a panic, also when `task_alloc` returns `NULL`, which the source does not check before it
writes to the child.  Of the register state only `rax` is modelled: the child returns 0. -/
def task_clone (st : system) (parent page_flags0 : Nat) : Option (Option Nat × system) :=
  match st.tasks parent with
  | none => none
  | some p =>
    match task_alloc st p.task_pid with
    | none => none
    | some (none, _) => none
    | some (some child, st1) =>
      match create_pml4 st1.k st1.kernel_pml4 with
      | none => none
      | some (ret, pml4, k2) =>
        if ret < 0 then some (none, { st1 with k := k2 })
        else
          let st2 : system :=
            { st1 with k := k2,
                       tasks := fun i =>
                         if i = child then
                           (st1.tasks child).map fun c =>
                             { c with vm := { c.vm with task_pml4 := pml4, task_mmap := [] } }
                         else st1.tasks i }
          (task_clone_loop parent child page_flags0 p.vm.task_mmap st2).map
            fun st3 => (some child,
              { st3 with tasks := fun i =>
                  if i = child then
                    (st3.tasks child).map fun c => { c with jiffies := p.jiffies, rax := 0 }
                  else st3.tasks i })

/-- What `sys_waitpid` does first. -/
inductive wait_start where
  | refused (ret : Int) : wait_start
  | waits : wait_start
deriving DecidableEq, Repr

/-- The check at the start of `sys_waitpid(pid, ...)` by the task with PID `cur`: the call
is refused with `-ECHILD` when the task has no child on its list or names itself; otherwise
the task goes on to mark itself waiting, to reap its zombies and to block. -/
def sys_waitpid (st : system) (cur : Nat) (pid : Int) : Option wait_start :=
  match st.tasks cur with
  | none => none
  | some t =>
    if t.task_children.isEmpty ∨ (t.task_pid : Int) = pid then some (wait_start.refused (-ECHILD))
    else some wait_start.waits

/-! ## Concrete scenarios -/

/-- The leaf entry of `va`, if the three tables above it are present. -/
def pte_of (s : kstate) (pml4 va : Nat) : Option Nat :=
  if s.mem pml4 (PML4_INDEX va) &&& PAGE_PRESENT ≠ 0
      ∧ s.mem (pdpt_of s pml4 va) (PDPT_INDEX va) &&& PAGE_PRESENT ≠ 0
      ∧ s.mem (pdir_of s pml4 va) (PAGE_DIR_INDEX va) &&& PAGE_PRESENT ≠ 0 then
    some (s.mem (ptbl_of s pml4 va) (PAGE_TABLE_INDEX va))
  else none

/-- The boot state with a current task that has no VMA; its root table, frame 1, is
empty. -/
def mmap_start_state : kstate :=
  { boot_state with cur_task := some { empty_task with task_pml4 := 1 } }

/-- A kernel image of zero bytes, for tasks without a VMA backed by an executable. -/
def no_image : Nat → Nat := fun _ => 0

/-- What a call of `sys_mmap` leaves: its return value and the ranges the current task
maps. -/
def mmap_view (r : Option (Nat × kstate)) : Option (Nat × List (Nat × Nat × Nat)) :=
  r.map fun x => (x.1, match x.2.cur_task with
                       | none => []
                       | some t => vma_ranges t)

/-- The call `mmap(0x10000, 0x2000, PROT_READ, MAP_PRIVATE | MAP_ANONYMOUS)` on the empty
task. -/
def first_fixed_mmap : Option (Nat × kstate) :=
  sys_mmap no_image mmap_start_state 0x10000 0x2000 PROT_READ (MAP_PRIVATE ||| MAP_ANONYMOUS)

/-- The call `mmap(0x11000, 0x1000, PROT_READ | PROT_WRITE, MAP_PRIVATE | MAP_ANONYMOUS |
MAP_FIXED)` that follows `first_fixed_mmap`. -/
def second_fixed_mmap : Option (Nat × kstate) :=
  first_fixed_mmap.bind fun r =>
    sys_mmap no_image r.2 0x11000 0x1000 (PROT_READ ||| PROT_WRITE)
      (MAP_PRIVATE ||| MAP_ANONYMOUS ||| MAP_FIXED)

/-- The call `mmap(0x2000, 2^64 - 0x1000, PROT_READ, MAP_PRIVATE | MAP_ANONYMOUS)` on the
empty task: the sum of address and length wraps around to 0x1000. -/
def wrapped_mmap : Option (Nat × kstate) :=
  sys_mmap no_image mmap_start_state 0x2000 (WORD - 0x1000) PROT_READ
    (MAP_PRIVATE ||| MAP_ANONYMOUS)

/-- On `swapped_state` (the page at 0x1000 swapped out, the page at 0x2000 present), with
the VMA [0x1000, 0x3000) of `one_vma_task` around both pages, the page at 0x2000 is
unmapped by `do_remove_vma`.  The result: the leaf entry of 0x1000 before, the return value,
the ranges the task maps afterwards, and the leaf entries of 0x1000 and of 0x2000
afterwards. -/
def munmap_next_to_swapped :
    Option (Option Nat × Int × List (Nat × Nat × Nat) × Option Nat × Option Nat) :=
  swapped_state.bind fun (pml4, _, s) =>
    (do_remove_vma s { one_vma_task with task_pml4 := pml4 } 0x2000 0x1000 1).map fun r =>
      (pte_of s pml4 0x1000, r.1, vma_ranges r.2.2, pte_of r.2.1 pml4 0x1000,
        pte_of r.2.1 pml4 0x2000)

/-- A task with the one VMA [0x10000, 0x13000), readable; its root table, frame 1, is
empty. -/
def readonly_task : task :=
  { vmas := fun i =>
      if i = 1 then ⟨7, 0x10000, 0x13000, 1, 0, 0, 2⟩ else ⟨0, 0, 0, 0, 0, 0, 0⟩,
    task_rb := rb_node.node rb_node.nil 1 rb_node.nil, task_mmap := [1], next_vma := 3,
    task_pml4 := 1 }

/-- The call of `do_protect_vma` on the VMA of `readonly_task` for the page at 0x11000 with
the protection read and write: the return value and the ranges the task maps afterwards. -/
def protect_middle_page : Option (Int × List (Nat × Nat × Nat)) :=
  (do_protect_vma boot_state readonly_task 0x11000 0x1000 1 (VM_READ ||| VM_WRITE)).map
    fun r => (r.1, vma_ranges r.2.2)

/-- A task with the one VMA [0x400000, 0x403000), readable and writable, backed by 0x1800
bytes at the kernel address 0x100000: a data segment with a `.bss` tail. -/
def exec_task (pml4 : Nat) : task :=
  { vmas := fun i =>
      if i = 1 then ⟨7, 0x400000, 0x403000, 3, 0x100000, 0x1800, 2⟩
      else ⟨0, 0, 0, 0, 0, 0, 0⟩,
    task_rb := rb_node.node rb_node.nil 1 rb_node.nil, task_mmap := [1], next_vma := 3,
    task_pml4 := pml4 }

/-- A kernel image without a zero byte: the byte at address `a` is `a % 251 + 1`. -/
def busy_image : Nat → Nat := fun a => a % 251 + 1

/-- With the frames 16 to 31 free and a fresh root table, `do_populate_vma` populates the
page at `va` of `exec_task` for a read access.  The result: the return value and the bytes 0,
0x7ff and 4095 of the page. -/
def populate_exec_page (va : Nat) : Option (Int × Option (Nat × Nat × Nat)) :=
  (free_all ((List.range 16).map (· + 16)) boot_state).bind fun s =>
    match page_alloc s ALLOC_ZERO with
    | some (some pml4, s1) =>
      let t := exec_task pml4
      (do_populate_vma busy_image { s1 with cur_task := some t } t va PAGE_SIZE 1 VM_READ).map
        fun r => (r.1, (translate r.2.1 pml4 va).map fun f =>
          (r.2.1.mem f 0, r.2.1.mem f 0x7ff, r.2.1.mem f 4095))
    | _ => none

/-- A task with the one VMA [0x1000, 0x2000), readable, writable and executable. -/
def rwx_task (pml4 : Nat) : task :=
  { vmas := fun i => if i = 1 then ⟨7, 0x1000, 0x2000, 7, 0, 0, 2⟩ else ⟨0, 0, 0, 0, 0, 0, 0⟩,
    task_rb := rb_node.node rb_node.nil 1 rb_node.nil, task_mmap := [1], next_vma := 3,
    task_pml4 := pml4 }

/-- With the frames 16 to 31 free, root tables are allocated for a parent and a child, and
the page at 0x1000 of the parent, whose task is `rwx_task`, is populated with the flags of
its VMA.  The result: the root tables of parent and child and the state. -/
def before_fork : Option (Nat × Nat × kstate) :=
  (free_all ((List.range 16).map (· + 16)) boot_state).bind fun s =>
    match page_alloc s ALLOC_ZERO with
    | some (some parent_pml4, s1) =>
      match page_alloc s1 ALLOC_ZERO with
      | some (some child_pml4, s2) =>
        (populate_region { s2 with cur_task := some (rwx_task parent_pml4) } parent_pml4 0x1000
          PAGE_SIZE (convert_flags_from_vma_to_pages 7 ||| PAGE_USER)).map
          fun s3 => (parent_pml4, child_pml4, s3)
      | _ => none
    | _ => none

/-- The call of `copy_page_range` on `before_fork` for the VMA of the parent.  The result:
the leaf entry of 0x1000 of the parent before, the return value, and the leaf entries of
0x1000 of the parent and of the child afterwards. -/
def fork_rwx_page : Option (Option Nat × Int × Option Nat × Option Nat) :=
  before_fork.bind fun (p, c, s) =>
    (copy_page_range s p c 0x1000 0x2000 0).map fun r =>
      (pte_of s p 0x1000, r.1, pte_of r.2 p 0x1000, pte_of r.2 c 0x1000)

/-- A kernel with free frames and one task, PID 1, that has no VMA and no child. -/
def lone_task_system : system :=
  { k := three_free_state,
    tasks := fun i =>
      if i = 1 then
        some { vm := { empty_task with task_pml4 := 1 }, task_pid := 1, task_ppid := 0,
               task_children := [], task_zombies := [] }
      else none,
    pid_max := 65536, kernel_pml4 := 0 }

/-- The task of `lone_task_system` is cloned and then waits for the child.  The result: the
PID of the child, the list of children of the parent after the clone, the parent PID the
child records, and what `sys_waitpid(child)` by the parent does. -/
def fork_without_vma :
    Option (Option Nat × Option (List Nat) × Option Nat × Option wait_start) :=
  (task_clone lone_task_system 1 0).map fun r =>
    (r.1, (r.2.tasks 1).map (fun p => p.task_children),
      (r.1.bind r.2.tasks).map (fun c => c.task_ppid),
      r.1.bind fun c => sys_waitpid r.2 1 c)

/-- The leaf entry of `va`: the entry of `va` in the page table its path leads to. -/
def leaf_entry (s : kstate) (pml4 va : Nat) : Nat :=
  s.mem (ptbl_of s pml4 va) (PAGE_TABLE_INDEX va)

/-- A task with the one VMA [0x1000, 0x2000), readable and writable; its root table is
frame 1. -/
def cow_task : task :=
  { vmas := fun i => if i = 1 then ⟨7, 0x1000, 0x2000, 3, 0, 0, 2⟩ else ⟨0, 0, 0, 0, 0, 0, 0⟩,
    task_rb := rb_node.node rb_node.nil 1 rb_node.nil, task_mmap := [1], next_vma := 3,
    task_pml4 := 1 }

/-- A state as a fork leaves it: the frames 2, 4 and 6 are free; the tables in the frames 1,
3, 5 and 7 map the page at 0x1000 of `cow_task`, the current task, to frame 8, present, for
the user, not writable and not executable; frame 8 has two references and holds the byte
0x41 everywhere. -/
def shared_page_state : kstate :=
  { three_free_state with
    mem := fun f i =>
      if f = 1 ∧ i = 0 then 0x3007
      else if f = 3 ∧ i = 0 then 0x5007
      else if f = 5 ∧ i = 0 then 0x7007
      else if f = 7 ∧ i = 1 then 0x8000000000008005
      else if f = 8 then 0x41
      else 0,
    pages := fun q =>
      if q = 8 then { three_free_state.pages q with pp_ref := 2 }
      else if q = 1 ∨ q = 3 ∨ q = 5 ∨ q = 7 then { three_free_state.pages q with pp_ref := 1 }
      else three_free_state.pages q,
    cur_task := some cow_task }

/-! ## Run queues -/

/-- Modelled from the spec: `list_add_tail(head, node)` of list.h, which is not part of the
sources at hand, links the node at the tail of the list.  A list is written head first. -/
def list_add_tail (q : List Nat) (node : Nat) : List Nat := q ++ [node]

/-- Modelled from the spec: `list_pop_tail(head)` of list.h unlinks the node at the tail of
the list and returns it, `NULL` on an empty list. -/
def list_pop_tail (q : List Nat) : Option Nat × List Nat :=
  match q.getLast? with
  | none => (none, q)
  | some node => (some node, q.dropLast)

/-- The switch `FAIR_SCHEDULER` of sched_util.h. -/
def FAIR_SCHEDULER : Nat := 0

/-- Takes a task from a queue (`queue_pop_task`). -/
def queue_pop_task (q : List Nat) : Option Nat × List Nat := list_pop_tail q

/-- Links the task in front of the first task of the queue that has more jiffies, at the tail
when there is none (`queue_add_priority`). -/
def queue_add_priority (jiffies : Nat → Nat) (q : List Nat) (new_task : Nat) : List Nat :=
  q.takeWhile (fun t => ¬ jiffies new_task < jiffies t) ++
    new_task :: q.dropWhile (fun t => ¬ jiffies new_task < jiffies t)

/-- Adds a task to a queue (`queue_add_task`). -/
def queue_add_task (jiffies : Nat → Nat) (q : List Nat) (task : Nat) : List Nat :=
  if FAIR_SCHEDULER ≠ 0 then queue_add_priority jiffies q task else list_add_tail q task

/-- The jiffies of the task in a slot of the PID table. -/
def jiffies_of (st : system) (pid : Nat) : Nat :=
  match st.tasks pid with
  | none => 0
  | some t => t.jiffies

/-- Puts a task on the global run queue and counts it (`lock_runq_add`). -/
def lock_runq_add (st : system) (task : Nat) : system :=
  { st with
    runq := queue_add_task (jiffies_of st) st.runq task,
    nuser_tasks := (st.nuser_tasks + 1) % WORD,
    nkernel_tasks :=
      if (st.tasks task).map (fun t => t.task_type) = some task_type.kernel then
        (st.nkernel_tasks + 1) % WORD
      else st.nkernel_tasks }

/-! ## The PID table, kill -/

/-- What a lookup in the PID table gives: the task returned (`none` for `NULL`), or a read of
`tasks[index]` outside the table, which has the slots 0 to `pid_max - 1`. -/
inductive pid_lookup where
  | found (task : Option Nat) : pid_lookup
  | outside (index : Int) : pid_lookup
deriving DecidableEq, Repr

/-- Looks up the task of a PID (`pid2task`); `pid_t` is a signed integer.  `cur` is the PID
of `cur_task`. -/
def pid2task (st : system) (cur : Nat) (pid : Int) (check_perm : Bool) : pid_lookup :=
  if pid = 0 then pid_lookup.found (some cur)
  else if pid ≥ st.pid_max then pid_lookup.found none
  else if pid < 0 then pid_lookup.outside pid
  else
    match st.tasks pid.toNat with
    | none => pid_lookup.found none
    | some task =>
      if ¬ check_perm then pid_lookup.found (some pid.toNat)
      else if pid.toNat ≠ cur ∧
          task.task_ppid ≠ ((st.tasks cur).map (fun c => c.task_pid)).getD 0 then
        pid_lookup.found none
      else pid_lookup.found (some pid.toNat)

/-- What `sys_kill` does: it returns -1, or it calls `task_destroy` on a task (and returns 0
if that call returns), or it reads the PID table outside its bounds. -/
inductive kill_result where
  | refused : kill_result
  | destroys (task : Nat) : kill_result
  | outside (index : Int) : kill_result
deriving DecidableEq, Repr

/-- Destroys the task of a PID on behalf of the current task (`sys_kill`). -/
def sys_kill (st : system) (cur : Nat) (pid : Int) : kill_result :=
  match pid2task st cur pid true with
  | pid_lookup.outside i => kill_result.outside i
  | pid_lookup.found none => kill_result.refused
  | pid_lookup.found (some task) => kill_result.destroys task

/-! ## Freeing a task, zombies, wait -/

/-- Unmaps all user pages (`unmap_user_pages`). -/
def unmap_user_pages (s : kstate) (pml4 : Nat) : Option kstate :=
  unmap_page_range s pml4 0 USER_LIM

/-- Frees the task and its memory (`task_free`): the slot of the PID table is cleared, the
user pages are unmapped, the VMAs and the task struct are freed.  `none`: a panic. -/
def task_free (st : system) (task : Nat) : Option system :=
  match st.tasks task with
  | none => none
  | some t =>
    (unmap_user_pages st.k t.vm.task_pml4).map fun k1 =>
      { st with k := k1,
                tasks := fun i => if i = t.task_pid ∨ i = task then none else st.tasks i }

/-- The loop of `reap_zombies` over the zombies of `task`: every zombie is unlinked and
freed; the PID of the zombie the task waits for is kept as the return value. -/
def reap_zombies_loop (task : Nat) : List Nat → Int → system → Option (Int × system)
  | [], ret_pid, st => some (ret_pid, st)
  | zombie :: rest, ret_pid, st =>
    match st.tasks task, st.tasks zombie with
    | some t, some z =>
      let ret_pid1 : Int := if t.task_wait = some zombie then z.task_pid else ret_pid
      let st1 : system :=
        { st with tasks := fun i =>
            if i = task then
              some { t with task_zombies := t.task_zombies.filter (fun x => x != zombie) }
            else st.tasks i }
      (task_free st1 zombie).bind (reap_zombies_loop task rest ret_pid1)
    | _, _ => none

/-- Frees all zombies of the task; returns the PID of the child the task waits for if it was
among them, -1 otherwise (`reap_zombies`). -/
def reap_zombies (st : system) (task : Nat) : Option (Int × system) :=
  match st.tasks task with
  | none => none
  | some t => reap_zombies_loop task t.task_zombies (-1) st

/-- Marks the task as waiting: for itself when `pid` is -1, for the task of `pid` otherwise
(`set_task_waiting`).  `none`: the assertion that the task of `pid` exists failed. -/
def set_task_waiting (st : system) (cur task : Nat) (pid : Int) : Option system :=
  let wait : Option Nat :=
    if pid = -1 then some task
    else
      match pid2task st cur pid false with
      | pid_lookup.found (some child) => some child
      | _ => none
  match wait, st.tasks task with
  | some w, some t =>
    some { st with tasks := fun i =>
      if i = task then some { t with task_wait := some w } else st.tasks i }
  | _, _ => none

/-- How a call of `waitpid` ends: it returns a value, or the task is taken off the run queue
and the processor is yielded. -/
inductive wait_result where
  | returns (ret : Int) : wait_result
  | blocks : wait_result
deriving DecidableEq, Repr

/-- The part of `sys_waitpid` behind the check at its start: the task is marked waiting, its
zombies are reaped, and unless the child waited for was among them the task leaves the run
queue, `nuser_tasks` is decremented and `cur_task` is cleared before `sched_yield`. -/
def sys_waitpid_rest (st : system) (cur : Nat) (pid : Int) : Option (wait_result × system) :=
  (set_task_waiting st cur cur pid).bind fun st1 =>
    (reap_zombies st1 cur).map fun r =>
      if r.1 > -1 then (wait_result.returns r.1, r.2)
      else
        (wait_result.blocks,
          { r.2 with runq := r.2.runq.filter (fun x => x != cur),
                     nuser_tasks := (r.2.nuser_tasks + WORD - 1) % WORD,
                     k := { r.2.k with cur_task := none } })

/-- The system call `waitpid(pid)` of the task with PID `cur`, as `sys_waitpid` runs it: the
check at its start, then the rest. -/
def waitpid (st : system) (cur : Nat) (pid : Int) : Option (wait_result × system) :=
  match sys_waitpid st cur pid with
  | none => none
  | some (wait_start.refused ret) => some (wait_result.returns ret, st)
  | some wait_start.waits => sys_waitpid_rest st cur pid

/-- Waits for any child (`sys_wait`). -/
def sys_wait (st : system) (cur : Nat) : Option (wait_result × system) := waitpid st cur (-1)

/-- Hands the exiting task to its parent as a zombie, or frees it when the parent is dying
(`make_zombie_or_free`); a parent that waits is put back on the run queue with the PID of the
task in its return register.  `none`: a panic. -/
def make_zombie_or_free (st : system) (task parent_task : Nat) : Option system :=
  match st.tasks task, st.tasks parent_task with
  | some t, some p =>
    if p.task_status = task_status.dying then task_free st task
    else if p.task_pid = 0 then none
    else
      let p1 : ktask :=
        { p with task_children := p.task_children.filter (fun x => x != task),
                 task_zombies := task :: p.task_zombies }
      if p.task_wait ≠ none then
        let p2 : ktask := { p1 with rax := t.task_pid }
        some (lock_runq_add
          { st with tasks := fun i => if i = parent_task then some p2 else st.tasks i }
          parent_task)
      else some { st with tasks := fun i => if i = parent_task then some p1 else st.tasks i }
  | _, _ => none

/-- The system call `fork` of the task with PID `cur` (`sys_fork`): the child is put on the
global run queue; returns the PID of the child, -1 when `task_clone` returns `NULL`. -/
def sys_fork (st : system) (cur page_flags0 : Nat) : Option (Int × system) :=
  (task_clone st cur page_flags0).map fun r =>
    match r.1 with
    | none => (-1, r.2)
    | some child =>
      (((r.2.tasks child).map fun c => (c.task_pid : Int)).getD 0,
        { r.2 with runq := queue_add_task (jiffies_of r.2) r.2.runq child,
                   nuser_tasks := (r.2.nuser_tasks + 1) % WORD })

/-- Gets the total amount of free pages (`count_total_free_pages`): a free block of order
`k` counts `1 << k` frames. -/
def count_total_free_pages (s : kstate) : Nat :=
  ((List.range BUDDY_MAX_ORDER).map fun k => count_free_pages s k * 2 ^ k).sum

/-! ## madvise -/

/-- Modelled from the spec: the advice `MADV_WILLNEED` (its header is not part of the sources
at hand). -/
def MADV_WILLNEED : Nat := 3

/-- Modelled from the spec: the advice `MADV_DONTNEED`, a value other than
`MADV_WILLNEED`. -/
def MADV_DONTNEED : Nat := 4

/-- The loop of `do_unmap_vma` over the pages of `[base, total_size)`, one page per unit of
fuel: a page that is not dirty is unmapped; the loop returns -1 at the first page that is not
mapped.  The pointer `entry` is a local variable without an initial value, written here as
the entry (0, 0). -/
def do_unmap_loop (pml4 total_size : Nat) : Nat → kstate → Nat → Option (Int × kstate)
  | 0, _, _ => none
  | fuel + 1, s, base =>
    if ¬ base < total_size then some (0, s)
    else
      (page_lookup s pml4 base (some (some (0, 0)))).bind fun r =>
        match r with
        | (some _, some (some entry)) =>
          (if ¬ (s.mem entry.1 entry.2 &&& PAGE_DIRTY ≠ 0) then
            unmap_page_range s pml4 base PAGE_SIZE
          else some s).bind fun s1 =>
            do_unmap_loop pml4 total_size fuel s1 ((base + PAGE_SIZE) % WORD)
        | (some _, _) => none
        | (none, _) => some (-1, s)

/-- Removes the pages of `[base, base + size)` that are not dirty (`do_unmap_vma`). -/
def do_unmap_vma (s : kstate) (t : task) (base size _vma : Nat) :
    Option (Int × kstate × task) :=
  (do_unmap_loop t.task_pml4 ((base + size) % WORD) (size / PAGE_SIZE + 2) s base).map
    fun r => (r.1, r.2, t)

/-- Removes the pages of the VMAs of `[base, base + size)` that are not dirty
(`unmap_vma_range`). -/
def unmap_vma_range (s : kstate) (t : task) (base size : Nat) :
    Option (Int × kstate × task) :=
  walk_vma_range do_unmap_vma s t base size

/-- The part of `sys_madvise` for `MADV_WILLNEED`: the range is populated with the flags of
the VMA of `addr`. -/
def madvise_willneed (s : kstate) (t : task) (addr len : Nat) : Option (Int × kstate) :=
  match task_find_vma t addr with
  | none => some (-1, s)
  | some vma =>
    (populate_region s t.task_pml4 addr len
      (convert_flags_from_vma_to_pages (t.vmas vma).vm_flags ||| PAGE_USER)).map
      fun s1 => (0, s1)

/-- The system call `madvise(addr, len, advise)` of the current task (`sys_madvise`).
`none`: a panic, or no current task. -/
def sys_madvise (s : kstate) (addr len advise : Nat) : Option (Int × kstate) :=
  match s.cur_task with
  | none => none
  | some t =>
    if check_permissions addr len 0 0 < 0 then some (-1, s)
    else
      (if advise = MADV_DONTNEED then (unmap_vma_range s t addr len).map fun r => r.2.1
       else some s).bind fun s1 =>
        if advise = MADV_WILLNEED then madvise_willneed s1 t addr len else some (0, s1)

/-! ## Swapping in -/

/-- Modelled from the spec: the disk `disks[1]` (disk.h and the drivers are not part of the
sources at hand): whether `poll` finds it ready, what `read` returns, and the bytes it holds
at each disk address; a read that does not fail copies them to the buffer. -/
structure disk where
  ready : Bool
  read_ret : Int
  data : Nat → Nat → Nat

/-- Modelled from the spec: the error code `EAGAIN` (error.h is not part of the sources at
hand); a positive number. -/
def EAGAIN : Int := 11

/-- Reads the page of the leaf entry `entry` back from the disk (`swap_in`).  The result:
the return value, the state, and whether `swap.lock` is still held at the return.  The
`return -1` behind `if (ret < 0)` is no part of the `if` (there are no braces), so the
statements that follow it, which update the entries, are never reached.  `none`: a panic. -/
def swap_in (s : kstate) (d : disk) (entry : Nat × Nat) : Option (Int × kstate × Bool) :=
  match page_alloc s ALLOC_ZERO with
  | none => none
  | some (none, s1) => some (-1, s1, false)
  | some (some swap_page, s1) =>
    if ¬ d.ready then some (-EAGAIN, s1, false)
    else
      let disk_addr := PAGE_ADDR (s1.mem entry.1 entry.2)
      let s2 : kstate :=
        if d.read_ret < 0 then s1
        else { s1 with mem := fun f => if f = swap_page then d.data disk_addr else s1.mem f }
      some (-1, s2, decide (¬ d.read_ret < 0))

/-! ## An empty VMA -/

/-- On a task without VMAs: `mmap(0x1000, 0, PROT_READ, MAP_PRIVATE | MAP_ANONYMOUS)` and then
`mmap(0x1000, 0x1000, PROT_READ | PROT_WRITE, MAP_PRIVATE | MAP_ANONYMOUS)`.  The result: the
two return values and the ranges the task maps, in the order of its list, and the in-order
sequence of the tree next to the list. -/
def empty_then_page :
    Option (Nat × Nat × List (Nat × Nat × Nat) × List Nat × List Nat) :=
  (sys_mmap no_image mmap_start_state 0x1000 0 PROT_READ (MAP_PRIVATE ||| MAP_ANONYMOUS)).bind
    fun r1 =>
      (sys_mmap no_image r1.2 0x1000 0x1000 (PROT_READ ||| PROT_WRITE)
        (MAP_PRIVATE ||| MAP_ANONYMOUS)).map fun r2 =>
        (r1.1, r2.1, (match r2.2.cur_task with
                      | none => ([], [], [])
                      | some t => (vma_ranges t, t.task_mmap, t.task_rb.inorder)))

/-- The same on the level of `create_vma`: an empty VMA at 0x1000, then the VMA
[0x1000, 0x2000). -/
def create_empty_then_page : List (Nat × Nat × Nat) :=
  vma_ranges (create_vma (create_vma empty_task 7 0x1000 0 1).2 7 0x1000 0x1000 3).2

/-! ## Scenarios: fork, exit, wait -/

/-- The allocator with the frames 16 to 31 free: they merge into one block of order 4. -/
def sixteen_free_state : kstate :=
  (free_all ((List.range 16).map (· + 16)) boot_state).getD boot_state

/-- A kernel with sixteen free frames and one user task, PID 1, whose address space is the
one of `cow_task`: the VMA [0x1000, 0x2000), the root table in frame 1, no page mapped. -/
def parent_system : system :=
  { k := sixteen_free_state,
    tasks := fun i =>
      if i = 1 then
        some { vm := cow_task, task_pid := 1, task_ppid := 0, task_children := [],
               task_zombies := [] }
      else none,
    pid_max := 65536, kernel_pml4 := 0, nuser_tasks := 1 }

/-- The task of `parent_system` forks twice: the children have the PIDs 2 and 3. -/
def two_children : Option system :=
  (sys_fork parent_system 1 0).bind fun r => (sys_fork r.2 1 0).map fun r2 => r2.2

/-- What is seen of a task and the run queue: the run queue, and of the task its children,
its zombies, the task it waits for and its saved return register. -/
def family_view (st : system) (pid : Nat) :
    List Nat × Option (List Nat × List Nat × Option Nat × Int) :=
  (st.runq, (st.tasks pid).map fun t => (t.task_children, t.task_zombies, t.task_wait, t.rax))

/-- The allocator with the frames 16 to 31 free and a current task without a VMA, whose root
table is frame 1. -/
def user_start_state : kstate :=
  { sixteen_free_state with cur_task := some { empty_task with task_pml4 := 1 } }

/-- The current task maps a page, `mmap(0x1000, 0x1000, PROT_READ | PROT_WRITE, MAP_PRIVATE |
MAP_ANONYMOUS)` on `user_start_state`, and when `touch` is set writes to it: the page fault
at 0x1000 is handled by `task_page_fault_handler`.  The result: the return values of `mmap`
and of the fault handler (0 without a fault) and the state. -/
def one_page_mapped (touch : Bool) : Option (Nat × Int × kstate) :=
  (sys_mmap no_image user_start_state 0x1000 0x1000 (PROT_READ ||| PROT_WRITE)
    (MAP_PRIVATE ||| MAP_ANONYMOUS)).bind fun r =>
    if touch then
      match r.2.cur_task with
      | none => none
      | some t =>
        (task_page_fault_handler no_image r.2 t 0x1000 (VM_READ ||| VM_WRITE)).map fun x =>
          (r.1, x.1, { x.2.1 with cur_task := some x.2.2 })
    else some (r.1, 0, r.2)

/-- After `one_page_mapped` the task calls `madvise(0x1000, len, MADV_WILLNEED)`.  The
result: the return values of `mmap` and of the fault handler, the ranges the task maps,
whether the page at 0x1000 is backed by a frame, and the return value of `madvise`, `none`
for a panic. -/
def madvise_after_mmap (touch : Bool) (len : Nat) :
    Option (Nat × Int × List (Nat × Nat × Nat) × Bool × Option Int) :=
  (one_page_mapped touch).map fun r =>
    (r.1, r.2.1, (match r.2.2.cur_task with
                  | none => []
                  | some t => vma_ranges t),
      (translate r.2.2 1 0x1000).isSome,
      (sys_madvise r.2.2 0x1000 len MADV_WILLNEED).map fun x => x.1)

/-- A disk that is ready, whose reads succeed, and that holds the byte 0x41 everywhere. -/
def ready_disk : disk := { ready := true, read_ret := 4096, data := fun _ _ => 0x41 }

/-- On `swapped_state` the page at 0x1000 is swapped out: its leaf entry holds the disk
address 0x15000 and `PAGE_WRITE`, without `PAGE_PRESENT`.  `swap_in` is called on that entry
with `ready_disk`.  The result: the leaf entry before, the return value, whether the swap
lock is still held, and the leaf entry afterwards. -/
def swap_in_swapped_page : Option (Nat × Int × Bool × Nat) :=
  swapped_state.bind fun (pml4, _, s) =>
    (swap_in s ready_disk (ptbl_of s pml4 0x1000, PAGE_TABLE_INDEX 0x1000)).map fun r =>
      (leaf_entry s pml4 0x1000, r.1, r.2.2, leaf_entry r.2.1 pml4 0x1000)

/-! ## Walks preserve what their callbacks preserve -/

/-- Every callback of the walker relates the state it returns to the state it got. -/
def callbacks_keep {υ : Type} (R : kstate → kstate → Prop) (w : page_walker υ) : Prop :=
  (∀ cb, (w.pte_callback = some cb ∨ w.pde_callback = some cb ∨ w.pdpte_callback = some cb ∨
      w.pml4e_callback = some cb ∨ w.pte_unmap = some cb ∨ w.pde_unmap = some cb ∨
      w.pdpte_unmap = some cb ∨ w.pml4e_unmap = some cb) →
    ∀ tbl idx b e u s r u1 s1, cb tbl idx b e u s = some (r, u1, s1) → R s s1) ∧
  (∀ cb, w.pt_hole_callback = some cb →
    ∀ b e u s r u1 s1, cb b e u s = some (r, u1, s1) → R s s1)

/-- Every callback of the walker returns: none of them stops the kernel. -/
def callbacks_return {υ : Type} (w : page_walker υ) : Prop :=
  (∀ cb, (w.pte_callback = some cb ∨ w.pde_callback = some cb ∨ w.pdpte_callback = some cb ∨
      w.pml4e_callback = some cb ∨ w.pte_unmap = some cb ∨ w.pde_unmap = some cb ∨
      w.pdpte_unmap = some cb ∨ w.pml4e_unmap = some cb) →
    ∀ tbl idx b e u s, (cb tbl idx b e u s).isSome = true) ∧
  (∀ cb, w.pt_hole_callback = some cb → ∀ b e u s, (cb b e u s).isSome = true)

/-! ## The OOM killer -/

/-- The increment `x++` of a C `int`, which wraps at 32 bits. -/
def int_incr (x : Int) : Int := (x + 1 + 2 ^ 31) % 2 ^ 32 - 2 ^ 31

/-- Counts an entry that is present (`read_all_pte`); the user data of the walker is the
field `oom_score` of `struct oom_info`. -/
def read_all_pte : pt_callback Int := fun tbl idx _ _ oom_score s =>
  if s.mem tbl idx &&& PAGE_PRESENT ≠ 0 then some (0, int_incr oom_score, s)
  else some (0, oom_score, s)

/-- Walks all pages below `KERNEL_LIM` (`walk_all_pages`).  The constant is defined in a
header that is not part of the sources at hand: it is the parameter `lim`. -/
def walk_all_pages {υ : Type} (w : page_walker υ) (lim pml4 : Nat) (u : υ) (s : kstate) :
    walk_result υ :=
  pml4_walk_range w pml4 0 lim u s

/-- The OOM score of a task: the number of present entries of its page tables, -1 when the
walk fails (`get_oom_score`).  `none`: a panic. -/
def get_oom_score (s : kstate) (lim : Nat) (task : task) : Option (Int × kstate) :=
  (walk_all_pages { pte_callback := some read_all_pte } lim task.task_pml4 0 s).map fun r =>
    (if r.1 < 0 then -1 else r.2.1, r.2.2)

/-- One round of the loop of `oom_kill`, for `pid`: a PID without a task, a kernel task and
a task with a negative score are passed over; a task whose score is higher than the highest
so far becomes the task to delete.  Returns `highest_oom_score`, `task_to_delete` and the
state.  `none`: a panic. -/
def oom_kill_body (st : system) (cur lim pid : Nat) (highest_oom_score : Int)
    (task_to_delete : Option Nat) (s : kstate) : Option (Int × Option Nat × kstate) :=
  match pid2task st cur pid false with
  | pid_lookup.outside _ => none
  | pid_lookup.found none => some (highest_oom_score, task_to_delete, s)
  | pid_lookup.found (some task) =>
    match st.tasks task with
    | none => none
    | some t =>
      if t.task_type = task_type.kernel then some (highest_oom_score, task_to_delete, s)
      else
        (get_oom_score s lim t.vm).map fun r =>
          if r.1 < 0 then (highest_oom_score, task_to_delete, r.2)
          else if r.1 > highest_oom_score then (r.1, some task, r.2)
          else (highest_oom_score, task_to_delete, r.2)

/-- The loop `for (pid = 1; pid < pid_max; pid++)` of `oom_kill` with `n` rounds to go. -/
def oom_kill_loop (st : system) (cur lim : Nat) :
    Nat → Nat → Int → Option Nat → kstate → Option (Int × Option Nat × kstate)
  | 0, _, highest_oom_score, task_to_delete, s => some (highest_oom_score, task_to_delete, s)
  | n + 1, pid, highest_oom_score, task_to_delete, s =>
    (oom_kill_body st cur lim pid highest_oom_score task_to_delete s).bind fun r =>
      oom_kill_loop st cur lim n (pid + 1) r.1 r.2.1 r.2.2

/-- Picks the task to kill under memory pressure (`oom_kill`): returns the task it hands to
`task_destroy`.  `none`: a panic, or the assertion `assert(task_to_delete)` failed. -/
def oom_kill (st : system) (cur lim : Nat) : Option Nat :=
  (oom_kill_loop st cur lim (st.pid_max - 1) 1 0 none st.k).bind fun r => r.2.1

/-- The score `get_oom_score` returns for a task, `none` when it does not return. -/
def oom_score_of (s : kstate) (lim : Nat) (task : task) : Option Int :=
  (get_oom_score s lim task).map Prod.fst

/-- Page tables for the tasks of `oom_system`: the root table of a task is the frame
`10 * pid`; its first entry leads through the frames `10 * pid + 1` and `10 * pid + 2` to
the page table in frame `10 * pid + 3`, whose first `10 * (pid - 1)` entries are present,
except that the page table of the task 1 has 40 present entries. -/
def oom_tables : kstate :=
  { boot_state with
    mem := fun f i =>
      if f % 10 ≤ 2 ∧ 10 ≤ f ∧ f < 50 ∧ i = 0 then
        page2pa (f + 1) ||| PAGE_PRESENT ||| PAGE_WRITE ||| PAGE_USER
      else if f = 13 ∧ i < 40 then page2pa (100 + i) ||| PAGE_PRESENT ||| PAGE_USER
      else if f = 23 ∧ i < 10 then page2pa (200 + i) ||| PAGE_PRESENT ||| PAGE_USER
      else if f = 33 ∧ i < 20 then page2pa (300 + i) ||| PAGE_PRESENT ||| PAGE_USER
      else if f = 43 ∧ i < 30 then page2pa (400 + i) ||| PAGE_PRESENT ||| PAGE_USER
      else 0 }

/-- A system with the kernel task 1, whose tables hold 40 present entries, and the user
tasks 2, 3 and 4 with 10, 20 and 30 present entries. -/
def oom_system : system :=
  { k := oom_tables,
    tasks := fun i =>
      if 1 ≤ i ∧ i ≤ 4 then
        some { vm := { empty_task with task_pml4 := 10 * i }, task_pid := i, task_ppid := 0,
               task_children := [], task_zombies := [],
               task_type := if i = 1 then task_type.kernel else task_type.user }
      else none,
    pid_max := 8, kernel_pml4 := 0, nuser_tasks := 4, nkernel_tasks := 1 }

/-- The scores `get_oom_score` gives the tasks 1 to 4 of `oom_system`. -/
def oom_scores (lim : Nat) : List (Option Int) :=
  [1, 2, 3, 4].map fun pid =>
    oom_score_of oom_system.k lim { empty_task with task_pml4 := 10 * pid }

/-- What the loop of `oom_kill` knows before the round of `pid`: the highest score so far is
not negative, and 0 as long as no task is picked; every user task below `pid` has a score
that is not higher, and the task picked is the first one with the highest score; the task
picked is a user task below `pid` with a positive score. -/
def oom_scanned (st : system) (lim pid : Nat) (highest : Int) (victim : Option Nat) :
    Prop :=
  0 ≤ highest ∧ (victim = none → highest = 0) ∧
  (∀ q u, 0 < q → q < pid → st.tasks q = some u → u.task_type = task_type.user →
    ∃ sc, get_oom_score st.k lim u.vm = some (sc, st.k) ∧ sc ≤ highest ∧
      (sc = highest → ∀ v, victim = some v → v ≤ q)) ∧
  (∀ v, victim = some v → 0 < v ∧ v < pid ∧ 0 < highest ∧
    ∃ t, st.tasks v = some t ∧ t.task_type = task_type.user ∧
      get_oom_score st.k lim t.vm = some (highest, st.k))

/-! ## Scenarios: exit of a child and wait -/

/-- The scheduler takes the next task from the global run queue and the task exits: the
task popped by `queue_pop_task` is handed to its parent by `make_zombie_or_free`, as
`task_destroy` does for the current task.  Returns the PID of the task and the system. -/
def next_task_exits (st : system) (parent_task : Nat) : Option (Nat × system) :=
  match queue_pop_task st.runq with
  | (none, _) => none
  | (some task, q) =>
    (make_zombie_or_free { st with runq := q } task parent_task).map fun st1 => (task, st1)

/-- The task 1 of `parent_system` forks the children 2 and 3 and calls `waitpid(2)`; then
the next task of the run queue, child 3, exits.  The result: how the call of `waitpid` ends,
the view of the parent and the run queue behind that call, the PID of the child that exits,
and the view of the parent and the run queue after the exit. -/
def other_child_exits :
    Option (wait_result × (List Nat × Option (List Nat × List Nat × Option Nat × Int)) ×
      Nat × (List Nat × Option (List Nat × List Nat × Option Nat × Int))) :=
  two_children.bind fun st =>
    (waitpid st 1 2).bind fun r =>
      (next_task_exits r.2 1).map fun x => (r.1, family_view r.2 1, x.1, family_view x.2 1)

/-- The task 1 of `parent_system` forks the child 2; the child is run and exits; then the
parent calls `waitpid(2)`.  The result: the PID of the child that exits, the view of the
parent and the run queue after the exit, whether the slot of the child in the PID table is
still set, and how the call of `waitpid` ends. -/
def wait_for_only_child :
    Option (Nat × (List Nat × Option (List Nat × List Nat × Option Nat × Int)) × Bool ×
      wait_result) :=
  (sys_fork parent_system 1 0).bind fun r =>
    (next_task_exits r.2 1).bind fun x =>
      (waitpid x.2 1 2).map fun w =>
        (x.1, family_view x.2 1, (x.2.tasks 2).isSome, w.1)

/-- The task 1 of `parent_system` forks the children 2 and 3; child 3 is run and exits; then
the parent calls `wait`, or `waitpid(3)` when `pid` is 3.  The result: the PID of the child
that exits, the view of the parent and the run queue after the exit, how the call ends,
whether the slot of child 3 in the PID table is still set after the call, and the view of
the parent after the call. -/
def wait_with_zombie (pid : Int) :
    Option (Nat × (List Nat × Option (List Nat × List Nat × Option Nat × Int)) ×
      wait_result × Bool × (List Nat × Option (List Nat × List Nat × Option Nat × Int))) :=
  two_children.bind fun st =>
    (next_task_exits st 1).bind fun x =>
      (waitpid x.2 1 pid).map fun w =>
        (x.1, family_view x.2 1, w.1, (w.2.tasks 3).isSome, family_view w.2 1)

/-- The task 1 of `parent_system` is cloned and the child is freed.  The result: the PID of
the child, the number of free frames before the clone, after the clone and after
`task_free`, whether the slot of the child in the PID table is set after `task_free`, and the
root table of the child with its reference count and its free flag after `task_free`. -/
def clone_then_free :
    Option (Option Nat × Nat × Nat × Nat × Bool × Option (Nat × Nat × Bool)) :=
  (task_clone parent_system 1 0).bind fun r =>
    match r.1 with
    | none => none
    | some child =>
      (task_free r.2 child).map fun st =>
        (r.1, count_total_free_pages parent_system.k, count_total_free_pages r.2.k,
          count_total_free_pages st.k, (st.tasks child).isSome,
          (r.2.tasks child).map fun c =>
            (c.vm.task_pml4, (st.k.pages c.vm.task_pml4).pp_ref,
              (st.k.pages c.vm.task_pml4).pp_free))

/-! ## The free memory the OOM and swap threads look at -/

/-- The loop of `get_total_free_memory` over the orders from `order` on, with `n` orders to
go: the nodes of the free list are counted, `free_memory` is set to the bytes of the blocks of
this order and added to `total_free_memory`.  Returns `free_memory` and
`total_free_memory`, both `uint64_t`. -/
def get_total_free_memory_loop (s : kstate) : Nat → Nat → Nat → Nat → Nat × Nat
  | 0, _, free_memory, total_free_memory => (free_memory, total_free_memory)
  | n + 1, order, _, total_free_memory =>
    let cnt_per_order := (s.buddy_free_list order).length
    let free_memory := (2 ^ order * cnt_per_order * PAGE_SIZE) % WORD
    get_total_free_memory_loop s n (order + 1) free_memory
      ((total_free_memory + free_memory) % WORD)

/-- The amount of free memory in the buddy free lists (`get_total_free_memory`): the
function ends with `return free_memory`. -/
def get_total_free_memory (s : kstate) : Nat :=
  (get_total_free_memory_loop s BUDDY_MAX_ORDER 0 0 0).1

/-- The free memory summed over all orders, as the specification words it: the sum over `k`
in `[0, BUDDY_MAX_ORDER)` of `count_free_pages(k) * 2^k * PAGE_SIZE`. -/
def summed_free_memory (s : kstate) : Nat :=
  ((List.range BUDDY_MAX_ORDER).map fun k => count_free_pages s k * 2 ^ k * PAGE_SIZE).sum

/-! ## Scenarios: a child exits after the wait of the parent is over -/

/-- What is seen of the accounting of a wait: `nuser_tasks`, and the view of the task and
the run queue. -/
def wait_view (st : system) (pid : Nat) :
    Nat × List Nat × Option (List Nat × List Nat × Option Nat × Int) :=
  (st.nuser_tasks, family_view st pid)

/-- The task 1 of `parent_system` forks the children 2 and 3 and calls `waitpid(3)`, which
blocks.  Child 3, the next task of the run queue, exits and wakes the parent.  The scheduler
takes the parent from the run queue and runs it.  Then child 2, the next task of the run
queue, exits.  The result: how the call of `waitpid` ends and the view of the parent behind
it; the child that exits first and the view behind its exit; the task the scheduler takes
and the view while that task runs; the child that exits then and the view behind its
exit. -/
def exit_after_wakeup :
    Option (wait_result × (Nat × List Nat × Option (List Nat × List Nat × Option Nat × Int)) ×
      Nat × (Nat × List Nat × Option (List Nat × List Nat × Option Nat × Int)) ×
      Nat × (Nat × List Nat × Option (List Nat × List Nat × Option Nat × Int)) ×
      Nat × (Nat × List Nat × Option (List Nat × List Nat × Option Nat × Int))) :=
  two_children.bind fun st0 =>
    (waitpid st0 1 3).bind fun r =>
      (next_task_exits r.2 1).bind fun x =>
        match queue_pop_task x.2.runq with
        | (none, _) => none
        | (some running, q) =>
          let st2 : system := { x.2 with runq := q }
          (next_task_exits st2 1).map fun y =>
            (r.1, wait_view r.2 1, x.1, wait_view x.2 1, running, wait_view st2 1, y.1,
              wait_view y.2 1)

/-- The task 1 of `parent_system` forks the children 2 and 3; child 3 is run and exits; the
parent calls `waitpid(3)`, which returns at once; then child 2, the next task of the run
queue, exits while the parent runs.  The result: how the call of `waitpid` ends and the view
of the parent behind it; the child that exits then and the view behind its exit. -/
def exit_after_immediate_wait :
    Option (wait_result × (Nat × List Nat × Option (List Nat × List Nat × Option Nat × Int)) ×
      Nat × (Nat × List Nat × Option (List Nat × List Nat × Option Nat × Int))) :=
  two_children.bind fun st0 =>
    (next_task_exits st0 1).bind fun x =>
      (waitpid x.2 1 3).bind fun w =>
        (next_task_exits w.2 1).map fun y => (w.1, wait_view w.2 1, y.1, wait_view y.2 1)

/-! ## Reverse maps -/

/-- The lists of the reverse maps of a task as `rmap_walk` reads them: for the address of a
`struct rmap`, the VMAs on its list, each with the root table of its task, its base and its
end.  The VMAs a fork links on the reverse map of another task are not part of this view. -/
def task_rmaps (t : task) (rmap : Nat) : List (Nat × Nat × Nat) :=
  (t.rmap_vmas rmap).map fun v => (t.task_pml4, (t.vmas v).vm_base, (t.vmas v).vm_end)

/-- The loop of `rmap_walk` over the VMAs on the list of the reverse map: the range of each
VMA is walked in the page table of its task; a walk that fails is passed over. -/
def rmap_walk_loop {υ : Type} (w : page_walker υ) :
    List (Nat × Nat × Nat) → υ → kstate → Option (υ × kstate)
  | [], u, s => some (u, s)
  | vma :: rest, u, s =>
    (walk_page_range w vma.1 vma.2.1 vma.2.2 u s).bind fun r =>
      rmap_walk_loop w rest r.2.1 r.2.2

/-- Runs the walker over every VMA on the reverse map of the frame (`rmap_walk`).  `rmaps`
gives the list of each reverse map.  `none`: a callback stopped the kernel, the frame has no
reverse map, or the list of its reverse map is empty (the two assertions). -/
def rmap_walk {υ : Type} (rmaps : Nat → List (Nat × Nat × Nat)) (w : page_walker υ)
    (page : Nat) (u : υ) (s : kstate) : Option (υ × kstate) :=
  if (s.pages page).rmap = 0 then none
  else if rmaps (s.pages page).rmap = [] then none
  else rmap_walk_loop w (rmaps (s.pages page).rmap) u s

/-- A callback for leaf entries that records the entry it is called on and its argument
`base`, and changes nothing. -/
def record_pte : pt_callback (List (Nat × Nat × Nat)) := fun tbl idx base _ log s =>
  some (0, log ++ [(tbl, idx, base)], s)

/-- The leaf entries `rmap_walk` calls the leaf callback on for a frame, in the order of the
calls, with the argument `base` of each call. -/
def rmap_visits (rmaps : Nat → List (Nat × Nat × Nat)) (page : Nat) (s : kstate) :
    Option (List (Nat × Nat × Nat)) :=
  (rmap_walk rmaps { pte_callback := some record_pte } page [] s).map fun r => r.1

/-! ## Swapping out -/

/-- The user data of the clock walker (`struct clock_info`). -/
structure clock_info where
  accessed : Bool
  pa : Nat
deriving DecidableEq, Repr

/-- Notes whether a present leaf entry that names the frame has `PAGE_ACCESSED` set, and
clears the bit (`check_access_flag`). -/
def check_access_flag : pt_callback clock_info := fun tbl idx _ _ info s =>
  if s.mem tbl idx &&& PAGE_PRESENT ≠ 0 ∧ PAGE_ADDR (s.mem tbl idx) = info.pa
      ∧ s.mem tbl idx &&& PAGE_ACCESSED ≠ 0 then
    some (0, { info with accessed := true },
      set_entry s tbl idx (s.mem tbl idx &&& (WORD - 1 - PAGE_ACCESSED)))
  else some (0, info, s)

/-- One step of the clock (`check_clock`): the frame at the tail of the swap list is taken
off; if one of the entries that name it was accessed the frame goes to the head of the list
and the result is `NULL`, otherwise the frame is the result.  `none`: a panic; on an empty
list too, where `container_of` makes a pointer of the `NULL` node that is then followed. -/
def check_clock (rmaps : Nat → List (Nat × Nat × Nat)) (s : kstate) :
    Option (Option Nat × kstate) :=
  match list_pop_tail s.swap_pages with
  | (none, _) => none
  | (some page, rest) =>
    (rmap_walk rmaps { pte_callback := some check_access_flag } page
      { accessed := false, pa := page2pa page } { s with swap_pages := rest }).map fun r =>
      if r.1.accessed then (none, mru_swap_page r.2 page) else (some page, r.2)

/-- The loop `while (!page) page = check_clock();` of `get_page`, one call of `check_clock`
per unit of fuel. -/
def get_page_loop (rmaps : Nat → List (Nat × Nat × Nat)) : Nat → kstate → Option (Nat × kstate)
  | 0, _ => none
  | fuel + 1, s =>
    (check_clock rmaps s).bind fun r =>
      match r.1 with
      | some page => some (page, r.2)
      | none => get_page_loop rmaps fuel r.2

/-- Picks the frame to swap out (`get_page`), with at most `fuel` calls of `check_clock`:
`NULL` on an empty swap list.  `none`: a panic, or the calls did not suffice. -/
def get_page (rmaps : Nat → List (Nat × Nat × Nat)) (fuel : Nat) (s : kstate) :
    Option (Option Nat × kstate) :=
  if s.swap_pages = [] then some (none, s)
  else (get_page_loop rmaps fuel s).map fun r => (some r.1, r.2)

/-- The user data of the walkers that rewrite the entries of a frame (`struct rmap_info`);
`pa` is not read when a frame is swapped out. -/
structure rmap_info where
  page : Nat
  disk_addr : Nat
deriving DecidableEq, Repr

/-- Rewrites a leaf entry whose address field holds the address of the frame to the disk
address (`update_pte_swap_out`).  `page_mask` is `PAGE_MASK`, whose definition is not part
of the sources at hand.  `none`: the assertion that the entry is present failed. -/
def update_pte_swap_out (page_mask : Nat) : pt_callback rmap_info := fun tbl idx _ _ info s =>
  if PAGE_ADDR (s.mem tbl idx) = page2pa info.page then
    if ¬ (s.mem tbl idx &&& PAGE_PRESENT ≠ 0) then none
    else
      let s1 := set_entry s tbl idx (s.mem tbl idx &&& (WORD - 1 - PAGE_PRESENT))
      let s2 := set_entry s1 tbl idx (s1.mem tbl idx &&& page_mask)
      let s3 := set_entry s2 tbl idx ((s2.mem tbl idx + info.disk_addr) % WORD)
      some (0, info,
        set_page s3 info.page (fun p => { p with pp_ref := (p.pp_ref + 65535) % 65536 }))
  else some (0, info, s)

/-- Rewrites all entries of the frame to the disk address (`update_rmap_ptes_swap_out`). -/
def update_rmap_ptes_swap_out (rmaps : Nat → List (Nat × Nat × Nat)) (page_mask : Nat)
    (s : kstate) (page disk_addr : Nat) : Option kstate :=
  (rmap_walk rmaps { pte_callback := some (update_pte_swap_out page_mask) } page
    { page := page, disk_addr := disk_addr } s).map fun r => r.2

/-- What `swap_out` works on besides the kernel state: the disk, whether its `write`
succeeds, and the counter `free_disk_addr`. -/
structure swap_device where
  d : disk
  write_ret : Int
  free_disk_addr : Nat

/-- Swaps one frame out (`swap_out`): the frame `get_page` picks is written to the next free
disk address, the entries that name it are rewritten, and the frame is freed.  Returns the
return value, the state and the device.  `none`: a panic. -/
def swap_out (rmaps : Nat → List (Nat × Nat × Nat)) (page_mask fuel : Nat) (s : kstate)
    (dev : swap_device) : Option (Int × kstate × swap_device) :=
  if ¬ dev.d.ready then some (-1, s, dev)
  else
    (get_page rmaps fuel s).bind fun g =>
      match g.1 with
      | none => some (-1, g.2, dev)
      | some swap_page =>
        let disk_addr := dev.free_disk_addr
        let dev1 : swap_device := { dev with free_disk_addr := (disk_addr + PAGE_SIZE) % WORD }
        if dev.write_ret < 0 then some (-1, g.2, dev1)
        else
          let dev2 : swap_device :=
            { dev1 with d := { dev1.d with data := fun a =>
                if a = disk_addr then g.2.mem swap_page else dev1.d.data a } }
          ((update_rmap_ptes_swap_out rmaps page_mask g.2 swap_page disk_addr).bind
            fun s1 => page_free s1 swap_page).map fun s2 => (0, s2, dev2)

/-! ## Scenarios: reverse maps and swapping out -/

/-- On `user_start_state` the current task maps two pages, `mmap(0x1000, 0x2000, PROT_READ |
PROT_WRITE, MAP_PRIVATE | MAP_ANONYMOUS)`, and writes to both: the page faults at 0x1000 and
at 0x2000 are handled by `task_page_fault_handler`.  The result: the state, with the current
task in it. -/
def two_pages_touched : Option kstate :=
  (sys_mmap no_image user_start_state 0x1000 0x2000 (PROT_READ ||| PROT_WRITE)
    (MAP_PRIVATE ||| MAP_ANONYMOUS)).bind fun r =>
    r.2.cur_task.bind fun t =>
      (task_page_fault_handler no_image r.2 t 0x1000 (VM_READ ||| VM_WRITE)).bind fun x =>
        let s1 : kstate := { x.2.1 with cur_task := some x.2.2 }
        (task_page_fault_handler no_image s1 x.2.2 0x2000 (VM_READ ||| VM_WRITE)).map
          fun y => { y.2.1 with cur_task := some y.2.2 }

/-- On `two_pages_touched` the VMA of the task is split at 0x2000.  The result: the VMA and
the new VMA `split_vma` returns, the ranges the task maps afterwards, the frame that backs
the page at 0x2000, the reverse map of that frame, the reverse maps of the two VMAs, the
VMAs on the list of the reverse map of the frame, and the leaf entries `rmap_walk` visits for
the frame before and after the split. -/
def split_touched_vma :
    Option (Nat × Option Nat × List (Nat × Nat × Nat) × Option Nat × Nat × Nat × Option Nat ×
      List Nat × Option (List (Nat × Nat × Nat)) × Option (List (Nat × Nat × Nat))) :=
  two_pages_touched.bind fun s =>
    s.cur_task.bind fun t =>
      (task_find_vma t 0x2000).bind fun v =>
        (translate s t.task_pml4 0x2000).bind fun f =>
          (split_vma t v 0x2000).map fun r =>
            (v, r.1, vma_ranges r.2, some f, (s.pages f).rmap, (r.2.vmas v).rmap,
              r.1.map (fun n => (r.2.vmas n).rmap), r.2.rmap_vmas (s.pages f).rmap,
              rmap_visits (task_rmaps t) f s, rmap_visits (task_rmaps r.2) f s)

/-- A swap device whose disk is ready and whose reads and writes succeed, with the next
free disk address `addr`. -/
def ready_device (addr : Nat) : swap_device :=
  { d := ready_disk, write_ret := 4096, free_disk_addr := addr }

/-- On `two_pages_touched`, where frame 19 backs the page at 0x1000 and frame 20 the page at
0x2000, two frames are swapped out.  The next free disk address is 0x14000, the number of
the physical address of frame 20, so that the first `swap_out` leaves this disk address in
the entry of 0x1000.  `page_mask` stands for `PAGE_MASK`.  The result: the swap list at the
start; the return value of the first `swap_out`, the swap list, the two leaf entries, the
reference count and the free flag of frame 19 behind it; and the return value of the second
`swap_out`, `none` for a panic. -/
def swap_out_twice (page_mask : Nat) :
    Option (List Nat × (Int × List Nat × Nat × Nat × Nat × Bool) × Option Int) :=
  two_pages_touched.bind fun s =>
    s.cur_task.bind fun t =>
      (swap_out (task_rmaps t) page_mask 3 s (ready_device 0x14000)).map fun r =>
        (s.swap_pages,
          (r.1, r.2.1.swap_pages, leaf_entry r.2.1 t.task_pml4 0x1000,
            leaf_entry r.2.1 t.task_pml4 0x2000, (r.2.1.pages 19).pp_ref,
            (r.2.1.pages 19).pp_free),
          (swap_out (task_rmaps t) page_mask 3 r.2.1 r.2.2).map fun x => x.1)

/-- An access to the page at `va`: the MMU sets `PAGE_ACCESSED` in the leaf entry of the
page. -/
def access_page (s : kstate) (pml4 va : Nat) : kstate :=
  set_entry s (ptbl_of s pml4 va) (PAGE_TABLE_INDEX va) (leaf_entry s pml4 va ||| PAGE_ACCESSED)

/-- On `two_pages_touched`, where frame 19 backs the page at 0x1000 and frame 20 the page at
0x2000 and the swap list is [20, 19], the task accesses both pages and `get_page` is called
with at most `fuel` calls of `check_clock`; with `split` set, the VMA of the task is split at
0x2000 before.  The result: the frame `get_page` returns, the swap list and the leaf entries
of 0x1000 and 0x2000 behind it. -/
def get_page_of_two (split : Bool) (fuel : Nat) : Option (Option Nat × List Nat × Nat × Nat) :=
  two_pages_touched.bind fun s =>
    s.cur_task.bind fun t =>
      (task_find_vma t 0x2000).bind fun v =>
        (split_vma t v 0x2000).bind fun r =>
          let s1 := access_page (access_page s t.task_pml4 0x1000) t.task_pml4 0x2000
          (get_page (task_rmaps (if split then r.2 else t)) fuel s1).map fun g =>
            (g.1, g.2.swap_pages, leaf_entry g.2 t.task_pml4 0x1000,
              leaf_entry g.2 t.task_pml4 0x2000)

/-! ## The scheduler -/

/-- Modelled from the spec: the part of `struct cpuinfo` that the scheduler uses (cpu.h is
not part of the sources at hand): the local run queue `runq` and the local next queue
`nextq`, which hold the PIDs of the tasks linked on them, head first, the counter `runq_len`,
a `size_t`, and the current task of the CPU, which `cur_task` stands for. -/
structure cpuinfo where
  runq : List Nat := []
  nextq : List Nat := []
  runq_len : Nat := 0
  cpu_task : Option Nat := none
deriving DecidableEq, Repr

/-- The state the scheduler works on: the array `cpus` with its length `ncpus`, the index of
the CPU that runs the code (`this_cpu`), the global run queue `runq`, the counters
`nuser_tasks` and `nkernel_tasks`, and of every task its status and its jiffies.  A task is
identified with its PID. -/
structure sched_state where
  cpus : Nat → cpuinfo
  ncpus : Nat
  this_cpu : Nat
  runq : List Nat := []
  nuser_tasks : Nat := 0
  nkernel_tasks : Nat := 0
  status : Nat → task_status := fun _ => task_status.runnable
  jiffies : Nat → Nat := fun _ => 0

/-- The `struct cpuinfo` that `this_cpu` points to. -/
def cur_cpu (s : sched_state) : cpuinfo := s.cpus s.this_cpu

/-- A store through `this_cpu`. -/
def set_cpu (s : sched_state) (f : cpuinfo → cpuinfo) : sched_state :=
  { s with cpus := fun i => if i = s.this_cpu then f (s.cpus i) else s.cpus i }

/-- Modelled from the spec: the argument `INC` of the counters. -/
def INC : Int := 1

/-- Modelled from the spec: the argument `DEC` of the counters. -/
def DEC : Int := -1

/-- Initialises the local queues of the CPU (`sched_init_mp`). -/
def sched_init_mp (s : sched_state) : sched_state :=
  set_cpu s fun c => { c with runq := [], nextq := [], runq_len := 0 }

/-- Adds `set` to the counter of the local run queue (`local_runq_len_set`).  `none`: the
assertion fails, the counter was to be decremented below 1. -/
def local_runq_len_set (set : Int) (s : sched_state) : Option sched_state :=
  let runq_len_error := decide (set = DEC ∧ (cur_cpu s).runq_len < 1)
  let s1 := set_cpu s fun c => { c with runq_len := (((c.runq_len : Int) + set) % WORD).toNat }
  if runq_len_error then none else some s1

/-- Modelled from the spec: `list_head(head)` of list.h, which is not part of the sources at
hand: the first node of the list, `NULL` on an empty list. -/
def list_head (q : List Nat) : Option Nat := q.head?

/-- Makes the next queue the run queue (`move_nextq_to_runq`).  With a node on the next
queue, `list_del(&this_cpu->nextq)` takes the head of the next queue out of the ring of its
nodes, and `list_insert_before(head_task_node, &this_cpu->runq)` links the head of the run
queue into that ring in front of the first node: the run queue then holds the nodes of the
former next queue, and what was linked on it before is no longer reached from it. -/
def move_nextq_to_runq (s : sched_state) : sched_state :=
  match list_head (cur_cpu s).nextq with
  | none => s
  | some _ => set_cpu s fun c => { c with runq := c.nextq, nextq := [] }

/-- Puts the current task on the local next queue (`move_cur_task_to_nextq`).  `pidmap_lim`
is `PIDMAP_LIM`, whose definition is not part of the sources at hand.  `none`: an assertion
fails. -/
def move_cur_task_to_nextq (pidmap_lim : Nat) (s : sched_state) : Option sched_state :=
  match (cur_cpu s).cpu_task with
  | none => some s
  | some cur =>
    if ¬ (cur > 0 ∧ cur ≤ pidmap_lim) then none
    else
      local_runq_len_set INC
        (set_cpu s fun c => { c with nextq := queue_add_task s.jiffies c.nextq cur })

/-- The first loop of `migrate_tasks_runq`: tasks move from the global run queue to the local
one.  One round per unit of fuel; `none` when the fuel runs out. -/
def migrate_in_loop (task_foreach_cpu : Nat) : Nat → sched_state → Option sched_state
  | 0, _ => none
  | fuel + 1, s =>
    if (cur_cpu s).runq_len < task_foreach_cpu then
      match queue_pop_task s.runq with
      | (none, _) => some s
      | (some task_to_move, q) =>
        let s1 : sched_state := { s with runq := q }
        let s2 := set_cpu s1 fun c =>
          { c with runq := queue_add_task s1.jiffies c.runq task_to_move }
        (local_runq_len_set INC s2).bind (migrate_in_loop task_foreach_cpu fuel)
    else some s

/-- The second loop of `migrate_tasks_runq`: tasks move from the local run queue to the
global one.  One round per unit of fuel; `none` when the fuel runs out or an assertion
fails. -/
def migrate_out_loop (task_foreach_cpu : Nat) : Nat → sched_state → Option sched_state
  | 0, _ => none
  | fuel + 1, s =>
    if (cur_cpu s).runq_len > task_foreach_cpu then
      let r := queue_pop_task (cur_cpu s).runq
      let s1 := set_cpu s fun c => { c with runq := r.2 }
      if ¬ (cur_cpu s1).runq_len ≥ 1 then none
      else
        (local_runq_len_set DEC s1).bind fun s2 =>
          match r.1 with
          | none => none
          | some task_to_move =>
            migrate_out_loop task_foreach_cpu fuel
              { s2 with runq := queue_add_task s2.jiffies s2.runq task_to_move }
    else some s

/-- Balances the local run queue against the global one (`migrate_tasks_runq`); each loop
runs with the fuel `fuel`. -/
def migrate_tasks_runq (fuel task_foreach_cpu : Nat) (s : sched_state) : Option sched_state :=
  (migrate_in_loop task_foreach_cpu fuel s).bind (migrate_out_loop task_foreach_cpu fuel)

/-- How a call that does not return ends: `task_pop_frame` drops into the task that was
selected; or `task_run` calls `task_destroy` on a task; or the CPU stays in the loop behind
"No tasks remaining!". -/
inductive sched_result where
  | runs (s : sched_state) : sched_result
  | destroys (task : Nat) (s : sched_state) : sched_result
  | hangs (s : sched_state) : sched_result

/-- Switches to a task (`task_run`).  `pidmap_lim` is `PIDMAP_LIM`.  `none`: the assertion on
the PID fails. -/
def task_run (pidmap_lim : Nat) (s : sched_state) (task : Nat) : Option sched_result :=
  let step1 : Option Nat × sched_state :=
    match (cur_cpu s).cpu_task with
    | none => (none, s)
    | some cur =>
      if s.status cur = task_status.running then
        (none, { s with status := fun t => if t = cur then task_status.runnable else s.status t })
      else if s.status cur = task_status.dying ∨ s.status cur = task_status.not_runnable then
        (some cur, s)
      else (none, s)
  match step1 with
  | (some cur, s1) => some (sched_result.destroys cur s1)
  | (none, s1) =>
    let s2 := set_cpu s1 fun c => { c with cpu_task := some task }
    if s2.status task = task_status.dying then some (sched_result.destroys task s2)
    else
      let s3 : sched_state :=
        { s2 with status := fun t => if t = task then task_status.running else s2.status t }
      if ¬ (task > 0 ∧ task ≤ pidmap_lim) then none
      else some (sched_result.runs s3)

/-- Runs the next task of the local run queue (`try_run_next_task`).  `some none`: the call
returns -1 and leaves the state as it is; `some (some r)`: `task_run` took over and ended
with `r`; `none`: an assertion fails. -/
def try_run_next_task (pidmap_lim : Nat) (s : sched_state) : Option (Option sched_result) :=
  if (cur_cpu s).runq = [] then some none
  else
    let r := queue_pop_task (cur_cpu s).runq
    let s1 := set_cpu s fun c => { c with runq := r.2 }
    if ¬ (cur_cpu s1).runq_len ≥ 1 then none
    else
      (local_runq_len_set DEC s1).bind fun s2 =>
        match r.1 with
        | none => none
        | some task => (task_run pidmap_lim s2 task).map some

/-- Balances the queues under the big kernel lock (`BKL_migrate_tasks`). -/
def BKL_migrate_tasks (fuel task_foreach_cpu : Nat) (s : sched_state) : Option sched_state :=
  let s1 := move_nextq_to_runq s
  if (cur_cpu s1).runq_len ≠ task_foreach_cpu then migrate_tasks_runq fuel task_foreach_cpu s1
  else some s1

/-- Balances the queues under fine-grained locking (`FGL_migrate_tasks`); `trylock` tells
whether `spin_trylock(&runq_lock)` takes the lock. -/
def FGL_migrate_tasks (trylock : Bool) (fuel task_foreach_cpu : Nat) (s : sched_state) :
    Option sched_state :=
  let s1 := move_nextq_to_runq s
  if (cur_cpu s1).runq_len = task_foreach_cpu then some s1
  else if trylock then migrate_tasks_runq fuel task_foreach_cpu s1
  else some s1

/-- The call of `sched_yield` that balances the queues: `BKL_migrate_tasks` when
`USE_BIG_KERNEL_LOCK` is defined, which `fgl = none` stands for, and `FGL_migrate_tasks`
otherwise, where `fgl` tells whether `spin_trylock` takes the lock of the global run
queue. -/
def migrate_tasks (fgl : Option Bool) (fuel task_foreach_cpu : Nat) (s : sched_state) :
    Option sched_state :=
  match fgl with
  | none => BKL_migrate_tasks fuel task_foreach_cpu s
  | some trylock => FGL_migrate_tasks trylock fuel task_foreach_cpu s

/-- The scheduler (`sched_yield`), one call per unit of `fuel`; the loops of
`migrate_tasks_runq` run with the fuel `loop_fuel`.  `fgl` selects the locking, as in
`migrate_tasks`, and `pidmap_lim` is `PIDMAP_LIM`.  `none`: an assertion fails, the division
by `ncpus` faults, or the fuel runs out. -/
def sched_yield (pidmap_lim : Nat) (fgl : Option Bool) (loop_fuel : Nat) :
    Nat → sched_state → Option sched_result
  | 0, _ => none
  | fuel + 1, s =>
    if s.nuser_tasks = s.nkernel_tasks then some (sched_result.hangs s)
    else
      (move_cur_task_to_nextq pidmap_lim s).bind fun s1 =>
        (try_run_next_task pidmap_lim s1).bind fun r1 =>
          match r1 with
          | some r => some r
          | none =>
            if s1.ncpus = 0 then none
            else
              let task_foreach_cpu := ((s1.nuser_tasks + (s1.ncpus - 1)) % WORD) / s1.ncpus
              (migrate_tasks fgl loop_fuel task_foreach_cpu s1).bind fun s2 =>
                (try_run_next_task pidmap_lim s2).bind fun r2 =>
                  match r2 with
                  | some r => some r
                  | none => sched_yield pidmap_lim fgl loop_fuel fuel s2

/-- The counter of the local run queue of a CPU counts the tasks on its run queue and on its
next queue. -/
def runq_len_ok (c : cpuinfo) : Prop := c.runq_len = c.runq.length + c.nextq.length

instance (c : cpuinfo) : Decidable (runq_len_ok c) := by
  unfold runq_len_ok; infer_instance

/-- The sum over the CPUs of the value `f` takes on each. -/
def sum_cpus (s : sched_state) (f : cpuinfo → Nat) : Nat :=
  ((List.range s.ncpus).map fun i => f (s.cpus i)).sum

/-- The quantity of the specification: the sum over the CPUs of `runq_len`, the length of
the next queue and 1 for a current task, plus the length of the global run queue. -/
def counted_tasks (s : sched_state) : Nat :=
  sum_cpus s (fun c => c.runq_len + c.nextq.length + if c.cpu_task ≠ none then 1 else 0) +
    s.runq.length

/-- The tasks a CPU holds: those on its run queue, those on its next queue and its current
task. -/
def held_tasks (s : sched_state) : Nat :=
  sum_cpus s (fun c => c.runq.length + c.nextq.length + if c.cpu_task ≠ none then 1 else 0) +
    s.runq.length

/-- What is seen of a scheduler state: of the CPUs 0 and 1 the run queue, the next queue,
the counter and the current task, and the global run queue. -/
def sched_view (s : sched_state) :
    (List Nat × List Nat × Nat × Option Nat) × (List Nat × List Nat × Nat × Option Nat) ×
      List Nat :=
  (((s.cpus 0).runq, (s.cpus 0).nextq, (s.cpus 0).runq_len, (s.cpus 0).cpu_task),
    ((s.cpus 1).runq, (s.cpus 1).nextq, (s.cpus 1).runq_len, (s.cpus 1).cpu_task), s.runq)

/-- The view of the state a call ends with, when it ends in a task. -/
def runs_view : Option sched_result →
    Option ((List Nat × List Nat × Nat × Option Nat) × (List Nat × List Nat × Nat × Option Nat) ×
      List Nat)
  | some (sched_result.runs s) => some (sched_view s)
  | _ => none

/-- Two CPUs and three tasks: CPU 0 runs task 1 and has task 2 on its run queue, CPU 1 runs
task 3; the global run queue is empty. -/
def two_cpu_state : sched_state :=
  { cpus := fun i =>
      if i = 0 then { runq := [2], runq_len := 1, cpu_task := some 1 }
      else if i = 1 then { cpu_task := some 3 } else {},
    ncpus := 2, this_cpu := 0, nuser_tasks := 3,
    status := fun t => if t = 1 ∨ t = 3 then task_status.running else task_status.runnable }

/-- Two CPUs behind `sched_init_mp`, with the tasks 1 to 4 on the global run queue, where
`lock_runq_add` has put them. -/
def booted_state : sched_state :=
  { cpus := fun _ => {}, ncpus := 2, this_cpu := 0, runq := [1, 2, 3, 4], nuser_tasks := 4 }

/-- The state after `n` calls of `sched_yield` on the CPU, each of which ends in a task, with
`PIDMAP_LIM` 64 under the big kernel lock. -/
def yields : Nat → sched_state → Option sched_state
  | 0, s => some s
  | n + 1, s =>
    match sched_yield 64 none 8 1 s with
    | some (sched_result.runs s1) => yields n s1
    | _ => none

/-- What a step of the scheduler on one CPU leaves as it is: the other CPUs, the number of
CPUs, the counters of the tasks, and the status and the jiffies of every task. -/
structure same_frame (s s' : sched_state) : Prop where
  others : ∀ i, i ≠ s.this_cpu → s'.cpus i = s.cpus i
  this_cpu : s'.this_cpu = s.this_cpu
  ncpus : s'.ncpus = s.ncpus
  nuser_tasks : s'.nuser_tasks = s.nuser_tasks
  nkernel_tasks : s'.nkernel_tasks = s.nkernel_tasks
  jiffies : s'.jiffies = s.jiffies
  status : s'.status = s.status

/-- Tasks moved between the local run queue and the global one: `a` tasks came in and `b`
went out, the counter followed, and when a task went out the counter is not below the share
`task_foreach_cpu`; no task came from elsewhere; the next queue and the current task are as
before. -/
structure queues_shift (task_foreach_cpu : Nat) (s s' : sched_state) (a b : Nat) : Prop where
  frame : same_frame s s'
  nextq : (cur_cpu s').nextq = (cur_cpu s).nextq
  cpu_task : (cur_cpu s').cpu_task = (cur_cpu s).cpu_task
  local_len : (cur_cpu s').runq.length + b = (cur_cpu s).runq.length + a
  global_len : s'.runq.length + a = s.runq.length + b
  counter : (cur_cpu s').runq_len + b = (cur_cpu s).runq_len + a
  share : 0 < b → task_foreach_cpu ≤ (cur_cpu s').runq_len
  bound : (cur_cpu s').runq_len ≤ max (cur_cpu s).runq_len task_foreach_cpu
  pool : ∀ t, t ∈ (cur_cpu s').runq ∨ t ∈ s'.runq → t ∈ (cur_cpu s).runq ∨ t ∈ s.runq

/-! ## The leaf entries a walk visits -/

/-- The pages from the page at `a` up to the one that holds the byte `e`, in ascending
order, where `e` is one of the last four bytes of its page. -/
def span_pages (a e : Nat) : List Nat :=
  (List.range ((e + 4 - a) / PAGE_SIZE)).map fun i => a + i * PAGE_SIZE

/-- The 4 KiB pages of `[ROUNDDOWN(base), ROUNDUP(end))`, in ascending order. -/
def pages_of (base end_ : Nat) : List Nat :=
  (List.range ((ROUNDUP end_ - ROUNDDOWN base) / PAGE_SIZE)).map fun i =>
    ROUNDDOWN base + i * PAGE_SIZE

/-- The user data of the walker keeps a record of the calls of the leaf callback: the leaf
callback appends the entry it is called on, as table and index, and its argument `base`, and
no other callback touches the record. -/
def records {υ : Type} (log : υ → List (Nat × Nat × Nat)) (w : page_walker υ) : Prop :=
  (∃ f, w.pte_callback = some f ∧
    ∀ tbl idx b e u s r u1 s1, f tbl idx b e u s = some (r, u1, s1) →
      log u1 = log u ++ [(tbl, idx, b)]) ∧
  (∀ cb, (w.pde_callback = some cb ∨ w.pdpte_callback = some cb ∨
      w.pml4e_callback = some cb ∨ w.pte_unmap = some cb ∨ w.pde_unmap = some cb ∨
      w.pdpte_unmap = some cb ∨ w.pml4e_unmap = some cb) →
    ∀ tbl idx b e u s r u1 s1, cb tbl idx b e u s = some (r, u1, s1) → log u1 = log u) ∧
  (∀ cb, w.pt_hole_callback = some cb →
    ∀ b e u s r u1 s1, cb b e u s = some (r, u1, s1) → log u1 = log u)

/-- All intermediate tables of the addresses from `lo` to `hi` are present: the entries
above the leaf level on their paths are present and none of them maps a huge page. -/
def tables_present (s : kstate) (pml4 lo hi : Nat) : Prop :=
  ∀ va, lo ≤ va → va ≤ hi →
    s.mem pml4 (PML4_INDEX va) &&& PAGE_PRESENT ≠ 0 ∧
    s.mem (pdpt_of s pml4 va) (PDPT_INDEX va) &&& PAGE_PRESENT ≠ 0 ∧
    ¬ (s.mem (pdpt_of s pml4 va) (PDPT_INDEX va) &&& PAGE_HUGE ≠ 0) ∧
    s.mem (pdir_of s pml4 va) (PAGE_DIR_INDEX va) &&& PAGE_PRESENT ≠ 0 ∧
    ¬ (s.mem (pdir_of s pml4 va) (PAGE_DIR_INDEX va) &&& PAGE_HUGE ≠ 0)

/-- The entries above the leaf level on the path of `va` are present. -/
def path_present (s : kstate) (pml4 va : Nat) : Prop :=
  s.mem pml4 (PML4_INDEX va) &&& PAGE_PRESENT ≠ 0 ∧
  s.mem (pdpt_of s pml4 va) (PDPT_INDEX va) &&& PAGE_PRESENT ≠ 0 ∧
  s.mem (pdir_of s pml4 va) (PAGE_DIR_INDEX va) &&& PAGE_PRESENT ≠ 0

/-- From `s` to `s1` the tables of the addresses from `lo` to `hi` have only grown: an entry
above the leaf level that is present on the path of such an address is the same in `s1`. -/
def tables_grow (pml4 lo hi : Nat) (s s1 : kstate) : Prop :=
  ∀ va, lo ≤ va → va ≤ hi →
    (s.mem pml4 (PML4_INDEX va) &&& PAGE_PRESENT ≠ 0 →
      s1.mem pml4 (PML4_INDEX va) = s.mem pml4 (PML4_INDEX va) ∧
      (s.mem (pdpt_of s pml4 va) (PDPT_INDEX va) &&& PAGE_PRESENT ≠ 0 →
        s1.mem (pdpt_of s pml4 va) (PDPT_INDEX va) =
          s.mem (pdpt_of s pml4 va) (PDPT_INDEX va) ∧
        (s.mem (pdir_of s pml4 va) (PAGE_DIR_INDEX va) &&& PAGE_PRESENT ≠ 0 →
          s1.mem (pdir_of s pml4 va) (PAGE_DIR_INDEX va) =
            s.mem (pdir_of s pml4 va) (PAGE_DIR_INDEX va))))

/-- The level callbacks of the walker leave the intermediate tables of the addresses from
`lo` to `hi` present: in every state the tables of `s0` have grown to, the entry of such an
address in the root table is present behind `pml4e_callback`, and its entry in the PDPT and
in the page directory, where the walk gets to them, is present and maps no huge page behind
`pdpte_callback` and `pde_callback`.  A callback the walker does not have leaves the entry
as it is, which then is present before. -/
def tables_filled {υ : Type} (w : page_walker υ) (pml4 lo hi : Nat) (s0 : kstate) : Prop :=
  ∀ va, lo ≤ va → va ≤ hi → ∀ s, tables_grow pml4 lo hi s0 s →
    ∀ b e u r u1 s1, 0 ≤ r →
      (call_cb w.pml4e_callback pml4 (PML4_INDEX va) b e u s = some (r, u1, s1) →
        s1.mem pml4 (PML4_INDEX va) &&& PAGE_PRESENT ≠ 0) ∧
      (s.mem pml4 (PML4_INDEX va) &&& PAGE_PRESENT ≠ 0 →
        call_cb w.pdpte_callback (pdpt_of s pml4 va) (PDPT_INDEX va) b e u s =
          some (r, u1, s1) →
        s1.mem (pdpt_of s pml4 va) (PDPT_INDEX va) &&& PAGE_PRESENT ≠ 0 ∧
        ¬ (s1.mem (pdpt_of s pml4 va) (PDPT_INDEX va) &&& PAGE_HUGE ≠ 0)) ∧
      (s.mem pml4 (PML4_INDEX va) &&& PAGE_PRESENT ≠ 0 →
        s.mem (pdpt_of s pml4 va) (PDPT_INDEX va) &&& PAGE_PRESENT ≠ 0 →
        call_cb w.pde_callback (pdir_of s pml4 va) (PAGE_DIR_INDEX va) b e u s =
          some (r, u1, s1) →
        s1.mem (pdir_of s pml4 va) (PAGE_DIR_INDEX va) &&& PAGE_PRESENT ≠ 0 ∧
        ¬ (s1.mem (pdir_of s pml4 va) (PAGE_DIR_INDEX va) &&& PAGE_HUGE ≠ 0))

/-- A root table in frame 1 whose entry 0 points to the PDPT in frame 2, whose entry 0 points
to the page directory in frame 3, whose entries 0 and 1 point to the page tables in the
frames 4 and 5: the tables of the addresses below 0x400000. -/
def two_tables_state : kstate :=
  set_entry (set_entry (set_entry (set_entry boot_state 1 0 0x2007) 2 0 0x3007) 3 0 0x4007)
    3 1 0x5007

/-! ## Protection changes at an address that is no page boundary -/

/-- `do_protect_vma` of the VMA of `one_vma_task` for the range [0x1800, 0x2000) and the
protection read, as `mprotect(0x1800, 0x800, PROT_READ)` calls it: the return value and the
ranges the task maps afterwards. -/
def unaligned_protect : Option (Int × List (Nat × Nat × Nat)) :=
  (do_protect_vma boot_state one_vma_task 0x1800 0x800 1 VM_READ).map
    fun r => (r.1, vma_ranges r.2.2)

/-- On `one_vma_task`, whose VMA 1 is [0x1000, 0x3000): `do_protect_vma` for the range
[0x2800, 0x3000) and the protection read, as `mprotect(0x2800, 0x800, PROT_READ)` calls it;
then `split_vma` of VMA 1 at 0x2000 and `merge_vma` of VMA 1 with the VMA returned.  The
result: the return value of `do_protect_vma` and the ranges the task maps behind it, the VMA
`split_vma` returns and the ranges behind it, the pointer `merge_vma` returns and the ranges
behind it. -/
def split_merge_unaligned_end :
    Option (Int × List (Nat × Nat × Nat) × Nat × List (Nat × Nat × Nat) × Option Nat ×
      List (Nat × Nat × Nat)) :=
  (do_protect_vma boot_state one_vma_task 0x2800 0x800 1 VM_READ).bind fun r =>
    (split_vma r.2.2 1 0x2000).bind fun sp =>
      sp.1.map fun rhs =>
        (r.1, vma_ranges r.2.2, rhs, vma_ranges sp.2, (merge_vma sp.2 1 rhs).1,
          vma_ranges (merge_vma sp.2 1 rhs).2)

/-! ## An empty VMA inside a new range -/

/-- The ranges of two VMAs share an address. -/
def ranges_intersect (a b : vma) : Prop :=
  ∃ x, a.vm_base ≤ x ∧ x < a.vm_end ∧ b.vm_base ≤ x ∧ x < b.vm_end

/-- The task that `create_vma(task, name, 0x2000, 0, flags)` leaves on the empty task, the
call `mmap(0x2000, 0, PROT_READ, ...)` makes: its only VMA, VMA 1, is the empty range
[0x2000, 0x2000).  The next heap cell, cell 3, holds the range [0x1000, 0x3000), as
`create_vma` fills it before it calls `insert_vma`. -/
def task_with_empty_vma : task :=
  let t := (create_vma empty_task 7 0x2000 0 1).2
  { t with vmas := fun i => if i = 3 then ⟨7, 0x1000, 0x3000, 3, 0, 0, 4⟩ else t.vmas i }

/-! ## States of the allocator with the zeroing thread -/

/-- A state in which the frame allocator and the page-table code agree: the invariant of the
free lists holds, the zeroed flag of every free frame tells the truth, every free frame lies
below the limit of the physical addresses an entry can name, and no free frame has a
reference. -/
structure clean (s : kstate) : Prop where
  inv : buddy_inv s
  zero : zero_ok s
  bound : free_bound s
  noref : ∀ f, covered s f → (s.pages f).pp_ref = 0

/-- The entry `ptbl_alloc` writes for the table in frame `t`. -/
def table_entry (t : Nat) : Nat := page2pa t ||| (PAGE_PRESENT ||| PAGE_WRITE ||| PAGE_USER)

/-- Frames 2, 4, 6 and 8 handed to the allocator on the boot state: four free blocks of order
0, none the buddy of another. -/
def four_free_state : kstate := (page_free three_free_state 8).getD boot_state

/-! ## Allocation with `ALLOC_ZERO`, exhaustion -/

/-- C3: when every buddy free list is empty, `buddy_find(0)` returns `NULL` with the state
unchanged and `page_alloc` fails its assertion `assert(page)` instead of returning `NULL`. -/
theorem page_alloc_out_of_memory_panics (s : kstate) (flags : Nat)
    (h : ∀ k, s.buddy_free_list k = []) :
    buddy_find s 0 = some (none, s) ∧ page_alloc s flags = none := by
  have hf : buddy_find s 0 = some (none, s) := by
    simp [buddy_find, buddy_find_loop, BUDDY_MAX_ORDER, h]
  exact ⟨hf, by simp [page_alloc, hf]⟩

/-- Witness of `page_alloc_out_of_memory_panics` on the state right after boot. -/
theorem page_alloc_out_of_memory_panics_witness :
    (∀ k, boot_state.buddy_free_list k = []) ∧
      (buddy_find boot_state 0 = some (none, boot_state) ∧ page_alloc boot_state 0 = none) :=
  ⟨fun _ => rfl, page_alloc_out_of_memory_panics boot_state 0 (fun _ => rfl)⟩

/-! ## Page-table operations on concrete states -/

/-- C5: frame 17 is mapped at 0x1000 with one reference and is not free; after it is
inserted again at the same address it is still mapped there with one reference, but its free
flag is set and it is on the buddy list of order 0. -/
theorem page_insert_same_frame_frees_it :
    (mapped_state.map fun (pml4, p, ret, s) =>
        (p, ret, (page_lookup s pml4 0x1000 none).map (·.1), frame_view s p,
          s.buddy_free_list 0)) = some (17, 0, some (some 17), (1, false, false), [21]) ∧
    (reinserted_state.map fun (pml4, p, ret, s) =>
        (p, ret, (page_lookup s pml4 0x1000 none).map (·.1), frame_view s p,
          s.buddy_free_list 0)) = some (17, 0, some (some 17), (1, true, false), [17, 21]) := by
  constructor <;> rfl

set_option maxRecDepth 100000 in
/-- C6: the entry of 0x1000 is not present and holds a disk address; frame 21 is mapped at
0x2000 with one reference.  Removing the page at 0x1000 drops the reference of frame 21 and
frees it, although it is still mapped at 0x2000. -/
theorem page_remove_acts_on_swapped_entry :
    (swapped_state.map fun (pml4, q, s) =>
        (q, (page_lookup s pml4 0x1000 none).map (·.1),
          (page_lookup s pml4 0x2000 none).map (·.1), frame_view s q,
          s.buddy_free_list 0)) =
      some (21, some none, some (some 21), (1, false, false), []) ∧
    (swapped_removed_state.map fun (pml4, q, s) =>
        (q, (page_lookup s pml4 0x2000 none).map (·.1), frame_view s q,
          s.buddy_free_list 0)) = some (21, some (some 21), (0, true, false), [21]) := by
  constructor <;> rfl

/-- C7: the page at 0x2000 is not mapped (its entry is 0); after `protect_region` on it the
entry is 0x7, a present entry that maps frame 0. -/
theorem protect_region_maps_a_hole :
    (mapped_state.map fun (pml4, _, _, s) =>
        ((page_lookup s pml4 0x2000 none).map (·.1), s.mem 20 2)) = some (some none, 0) ∧
    (protected_state.map fun (pml4, s) =>
        ((page_lookup s pml4 0x2000 none).map (·.1), s.mem 20 2)) =
      some (some (some 0), 0x7) := by
  constructor <;> rfl

/-! ## `add_vma` on concrete tasks -/

/-- C9: the first `add_vma(NULL, PAGE_SIZE)` places a VMA in the last but one page below
`USER_LIM`; the second one returns `NULL` and leaves that VMA alone, although everything
below it is free. -/
theorem add_vma_second_mmap_fails :
    (first_mmap.map fun r => (r.1, task_view r.2)) =
      some (some 1, [(1, USER_LIM - 2 * PAGE_SIZE, USER_LIM - PAGE_SIZE)]) ∧
    (second_mmap.map fun r => (r.1, task_view r.2)) =
      some (none, [(1, USER_LIM - 2 * PAGE_SIZE, USER_LIM - PAGE_SIZE)]) := by
  constructor <;> rfl

/-! ## Merging VMAs -/

theorem inorder_graft (l r : rb_node) : (rb_node.graft l r).inorder = l.inorder ++ r.inorder := by
  induction l with
  | nil => simp [rb_node.graft, rb_node.inorder]
  | node a v b _ ihb => simp [rb_node.graft, rb_node.inorder, ihb]

theorem inorder_rb_remove (t : rb_node) (x : Nat) :
    (rb_remove t x).inorder = t.inorder.filter (fun v => v != x) := by
  induction t with
  | nil => simp [rb_remove, rb_node.inorder]
  | node l v r ihl ihr =>
    by_cases h : v = x
    · simp [rb_remove, h, inorder_graft, ihl, ihr, rb_node.inorder, List.filter_cons]
    · simp [rb_remove, h, ihl, ihr, rb_node.inorder, List.filter_cons]

/-- C10: `merge_vma(task, lhs, rhs)` merges exactly when the flags and the names are equal
and `lhs` ends where `rhs` begins.  Then it returns `lhs`, whose end is the old end of `rhs`
and whose base, flags and name are unchanged, every other VMA cell is unchanged, and `rhs` is
gone from the tree and from the list, which keep their other members in order.  Otherwise
it returns `NULL` and the task is unchanged. -/
theorem merge_vma_iff (t : task) (lhs rhs : Nat) :
    ((merge_vma t lhs rhs).1 = some lhs ↔
      ((t.vmas lhs).vm_flags = (t.vmas rhs).vm_flags ∧
        (t.vmas lhs).vm_name = (t.vmas rhs).vm_name ∧
        (t.vmas lhs).vm_end = (t.vmas rhs).vm_base)) ∧
    ((merge_vma t lhs rhs).1 = some lhs →
      ((merge_vma t lhs rhs).2.vmas lhs).vm_end = (t.vmas rhs).vm_end ∧
      ((merge_vma t lhs rhs).2.vmas lhs).vm_base = (t.vmas lhs).vm_base ∧
      ((merge_vma t lhs rhs).2.vmas lhs).vm_flags = (t.vmas lhs).vm_flags ∧
      ((merge_vma t lhs rhs).2.vmas lhs).vm_name = (t.vmas lhs).vm_name ∧
      (∀ v, v ≠ lhs → (merge_vma t lhs rhs).2.vmas v = t.vmas v) ∧
      rhs ∉ (merge_vma t lhs rhs).2.task_rb.inorder ∧
      rhs ∉ (merge_vma t lhs rhs).2.task_mmap ∧
      (merge_vma t lhs rhs).2.task_rb.inorder = t.task_rb.inorder.filter (fun v => v != rhs) ∧
      (merge_vma t lhs rhs).2.task_mmap = t.task_mmap.filter (fun v => v != rhs)) ∧
    ((merge_vma t lhs rhs).1 ≠ some lhs →
      (merge_vma t lhs rhs).1 = none ∧
      (merge_vma t lhs rhs).2.vmas = t.vmas ∧
      (merge_vma t lhs rhs).2.task_rb = t.task_rb ∧
      (merge_vma t lhs rhs).2.task_mmap = t.task_mmap) := by
  by_cases hc : (t.vmas lhs).vm_flags = (t.vmas rhs).vm_flags ∧
      (t.vmas lhs).vm_name = (t.vmas rhs).vm_name ∧
      (t.vmas lhs).vm_end = (t.vmas rhs).vm_base
  · obtain ⟨h1, h2, h3⟩ := hc
    have hm : merge_vma t lhs rhs = (some lhs, remove_vma
        { t with vmas := fun i => if i = lhs then { t.vmas i with vm_end := (t.vmas rhs).vm_end }
                                  else t.vmas i } rhs) := by
      simp [merge_vma, h1, h2, h3]
    rw [hm]
    refine ⟨by simp [h1, h2, h3], fun _ => ?_, by simp⟩
    simp [remove_vma, inorder_rb_remove]
    intro v hv
    simp [hv]
  · have hm : merge_vma t lhs rhs = (none, t) := by
      simp only [merge_vma]
      rw [if_pos]
      simp only [Bool.not_eq_true', Bool.and_eq_false_imp, Bool.and_eq_true, decide_eq_true_eq,
        decide_eq_false_iff_not]
      intro a b
      exact hc ⟨a.1, b, a.2⟩
    rw [hm]
    exact ⟨by simp [hc], by simp, by simp⟩

/-- Witness of `merge_vma_iff`: on `three_vma_task` the VMAs 1 and 3 merge, and the VMAs 3
and 5, whose flags differ, do not. -/
theorem merge_vma_iff_witness :
    (merge_vma three_vma_task 1 3).1 = some 1 ∧
    ((merge_vma three_vma_task 1 3).2.vmas 1).vm_end = 0x4000 ∧
    (merge_vma three_vma_task 1 3).2.task_mmap = [1, 5] ∧
    (merge_vma three_vma_task 3 5).1 = none := by
  have h := merge_vma_iff three_vma_task 1 3
  have h2 := merge_vma_iff three_vma_task 3 5
  have e1 : (merge_vma three_vma_task 1 3).1 = some 1 := h.1.2 (by decide)
  have e2 : (merge_vma three_vma_task 3 5).1 ≠ some 3 := fun hh => by
    have := h2.1.1 hh
    revert this
    decide
  exact ⟨e1, (h.2.1 e1).1, by rw [(h.2.1 e1).2.2.2.2.2.2.2.2]; decide, (h2.2.2 e2).1⟩

/-! ## Inserting a VMA -/

/-- Along an ordered tree of disjoint ranges every VMA ends before the later ones begin. -/
theorem chain_of_ordered_disjoint (t : task) (ho : tree_ordered t) (hd : vmas_disjoint t) :
    t.task_rb.inorder.Pairwise (fun a b => (t.vmas a).vm_end ≤ (t.vmas b).vm_base) := by
  unfold tree_ordered at ho
  refine List.Pairwise.imp_of_mem ?_ ho
  intro a b ha hb hab
  have hne : a ≠ b := fun h => by subst h; exact lt_irrefl _ hab
  have h1 := hd.2 a ha b hb hne
  have h2 := hd.1 b hb
  unfold vma_overlap at h1
  by_contra hc
  exact h1 ⟨by omega, by omega⟩

theorem insert_vma_walk_spec (vmas : Nat → vma) (new : Nat) (tr : rb_node)
    (hch : tr.inorder.Pairwise (fun a b => (vmas a).vm_end ≤ (vmas b).vm_base))
    (hrg : ∀ a ∈ tr.inorder, (vmas a).vm_base ≤ (vmas a).vm_end) :
    match insert_vma_walk vmas new tr with
    | none => ∃ w ∈ tr.inorder, vma_overlap (vmas new) (vmas w)
    | some (tr', last) =>
      (∀ w ∈ tr.inorder, ¬ vma_overlap (vmas new) (vmas w)) ∧
      ∃ l1 l2, tr.inorder = l1 ++ l2 ∧ tr'.inorder = l1 ++ new :: l2 ∧
        (∀ a ∈ l1, (vmas a).vm_end ≤ (vmas new).vm_base) ∧
        (∀ b ∈ l2, (vmas new).vm_end ≤ (vmas b).vm_base) ∧
        (match last with
         | none => l1 = [] ∧ l2 = []
         | some (p, true) => ∃ l1', l1 = l1' ++ [p]
         | some (p, false) => ∃ l2', l2 = p :: l2') := by
  induction tr with
  | nil =>
    simp only [insert_vma_walk, rb_node.inorder]
    exact ⟨by simp, [], [], by simp⟩
  | node l v r ihl ihr =>
    simp only [rb_node.inorder] at hch hrg
    have hchl : l.inorder.Pairwise (fun a b => (vmas a).vm_end ≤ (vmas b).vm_base) :=
      (List.pairwise_append.1 hch).1
    have hchr : r.inorder.Pairwise (fun a b => (vmas a).vm_end ≤ (vmas b).vm_base) :=
      (List.pairwise_cons.1 (List.pairwise_append.1 hch).2.1).2
    have hlv : ∀ a ∈ l.inorder, (vmas a).vm_end ≤ (vmas v).vm_base := fun a ha =>
      (List.pairwise_append.1 hch).2.2 a ha v (List.mem_cons_self _ _)
    have hvr : ∀ b ∈ r.inorder, (vmas v).vm_end ≤ (vmas b).vm_base := fun b hb =>
      (List.pairwise_cons.1 (List.pairwise_append.1 hch).2.1).1 b hb
    have hv : (vmas v).vm_base ≤ (vmas v).vm_end := hrg v (by simp)
    have hrl : ∀ a ∈ l.inorder, (vmas a).vm_base ≤ (vmas a).vm_end := fun a ha =>
      hrg a (by simp [ha])
    have hrr : ∀ a ∈ r.inorder, (vmas a).vm_base ≤ (vmas a).vm_end := fun a ha =>
      hrg a (by simp [ha])
    specialize ihl hchl hrl
    specialize ihr hchr hrr
    by_cases hdir : (vmas new).vm_base ≥ (vmas v).vm_end
    · -- to the right
      have hstep : insert_vma_walk vmas new (rb_node.node l v r) =
          match insert_vma_walk vmas new r with
          | none => none
          | some (c, last) => some (rb_node.node l v c, some (last.getD (v, true))) := by
        simp [insert_vma_walk, hdir]
      rw [hstep]
      cases hr : insert_vma_walk vmas new r with
      | none =>
        rw [hr] at ihr
        obtain ⟨w, hw, ho⟩ := ihr
        exact ⟨w, by simp [rb_node.inorder, hw], ho⟩
      | some res =>
        obtain ⟨c, last⟩ := res
        rw [hr] at ihr
        obtain ⟨hno, l1, l2, e1, e2, h1, h2, h3⟩ := ihr
        refine ⟨?_, l.inorder ++ v :: l1, l2, ?_, ?_, ?_, h2, ?_⟩
        · intro w hw
          simp only [rb_node.inorder, List.mem_append, List.mem_cons] at hw
          rcases hw with hw | hw | hw
          · have := hlv w hw
            unfold vma_overlap; omega
          · subst hw
            unfold vma_overlap; omega
          · exact hno w hw
        · simp [rb_node.inorder, e1]
        · simp [rb_node.inorder, e2]
        · intro a ha
          simp only [List.mem_append, List.mem_cons] at ha
          rcases ha with ha | ha | ha
          · have := hlv a ha
            omega
          · subst ha; exact hdir
          · exact h1 a ha
        · cases last with
          | none =>
            simp only at h3
            simp [h3.1]
          | some pd =>
            obtain ⟨p, d⟩ := pd
            cases d with
            | true =>
              obtain ⟨l1', e⟩ := h3
              exact ⟨l.inorder ++ v :: l1', by simp [e]⟩
            | false =>
              exact h3
    · by_cases hov : (vmas new).vm_end > (vmas v).vm_base
      · have hstep : insert_vma_walk vmas new (rb_node.node l v r) = none := by
          simp [insert_vma_walk, hdir, hov]
        rw [hstep]
        exact ⟨v, by simp [rb_node.inorder], by unfold vma_overlap; omega⟩
      · have hstep : insert_vma_walk vmas new (rb_node.node l v r) =
            match insert_vma_walk vmas new l with
            | none => none
            | some (c, last) => some (rb_node.node c v r, some (last.getD (v, false))) := by
          simp [insert_vma_walk, hdir, hov]
        rw [hstep]
        cases hl : insert_vma_walk vmas new l with
        | none =>
          rw [hl] at ihl
          obtain ⟨w, hw, ho⟩ := ihl
          exact ⟨w, by simp [rb_node.inorder, hw], ho⟩
        | some res =>
          obtain ⟨c, last⟩ := res
          rw [hl] at ihl
          obtain ⟨hno, l1, l2, e1, e2, h1, h2, h3⟩ := ihl
          refine ⟨?_, l1, l2 ++ v :: r.inorder, ?_, ?_, h1, ?_, ?_⟩
          · intro w hw
            simp only [rb_node.inorder, List.mem_append, List.mem_cons] at hw
            rcases hw with hw | hw | hw
            · exact hno w hw
            · subst hw
              unfold vma_overlap; omega
            · have := hvr w hw
              unfold vma_overlap; omega
          · simp [rb_node.inorder, e1]
          · simp [rb_node.inorder, e2]
          · intro b hb
            simp only [List.mem_append, List.mem_cons] at hb
            rcases hb with hb | hb | hb
            · exact h2 b hb
            · subst hb; omega
            · have := hvr b hb
              omega
          · cases last with
            | none =>
              simp only at h3
              simp [h3.2]
            | some pd =>
              obtain ⟨p, d⟩ := pd
              cases d with
              | true =>
                exact h3
              | false =>
                obtain ⟨l2', e⟩ := h3
                exact ⟨l2' ++ v :: r.inorder, by simp [e]⟩

theorem list_insert_after_spec (p new : Nat) (l1 l2 : List Nat) (h : p ∉ l1) :
    list_insert_after p new (l1 ++ p :: l2) = l1 ++ p :: new :: l2 := by
  induction l1 with
  | nil => simp [list_insert_after]
  | cons a l ih =>
    have ha : a ≠ p := fun e => h (by simp [e])
    have hl : p ∉ l := fun e => h (by simp [e])
    simp [list_insert_after, ha, ih hl]

theorem list_insert_before_spec (p new : Nat) (l1 l2 : List Nat) (h : p ∉ l1) :
    list_insert_before p new (l1 ++ p :: l2) = l1 ++ new :: p :: l2 := by
  induction l1 with
  | nil => simp [list_insert_before]
  | cons a l ih =>
    have ha : a ≠ p := fun e => h (by simp [e])
    have hl : p ∉ l := fun e => h (by simp [e])
    simp [list_insert_before, ha, ih hl]

/-- On a task whose tree is ordered by base, whose VMAs are ranges no two of which overlap and
whose list follows the tree, `insert_vma(task, vma)` returns -1 exactly when `vma` overlaps a
VMA of the task (`vma_overlap`).  On -1 the tree, the list and the cells are
unchanged.  Otherwise it returns 0, the VMA is in the tree and in the list, the list is the
in-order sequence of the tree and holds the old members and the new one, and along the list
every VMA ends before the later ones begin (so the list is sorted by base). -/
theorem insert_vma_overlap_spec (t : task) (new : Nat)
    (ho : tree_ordered t) (hd : vmas_disjoint t) (hl : list_matches_tree t) :
    ((insert_vma t new).1 = -1 ↔
      ∃ w ∈ t.task_rb.inorder, vma_overlap (t.vmas new) (t.vmas w)) ∧
    ((insert_vma t new).1 = -1 →
      (insert_vma t new).2.task_rb = t.task_rb ∧
      (insert_vma t new).2.task_mmap = t.task_mmap ∧
      (insert_vma t new).2.vmas = t.vmas) ∧
    ((insert_vma t new).1 ≠ -1 →
      (insert_vma t new).1 = 0 ∧
      new ∈ (insert_vma t new).2.task_rb.inorder ∧
      new ∈ (insert_vma t new).2.task_mmap ∧
      (insert_vma t new).2.task_mmap = (insert_vma t new).2.task_rb.inorder ∧
      (∀ v, v ∈ (insert_vma t new).2.task_mmap ↔ v = new ∨ v ∈ t.task_mmap) ∧
      (insert_vma t new).2.vmas = t.vmas ∧
      (insert_vma t new).2.task_mmap.Pairwise
        (fun a b => (t.vmas a).vm_end ≤ (t.vmas b).vm_base) ∧
      ((t.vmas new).vm_base ≤ (t.vmas new).vm_end →
        (insert_vma t new).2.task_mmap.Pairwise
          (fun a b => (t.vmas a).vm_base ≤ (t.vmas b).vm_base))) := by
  have hch := chain_of_ordered_disjoint t ho hd
  have hnd : t.task_rb.inorder.Nodup := by
    unfold tree_ordered at ho
    refine List.Pairwise.imp_of_mem ?_ ho
    intro a b _ _ hab e
    subst e
    exact lt_irrefl _ hab
  have hw := insert_vma_walk_spec t.vmas new t.task_rb hch hd.1
  unfold list_matches_tree at hl
  cases hwalk : insert_vma_walk t.vmas new t.task_rb with
  | none =>
    rw [hwalk] at hw
    have hi : insert_vma t new = (-1, t) := by simp [insert_vma, hwalk]
    rw [hi]
    exact ⟨by simpa using hw, by simp, by simp⟩
  | some res =>
    obtain ⟨tr', last⟩ := res
    rw [hwalk] at hw
    obtain ⟨hno, l1, l2, e1, e2, h1, h2, h3⟩ := hw
    have hfinal : ∃ t', insert_vma t new = (0, t') ∧ t'.task_rb = tr' ∧
        t'.task_mmap = l1 ++ new :: l2 ∧ t'.vmas = t.vmas := by
      cases last with
      | none =>
        refine ⟨{ t with task_rb := tr', task_mmap := new :: t.task_mmap },
          by simp [insert_vma, hwalk, rb_balance], rfl, ?_, rfl⟩
        simp only at h3
        simp [hl, e1, h3.1, h3.2]
      | some pd =>
        obtain ⟨p, d⟩ := pd
        cases d with
        | true =>
          obtain ⟨l1', e⟩ := h3
          refine ⟨{ t with task_rb := tr',
                           task_mmap := list_insert_after p new t.task_mmap },
            by simp [insert_vma, hwalk, rb_balance], rfl, ?_, rfl⟩
          have hp : p ∉ l1' := by
            rw [e1, e] at hnd
            intro hp
            have := (List.nodup_append.1 (List.nodup_append.1 hnd).1).2.2
            exact this hp (by simp)
          simp only [hl, e1, e, List.append_assoc, List.singleton_append]
          exact list_insert_after_spec p new l1' l2 hp
        | false =>
          obtain ⟨l2', e⟩ := h3
          refine ⟨{ t with task_rb := tr',
                           task_mmap := list_insert_before p new t.task_mmap },
            by simp [insert_vma, hwalk, rb_balance], rfl, ?_, rfl⟩
          have hp : p ∉ l1 := by
            rw [e1, e] at hnd
            intro hp
            exact (List.nodup_append.1 hnd).2.2 hp (by simp)
          simp only [hl, e1, e]
          exact list_insert_before_spec p new l1 l2' hp
    obtain ⟨t', hi, ht1, ht2, ht3⟩ := hfinal
    rw [hi]
    refine ⟨?_, by simp, fun _ => ⟨rfl, ?_, ?_, ?_, ?_, ht3, ?_, ?_⟩⟩
    · constructor
      · intro h
        have h0 : (0 : Int) = -1 := h
        exact absurd h0 (by decide)
      · rintro ⟨w, hw, hov⟩
        exact absurd hov (hno w hw)
    · simp [ht1, e2]
    · simp [ht2]
    · simp [ht1, ht2, e2]
    · intro v
      simp only [ht2, hl, e1, List.mem_append, List.mem_cons]
      tauto
    · simp only [ht2]
      rw [e1] at hch
      rw [List.pairwise_append] at hch ⊢
      refine ⟨hch.1, List.pairwise_cons.2 ⟨h2, hch.2.1⟩, ?_⟩
      intro a ha b hb
      rcases List.mem_cons.1 hb with hb | hb
      · subst hb; exact h1 a ha
      · exact hch.2.2 a ha b hb
    · intro hnew
      simp only [ht2]
      have hrg := hd.1
      rw [e1] at hch hrg
      rw [List.pairwise_append] at hch ⊢
      refine ⟨?_, List.pairwise_cons.2 ⟨?_, ?_⟩, ?_⟩
      · refine List.Pairwise.imp_of_mem ?_ hch.1
        intro a b ha _ hab
        have := hrg a (by simp [ha])
        omega
      · intro b hb
        have := h2 b hb
        omega
      · refine List.Pairwise.imp_of_mem ?_ hch.2.1
        intro a b ha _ hab
        have := hrg a (by simp [ha])
        omega
      · intro a ha b hb
        have haa := hrg a (by simp [ha])
        rcases List.mem_cons.1 hb with hb | hb
        · subst hb
          have := h1 a ha
          omega
        · have := hch.2.2 a ha b hb
          omega

/-! ## Arithmetic of buddy blocks -/

theorem page2pa_div (p : Nat) : page2pa p / PAGE_SIZE = p := by
  simp [page2pa, PAGE_SIZE]

theorem buddy_cases (e q : Nat) (he : 0 < e) (hq : e ∣ q) :
    (q % (e * 2) = 0 ∧ e * 2 ∣ q) ∨ (q % (e * 2) ≠ 0 ∧ e ≤ q ∧ e * 2 ∣ q - e) := by
  obtain ⟨m, rfl⟩ := hq
  rcases Nat.even_or_odd' m with ⟨t, rfl | rfl⟩
  · left
    have h : e * (2 * t) = e * 2 * t := by ring
    rw [h]
    exact ⟨Nat.mul_mod_right _ _, Dvd.intro _ rfl⟩
  · right
    have h : e * (2 * t + 1) = e * 2 * t + e := by ring
    rw [h]
    refine ⟨?_, Nat.le_add_left _ _, ?_⟩
    · rw [Nat.mul_add_mod, Nat.mod_eq_of_lt (by omega)]
      omega
    · rw [Nat.add_sub_cancel]
      exact Dvd.intro _ rfl

theorem pow_succ_two (k : Nat) : 2 ^ (k + 1) = 2 ^ k * 2 := pow_succ 2 k

theorem two_pow_pos' (k : Nat) : 0 < 2 ^ k := Nat.two_pow_pos k

/-- An aligned block that shares a frame with a smaller aligned block contains the whole
smaller block. -/
theorem block_nest (n k h q p0 : Nat) (hnk : n ≤ k) (hh : 2 ^ n ∣ h) (hq : 2 ^ k ∣ q)
    (hin : in_block q k p0) (hin' : in_block h n p0) : ∀ p, in_block h n p → in_block q k p := by
  intro p hp
  obtain ⟨c, hc⟩ : ∃ c, 2 ^ k = 2 ^ n * c := ⟨2 ^ (k - n), by rw [← pow_add]; congr 1; omega⟩
  obtain ⟨a, rfl⟩ := hq
  obtain ⟨b, rfl⟩ := hh
  unfold in_block at *
  rw [hc] at hin ⊢
  have he := two_pow_pos' n
  have e1 : 2 ^ n * c * a + 2 ^ n * c = 2 ^ n * (c * a + c) := by ring
  have e2 : 2 ^ n * (b + 1) = 2 ^ n * b + 2 ^ n := by ring
  have e3 : 2 ^ n * c * a = 2 ^ n * (c * a) := by ring
  have h1 : 2 ^ n * b < 2 ^ n * (c * a + c) := by omega
  have h2 : b < c * a + c := Nat.lt_of_mul_lt_mul_left h1
  have h3 : 2 ^ n * (b + 1) ≤ 2 ^ n * (c * a + c) := Nat.mul_le_mul_left _ h2
  have h4 : 2 ^ n * (c * a) < 2 ^ n * (b + 1) := by omega
  have h5 : c * a < b + 1 := Nat.lt_of_mul_lt_mul_left h4
  have h6 : 2 ^ n * (c * a) ≤ 2 ^ n * b := Nat.mul_le_mul_left _ (by omega)
  omega

/-- Two aligned blocks of the same order with a common frame are the same block. -/
theorem block_same (k q q' p : Nat) (hq : 2 ^ k ∣ q) (hq' : 2 ^ k ∣ q')
    (h : in_block q k p) (h' : in_block q' k p) : q = q' := by
  obtain ⟨a, rfl⟩ := hq
  obtain ⟨b, rfl⟩ := hq'
  unfold in_block at *
  have he := two_pow_pos' k
  have h1 : 2 ^ k * a < 2 ^ k * (b + 1) := by
    have : 2 ^ k * (b + 1) = 2 ^ k * b + 2 ^ k := by ring
    omega
  have h2 : 2 ^ k * b < 2 ^ k * (a + 1) := by
    have : 2 ^ k * (a + 1) = 2 ^ k * a + 2 ^ k := by ring
    omega
  have h3 := Nat.lt_of_mul_lt_mul_left h1
  have h4 := Nat.lt_of_mul_lt_mul_left h2
  have : a = b := by omega
  rw [this]

theorem buddy_of_even (k q : Nat) (h : 2 ^ k * 2 ∣ q) : buddy_of q k = q + 2 ^ k := by
  unfold buddy_of
  rw [if_pos (Nat.mod_eq_zero_of_dvd h)]

theorem buddy_of_odd (k q : Nat) (h : 2 ^ k * 2 ∣ q) : buddy_of (q + 2 ^ k) k = q := by
  unfold buddy_of
  obtain ⟨t, rfl⟩ := h
  have he := two_pow_pos' k
  rw [if_neg]
  · omega
  · rw [Nat.mul_add_mod, Nat.mod_eq_of_lt (by omega)]
    omega

/-- On aligned blocks the buddy of the buddy is the block itself, the buddy is aligned and
is another block. -/
theorem buddy_of_invol (k q : Nat) (hq : 2 ^ k ∣ q) :
    buddy_of (buddy_of q k) k = q ∧ 2 ^ k ∣ buddy_of q k ∧ buddy_of q k ≠ q := by
  have he := two_pow_pos' k
  rcases buddy_cases (2 ^ k) q he hq with ⟨h0, hd⟩ | ⟨h0, hle, hd⟩
  · rw [buddy_of_even k q hd]
    refine ⟨buddy_of_odd k q hd, ?_, by omega⟩
    exact Dvd.dvd.add hq (dvd_refl _)
  · have hb : buddy_of q k = q - 2 ^ k := by unfold buddy_of; rw [if_neg h0]
    rw [hb]
    refine ⟨?_, ?_, by omega⟩
    · rw [buddy_of_even k _ hd]; omega
    · exact (Nat.dvd_sub' hq (dvd_refl _))

/-! ## The free lists are determined by the set of free frames -/

theorem in_block_self (q k : Nat) : in_block q k q :=
  ⟨le_refl _, by have := two_pow_pos' k; omega⟩

/-- An aligned block all of whose frames are free lies inside one free block. -/
theorem full_block (s : kstate) (hs : buddy_inv s) :
    ∀ m h, m < BUDDY_MAX_ORDER → 2 ^ m ∣ h → (∀ p, in_block h m p → covered s p) →
      ∃ k q, q ∈ s.buddy_free_list k ∧ m ≤ k ∧ ∀ p, in_block h m p → in_block q k p := by
  intro m
  induction m with
  | zero =>
    intro h _ _ hcov
    obtain ⟨k, q, hq, hin⟩ := hcov h (in_block_self h 0)
    refine ⟨k, q, hq, Nat.zero_le _, ?_⟩
    intro p hp
    have : p = h := by unfold in_block at hp; simp at hp; omega
    rw [this]; exact hin
  | succ m ih =>
    intro h hm hal hcov
    have he := two_pow_pos' m
    have hal2 : 2 ^ m * 2 ∣ h := by rw [← pow_succ_two]; exact hal
    have halm : 2 ^ m ∣ h := Dvd.dvd.trans (Dvd.intro _ rfl) hal2
    have halm' : 2 ^ m ∣ h + 2 ^ m := Dvd.dvd.add halm (dvd_refl _)
    obtain ⟨k1, q1, hq1, hk1, hsub1⟩ := ih h (by omega) halm (fun p hp => hcov p (by
      unfold in_block at *; rw [pow_succ_two]; omega))
    obtain ⟨k2, q2, hq2, hk2, hsub2⟩ := ih (h + 2 ^ m) (by omega) halm' (fun p hp => hcov p (by
      unfold in_block at *; rw [pow_succ_two]; omega))
    by_cases h1 : m + 1 ≤ k1
    · exact ⟨k1, q1, hq1, h1,
        block_nest (m + 1) k1 h q1 h h1 hal (hs.align k1 q1 hq1)
          (hsub1 h (in_block_self h m)) (in_block_self h (m + 1))⟩
    by_cases h2 : m + 1 ≤ k2
    · refine ⟨k2, q2, hq2, h2,
        block_nest (m + 1) k2 h q2 (h + 2 ^ m) h2 hal (hs.align k2 q2 hq2)
          (hsub2 _ (in_block_self _ m)) ?_⟩
      unfold in_block; rw [pow_succ_two]; omega
    have e1 : k1 = m := by omega
    have e2 : k2 = m := by omega
    rw [e1] at hq1 hsub1
    rw [e2] at hq2 hsub2
    have hqa : q1 = h :=
      block_same m q1 h h (hs.align m q1 hq1) halm (hsub1 h (in_block_self h m))
        (in_block_self h m)
    have hqb : q2 = h + 2 ^ m :=
      block_same m q2 _ _ (hs.align m q2 hq2) halm' (hsub2 _ (in_block_self _ m))
        (in_block_self _ m)
    subst hqa
    exfalso
    have := hs.nobuddy m q1 hm hq1
    rw [buddy_of_even m q1 hal2] at this
    exact this (hqb ▸ hq2)

/-- Two states that satisfy the invariant and have the same free frames have the same free
blocks. -/
theorem canonical_mem (s s' : kstate) (hs : buddy_inv s) (hs' : buddy_inv s')
    (hc : ∀ p, covered s p ↔ covered s' p) :
    ∀ k q, q ∈ s.buddy_free_list k → q ∈ s'.buddy_free_list k := by
  intro k q hq
  obtain ⟨k', q', hq', hk', hsub'⟩ := full_block s' hs' k q (hs.ord k q hq) (hs.align k q hq)
    (fun p hp => (hc p).1 ⟨k, q, hq, hp⟩)
  obtain ⟨k'', q'', hq'', hk'', hsub''⟩ := full_block s hs k' q' (hs'.ord k' q' hq')
    (hs'.align k' q' hq') (fun p hp => (hc p).2 ⟨k', q', hq', hp⟩)
  have hin : in_block q'' k'' q := hsub'' q (hsub' q (in_block_self q k))
  have e : q = q'' := hs.disj k q k'' q'' q hq hq'' (in_block_self q k) hin
  subst e
  have ek : k'' = k := by
    have a := (hs.free k q hq).2
    have b := (hs.free k'' q hq'').2
    omega
  have ek' : k' = k := by omega
  subst ek'
  have : q' = q :=
    block_same k' q' q q (hs'.align k' q' hq') (hs.align k' q hq) (hsub' q (in_block_self q k'))
      (in_block_self q k')
  rw [← this]; exact hq'

theorem canonical_count (s s' : kstate) (hs : buddy_inv s) (hs' : buddy_inv s')
    (hc : ∀ p, covered s p ↔ covered s' p) (k : Nat) :
    (s.buddy_free_list k).length = (s'.buddy_free_list k).length := by
  apply List.Perm.length_eq
  rw [List.perm_ext_iff_of_nodup (hs.nodup k) (hs'.nodup k)]
  intro a
  exact ⟨canonical_mem s s' hs hs' hc k a, canonical_mem s' s hs' hs (fun p => (hc p).symm) k a⟩

/-! ## One step of a split, one step of a merge -/

theorem split_step_list (t : kstate) (x k k' : Nat) (h : (t.pages x).pp_order = k + 1) :
    (split_step t x).buddy_free_list k' =
      (if k' = k then [x + 2 ^ k, x] else []) ++ (t.buddy_free_list k').filter (fun q => q != x) := by
  have he := two_pow_pos' k
  have hb : x + 2 ^ (k + 1) / 2 = x + 2 ^ k := by rw [pow_succ_two]; simp
  have hne : ¬ x = x + 2 ^ k := by omega
  simp only [split_step, page2pa_div, h, hb, set_page, list_add_pp, list_del_pp]
  by_cases hk : k' = k <;> simp [hk, hne]

theorem split_step_free (t : kstate) (x k p : Nat) (h : (t.pages x).pp_order = k + 1) :
    ((split_step t x).pages p).pp_free = if p = x + 2 ^ k then true else (t.pages p).pp_free := by
  have hb : x + 2 ^ (k + 1) / 2 = x + 2 ^ k := by rw [pow_succ_two]; simp
  simp only [split_step, page2pa_div, h, hb, set_page, list_add_pp, list_del_pp]
  by_cases h1 : p = x + 2 ^ k <;> by_cases h2 : p = x <;> simp [h1, h2]

theorem split_step_order (t : kstate) (x k p : Nat) (h : (t.pages x).pp_order = k + 1) :
    ((split_step t x).pages p).pp_order =
      if p = x + 2 ^ k ∨ p = x then k else (t.pages p).pp_order := by
  have he := two_pow_pos' k
  have hb : x + 2 ^ (k + 1) / 2 = x + 2 ^ k := by rw [pow_succ_two]; simp
  have hne : ¬ x = x + 2 ^ k := by omega
  simp only [split_step, page2pa_div, h, hb, set_page, list_add_pp, list_del_pp]
  by_cases h1 : p = x + 2 ^ k <;> by_cases h2 : p = x <;> simp [h1, h2, hne, h]

theorem split_step_ref (t : kstate) (x p : Nat) :
    ((split_step t x).pages p).pp_ref = (t.pages p).pp_ref := by
  simp only [split_step, set_page, list_add_pp, list_del_pp]
  split_ifs <;> rfl

theorem split_step_inv (t : kstate) (x k : Nat) (h : hole_inv t x (k + 1)) :
    hole_inv (split_step t x) x k ∧ x ∈ (split_step t x).buddy_free_list k ∧
    ∀ p, (covered (split_step t x) p ∨ in_block x k p) ↔
      (covered t p ∨ in_block x (k + 1) p) := by
  have he := two_pow_pos' k
  have hord := h.xord
  have hmem : ∀ k' q, q ∈ (split_step t x).buddy_free_list k' ↔
      (k' = k ∧ (q = x + 2 ^ k ∨ q = x)) ∨ (q ∈ t.buddy_free_list k' ∧ q ≠ x) := by
    intro k' q
    rw [split_step_list t x k k' hord]
    by_cases hk : k' = k <;> simp [hk, or_assoc]
  have hfree := fun p => split_step_free t x k p hord
  have horder := fun p => split_step_order t x k p hord
  have hal2 : 2 ^ k * 2 ∣ x := by rw [← pow_succ_two]; exact h.xalign
  have halx : 2 ^ k ∣ x := Dvd.dvd.trans (Dvd.intro _ rfl) hal2
  have halb : 2 ^ k ∣ x + 2 ^ k := Dvd.dvd.add halx (dvd_refl _)
  have hsub1 : ∀ p, in_block x k p → in_block x (k + 1) p := by
    intro p hp; unfold in_block at *; rw [pow_succ_two]; omega
  have hsub2 : ∀ p, in_block (x + 2 ^ k) k p → in_block x (k + 1) p := by
    intro p hp; unfold in_block at *; rw [pow_succ_two]; omega
  have hsplit : ∀ p, in_block x (k + 1) p → in_block x k p ∨ in_block (x + 2 ^ k) k p := by
    intro p hp; unfold in_block at *; rw [pow_succ_two] at hp; omega
  have hdj : ∀ p, in_block x k p → ¬ in_block (x + 2 ^ k) k p := by
    intro p hp; unfold in_block at *; omega
  have hbx : x + 2 ^ k ≠ x := by omega
  have hbn : ∀ k', x + 2 ^ k ∉ t.buddy_free_list k' := by
    intro k' hm
    exact h.xdisj k' _ _ hm hbx (in_block_self _ k') (hsub2 _ (in_block_self _ k))
  have hxk : ∀ k', x ∈ t.buddy_free_list k' → k' = k + 1 := by
    intro k' hm
    have := (h.free k' x hm).2
    omega
  refine ⟨⟨⟨?_, ?_, ?_, ?_, ?_⟩, ?_, ?_, ?_, ?_, ?_, ?_, ?_, ?_⟩, ?_, ?_⟩
  · -- ord
    intro k' q hq
    rcases (hmem k' q).1 hq with ⟨hk, _⟩ | ⟨hq', _⟩
    · have := h.xk; omega
    · exact h.ord k' q hq'
  · -- free
    intro k' q hq
    rw [hfree, horder]
    rcases (hmem k' q).1 hq with ⟨hk, hq' | hq'⟩ | ⟨hq', hne⟩
    · simp [hq', hk]
    · simp [hq', hk, h.xfree]
    · have hqb : q ≠ x + 2 ^ k := fun e => hbn k' (e ▸ hq')
      simp [hqb, hne, h.free k' q hq']
  · -- align
    intro k' q hq
    rcases (hmem k' q).1 hq with ⟨hk, hq' | hq'⟩ | ⟨hq', hne⟩
    · rw [hk, hq']; exact halb
    · rw [hk, hq']; exact halx
    · exact h.align k' q hq'
  · -- nodup
    intro k'
    rw [split_step_list t x k k' hord]
    have hf : ((t.buddy_free_list k').filter (fun q => q != x)).Nodup :=
      List.Nodup.filter _ (h.nodup k')
    by_cases hk : k' = k
    · simp only [hk, if_true, List.cons_append, List.nil_append, List.nodup_cons,
        List.mem_cons, List.mem_filter]
      rw [hk] at hf
      refine ⟨?_, ?_, hf⟩
      · rintro (e | ⟨hm, _⟩)
        · exact hbx e
        · exact hbn k hm
      · rintro ⟨_, hm⟩
        simp at hm
    · simpa [hk] using hf
  · -- disj
    intro k1 q1 k2 q2 p h1 h2 hp1 hp2
    rcases (hmem k1 q1).1 h1 with ⟨hk1, hq1 | hq1⟩ | ⟨hq1, hne1⟩ <;>
    rcases (hmem k2 q2).1 h2 with ⟨hk2, hq2 | hq2⟩ | ⟨hq2, hne2⟩
    · rw [hq1, hq2]
    · rw [hk1, hq1] at hp1; rw [hk2, hq2] at hp2
      exact absurd hp1 (hdj p hp2)
    · rw [hk1, hq1] at hp1
      exact absurd (hsub2 p hp1) (h.xdisj k2 q2 p hq2 hne2 hp2)
    · rw [hk1, hq1] at hp1; rw [hk2, hq2] at hp2
      exact absurd hp2 (hdj p hp1)
    · rw [hq1, hq2]
    · rw [hk1, hq1] at hp1
      exact absurd (hsub1 p hp1) (h.xdisj k2 q2 p hq2 hne2 hp2)
    · rw [hk2, hq2] at hp2
      exact absurd (hsub2 p hp2) (h.xdisj k1 q1 p hq1 hne1 hp1)
    · rw [hk2, hq2] at hp2
      exact absurd (hsub1 p hp2) (h.xdisj k1 q1 p hq1 hne1 hp1)
    · exact h.disj k1 q1 k2 q2 p hq1 hq2 hp1 hp2
  · -- xfree
    rw [hfree]; simp [h.xfree]
  · -- xord
    rw [horder]; simp
  · -- xk
    have := h.xk; omega
  · exact halx
  · -- xdisj
    intro k' q p hq hne hp hx
    rcases (hmem k' q).1 hq with ⟨hk, hq' | hq'⟩ | ⟨hq', _⟩
    · rw [hk, hq'] at hp; exact hdj p hx hp
    · exact hne hq'
    · exact h.xdisj k' q p hq' hne hp (hsub1 p hx)
  · -- onlist
    intro q hne hf
    rw [hfree] at hf
    rw [horder]
    by_cases hqb : q = x + 2 ^ k
    · simp only [hqb, true_or, if_true]
      exact (hmem k _).2 (Or.inl ⟨rfl, Or.inl rfl⟩)
    · simp only [hqb, if_false] at hf
      simp only [hqb, hne, or_self, if_false]
      exact (hmem _ q).2 (Or.inr ⟨h.onlist q hne hf, hne⟩)
  · -- nobuddy
    intro k' q hk' hq hne hbne hcon
    rcases (hmem k' q).1 hq with ⟨hk, hq' | hq'⟩ | ⟨hq', _⟩
    · rw [hk, hq', buddy_of_odd k x hal2] at hbne
      exact hbne rfl
    · exact hne hq'
    · rcases (hmem k' _).1 hcon with ⟨hk, hb | hb⟩ | ⟨hc', _⟩
      · have hi := (buddy_of_invol k' q (h.align k' q hq')).1
        rw [hk] at hi hb
        rw [hb, buddy_of_odd k x hal2] at hi
        exact hne hi.symm
      · exact hbne hb
      · exact h.nobuddy k' q hk' hq' hne hbne hc'
  · -- used
    intro p hnc hnx
    rw [horder]
    have hpb : ¬ in_block (x + 2 ^ k) k p := fun hp =>
      hnc ⟨k, _, (hmem k _).2 (Or.inl ⟨rfl, Or.inl rfl⟩), hp⟩
    have hnx' : ¬ in_block x (k + 1) p := fun hp => by
      rcases hsplit p hp with h1 | h1
      · exact hnx h1
      · exact hpb h1
    have hpx : p ≠ x := fun e => hnx (e ▸ in_block_self x k)
    have hpb' : p ≠ x + 2 ^ k := fun e => hpb (e ▸ in_block_self _ k)
    simp only [hpx, hpb', or_self, if_false]
    apply h.used p _ hnx'
    rintro ⟨k', q, hq, hp⟩
    by_cases hqx : q = x
    · rw [hqx] at hq hp
      rw [hxk k' hq] at hp
      exact hnx' hp
    · exact hnc ⟨k', q, (hmem k' q).2 (Or.inr ⟨hq, hqx⟩), hp⟩
  · exact (hmem k x).2 (Or.inl ⟨rfl, Or.inr rfl⟩)
  · -- cover
    intro p
    constructor
    · rintro (⟨k', q, hq, hp⟩ | hx)
      · rcases (hmem k' q).1 hq with ⟨hk, hq' | hq'⟩ | ⟨hq', _⟩
        · rw [hk, hq'] at hp; exact Or.inr (hsub2 p hp)
        · rw [hk, hq'] at hp; exact Or.inr (hsub1 p hp)
        · exact Or.inl ⟨k', q, hq', hp⟩
      · exact Or.inr (hsub1 p hx)
    · have hx' : in_block x (k + 1) p →
          covered (split_step t x) p ∨ in_block x k p := by
        intro hx
        rcases hsplit p hx with h1 | h1
        · exact Or.inr h1
        · exact Or.inl ⟨k, _, (hmem k _).2 (Or.inl ⟨rfl, Or.inl rfl⟩), h1⟩
      rintro (⟨k', q, hq, hp⟩ | hx)
      · by_cases hqx : q = x
        · rw [hqx] at hq hp
          rw [hxk k' hq] at hp
          exact hx' hp
        · exact Or.inl ⟨k', q, (hmem k' q).2 (Or.inr ⟨hq, hqx⟩), hp⟩
      · exact hx' hx

theorem buddy_frame_refl (s : kstate) : buddy_frame s s :=
  ⟨rfl, rfl, rfl, rfl, fun _ => ⟨rfl, rfl, rfl⟩⟩

theorem buddy_frame_trans (a b c : kstate) (h1 : buddy_frame a b) (h2 : buddy_frame b c) :
    buddy_frame a c := by
  obtain ⟨a1, a2, a3, a4, a5⟩ := h1
  obtain ⟨b1, b2, b3, b4, b5⟩ := h2
  refine ⟨b1.trans a1, b2.trans a2, b3.trans a3, b4.trans a4, fun p => ?_⟩
  have := a5 p
  have := b5 p
  exact ⟨by omega, by simp_all, by omega⟩

theorem split_step_frame (t : kstate) (x : Nat) : buddy_frame t (split_step t x) := by
  refine ⟨rfl, rfl, rfl, rfl, fun p => ?_⟩
  simp only [split_step, set_page, list_add_pp, list_del_pp]
  split_ifs <;> exact ⟨rfl, rfl, rfl⟩

theorem buddy_split_fuel_succ (fuel : Nat) (s : kstate) (lhs req : Nat) :
    buddy_split_fuel (fuel + 1) s lhs req =
      if (s.pages lhs).pp_order = req then some (lhs, s)
      else buddy_split_fuel fuel (split_step s lhs) lhs req := rfl

/-- A block in the middle of a split is split down to order 0. -/
theorem split_rec (k : Nat) : ∀ (fuel : Nat) (t : kstate) (x : Nat), hole_inv t x k →
    k + 1 ≤ fuel →
    ∃ t', buddy_split_fuel fuel t x 0 = some (x, t') ∧ hole_inv t' x 0 ∧
      (∀ p, (covered t' p ∨ in_block x 0 p) ↔ (covered t p ∨ in_block x k p)) ∧
      buddy_frame t t' := by
  induction k with
  | zero =>
    intro fuel t x h hf
    obtain ⟨f, rfl⟩ : ∃ f, fuel = f + 1 := ⟨fuel - 1, by omega⟩
    refine ⟨t, ?_, h, fun p => Iff.rfl, buddy_frame_refl t⟩
    rw [buddy_split_fuel_succ, if_pos h.xord]
  | succ k ih =>
    intro fuel t x h hf
    obtain ⟨f, rfl⟩ : ∃ f, fuel = f + 1 := ⟨fuel - 1, by omega⟩
    obtain ⟨h1, _, h3⟩ := split_step_inv t x k h
    obtain ⟨t', e, hi, hc, hfr⟩ := ih f (split_step t x) x h1 (by omega)
    refine ⟨t', ?_, hi, fun p => (hc p).trans (h3 p), buddy_frame_trans _ _ _ (split_step_frame t x) hfr⟩
    rw [buddy_split_fuel_succ, if_neg (by rw [h.xord]; omega)]
    exact e

/-- Popping the first block of a list leaves the allocator in the middle of a split of that
block. -/
theorem pop_hole (s : kstate) (hs : buddy_inv s) (j q : Nat) (rest : List Nat)
    (hl : s.buddy_free_list j = q :: rest) :
    ∃ s1, list_pop_pp s j = (some q, s1) ∧ hole_inv s1 q j ∧
      (∀ p, (covered s1 p ∨ in_block q j p) ↔ covered s p) ∧ buddy_frame s s1 := by
  have hq : q ∈ s.buddy_free_list j := by rw [hl]; simp
  have hnd := hs.nodup j
  rw [hl] at hnd
  have hqr : q ∉ rest := (List.nodup_cons.1 hnd).1
  have hqk : ∀ k', q ∈ s.buddy_free_list k' → k' = j := by
    intro k' hm
    have a := (hs.free k' q hm).2
    have b := (hs.free j q hq).2
    omega
  refine ⟨{ s with buddy_free_list := fun k => if k = j then rest else s.buddy_free_list k },
    by simp [list_pop_pp, hl], ?_, ?_, ⟨rfl, rfl, rfl, rfl, fun _ => ⟨rfl, rfl, rfl⟩⟩⟩
  · have hmem : ∀ k' q', q' ∈ (if k' = j then rest else s.buddy_free_list k') ↔
        (q' ∈ s.buddy_free_list k' ∧ q' ≠ q) := by
      intro k' q'
      by_cases hk : k' = j
      · simp only [hk, if_true, hl, List.mem_cons]
        constructor
        · intro hm
          exact ⟨Or.inr hm, fun e => hqr (e ▸ hm)⟩
        · rintro ⟨e | hm, hne⟩
          · exact absurd e hne
          · exact hm
      · simp only [hk, if_false]
        constructor
        · intro hm
          exact ⟨hm, fun e => hk (hqk k' (e ▸ hm))⟩
        · exact fun hm => hm.1
    refine ⟨⟨?_, ?_, ?_, ?_, ?_⟩, (hs.free j q hq).1, (hs.free j q hq).2, hs.ord j q hq,
      hs.align j q hq, ?_, ?_, ?_, ?_⟩
    · intro k' q' hm
      exact hs.ord k' q' ((hmem k' q').1 hm).1
    · intro k' q' hm
      exact hs.free k' q' ((hmem k' q').1 hm).1
    · intro k' q' hm
      exact hs.align k' q' ((hmem k' q').1 hm).1
    · intro k'
      show (if k' = j then rest else s.buddy_free_list k').Nodup
      by_cases hk : k' = j
      · simp only [hk, if_true]; exact (List.nodup_cons.1 hnd).2
      · simp only [hk, if_false]; exact hs.nodup k'
    · intro k1 q1 k2 q2 p h1 h2 hp1 hp2
      exact hs.disj k1 q1 k2 q2 p ((hmem k1 q1).1 h1).1 ((hmem k2 q2).1 h2).1 hp1 hp2
    · intro k' q' p hm hne hp hx
      exact hne (hs.disj k' q' j q p ((hmem k' q').1 hm).1 hq hp hx)
    · intro q' hne hf
      exact (hmem _ q').2 ⟨hs.onlist q' hf, hne⟩
    · intro k' q' hk' hm hne hbne hcon
      exact hs.nobuddy k' q' hk' ((hmem k' q').1 hm).1 ((hmem k' _).1 hcon).1
    · intro p hnc hnx
      apply hs.used p
      rintro ⟨k', q', hm, hp⟩
      by_cases hqq : q' = q
      · rw [hqq] at hm hp
        rw [hqk k' hm] at hp
        exact hnx hp
      · exact hnc ⟨k', q', (hmem k' q').2 ⟨hm, hqq⟩, hp⟩
  · intro p
    have hmem : ∀ k' q', q' ∈ (if k' = j then rest else s.buddy_free_list k') →
        q' ∈ s.buddy_free_list k' := by
      intro k' q'
      by_cases hk : k' = j
      · simp only [hk, if_true, hl, List.mem_cons]
        exact fun hm => Or.inr hm
      · simp only [hk, if_false]
        exact fun hm => hm
    constructor
    · rintro (⟨k', q', hm, hp⟩ | hx)
      · exact ⟨k', q', hmem k' q' hm, hp⟩
      · exact ⟨j, q, hq, hx⟩
    · rintro ⟨k', q', hm, hp⟩
      by_cases hqq : q' = q
      · rw [hqq] at hm hp
        rw [hqk k' hm] at hp
        exact Or.inr hp
      · left
        refine ⟨k', q', ?_, hp⟩
        show q' ∈ (if k' = j then rest else s.buddy_free_list k')
        by_cases hk : k' = j
        · simp only [hk, if_true]
          rw [hk, hl] at hm
          rcases List.mem_cons.1 hm with e | hm
          · exact absurd e hqq
          · exact hm
        · simp only [hk, if_false]; exact hm

/-- Taking a block of order 0 that is in the middle of a split off the lists and clearing
its free flag restores the invariant; the block is the one frame that is no longer free. -/
theorem finish_alloc (t t2 : kstate) (x : Nat) (h : hole_inv t x 0)
    (hp : t2.pages = t.pages) (hl : t2.buddy_free_list = t.buddy_free_list) :
    buddy_inv (list_del_pp (set_page t2 x (fun p => { p with pp_free := false })) x) ∧
    ∀ p, covered (list_del_pp (set_page t2 x (fun p => { p with pp_free := false })) x) p ↔
      ((covered t p ∨ in_block x 0 p) ∧ p ≠ x) := by
  have hmem : ∀ k' q, q ∈ (list_del_pp (set_page t2 x
      (fun p => { p with pp_free := false })) x).buddy_free_list k' ↔
      (q ∈ t.buddy_free_list k' ∧ q ≠ x) := by
    intro k' q
    simp [list_del_pp, set_page, hl]
  have hfree : ∀ q, ((list_del_pp (set_page t2 x
      (fun p => { p with pp_free := false })) x).pages q).pp_free =
      if q = x then false else (t.pages q).pp_free := by
    intro q
    simp only [list_del_pp, set_page, hp]
    split_ifs <;> rfl
  have horder : ∀ q, ((list_del_pp (set_page t2 x
      (fun p => { p with pp_free := false })) x).pages q).pp_order = (t.pages q).pp_order := by
    intro q
    simp only [list_del_pp, set_page, hp]
    split_ifs <;> rfl
  have hxk : ∀ k', x ∈ t.buddy_free_list k' → k' = 0 := by
    intro k' hm
    have a := (h.free k' x hm).2
    have b := h.xord
    omega
  have hone : ∀ p, in_block x 0 p ↔ p = x := by
    intro p; unfold in_block; simp; omega
  refine ⟨⟨⟨?_, ?_, ?_, ?_, ?_⟩, ?_, ?_, ?_⟩, ?_⟩
  · intro k' q hm
    exact h.ord k' q ((hmem k' q).1 hm).1
  · intro k' q hm
    obtain ⟨hm', hne⟩ := (hmem k' q).1 hm
    rw [hfree, horder]
    simp only [hne, if_false]
    exact h.free k' q hm'
  · intro k' q hm
    exact h.align k' q ((hmem k' q).1 hm).1
  · intro k'
    simp only [list_del_pp, set_page, hl]
    exact List.Nodup.filter _ (h.nodup k')
  · intro k1 q1 k2 q2 p h1 h2 hp1 hp2
    exact h.disj k1 q1 k2 q2 p ((hmem k1 q1).1 h1).1 ((hmem k2 q2).1 h2).1 hp1 hp2
  · intro q hf
    rw [hfree] at hf
    rw [horder]
    by_cases hq : q = x
    · simp [hq] at hf
    · simp only [hq, if_false] at hf
      exact (hmem _ q).2 ⟨h.onlist q hq hf, hq⟩
  · intro k' q hk' hm hcon
    obtain ⟨hm', hne⟩ := (hmem k' q).1 hm
    obtain ⟨hc', hbne⟩ := (hmem k' _).1 hcon
    exact h.nobuddy k' q hk' hm' hne hbne hc'
  · intro p hnc
    rw [horder]
    by_cases hpx : p = x
    · rw [hpx]; exact h.xord
    · apply h.used p _ (fun hx => hpx ((hone p).1 hx))
      rintro ⟨k', q, hm, hb⟩
      by_cases hq : q = x
      · rw [hq] at hm hb
        rw [hxk k' hm] at hb
        exact hpx ((hone p).1 hb)
      · exact hnc ⟨k', q, (hmem k' q).2 ⟨hm, hq⟩, hb⟩
  · intro p
    constructor
    · rintro ⟨k', q, hm, hb⟩
      obtain ⟨hm', hne⟩ := (hmem k' q).1 hm
      refine ⟨Or.inl ⟨k', q, hm', hb⟩, ?_⟩
      intro hpx
      rw [hpx] at hb
      exact h.xdisj k' q x hm' hne hb (in_block_self x 0)
    · rintro ⟨hc | hx, hpx⟩
      · obtain ⟨k', q, hm, hb⟩ := hc
        by_cases hq : q = x
        · rw [hq] at hm hb
          rw [hxk k' hm] at hb
          exact absurd ((hone p).1 hb) hpx
        · exact ⟨k', q, (hmem k' q).2 ⟨hm, hq⟩, hb⟩
      · exact absurd ((hone p).1 hx) hpx

/-- The scan of `buddy_find` over the larger orders: either every list scanned is empty and
`NULL` is returned, or a block is popped and split down to order 0. -/
theorem find_loop_spec (s : kstate) (hs : buddy_inv s) : ∀ (n order : Nat),
    (buddy_find_loop n s order 0 = some (none, s) ∧
      ∀ k, order ≤ k → k < order + n → s.buddy_free_list k = []) ∨
    (∃ q s1, buddy_find_loop n s order 0 = some (some q, s1) ∧ hole_inv s1 q 0 ∧
      (∀ p, (covered s1 p ∨ in_block q 0 p) ↔ covered s p) ∧ buddy_frame s s1) := by
  intro n
  induction n with
  | zero =>
    intro order
    left
    exact ⟨rfl, fun k h1 h2 => by omega⟩
  | succ n ih =>
    intro order
    cases hl : s.buddy_free_list order with
    | nil =>
      have e : buddy_find_loop (n + 1) s order 0 = buddy_find_loop n s (order + 1) 0 := by
        simp [buddy_find_loop, hl]
      rw [e]
      rcases ih (order + 1) with ⟨h1, h2⟩ | h
      · left
        refine ⟨h1, fun k hk1 hk2 => ?_⟩
        by_cases hk : k = order
        · rw [hk]; exact hl
        · exact h2 k (by omega) (by omega)
      · right; exact h
    | cons q rest =>
      right
      obtain ⟨s1, e1, hh, hc, hfr⟩ := pop_hole s hs order q rest hl
      obtain ⟨t', e2, hi, hc2, hfr2⟩ := split_rec order (order + 1) s1 q hh (le_refl _)
      refine ⟨q, t', ?_, hi, fun p => (hc2 p).trans (hc p), buddy_frame_trans _ _ _ hfr hfr2⟩
      simp [buddy_find_loop, hl, e1, buddy_split, hh.xord, e2]

/-- `buddy_find(0)` on a state that satisfies the invariant: either every list is empty and
`NULL` is returned with the state unchanged, or a block of order 0 is returned which is in
the middle of a split. -/
theorem buddy_find_spec (s : kstate) (hs : buddy_inv s) :
    (buddy_find s 0 = some (none, s) ∧ ∀ k, k < BUDDY_MAX_ORDER → s.buddy_free_list k = []) ∨
    (∃ q s1, buddy_find s 0 = some (some q, s1) ∧ hole_inv s1 q 0 ∧
      (∀ p, (covered s1 p ∨ in_block q 0 p) ↔ covered s p) ∧ buddy_frame s s1) := by
  cases hl : s.buddy_free_list 0 with
  | nil =>
    have e : buddy_find s 0 = buddy_find_loop 9 s 1 0 := by
      simp [buddy_find, hl, BUDDY_MAX_ORDER]
    rw [e]
    rcases find_loop_spec s hs 9 1 with ⟨h1, h2⟩ | h
    · left
      refine ⟨h1, fun k hk => ?_⟩
      by_cases h0 : k = 0
      · rw [h0]; exact hl
      · exact h2 k (by omega) (by unfold BUDDY_MAX_ORDER at hk; omega)
    · right; exact h
  | cons q rest =>
    right
    obtain ⟨s1, e1, hh, hc, hfr⟩ := pop_hole s hs 0 q rest hl
    exact ⟨q, s1, by simp [buddy_find, hl, e1], hh, hc, hfr⟩

/-- `page_alloc` on a state that satisfies the invariant: it panics when every list is
empty; otherwise it returns a frame that was free, the invariant holds again, the free
frames are the old ones without the frame returned, and nothing else changes but the
contents of that frame when it is zeroed. -/
theorem page_alloc_spec (s : kstate) (hs : buddy_inv s) (flags : Nat) :
    (page_alloc s flags = none ∧ ∀ k, k < BUDDY_MAX_ORDER → s.buddy_free_list k = []) ∨
    (∃ p s', page_alloc s flags = some (some p, s') ∧ buddy_inv s' ∧ covered s p ∧
      (∀ x, covered s' x ↔ (covered s x ∧ x ≠ p)) ∧
      (∀ f, f ≠ p → s'.mem f = s.mem f) ∧
      (s'.mem p = if flags &&& ALLOC_ZERO ≠ 0 ∧ (s.pages p).pp_zero = false
                  then (fun _ => 0) else s.mem p) ∧
      s'.zero_list = s.zero_list ∧ s'.swap_pages = s.swap_pages ∧
      s'.cur_task = s.cur_task ∧
      ∀ q, ((s'.pages q).pp_ref = (s.pages q).pp_ref ∧
        (s'.pages q).pp_zero = (s.pages q).pp_zero ∧ (s'.pages q).rmap = (s.pages q).rmap)) := by
  rcases buddy_find_spec s hs with ⟨h1, h2⟩ | ⟨q, s1, e, hh, hc, hfr⟩
  · left
    exact ⟨by simp [page_alloc, h1], h2⟩
  · right
    obtain ⟨f1, f2, f3, f4, f5⟩ := hfr
    have hxf : (s1.pages q).pp_free = true := hh.xfree
    let s2 : kstate := if flags &&& ALLOC_ZERO ≠ 0 then
        (if !(s1.pages q).pp_zero then zero_frame s1 q else s1) else s1
    have hs2p : s2.pages = s1.pages := by
      show (if flags &&& ALLOC_ZERO ≠ 0 then
        (if !(s1.pages q).pp_zero then zero_frame s1 q else s1) else s1).pages = s1.pages
      split_ifs <;> rfl
    have hs2l : s2.buddy_free_list = s1.buddy_free_list := by
      show (if flags &&& ALLOC_ZERO ≠ 0 then
        (if !(s1.pages q).pp_zero then zero_frame s1 q else s1) else s1).buddy_free_list =
          s1.buddy_free_list
      split_ifs <;> rfl
    have hs2z : s2.zero_list = s1.zero_list ∧ s2.swap_pages = s1.swap_pages ∧
        s2.cur_task = s1.cur_task := by
      show (if flags &&& ALLOC_ZERO ≠ 0 then
        (if !(s1.pages q).pp_zero then zero_frame s1 q else s1) else s1).zero_list = _ ∧
        (if flags &&& ALLOC_ZERO ≠ 0 then
        (if !(s1.pages q).pp_zero then zero_frame s1 q else s1) else s1).swap_pages = _ ∧
        (if flags &&& ALLOC_ZERO ≠ 0 then
        (if !(s1.pages q).pp_zero then zero_frame s1 q else s1) else s1).cur_task = _
      split_ifs <;> exact ⟨rfl, rfl, rfl⟩
    have hs2m : ∀ f, s2.mem f = if f = q ∧ flags &&& ALLOC_ZERO ≠ 0 ∧
        (s1.pages q).pp_zero = false then (fun _ => 0) else s1.mem f := by
      intro f
      show (if flags &&& ALLOC_ZERO ≠ 0 then
        (if !(s1.pages q).pp_zero then zero_frame s1 q else s1) else s1).mem f = _
      by_cases ha : flags &&& ALLOC_ZERO ≠ 0 <;> by_cases hb : (s1.pages q).pp_zero = false <;>
        by_cases hc : f = q <;> simp [ha, hb, hc, zero_frame]
    obtain ⟨hinv, hcov⟩ := finish_alloc s1 s2 q hh hs2p hs2l
    refine ⟨q, list_del_pp (set_page s2 q (fun p => { p with pp_free := false })) q,
      ?_, hinv, (hc q).1 (Or.inr (in_block_self q 0)), ?_, ?_, ?_, ?_, ?_, ?_, ?_⟩
    · simp only [page_alloc, e, hxf]
      rfl
    · intro x
      rw [hcov x, hc x]
    · intro f hf
      show s2.mem f = s.mem f
      rw [hs2m f, if_neg (fun hh => hf hh.1), f1]
    · show s2.mem q = _
      rw [hs2m q, ← (f5 q).2.1, f1]
      simp
    · show s2.zero_list = _
      rw [hs2z.1, f2]
    · show s2.swap_pages = _
      rw [hs2z.2.1, f3]
    · show s2.cur_task = _
      rw [hs2z.2.2, f4]
    · intro p
      have := f5 p
      simp only [list_del_pp, set_page, hs2p]
      split_ifs <;> exact this

theorem merge_buddy_eq (t : kstate) (x k : Nat) (h : (t.pages x).pp_order = k) :
    merge_buddy t x = buddy_of x k := by
  simp [merge_buddy, buddy_of, page2pa_div, h]

theorem merge_lhs_eq (t : kstate) (x k : Nat) (h : (t.pages x).pp_order = k) :
    merge_lhs t x = if x % (2 ^ k * 2) = 0 then x else buddy_of x k := by
  simp [merge_lhs, merge_buddy, buddy_of, page2pa_div, h]

/-- The two blocks of a merge: the left one is aligned to the next order and its block of
the next order is made of the two blocks. -/
theorem merge_geometry (x k : Nat) (hx : 2 ^ k ∣ x) :
    let lhs := if x % (2 ^ k * 2) = 0 then x else buddy_of x k
    let rhs := if x % (2 ^ k * 2) = 0 then buddy_of x k else x
    2 ^ (k + 1) ∣ lhs ∧ rhs = lhs + 2 ^ k ∧ (lhs = x ∨ lhs = buddy_of x k) ∧
    (rhs = x ∨ rhs = buddy_of x k) ∧ lhs ≠ rhs ∧
    (∀ p, in_block lhs (k + 1) p ↔ (in_block x k p ∨ in_block (buddy_of x k) k p)) := by
  have he := two_pow_pos' k
  intro lhs rhs
  rcases buddy_cases (2 ^ k) x he hx with ⟨h0, hd⟩ | ⟨h0, hle, hd⟩
  · have hb : buddy_of x k = x + 2 ^ k := buddy_of_even k x hd
    have e1 : lhs = x := by show (if _ then _ else _) = _; rw [if_pos h0]
    have e2 : rhs = x + 2 ^ k := by show (if _ then _ else _) = _; rw [if_pos h0, hb]
    rw [e1, e2, hb, pow_succ_two]
    refine ⟨hd, rfl, Or.inl rfl, Or.inr rfl, by omega, fun p => ?_⟩
    unfold in_block; omega
  · have hb : buddy_of x k = x - 2 ^ k := by unfold buddy_of; rw [if_neg h0]
    have e1 : lhs = x - 2 ^ k := by show (if _ then _ else _) = _; rw [if_neg h0, hb]
    have e2 : rhs = x := by show (if _ then _ else _) = _; rw [if_neg h0]
    rw [e1, e2, hb, pow_succ_two]
    refine ⟨hd, by omega, Or.inr rfl, Or.inl rfl, by omega, fun p => ?_⟩
    unfold in_block; omega

theorem merge_step_list (t : kstate) (x k k' : Nat) (h : (t.pages x).pp_order = k)
    (hb : (t.pages (buddy_of x k)).pp_order = k) (hne : buddy_of x k ≠ x) :
    (merge_step t x).buddy_free_list k' =
      (if k' = k + 1 then [if x % (2 ^ k * 2) = 0 then x else buddy_of x k] else []) ++
        ((t.buddy_free_list k').filter (fun q => q != buddy_of x k)).filter (fun q => q != x) := by
  simp only [merge_step, merge_buddy_eq t x k h, merge_lhs_eq t x k h, set_page, list_add_pp,
    list_del_pp]
  by_cases h0 : x % (2 ^ k * 2) = 0 <;> by_cases hk : k' = k + 1 <;>
    simp [h0, hk, hne, hne.symm, h, hb]

theorem merge_step_free (t : kstate) (x k p : Nat) (h : (t.pages x).pp_order = k)
    (hne : buddy_of x k ≠ x) :
    ((merge_step t x).pages p).pp_free =
      if p = (if x % (2 ^ k * 2) = 0 then buddy_of x k else x) then false
      else (t.pages p).pp_free := by
  simp only [merge_step, merge_buddy_eq t x k h, merge_lhs_eq t x k h, set_page, list_add_pp,
    list_del_pp]
  by_cases h0 : x % (2 ^ k * 2) = 0 <;> by_cases h1 : p = x <;>
    by_cases h2 : p = buddy_of x k <;> simp [h0, h1, h2, hne, hne.symm]

theorem merge_step_order (t : kstate) (x k p : Nat) (h : (t.pages x).pp_order = k)
    (hb : (t.pages (buddy_of x k)).pp_order = k) (hne : buddy_of x k ≠ x) :
    ((merge_step t x).pages p).pp_order =
      if p = (if x % (2 ^ k * 2) = 0 then x else buddy_of x k) then k + 1
      else (t.pages p).pp_order := by
  simp only [merge_step, merge_buddy_eq t x k h, merge_lhs_eq t x k h, set_page, list_add_pp,
    list_del_pp]
  by_cases h0 : x % (2 ^ k * 2) = 0 <;> by_cases h1 : p = x <;>
    by_cases h2 : p = buddy_of x k <;> simp [h0, h1, h2, hne, hne.symm, h, hb]

theorem merge_step_frame (t : kstate) (x : Nat) : buddy_frame t (merge_step t x) := by
  unfold buddy_frame merge_step
  by_cases h : merge_buddy t x = merge_lhs t x
  · simp only [h, if_true, set_page, list_add_pp, list_del_pp, true_and]
    intro p
    split_ifs <;> simp
  · simp only [h, if_false, set_page, list_add_pp, list_del_pp, true_and]
    intro p
    split_ifs <;> simp

theorem merge_step_inv (t : kstate) (x k : Nat) (h : hole_inv t x k)
    (hk : k + 1 < BUDDY_MAX_ORDER)
    (hbf : (t.pages (buddy_of x k)).pp_free = true)
    (hbo : (t.pages (buddy_of x k)).pp_order = k) :
    hole_inv (merge_step t x) (merge_lhs t x) (k + 1) ∧
    merge_lhs t x ∈ (merge_step t x).buddy_free_list (k + 1) ∧
    ∀ p, (covered (merge_step t x) p ∨ in_block (merge_lhs t x) (k + 1) p) ↔
      (covered t p ∨ in_block x k p) := by
  have he := two_pow_pos' k
  have hord := h.xord
  obtain ⟨hinv, halb, hbx⟩ := buddy_of_invol k x h.xalign
  obtain ⟨hg1, hg2, hg3, hg4, hg5, hg6⟩ := merge_geometry x k h.xalign
  rw [merge_lhs_eq t x k hord]
  generalize hlhs : (if x % (2 ^ k * 2) = 0 then x else buddy_of x k) = lhs at *
  generalize hrhs : (if x % (2 ^ k * 2) = 0 then buddy_of x k else x) = rhs at *
  have hbl : buddy_of x k ∈ t.buddy_free_list k := by
    have := h.onlist _ hbx hbf
    rw [hbo] at this; exact this
  have hmem : ∀ k' q, q ∈ (merge_step t x).buddy_free_list k' ↔
      (k' = k + 1 ∧ q = lhs) ∨ (q ∈ t.buddy_free_list k' ∧ q ≠ buddy_of x k ∧ q ≠ x) := by
    intro k' q
    rw [merge_step_list t x k k' hord hbo hbx, hlhs]
    by_cases hk' : k' = k + 1 <;> simp [hk', and_assoc] <;> tauto
  have hfree : ∀ p, ((merge_step t x).pages p).pp_free =
      if p = rhs then false else (t.pages p).pp_free := by
    intro p; rw [merge_step_free t x k p hord hbx, hrhs]
  have horder : ∀ p, ((merge_step t x).pages p).pp_order =
      if p = lhs then k + 1 else (t.pages p).pp_order := by
    intro p; rw [merge_step_order t x k p hord hbo hbx, hlhs]
  have hlo : (t.pages lhs).pp_order = k ∧ (t.pages lhs).pp_free = true := by
    rcases hg3 with e | e <;> rw [e]
    · exact ⟨hord, h.xfree⟩
    · exact ⟨hbo, hbf⟩
  have hxk : ∀ k', x ∈ t.buddy_free_list k' → k' = k := by
    intro k' hm
    have := (h.free k' x hm).2
    omega
  have hbk : ∀ k', buddy_of x k ∈ t.buddy_free_list k' → k' = k := by
    intro k' hm
    have := (h.free k' _ hm).2
    omega
  have hold : ∀ k' q p, q ∈ t.buddy_free_list k' → q ≠ buddy_of x k → q ≠ x →
      in_block q k' p → ¬ in_block lhs (k + 1) p := by
    intro k' q p hq hqb hqx hp hl
    rcases (hg6 p).1 hl with h1 | h1
    · exact h.xdisj k' q p hq hqx hp h1
    · exact hqb (h.disj k' q k _ p hq hbl hp h1)
  have hlx : lhs ≠ rhs := hg5
  refine ⟨⟨⟨?_, ?_, ?_, ?_, ?_⟩, ?_, ?_, ?_, ?_, ?_, ?_, ?_, ?_⟩, ?_, ?_⟩
  · -- ord
    intro k' q hq
    rcases (hmem k' q).1 hq with ⟨hk', _⟩ | ⟨hq', _, _⟩
    · omega
    · exact h.ord k' q hq'
  · -- free
    intro k' q hq
    rw [hfree, horder]
    rcases (hmem k' q).1 hq with ⟨hk', hq'⟩ | ⟨hq', hqb, hqx⟩
    · simp [hq', hk', hlx, hlo.2]
    · have hql : q ≠ lhs := by rcases hg3 with e | e <;> rw [e] <;> assumption
      have hqr : q ≠ rhs := by rcases hg4 with e | e <;> rw [e] <;> assumption
      simp [hql, hqr, h.free k' q hq']
  · -- align
    intro k' q hq
    rcases (hmem k' q).1 hq with ⟨hk', hq'⟩ | ⟨hq', _, _⟩
    · rw [hk', hq']; exact hg1
    · exact h.align k' q hq'
  · -- nodup
    intro k'
    rw [merge_step_list t x k k' hord hbo hbx, hlhs]
    have hf : (((t.buddy_free_list k').filter (fun q => q != buddy_of x k)).filter
        (fun q => q != x)).Nodup :=
      List.Nodup.filter _ (List.Nodup.filter _ (h.nodup k'))
    by_cases hk' : k' = k + 1
    · simp only [hk', if_true, List.cons_append, List.nil_append, List.nodup_cons,
        List.mem_filter]
      rw [hk'] at hf
      refine ⟨?_, hf⟩
      rintro ⟨⟨_, h1⟩, h2⟩
      rcases hg3 with e | e
      · rw [e] at h2; simp at h2
      · rw [e] at h1; simp at h1
    · simpa [hk'] using hf
  · -- disj
    intro k1 q1 k2 q2 p h1 h2 hp1 hp2
    rcases (hmem k1 q1).1 h1 with ⟨hk1, hq1⟩ | ⟨hq1, hb1, hx1⟩ <;>
    rcases (hmem k2 q2).1 h2 with ⟨hk2, hq2⟩ | ⟨hq2, hb2, hx2⟩
    · rw [hq1, hq2]
    · rw [hk1, hq1] at hp1
      exact absurd hp1 (hold k2 q2 p hq2 hb2 hx2 hp2)
    · rw [hk2, hq2] at hp2
      exact absurd hp2 (hold k1 q1 p hq1 hb1 hx1 hp1)
    · exact h.disj k1 q1 k2 q2 p hq1 hq2 hp1 hp2
  · -- xfree
    rw [hfree]; simp [hlx, hlo.2]
  · -- xord
    rw [horder]; simp
  · exact hk
  · exact hg1
  · -- xdisj
    intro k' q p hq hne hp hx
    rcases (hmem k' q).1 hq with ⟨_, hq'⟩ | ⟨hq', hqb, hqx⟩
    · exact hne hq'
    · exact hold k' q p hq' hqb hqx hp hx
  · -- onlist
    intro q hne hf
    rw [hfree] at hf
    rw [horder]
    by_cases hqr : q = rhs
    · simp [hqr] at hf
    · simp only [hqr, if_false] at hf
      simp only [hne, if_false]
      have hqx : q ≠ x := by
        intro e
        rcases hg3 with e' | e'
        · exact hne (e.trans e'.symm)
        · rcases hg4 with e'' | e''
          · exact hqr (e.trans e''.symm)
          · exact hlx (e'.trans e''.symm)
      have hqb : q ≠ buddy_of x k := by
        intro e
        rcases hg3 with e' | e'
        · rcases hg4 with e'' | e''
          · exact hlx (e'.trans e''.symm)
          · exact hqr (e.trans e''.symm)
        · exact hne (e.trans e'.symm)
      exact (hmem _ q).2 (Or.inr ⟨h.onlist q hqx hf, hqb, hqx⟩)
  · -- nobuddy
    intro k' q hk' hq hne hbne hcon
    rcases (hmem k' q).1 hq with ⟨_, hq'⟩ | ⟨hq', hqb, hqx⟩
    · exact hne hq'
    · rcases (hmem k' _).1 hcon with ⟨_, hc⟩ | ⟨hc', _, hcx⟩
      · exact hbne hc
      · exact h.nobuddy k' q hk' hq' hqx hcx hc'
  · -- used
    intro p hnc hnx
    rw [horder]
    have hpl : p ≠ lhs := fun e => hnx (e ▸ in_block_self lhs (k + 1))
    simp only [hpl, if_false]
    apply h.used p _ (fun hx => hnx ((hg6 p).2 (Or.inl hx)))
    rintro ⟨k', q, hq, hp⟩
    by_cases hqx : q = x
    · rw [hqx] at hq hp
      rw [hxk k' hq] at hp
      exact hnx ((hg6 p).2 (Or.inl hp))
    · by_cases hqb : q = buddy_of x k
      · rw [hqb] at hq hp
        rw [hbk k' hq] at hp
        exact hnx ((hg6 p).2 (Or.inr hp))
      · exact hnc ⟨k', q, (hmem k' q).2 (Or.inr ⟨hq, hqb, hqx⟩), hp⟩
  · exact (hmem (k + 1) lhs).2 (Or.inl ⟨rfl, rfl⟩)
  · -- cover
    intro p
    constructor
    · rintro (⟨k', q, hq, hp⟩ | hl)
      · rcases (hmem k' q).1 hq with ⟨hk', hq'⟩ | ⟨hq', _, _⟩
        · rw [hk', hq'] at hp
          rcases (hg6 p).1 hp with h1 | h1
          · exact Or.inr h1
          · exact Or.inl ⟨k, _, hbl, h1⟩
        · exact Or.inl ⟨k', q, hq', hp⟩
      · rcases (hg6 p).1 hl with h1 | h1
        · exact Or.inr h1
        · exact Or.inl ⟨k, _, hbl, h1⟩
    · rintro (⟨k', q, hq, hp⟩ | hx)
      · by_cases hqx : q = x
        · rw [hqx] at hq hp
          rw [hxk k' hq] at hp
          exact Or.inr ((hg6 p).2 (Or.inl hp))
        · by_cases hqb : q = buddy_of x k
          · rw [hqb] at hq hp
            rw [hbk k' hq] at hp
            exact Or.inr ((hg6 p).2 (Or.inr hp))
          · exact Or.inl ⟨k', q, (hmem k' q).2 (Or.inr ⟨hq, hqb, hqx⟩), hp⟩
      · exact Or.inr ((hg6 p).2 (Or.inl hx))

/-! ## Freeing a frame -/

theorem covered_congr (s s' : kstate) (hl : s'.buddy_free_list = s.buddy_free_list) (p : Nat) :
    covered s' p ↔ covered s p := by
  unfold covered; rw [hl]

/-- The invariant reads the free lists and the free flag and order of the frames only. -/
theorem buddy_inv_congr (s s' : kstate) (hl : s'.buddy_free_list = s.buddy_free_list)
    (hf : ∀ p, (s'.pages p).pp_free = (s.pages p).pp_free)
    (ho : ∀ p, (s'.pages p).pp_order = (s.pages p).pp_order) (h : buddy_inv s) :
    buddy_inv s' := by
  refine ⟨⟨?_, ?_, ?_, ?_, ?_⟩, ?_, ?_, ?_⟩
  · intro k q hq; rw [hl] at hq; exact h.ord k q hq
  · intro k q hq; rw [hl] at hq; rw [hf, ho]; exact h.free k q hq
  · intro k q hq; rw [hl] at hq; exact h.align k q hq
  · intro k; rw [hl]; exact h.nodup k
  · intro k1 q1 k2 q2 p h1 h2; rw [hl] at h1 h2; exact h.disj k1 q1 k2 q2 p h1 h2
  · intro q hq; rw [hf] at hq; rw [hl, ho]; exact h.onlist q hq
  · intro k q hk hq; rw [hl] at hq ⊢; exact h.nobuddy k q hk hq
  · intro p hp; rw [ho]; exact h.used p (fun hc => hp ((covered_congr s s' hl p).2 hc))

/-- A block in the middle of a merge that is on its list and has no free buddy left, or has
the top order, is an ordinary free block. -/
theorem hole_stop (t : kstate) (x k : Nat) (h : hole_inv t x k)
    (hx : x ∈ t.buddy_free_list k)
    (hstop : k + 1 = BUDDY_MAX_ORDER ∨
      ¬ ((t.pages (buddy_of x k)).pp_free = true ∧ (t.pages (buddy_of x k)).pp_order = k)) :
    buddy_inv t := by
  have hxk : ∀ k', x ∈ t.buddy_free_list k' → k' = k := by
    intro k' hm
    have a := (h.free k' x hm).2
    have b := h.xord
    omega
  refine ⟨h.tocore_inv, ?_, ?_, ?_⟩
  · intro q hq
    by_cases hqx : q = x
    · rw [hqx, h.xord]; exact hx
    · exact h.onlist q hqx hq
  · intro k' q hk' hq hcon
    by_cases hqx : q = x
    · rw [hqx] at hq hcon
      have e := hxk k' hq
      rw [e] at hcon hk'
      rcases hstop with hs | hs
      · omega
      · exact hs (h.free k _ hcon)
    · by_cases hcx : buddy_of q k' = x
      · rw [hcx] at hcon
        have e := hxk k' hcon
        rw [e] at hq hk' hcx
        have hi := (buddy_of_invol k q (h.align k q hq)).1
        rw [hcx] at hi
        rcases hstop with hs | hs
        · omega
        · rw [hi] at hs
          exact hs (h.free k q hq)
      · exact h.nobuddy k' q hk' hq hqx hcx hcon
  · intro p hp
    exact h.used p hp (fun hb => hp ⟨k, x, hx, hb⟩)

/-- Linking a block that is in the middle of a merge on the list of its order. -/
theorem hole_add (t : kstate) (x k : Nat) (h : hole_inv t x k)
    (hx : ∀ k', x ∉ t.buddy_free_list k') :
    hole_inv (list_add_pp t k x) x k ∧ x ∈ (list_add_pp t k x).buddy_free_list k ∧
    ∀ p, covered (list_add_pp t k x) p ↔ (covered t p ∨ in_block x k p) := by
  have hmem : ∀ k' q, q ∈ (list_add_pp t k x).buddy_free_list k' ↔
      (k' = k ∧ q = x) ∨ q ∈ t.buddy_free_list k' := by
    intro k' q
    simp only [list_add_pp]
    by_cases hk : k' = k <;> simp [hk]
  refine ⟨⟨⟨?_, ?_, ?_, ?_, ?_⟩, h.xfree, h.xord, h.xk, h.xalign, ?_, ?_, ?_, ?_⟩, ?_, ?_⟩
  · intro k' q hq
    rcases (hmem k' q).1 hq with ⟨hk, _⟩ | hq'
    · rw [hk]; exact h.xk
    · exact h.ord k' q hq'
  · intro k' q hq
    rcases (hmem k' q).1 hq with ⟨hk, hq'⟩ | hq'
    · rw [hk, hq']; exact ⟨h.xfree, h.xord⟩
    · exact h.free k' q hq'
  · intro k' q hq
    rcases (hmem k' q).1 hq with ⟨hk, hq'⟩ | hq'
    · rw [hk, hq']; exact h.xalign
    · exact h.align k' q hq'
  · intro k'
    simp only [list_add_pp]
    by_cases hk : k' = k
    · simp only [hk, if_true, List.nodup_cons]
      exact ⟨hx k, h.nodup k⟩
    · simp only [hk, if_false]; exact h.nodup k'
  · intro k1 q1 k2 q2 p h1 h2 hp1 hp2
    rcases (hmem k1 q1).1 h1 with ⟨hk1, hq1⟩ | hq1 <;>
    rcases (hmem k2 q2).1 h2 with ⟨hk2, hq2⟩ | hq2
    · rw [hq1, hq2]
    · rw [hk1, hq1] at hp1
      have hne : q2 ≠ x := fun e => hx k2 (e ▸ hq2)
      exact absurd hp1 (h.xdisj k2 q2 p hq2 hne hp2)
    · rw [hk2, hq2] at hp2
      have hne : q1 ≠ x := fun e => hx k1 (e ▸ hq1)
      exact absurd hp2 (h.xdisj k1 q1 p hq1 hne hp1)
    · exact h.disj k1 q1 k2 q2 p hq1 hq2 hp1 hp2
  · intro k' q p hq hne hp
    rcases (hmem k' q).1 hq with ⟨_, hq'⟩ | hq'
    · exact absurd hq' hne
    · exact h.xdisj k' q p hq' hne hp
  · intro q hne hf
    exact (hmem _ q).2 (Or.inr (h.onlist q hne hf))
  · intro k' q hk' hq hne hbne hcon
    rcases (hmem k' q).1 hq with ⟨_, hq'⟩ | hq'
    · exact hne hq'
    · rcases (hmem k' _).1 hcon with ⟨_, hc⟩ | hc
      · exact hbne hc
      · exact h.nobuddy k' q hk' hq' hne hbne hc
  · intro p hnc hnx
    apply h.used p _ hnx
    rintro ⟨k', q, hq, hp⟩
    exact hnc ⟨k', q, (hmem k' q).2 (Or.inr hq), hp⟩
  · exact (hmem k x).2 (Or.inl ⟨rfl, rfl⟩)
  · intro p
    constructor
    · rintro ⟨k', q, hq, hp⟩
      rcases (hmem k' q).1 hq with ⟨hk, hq'⟩ | hq'
      · rw [hk, hq'] at hp; exact Or.inr hp
      · exact Or.inl ⟨k', q, hq', hp⟩
    · rintro (⟨k', q, hq, hp⟩ | hp)
      · exact ⟨k', q, (hmem k' q).2 (Or.inr hq), hp⟩
      · exact ⟨k, x, (hmem k x).2 (Or.inl ⟨rfl, rfl⟩), hp⟩

theorem buddy_merge_fuel_succ (fuel : Nat) (s : kstate) (page : Nat) :
    buddy_merge_fuel (fuel + 1) s page =
      if (s.pages page).pp_order = BUDDY_MAX_ORDER - 1 then some (none, s)
      else if (s.buddy_free_list (s.pages page).pp_order).isEmpty then some (some page, s)
      else if (s.pages page).pp_free && (s.pages (merge_buddy s page)).pp_free
          && (s.pages page).pp_order == (s.pages (merge_buddy s page)).pp_order then
        match buddy_merge_fuel fuel (merge_step s page) (merge_lhs s page) with
        | none => none
        | some (_, s6) => some (none, s6)
      else some (some page, s) := rfl

/-- The recursive calls of `buddy_merge`: a block that is on its list is merged with its
free buddies as long as there is one; the invariant holds at the end and the free frames
are the same. -/
theorem merge_rec : ∀ (fuel : Nat) (t : kstate) (x k : Nat), hole_inv t x k →
    x ∈ t.buddy_free_list k → BUDDY_MAX_ORDER ≤ k + fuel →
    ∃ r t', buddy_merge_fuel fuel t x = some (r, t') ∧ buddy_inv t' ∧
      (∀ p, covered t' p ↔ covered t p) ∧ buddy_frame t t' := by
  intro fuel
  induction fuel with
  | zero =>
    intro t x k h _ hf
    have := h.xk
    omega
  | succ f ih =>
    intro t x k h hx hf
    rw [buddy_merge_fuel_succ, h.xord]
    by_cases hmax : k = BUDDY_MAX_ORDER - 1
    · rw [if_pos hmax]
      exact ⟨none, t, rfl, hole_stop t x k h hx (Or.inl (by unfold BUDDY_MAX_ORDER at *; omega)),
        fun p => Iff.rfl, buddy_frame_refl t⟩
    · rw [if_neg hmax]
      have hne : (t.buddy_free_list k).isEmpty = false := by
        cases hl : t.buddy_free_list k with
        | nil => rw [hl] at hx; simp at hx
        | cons a l => rfl
      rw [hne]
      simp only [Bool.false_eq_true, if_false]
      rw [merge_buddy_eq t x k h.xord]
      by_cases hc : (t.pages (buddy_of x k)).pp_free = true ∧
          (t.pages (buddy_of x k)).pp_order = k
      · have hk1 : k + 1 < BUDDY_MAX_ORDER := by
          have := h.xk
          unfold BUDDY_MAX_ORDER at *; omega
        obtain ⟨hi, hm, hcov⟩ := merge_step_inv t x k h hk1 hc.1 hc.2
        obtain ⟨r, t', e, hinv, hc', hfr⟩ := ih (merge_step t x) (merge_lhs t x) (k + 1) hi hm
          (by omega)
        refine ⟨none, t', ?_, hinv, ?_, buddy_frame_trans _ _ _ (merge_step_frame t x) hfr⟩
        · simp [h.xfree, hc.1, hc.2, e]
        · intro p
          rw [hc' p]
          have := hcov p
          constructor
          · intro hp
            rcases this.1 (Or.inl hp) with h1 | h1
            · exact h1
            · exact ⟨k, x, hx, h1⟩
          · intro hp
            rcases this.2 (Or.inl hp) with h1 | h1
            · exact h1
            · exact ⟨k + 1, _, hm, h1⟩
      · refine ⟨some x, t, ?_, hole_stop t x k h hx (Or.inr hc), fun p => Iff.rfl,
          buddy_frame_refl t⟩
        have : ((t.pages x).pp_free && (t.pages (buddy_of x k)).pp_free
            && k == (t.pages (buddy_of x k)).pp_order) = false := by
          rw [h.xfree]
          simp only [Bool.true_and, Bool.and_eq_false_imp, beq_eq_false_iff_ne, ne_eq]
          intro h1 h2
          exact hc ⟨h1, h2.symm⟩
        rw [this]
        simp

/-- Setting the free flag of a frame that is in use starts a merge of its block of order
0. -/
theorem free_start (s : kstate) (p : Nat) (hs : buddy_inv s) (hp : ¬ covered s p) :
    hole_inv (set_page (remove_swap_page s p) p (fun pg => { pg with pp_free := true })) p 0 ∧
    (∀ k', p ∉ s.buddy_free_list k') := by
  have hnl : ∀ k', p ∉ s.buddy_free_list k' := fun k' hm => hp ⟨k', p, hm, in_block_self p k'⟩
  have hone : ∀ x, in_block p 0 x ↔ x = p := by
    intro x; unfold in_block; simp; omega
  have hfree : ∀ q, ((set_page (remove_swap_page s p) p
      (fun pg => { pg with pp_free := true })).pages q).pp_free =
      if q = p then true else (s.pages q).pp_free := by
    intro q
    simp only [set_page, remove_swap_page]
    split_ifs <;> rfl
  have horder : ∀ q, ((set_page (remove_swap_page s p) p
      (fun pg => { pg with pp_free := true })).pages q).pp_order = (s.pages q).pp_order := by
    intro q
    simp only [set_page, remove_swap_page]
    split_ifs <;> rfl
  refine ⟨⟨⟨hs.ord, ?_, hs.align, hs.nodup, hs.disj⟩, ?_, ?_, ?_, ?_, ?_, ?_, ?_, ?_⟩, hnl⟩
  · intro k q hq
    rw [hfree, horder]
    have hne : q ≠ p := fun e => hnl k (e ▸ hq)
    simp only [hne, if_false]
    exact hs.free k q hq
  · rw [hfree]; simp
  · rw [horder]; exact hs.used p hp
  · unfold BUDDY_MAX_ORDER; omega
  · simp
  · intro k' q x hq _ hb hx
    rw [(hone x).1 hx] at hb
    exact hp ⟨k', q, hq, hb⟩
  · intro q hne hf
    rw [hfree] at hf
    simp only [hne, if_false] at hf
    rw [horder]
    exact hs.onlist q hf
  · intro k' q hk' hq _ _
    exact hs.nobuddy k' q hk' hq
  · intro x hnc _
    rw [horder]
    exact hs.used x hnc

/-- `page_free` of a frame that is in use and has no reference: it succeeds, the invariant
holds again, the free frames are the old ones and the frame freed, and memory, the current
task and the reference counts are unchanged. -/
theorem page_free_spec (s : kstate) (p : Nat) (hs : buddy_inv s) (hp : ¬ covered s p)
    (hr : (s.pages p).pp_ref = 0) :
    ∃ s', page_free s p = some s' ∧ buddy_inv s' ∧
      (∀ x, covered s' x ↔ (covered s x ∨ x = p)) ∧ s'.mem = s.mem ∧
      s'.cur_task = s.cur_task ∧
      ∀ q, ((s'.pages q).pp_ref = (s.pages q).pp_ref ∧ (s'.pages q).rmap = (s.pages q).rmap) := by
  obtain ⟨hh, hnl⟩ := free_start s p hs hp
  generalize hs2 : set_page (remove_swap_page s p) p
    (fun pg => { pg with pp_free := true }) = s2 at hh
  have hl2 : s2.buddy_free_list = s.buddy_free_list := by rw [← hs2]; rfl
  have hm2 : s2.mem = s.mem ∧ s2.cur_task = s.cur_task := by rw [← hs2]; exact ⟨rfl, rfl⟩
  have hp2 : ∀ q, ((s2.pages q).pp_ref = (s.pages q).pp_ref ∧
      (s2.pages q).rmap = (s.pages q).rmap) := by
    intro q
    rw [← hs2]
    simp only [set_page, remove_swap_page]
    split_ifs <;> exact ⟨rfl, rfl⟩
  have hone : ∀ x, in_block p 0 x ↔ x = p := by
    intro x; unfold in_block; simp; omega
  have hnl2 : ∀ k', p ∉ s2.buddy_free_list k' := by rw [hl2]; exact hnl
  have hpf : page_free s p =
      match buddy_merge_fuel (BUDDY_MAX_ORDER + 1) s2 p with
      | none => none
      | some (none, s3) => some s3
      | some (some q, s3) =>
        some { set_page (list_add_pp s3 (s3.pages q).pp_order q) q
                 (fun pg => { pg with pp_zero := false }) with
               zero_list := list_add_linked s3.zero_list q,
               zero_cycle := s3.zero_cycle || s3.zero_list.contains q } := by
    have ho : (s2.pages p).pp_order ≠ BUDDY_MAX_ORDER - 1 := by
      rw [hh.xord]; unfold BUDDY_MAX_ORDER; omega
    simp only [page_free, hr, hs2, buddy_merge]
    simp [ho]
    rfl
  -- the state reached when `buddy_merge` hands the page back
  have hback : ¬ ((s2.pages (buddy_of p 0)).pp_free = true ∧
      (s2.pages (buddy_of p 0)).pp_order = 0) →
      ∃ s', some ({ set_page (list_add_pp s2 (s2.pages p).pp_order p) p
                 (fun pg => { pg with pp_zero := false }) with
               zero_list := list_add_linked s2.zero_list p,
               zero_cycle := s2.zero_cycle || s2.zero_list.contains p } : kstate) = some s' ∧ buddy_inv s' ∧
      (∀ x, covered s' x ↔ (covered s x ∨ x = p)) ∧ s'.mem = s.mem ∧
      s'.cur_task = s.cur_task ∧
      ∀ q, ((s'.pages q).pp_ref = (s.pages q).pp_ref ∧
        (s'.pages q).rmap = (s.pages q).rmap) := by
    intro hstop
    obtain ⟨ha, hm, hcov⟩ := hole_add s2 p 0 hh hnl2
    have hb := hole_stop _ p 0 ha hm (Or.inr hstop)
    rw [hh.xord]
    refine ⟨_, rfl, ?_, ?_, hm2.1, hm2.2, ?_⟩
    · refine buddy_inv_congr (list_add_pp s2 0 p) _ rfl ?_ ?_ hb
      · intro q
        simp only [set_page, list_add_pp]
        split_ifs <;> rfl
      · intro q
        simp only [set_page, list_add_pp]
        split_ifs <;> rfl
    · intro x
      refine Iff.trans (covered_congr (list_add_pp s2 0 p) _ (by rfl) x) ?_
      rw [hcov x, covered_congr s s2 hl2 x, hone x]
    · intro q
      have := hp2 q
      simp only [set_page, list_add_pp]
      split_ifs <;> exact this
  have hxo := hh.xord
  rw [hpf]
  show ∃ s', (match buddy_merge_fuel (9 + 1 + 1) s2 p with
      | none => none
      | some (none, s3) => some s3
      | some (some q, s3) =>
        some { set_page (list_add_pp s3 (s3.pages q).pp_order q) q
                 (fun pg => { pg with pp_zero := false }) with
               zero_list := list_add_linked s3.zero_list q,
               zero_cycle := s3.zero_cycle || s3.zero_list.contains q }) = some s' ∧ _
  rw [buddy_merge_fuel_succ, hxo, if_neg (by unfold BUDDY_MAX_ORDER; omega),
    merge_buddy_eq s2 p 0 hxo]
  by_cases hc : (s2.pages (buddy_of p 0)).pp_free = true ∧
      (s2.pages (buddy_of p 0)).pp_order = 0
  · -- the buddy is free: the list of order 0 is not empty and the blocks merge
    have hbx := (buddy_of_invol 0 p hh.xalign).2.2
    have hbl : buddy_of p 0 ∈ s2.buddy_free_list 0 := by
      have := hh.onlist _ hbx hc.1
      rw [hc.2] at this; exact this
    have hne : (s2.buddy_free_list 0).isEmpty = false := by
      cases hl : s2.buddy_free_list 0 with
      | nil => rw [hl] at hbl; simp at hbl
      | cons a l => rfl
    obtain ⟨hi, hm, hcov⟩ := merge_step_inv s2 p 0 hh (by unfold BUDDY_MAX_ORDER; omega)
      hc.1 hc.2
    obtain ⟨r, t', e, hinv, hc', hfr⟩ := merge_rec (9 + 1) (merge_step s2 p) (merge_lhs s2 p)
      (0 + 1) hi hm (by unfold BUDDY_MAX_ORDER; omega)
    have hfr2 := buddy_frame_trans _ _ _ (merge_step_frame s2 p) hfr
    refine ⟨t', ?_, hinv, ?_, hfr2.1.trans hm2.1, hfr2.2.2.2.1.trans hm2.2, ?_⟩
    · simp [hne, hh.xfree, hc.1, hc.2, e]
    · intro x
      rw [hc' x, ← hone x, ← covered_congr s s2 hl2 x, ← hcov x]
      constructor
      · exact fun h1 => Or.inl h1
      · rintro (h1 | h1)
        · exact h1
        · exact ⟨0 + 1, _, hm, h1⟩
    · intro q
      have a := hp2 q
      have b := hfr2.2.2.2.2 q
      exact ⟨b.1.trans a.1, b.2.2.trans a.2⟩
  · -- no free buddy: the page goes back on the list of order 0
    obtain ⟨s', e, rest⟩ := hback hc
    refine ⟨s', ?_, rest⟩
    rw [← e]
    by_cases hem : (s2.buddy_free_list 0).isEmpty = true
    · simp [hem]
    · have : ((s2.pages p).pp_free && (s2.pages (buddy_of p 0)).pp_free
          && 0 == (s2.pages (buddy_of p 0)).pp_order) = false := by
        rw [hh.xfree]
        simp only [Bool.true_and, Bool.and_eq_false_imp, beq_eq_false_iff_ne, ne_eq]
        intro h1 h2
        exact hc ⟨h1, h2.symm⟩
      simp [hem, this]

/-! ## Allocation followed by a free: the free counts are restored -/

theorem boot_like_inv (s : kstate) (h : boot_like s) : buddy_inv s := by
  obtain ⟨hl, hp⟩ := h
  have hnc : ∀ p, ¬ covered s p := by
    rintro p ⟨k, q, hq, _⟩
    rw [hl] at hq; simp at hq
  refine ⟨⟨?_, ?_, ?_, ?_, ?_⟩, ?_, ?_, ?_⟩
  · intro k q hq; rw [hl] at hq; simp at hq
  · intro k q hq; rw [hl] at hq; simp at hq
  · intro k q hq; rw [hl] at hq; simp at hq
  · intro k; rw [hl]; exact List.nodup_nil
  · intro k1 q1 k2 q2 p h1; rw [hl] at h1; simp at h1
  · intro q hq; rw [(hp q).1] at hq; simp at hq
  · intro k q _ hq; rw [hl] at hq; simp at hq
  · intro p _; exact (hp p).2.1

/-- Every state the allocator reaches satisfies the invariant, and no frame has a
reference: `page_alloc` and `page_free` do not touch the reference counts. -/
theorem reachable_inv (s : kstate) (h : reachable s) :
    buddy_inv s ∧ ∀ p, (s.pages p).pp_ref = 0 := by
  induction h with
  | boot s hb => exact ⟨boot_like_inv s hb, fun p => (hb.2 p).2.2⟩
  | alloc s s' flags p _ ha ih =>
    rcases page_alloc_spec s ih.1 flags with ⟨hn, _⟩ | ⟨p', s'', e, hinv, _, _, _, _, _, _, _, hpg⟩
    · rw [hn] at ha; simp at ha
    · rw [e] at ha
      simp only [Option.some.injEq, Prod.mk.injEq] at ha
      rw [← ha.2]
      exact ⟨hinv, fun q => by rw [(hpg q).1]; exact ih.2 q⟩
  | free s s' p _ hc hf ih =>
    obtain ⟨s'', e, hinv, _, _, _, hpg⟩ := page_free_spec s p ih.1 hc (ih.2 p)
    rw [e] at hf
    simp only [Option.some.injEq] at hf
    rw [← hf]
    exact ⟨hinv, fun q => by rw [(hpg q).1]; exact ih.2 q⟩

/-- C1: in every state reachable from initialisation by `page_alloc` and `page_free` that
has a free block, `page_alloc(flags)` returns a frame, whose reference count is still 0,
`page_free` of that frame succeeds, and afterwards `count_free_pages(k)` has its old value
for every order `k`. -/
theorem alloc_free_restores_counts (s : kstate) (flags : Nat) (hr : reachable s)
    (hne : ∃ k, k < BUDDY_MAX_ORDER ∧ s.buddy_free_list k ≠ []) :
    ∃ p s1 s2, page_alloc s flags = some (some p, s1) ∧ (s1.pages p).pp_ref = 0 ∧
      page_free s1 p = some s2 ∧ ∀ k, count_free_pages s2 k = count_free_pages s k := by
  obtain ⟨hs, href⟩ := reachable_inv s hr
  rcases page_alloc_spec s hs flags with ⟨_, hn⟩ | ⟨p, s1, e, hinv, hcp, hcov, _, _, _, _, _, hpg⟩
  · obtain ⟨k, hk, hl⟩ := hne
    exact absurd (hn k hk) hl
  · have hr1 : (s1.pages p).pp_ref = 0 := by rw [(hpg p).1]; exact href p
    have hnc : ¬ covered s1 p := fun hc => ((hcov p).1 hc).2 rfl
    obtain ⟨s2, e2, hinv2, hcov2, _⟩ := page_free_spec s1 p hinv hnc hr1
    refine ⟨p, s1, s2, e, hr1, e2, fun k => ?_⟩
    unfold count_free_pages
    split_ifs
    · rfl
    · apply canonical_count s2 s hinv2 hs
      intro x
      rw [hcov2 x, hcov x]
      constructor
      · rintro (h1 | h1)
        · exact h1.1
        · rw [h1]; exact hcp
      · intro h1
        by_cases hx : x = p
        · exact Or.inr hx
        · exact Or.inl ⟨h1, hx⟩

theorem two_frames_reachable : reachable two_frames_state := by
  have h0 : reachable boot_state :=
    reachable.boot _ ⟨fun _ => rfl, fun _ => ⟨rfl, rfl, rfl⟩⟩
  have c0 : ¬ covered boot_state 2 := by
    rintro ⟨k, q, hq, _⟩
    simp [boot_state] at hq
  have h1 : reachable one_frame_state := reachable.free _ _ 2 h0 c0 rfl
  have c1 : ¬ covered one_frame_state 3 := by
    rintro ⟨k, q, hq, hb⟩
    have e : one_frame_state.buddy_free_list k = if k = 0 then [2] else [] := rfl
    rw [e] at hq
    by_cases hk : k = 0
    · simp only [hk, if_true, List.mem_singleton] at hq
      rw [hq, hk] at hb
      unfold in_block at hb
      omega
    · simp [hk] at hq
  exact reachable.free _ _ 3 h1 c1 rfl

/-- Witness of `alloc_free_restores_counts`: with the frames 2 and 3 free, in one block of
order 1, an allocation splits the block and the free that follows merges it again. -/
theorem alloc_free_restores_counts_witness :
    (reachable two_frames_state ∧
      ∃ k, k < BUDDY_MAX_ORDER ∧ two_frames_state.buddy_free_list k ≠ []) ∧
    ∃ p s1 s2, page_alloc two_frames_state 0 = some (some p, s1) ∧ (s1.pages p).pp_ref = 0 ∧
      page_free s1 p = some s2 ∧
      ∀ k, count_free_pages s2 k = count_free_pages two_frames_state k :=
  ⟨⟨two_frames_reachable, 1, by decide, by decide⟩,
    alloc_free_restores_counts two_frames_state 0 two_frames_reachable ⟨1, by decide, by decide⟩⟩

/-! ## Words of page-table entries -/

theorem le_or_left (x y : Nat) : x ≤ x ||| y :=
  Nat.le_of_testBit (fun i h => by simp [h])

theorem le_or_right (x y : Nat) : y ≤ x ||| y :=
  Nat.le_of_testBit (fun i h => by simp [h])

/-- `PAGE_ADDR` in arithmetic: the bits 12 to 51 of the word. -/
theorem PAGE_ADDR_eq (x : Nat) : PAGE_ADDR x = x / 4096 % 2 ^ 40 * 4096 := by
  unfold PAGE_ADDR
  have hm : (0x000FFFFFFFFFF000 : Nat) = 2 ^ 12 * (2 ^ 40 - 1) := by norm_num
  have h2 : x / 4096 % 2 ^ 40 * 4096 = 2 ^ 12 * (x / 2 ^ 12 % 2 ^ 40) := by
    rw [Nat.mul_comm]; norm_num
  rw [hm, h2]
  apply Nat.eq_of_testBit_eq
  intro i
  rw [Nat.testBit_and, Nat.testBit_mul_pow_two, Nat.testBit_mul_pow_two,
    Nat.testBit_two_pow_sub_one, Nat.testBit_mod_two_pow, ← Nat.shiftRight_eq_div_pow,
    Nat.testBit_shiftRight]
  by_cases h : i ≥ 12
  · have : 12 + (i - 12) = i := by omega
    rw [this]
    simp only [h, decide_True, Bool.true_and]
    rw [Bool.and_comm]
  · simp [h]

theorem low_and_zero (a f : Nat) (hf : f < 4096) : (2 ^ 12 * a) &&& f = 0 := by
  apply Nat.eq_of_testBit_eq
  intro i
  rw [Nat.testBit_and, Nat.testBit_mul_pow_two, Nat.zero_testBit]
  by_cases h : i ≥ 12
  · have : f < 2 ^ i := lt_of_lt_of_le (by norm_num; exact hf) (Nat.pow_le_pow_right (by norm_num) h)
    rw [Nat.testBit_lt_two_pow this]
    simp
  · simp [h]

/-- The entry `ptbl_alloc` writes for a frame: present, not huge, and it points to the
frame. -/
theorem table_entry_bits (x : Nat) (hx : page2pa x < USER_LIM) :
    (page2pa x ||| (PAGE_PRESENT ||| PAGE_WRITE ||| PAGE_USER)) &&& PAGE_PRESENT ≠ 0 ∧
    (page2pa x ||| (PAGE_PRESENT ||| PAGE_WRITE ||| PAGE_USER)) &&& PAGE_HUGE = 0 ∧
    entry_table (page2pa x ||| (PAGE_PRESENT ||| PAGE_WRITE ||| PAGE_USER)) = x := by
  have h7 : PAGE_PRESENT ||| PAGE_WRITE ||| PAGE_USER = 7 := by
    simp [PAGE_PRESENT, PAGE_WRITE, PAGE_USER]
  have hp : page2pa x = 2 ^ 12 * x := by unfold page2pa PAGE_SIZE; rw [Nat.mul_comm]; norm_num
  have hor : page2pa x ||| 7 = page2pa x + 7 := by
    rw [hp]; exact (Nat.mul_add_lt_is_or (by norm_num) x).symm
  unfold USER_LIM at hx
  rw [h7]
  refine ⟨?_, ?_, ?_⟩
  · rw [hor]
    simp only [PAGE_PRESENT, Nat.and_one_is_mod]
    rw [hp]; omega
  · rw [Nat.and_distrib_right, hp, low_and_zero x PAGE_HUGE (by unfold PAGE_HUGE; norm_num)]
    simp only [PAGE_HUGE, Nat.zero_or]
    decide
  · unfold entry_table
    rw [PAGE_ADDR_eq, hor, hp]
    unfold PAGE_SIZE
    rw [hp] at hx
    omega

/-- The leaf entry `insert_pte` writes for a frame: present, and its address field is the
address of the frame. -/
theorem leaf_entry_bits (p flags : Nat) (hp : page2pa p < USER_LIM) (hf : PAGE_ADDR flags = 0) :
    (page2pa p ||| flags ||| PAGE_PRESENT) &&& PAGE_PRESENT ≠ 0 ∧
    PAGE_ADDR (page2pa p ||| flags ||| PAGE_PRESENT) = page2pa p := by
  constructor
  · simp [PAGE_PRESENT]
  · have h1 : PAGE_ADDR (page2pa p) = page2pa p := by
      rw [PAGE_ADDR_eq]
      unfold page2pa PAGE_SIZE USER_LIM at *
      omega
    unfold PAGE_ADDR at *
    rw [Nat.and_distrib_right, Nat.and_distrib_right, h1, hf]
    simp [PAGE_PRESENT]

theorem sign_extend_ge (y : Nat) : y ≤ sign_extend y := by
  unfold sign_extend
  split_ifs
  · exact le_refl _
  · exact le_or_right _ _

theorem sign_extend_canonical (va : Nat) (h : canonical va) : sign_extend va = va := by
  unfold sign_extend
  rcases h.2 with h1 | ⟨h1, h2⟩
  · rw [if_pos h1]
  · rw [if_neg (by unfold USER_LIM KERNEL_VMA at *; omega)]
    obtain ⟨r, hr⟩ : ∃ r, va = 2 ^ 47 * (2 ^ 17 - 1) + r := ⟨va - KERNEL_VMA, by
      unfold KERNEL_VMA at *; norm_num; omega⟩
    have hr2 : r < 2 ^ 47 := by
      unfold KERNEL_VMA WORD at *
      norm_num at hr ⊢
      omega
    rw [hr, Nat.mul_add_lt_is_or hr2, ← Nat.or_assoc]
    congr 1

/-- The end of the span of an aligned address lies at least a page further and within the
64-bit words. -/
theorem span_end_bounds (va m : Nat) (hva : va % PAGE_SIZE = 0) (hlt : va < WORD)
    (hm : 4095 ||| m = m) (hm2 : m < 2 ^ 63) :
    va + 4095 ≤ va ||| m ∧ (va ||| m) < WORD ∧ ((va ||| m) + 1 = WORD → 0 < va) := by
  refine ⟨?_, ?_, ?_⟩
  · have h1 : va = 2 ^ 12 * (va / 4096) := by unfold PAGE_SIZE at hva; omega
    have h2 : va + 4095 = va ||| 4095 := by
      rw [h1]; exact Nat.mul_add_lt_is_or (by norm_num) _
    rw [h2, ← hm, ← Nat.or_assoc]
    exact le_or_left _ _
  · exact Nat.or_lt_two_pow hlt (lt_trans hm2 (by norm_num))
  · intro h
    by_contra h0
    have : va = 0 := by omega
    rw [this, Nat.zero_or] at h
    unfold WORD at h
    omega

/-- The step of a walking loop over a single page: the next address is the end of the
range. -/
theorem next_is_end (A va end_ : Nat) (h1 : va + 4095 ≤ A) (h2 : A < WORD)
    (h5 : A + 1 = WORD → 0 < va) (h4 : end_ ≤ va + 4095) :
    (if sign_extend ((A + 1) % WORD) > end_ ∨ sign_extend ((A + 1) % WORD) < va then end_
     else sign_extend ((A + 1) % WORD)) = end_ := by
  rw [if_pos]
  by_cases h : A + 1 < WORD
  · left
    rw [Nat.mod_eq_of_lt h]
    have := sign_extend_ge (A + 1)
    omega
  · right
    have e : A + 1 = WORD := by omega
    rw [e, Nat.mod_self]
    have : sign_extend 0 = 0 := by simp [sign_extend, USER_LIM]
    rw [this]
    exact h5 e

/-! ## A walk over a single page -/

theorem canonical_lt (va : Nat) (h : canonical va) : va < WORD := by
  rcases h.2 with h1 | ⟨_, h2⟩
  · unfold USER_LIM at h1; unfold WORD; omega
  · exact h2

/-- The range `walk_page_range` walks for the page at a canonical aligned address. -/
theorem walk_page_range_one {υ : Type} (w : page_walker υ) (pml4 va : Nat) (u : υ)
    (s : kstate) (h : canonical va) :
    walk_page_range w pml4 va ((va + PAGE_SIZE) % WORD) u s =
      pml4_walk_range w pml4 va (va + 4095) u s := by
  have h1 := h.1
  have h2 := canonical_lt va h
  unfold walk_page_range
  have e1 : ROUNDDOWN va = va := by unfold ROUNDDOWN; omega
  have e2 : (ROUNDUP ((va + PAGE_SIZE) % WORD) + WORD - 1) % WORD = va + 4095 := by
    unfold ROUNDUP ROUNDDOWN
    unfold PAGE_SIZE WORD at *
    omega
  rw [e1, e2]

theorem ptbl_walk_one {υ : Type} (w : page_walker υ) (ptbl va end_ : Nat) (u : υ)
    (s : kstate) (h : canonical va) (h3 : va < end_) (h4 : end_ ≤ va + 4095) :
    ptbl_walk_range w ptbl va end_ u s =
      and_then (call_cb w.pte_callback ptbl (PAGE_TABLE_INDEX va) va (end_ - 1) u s)
        fun u1 s1 =>
      and_then
        (if s1.mem ptbl (PAGE_TABLE_INDEX va) &&& PAGE_PRESENT ≠ 0 then
          call_cb w.pte_unmap ptbl (PAGE_TABLE_INDEX va) va (end_ - 1) u1 s1
        else call_hole w.pt_hole_callback va (end_ - 1) u1 s1) fun u2 s2 =>
      some (0, u2, s2) := by
  obtain ⟨b1, b2, b3⟩ := span_end_bounds va (PAGE_SIZE - 1) h.1 (canonical_lt va h)
    (by decide) (by unfold PAGE_SIZE; norm_num)
  have hn := next_is_end (ptbl_end va) va end_ b1 b2 b3 h4
  unfold ptbl_walk_range
  rw [sign_extend_canonical va h]
  show ptbl_walk_loop w ptbl end_ (511 + 1 + 1) va va u s = _
  rw [ptbl_walk_loop]
  simp only [hn, h3, not_true_eq_false, if_false]
  congr 1
  funext u1 s1
  congr 1
  funext u2 s2
  rw [ptbl_walk_loop]
  simp

theorem pdir_walk_one {υ : Type} (w : page_walker υ) (pdir va end_ : Nat) (u : υ)
    (s : kstate) (h : canonical va) (h3 : va < end_) (h4 : end_ ≤ va + 4095) :
    pdir_walk_range w pdir va end_ u s =
      and_then (call_cb w.pde_callback pdir (PAGE_DIR_INDEX va) va (end_ - 1) u s)
        fun u1 s1 =>
      and_then
        (if s1.mem pdir (PAGE_DIR_INDEX va) &&& PAGE_PRESENT ≠ 0 then
          (if ¬ (s1.mem pdir (PAGE_DIR_INDEX va) &&& PAGE_HUGE ≠ 0) then
            and_then
              (ptbl_walk_range w (entry_table (s1.mem pdir (PAGE_DIR_INDEX va))) va
                (end_ - 1) u1 s1)
              fun u2 s2 => call_cb w.pde_unmap pdir (PAGE_DIR_INDEX va) va (end_ - 1) u2 s2
          else some (0, u1, s1))
        else call_hole w.pt_hole_callback va (end_ - 1) u1 s1) fun u3 s3 =>
      some (0, u3, s3) := by
  obtain ⟨b1, b2, b3⟩ := span_end_bounds va (PAGE_TABLE_SPAN - 1) h.1 (canonical_lt va h)
    (by decide) (by unfold PAGE_TABLE_SPAN; norm_num)
  have hn := next_is_end (pdir_end va) va end_ b1 b2 b3 h4
  unfold pdir_walk_range
  rw [sign_extend_canonical va h]
  show pdir_walk_loop w pdir end_ (511 + 1 + 1) va va u s = _
  rw [pdir_walk_loop]
  simp only [hn, h3, not_true_eq_false, if_false]
  congr 1
  funext u1 s1
  congr 1
  funext u2 s2
  rw [pdir_walk_loop]
  simp

theorem pdpt_walk_one {υ : Type} (w : page_walker υ) (pdpt va end_ : Nat) (u : υ)
    (s : kstate) (h : canonical va) (h3 : va < end_) (h4 : end_ ≤ va + 4095) :
    pdpt_walk_range w pdpt va end_ u s =
      and_then (call_cb w.pdpte_callback pdpt (PDPT_INDEX va) va (end_ - 1) u s)
        fun u1 s1 =>
      and_then
        (if s1.mem pdpt (PDPT_INDEX va) &&& PAGE_PRESENT ≠ 0 then
          (if ¬ (s1.mem pdpt (PDPT_INDEX va) &&& PAGE_HUGE ≠ 0) then
            and_then
              (pdir_walk_range w (entry_table (s1.mem pdpt (PDPT_INDEX va))) va
                (end_ - 1) u1 s1)
              fun u2 s2 => call_cb w.pdpte_unmap pdpt (PDPT_INDEX va) va (end_ - 1) u2 s2
          else some (0, u1, s1))
        else call_hole w.pt_hole_callback va (end_ - 1) u1 s1) fun u3 s3 =>
      some (0, u3, s3) := by
  obtain ⟨b1, b2, b3⟩ := span_end_bounds va (PAGE_DIR_SPAN - 1) h.1 (canonical_lt va h)
    (by decide) (by unfold PAGE_DIR_SPAN; norm_num)
  have hn := next_is_end (pdpt_end va) va end_ b1 b2 b3 h4
  unfold pdpt_walk_range
  rw [sign_extend_canonical va h]
  show pdpt_walk_loop w pdpt end_ (511 + 1 + 1) va va u s = _
  rw [pdpt_walk_loop]
  simp only [hn, h3, not_true_eq_false, if_false]
  congr 1
  funext u1 s1
  congr 1
  funext u2 s2
  rw [pdpt_walk_loop]
  simp

theorem pml4_walk_one {υ : Type} (w : page_walker υ) (pml4 va end_ : Nat) (u : υ)
    (s : kstate) (h : canonical va) (h3 : va < end_) (h4 : end_ ≤ va + 4095) :
    pml4_walk_range w pml4 va end_ u s =
      and_then (call_cb w.pml4e_callback pml4 (PML4_INDEX va) va (end_ - 1) u s)
        fun u1 s1 =>
      and_then
        (if s1.mem pml4 (PML4_INDEX va) &&& PAGE_PRESENT ≠ 0 then
          and_then
            (pdpt_walk_range w (entry_table (s1.mem pml4 (PML4_INDEX va))) va
              (end_ - 1) u1 s1)
            fun u2 s2 => call_cb w.pml4e_unmap pml4 (PML4_INDEX va) va (end_ - 1) u2 s2
        else call_hole w.pt_hole_callback va (end_ - 1) u1 s1) fun u3 s3 =>
      some (0, u3, s3) := by
  obtain ⟨b1, b2, b3⟩ := span_end_bounds va (PDPT_SPAN - 1) h.1 (canonical_lt va h)
    (by decide) (by unfold PDPT_SPAN; norm_num)
  have hn := next_is_end (pml4_end va) va end_ b1 b2 b3 h4
  unfold pml4_walk_range
  rw [sign_extend_canonical va h]
  show pml4_walk_loop w pml4 end_ (511 + 1 + 1) va va u s = _
  rw [pml4_walk_loop]
  simp only [hn, h3, not_true_eq_false, if_false]
  congr 1
  funext u1 s1
  congr 1
  funext u2 s2
  rw [pml4_walk_loop]
  simp

/-! ## Memory written by the insertion callbacks -/

theorem merge_step_mem (s : kstate) (page : Nat) : (merge_step s page).mem = s.mem := by
  unfold merge_step
  simp only [list_add_pp, set_page, list_del_pp]
  split_ifs <;> rfl

theorem buddy_merge_fuel_mem : ∀ (fuel : Nat) (s : kstate) (page : Nat) (r : Option Nat)
    (s' : kstate), buddy_merge_fuel fuel s page = some (r, s') → s'.mem = s.mem := by
  intro fuel
  induction fuel with
  | zero => intro s page r s' h; simp [buddy_merge_fuel] at h
  | succ f ih =>
    intro s page r s' h
    rw [buddy_merge_fuel_succ] at h
    split_ifs at h
    · simp only [Option.some.injEq, Prod.mk.injEq] at h; rw [← h.2]
    · simp only [Option.some.injEq, Prod.mk.injEq] at h; rw [← h.2]
    · cases hr : buddy_merge_fuel f (merge_step s page) (merge_lhs s page) with
      | none => rw [hr] at h; simp at h
      | some v =>
        obtain ⟨r6, s6⟩ := v
        rw [hr] at h
        simp only [Option.some.injEq, Prod.mk.injEq] at h
        rw [← h.2, ih _ _ _ _ hr, merge_step_mem]
    · simp only [Option.some.injEq, Prod.mk.injEq] at h; rw [← h.2]

/-- Freeing a frame leaves memory alone. -/
theorem page_free_mem (s : kstate) (pp : Nat) (s' : kstate) (h : page_free s pp = some s') :
    s'.mem = s.mem := by
  unfold page_free at h
  split_ifs at h with h1
  simp only at h
  generalize hs2 : set_page (remove_swap_page s pp) pp
    (fun p => { p with pp_free := true }) = s2 at h
  have hm2 : s2.mem = s.mem := by rw [← hs2]; rfl
  split_ifs at h with h2
  · unfold buddy_merge at h
    cases hr : buddy_merge_fuel (BUDDY_MAX_ORDER + 1) s2 pp with
    | none => rw [hr] at h; simp at h
    | some v =>
      obtain ⟨r, s3⟩ := v
      rw [hr] at h
      have hm3 := buddy_merge_fuel_mem _ _ _ _ _ hr
      cases r with
      | none =>
        simp only [Option.some.injEq] at h
        rw [← h, hm3, hm2]
      | some q =>
        simp only [Option.some.injEq] at h
        rw [← h]
        show s3.mem = s.mem
        rw [hm3, hm2]
  · simp only [Option.some.injEq] at h
    rw [← h]
    exact hm2

/-- Dropping a reference leaves memory alone. -/
theorem page_decref_mem (s : kstate) (pp : Nat) (s' : kstate)
    (h : page_decref s pp = some s') : s'.mem = s.mem := by
  unfold page_decref at h
  simp only at h
  split_ifs at h
  · exact (page_free_mem _ _ _ h).trans rfl
  · simp only [Option.some.injEq] at h
    rw [← h]; rfl

/-- What `insert_pte` writes: the leaf entry, and nothing else. -/
theorem insert_pte_mem (tbl idx base end_ : Nat) (info : insert_info) (s : kstate) (r : Int)
    (u : insert_info) (s' : kstate) (h : insert_pte tbl idx base end_ info s = some (r, u, s')) :
    r = 0 ∧ s'.mem tbl idx = page2pa info.page ||| info.flags ||| PAGE_PRESENT ∧
    ∀ f i, ¬ (f = tbl ∧ i = idx) → s'.mem f i = s.mem f i := by
  unfold insert_pte at h
  simp only at h
  generalize hr1 : (if s.mem tbl idx &&& PAGE_PRESENT ≠ 0 then
      page_decref s (pa2page (PAGE_ADDR (s.mem tbl idx))) else some s) = r1 at h
  cases r1 with
  | none => simp at h
  | some s1 =>
    have hm1 : s1.mem = s.mem := by
      split_ifs at hr1
      · exact page_decref_mem _ _ _ hr1
      · simp only [Option.some.injEq] at hr1; rw [← hr1]
    simp only at h
    generalize hr2 : (if info.flags &&& PAGE_USER ≠ 0 then
        match s1.cur_task with
        | none => none
        | some t =>
          if ¬ base < USER_LIM then none
          else
            match task_find_vma t base with
            | none => none
            | some v =>
              some (add_swap_page
                (set_page s1 info.page (fun p => { p with rmap := (t.vmas v).rmap }))
                info.page)
      else some (set_page s1 info.page (fun p => { p with rmap := 0 }))) = r2 at h
    cases r2 with
    | none => simp at h
    | some s2 =>
      have hm2 : s2.mem = s.mem := by
        rw [← hm1]
        by_cases hu : info.flags &&& PAGE_USER ≠ 0
        · rw [if_pos hu] at hr2
          cases ht : s1.cur_task with
          | none => rw [ht] at hr2; simp at hr2
          | some t =>
            rw [ht] at hr2
            simp only at hr2
            by_cases hb : ¬ base < USER_LIM
            · rw [if_pos hb] at hr2; simp at hr2
            · rw [if_neg hb] at hr2
              cases hv : task_find_vma t base with
              | none => rw [hv] at hr2; simp at hr2
              | some v =>
                rw [hv] at hr2
                simp only [Option.some.injEq] at hr2
                rw [← hr2]
                unfold add_swap_page
                split_ifs <;> rfl
        · rw [if_neg hu] at hr2
          simp only [Option.some.injEq] at hr2; rw [← hr2]; rfl
      simp only [Option.some.injEq, Prod.mk.injEq] at h
      obtain ⟨h1, _, h3⟩ := h
      refine ⟨h1.symm, ?_, ?_⟩
      · rw [← h3]
        simp [set_entry, set_page]
      · intro f i hfi
        rw [← h3, ← hm2]
        simp [set_entry, set_page, hfi]

/-! ## The tables `page_insert` allocates -/

/-- One call of `ptbl_alloc` on an entry of a table in use: it panics for want of memory, or
it returns 0 and the entry is present.  Then either nothing changed, or the entry was not
present and points now to a frame that was free, is in use afterwards and holds zeroes, and
no other word of memory changed. -/
theorem ptbl_alloc_step {υ : Type} (s : kstate) (tbl idx b e : Nat) (u : υ)
    (hs : buddy_inv s) (hz : zero_ok s) (hb : free_bound s) (ht : ¬ covered s tbl) :
    ptbl_alloc tbl idx b e u s = none ∨
    ∃ s', ptbl_alloc tbl idx b e u s = some (0, u, s') ∧ buddy_inv s' ∧ zero_ok s' ∧
      free_bound s' ∧ (∀ x, covered s' x → covered s x) ∧
      s'.mem tbl idx &&& PAGE_PRESENT ≠ 0 ∧
      (s' = s ∨
        (s.mem tbl idx &&& PAGE_PRESENT = 0 ∧ s'.mem tbl idx &&& PAGE_HUGE = 0 ∧
          covered s (entry_table (s'.mem tbl idx)) ∧
          ¬ covered s' (entry_table (s'.mem tbl idx)) ∧
          (∀ i, s'.mem (entry_table (s'.mem tbl idx)) i = 0) ∧
          ∀ f i, ¬ (f = tbl ∧ i = idx) → f ≠ entry_table (s'.mem tbl idx) →
            s'.mem f i = s.mem f i)) := by
  by_cases hp : s.mem tbl idx &&& PAGE_PRESENT ≠ 0
  · right
    exact ⟨s, by simp [ptbl_alloc, hp], hs, hz, hb, fun x h => h, hp, Or.inl rfl⟩
  · rcases page_alloc_spec s hs ALLOC_ZERO with ⟨hn, _⟩ |
      ⟨x, s1, ea, hinv, hcx, hcov, hmo, hmx, _, _, _, hpg⟩
    · left
      simp [ptbl_alloc, hp, hn]
    · right
      have hxt : x ≠ tbl := fun h => ht (h ▸ hcx)
      have hxb := hb x hcx
      obtain ⟨e1, e2, e3⟩ := table_entry_bits x hxb
      have hzx : ∀ i, s1.mem x i = 0 := by
        intro i
        rw [hmx]
        split_ifs with hc
        · rfl
        · have hz2 : (s.pages x).pp_zero = true := by
            by_contra h2
            exact hc ⟨by decide, by simpa using h2⟩
          exact hz x hcx hz2 i
      let s5 : kstate := set_entry (set_page s1 x
        (fun p => { p with pp_ref := (p.pp_ref + 1) % 65536 })) tbl idx
        (page2pa x ||| (PAGE_PRESENT ||| PAGE_WRITE ||| PAGE_USER))
      have hm5 : ∀ f i, s5.mem f i = if f = tbl ∧ i = idx then
          page2pa x ||| (PAGE_PRESENT ||| PAGE_WRITE ||| PAGE_USER) else s1.mem f i :=
        fun f i => rfl
      have he : ptbl_alloc tbl idx b e u s = some (0, u, s5) := by
        simp only [ptbl_alloc, hp, if_false, ea]
        congr 3
        simp only [s5, set_entry, set_page, and_self, if_true]
        congr 1
        funext f i
        split_ifs <;> rfl
      have hl5 : s5.buddy_free_list = s1.buddy_free_list := rfl
      have hent : s5.mem tbl idx = page2pa x ||| (PAGE_PRESENT ||| PAGE_WRITE ||| PAGE_USER) := by
        rw [hm5]; simp
      have hc5 : ∀ y, covered s5 y ↔ (covered s y ∧ y ≠ x) := fun y =>
        Iff.trans (covered_congr s1 s5 hl5 y) (hcov y)
      refine ⟨s5, he, ?_, ?_, ?_, ?_, ?_, Or.inr ⟨by simpa using hp, ?_, ?_, ?_, ?_, ?_⟩⟩
      · refine buddy_inv_congr s1 s5 hl5 ?_ ?_ hinv
        · intro q
          simp only [s5, set_entry, set_page]
          split_ifs <;> rfl
        · intro q
          simp only [s5, set_entry, set_page]
          split_ifs <;> rfl
      · intro f hf hfz i
        obtain ⟨hf1, hf2⟩ := (hc5 f).1 hf
        have hft : f ≠ tbl := fun h => ht (h ▸ hf1)
        rw [hm5, if_neg (fun h => hft h.1), hmo f hf2]
        refine hz f hf1 ?_ i
        rw [← (hpg f).2.1]
        have : (s5.pages f).pp_zero = (s1.pages f).pp_zero := by
          simp only [s5, set_entry, set_page]
          split_ifs <;> rfl
        rw [← this]; exact hfz
      · intro f hf
        exact hb f ((hc5 f).1 hf).1
      · intro y hy
        exact ((hc5 y).1 hy).1
      · rw [hent]; exact e1
      · rw [hent]; exact e2
      · rw [hent, e3]; exact hcx
      · rw [hent, e3]
        intro h
        exact ((hc5 x).1 h).2 rfl
      · rw [hent, e3]
        intro i
        rw [hm5, if_neg (fun h => hxt h.1)]
        exact hzx i
      · rw [hent, e3]
        intro f i hfi hfx
        rw [hm5, if_neg hfi, hmo f hfx]

theorem zero_not_present : (0 : Nat) &&& PAGE_PRESENT = 0 := by simp

/-- The step of `page_insert` at the root table: afterwards the entry of `va` is present
and the path is well formed. -/
theorem insert_level4 {υ : Type} (s : kstate) (pml4 va b e : Nat) (u : υ)
    (hs : buddy_inv s) (hz : zero_ok s) (hb : free_bound s) (hp : path_ok s pml4 va) :
    ptbl_alloc pml4 (PML4_INDEX va) b e u s = none ∨
    ∃ s1, ptbl_alloc pml4 (PML4_INDEX va) b e u s = some (0, u, s1) ∧ buddy_inv s1 ∧
      zero_ok s1 ∧ free_bound s1 ∧ path_ok s1 pml4 va ∧
      s1.mem pml4 (PML4_INDEX va) &&& PAGE_PRESENT ≠ 0 := by
  rcases ptbl_alloc_step s pml4 (PML4_INDEX va) b e u hs hz hb hp.1 with
    hn | ⟨s1, he, i1, z1, b1, hc, hpres, hrest⟩
  · exact Or.inl hn
  · right
    refine ⟨s1, he, i1, z1, b1, ?_, hpres⟩
    rcases hrest with rfl | ⟨_, _, hcx, hncx, hzx, _⟩
    · exact hp
    · refine ⟨fun h => hp.1 (hc _ h), fun _ => ⟨hncx, ?_, ?_⟩⟩
      · intro h
        apply hp.1
        rw [← h]
        exact hcx
      · intro h
        exfalso
        apply h
        unfold pdpt_of
        rw [hzx]
        exact zero_not_present

/-- The step of `page_insert` at the PDPT. -/
theorem insert_level3 {υ : Type} (s : kstate) (pml4 va b e : Nat) (u : υ)
    (hs : buddy_inv s) (hz : zero_ok s) (hb : free_bound s) (hp : path_ok s pml4 va)
    (h4 : s.mem pml4 (PML4_INDEX va) &&& PAGE_PRESENT ≠ 0) :
    ptbl_alloc (pdpt_of s pml4 va) (PDPT_INDEX va) b e u s = none ∨
    ∃ s1, ptbl_alloc (pdpt_of s pml4 va) (PDPT_INDEX va) b e u s = some (0, u, s1) ∧
      buddy_inv s1 ∧ zero_ok s1 ∧ free_bound s1 ∧ path_ok s1 pml4 va ∧
      s1.mem pml4 (PML4_INDEX va) &&& PAGE_PRESENT ≠ 0 ∧
      s1.mem (pdpt_of s1 pml4 va) (PDPT_INDEX va) &&& PAGE_PRESENT ≠ 0 ∧
      s1.mem pml4 (PML4_INDEX va) = s.mem pml4 (PML4_INDEX va) := by
  obtain ⟨hn4, hp3⟩ := hp
  obtain ⟨hn3, hd3, hp2⟩ := hp3 h4
  rcases ptbl_alloc_step s (pdpt_of s pml4 va) (PDPT_INDEX va) b e u hs hz hb hn3 with
    hn | ⟨s1, he, i1, z1, b1, hc, hpres, hrest⟩
  · exact Or.inl hn
  · right
    refine ⟨s1, he, i1, z1, b1, ?_⟩
    rcases hrest with rfl | ⟨_, hh, hcx, hncx, hzx, hmem⟩
    · exact ⟨⟨hn4, hp3⟩, h4, hpres, rfl⟩
    · have m4 : s1.mem pml4 (PML4_INDEX va) = s.mem pml4 (PML4_INDEX va) :=
        hmem _ _ (fun h => hd3 h.1.symm) (fun h => hn4 (h ▸ hcx))
      have t3 : pdpt_of s1 pml4 va = pdpt_of s pml4 va := by unfold pdpt_of; rw [m4]
      refine ⟨⟨fun h => hn4 (hc _ h), fun _ => ?_⟩, by rw [m4]; exact h4, by rw [t3]; exact hpres, m4⟩
      rw [t3]
      refine ⟨fun h => hn3 (hc _ h), hd3, fun _ => ?_⟩
      have t2 : pdir_of s1 pml4 va =
          entry_table (s1.mem (pdpt_of s pml4 va) (PDPT_INDEX va)) := by
        unfold pdir_of; rw [t3]
      rw [t2]
      refine ⟨hh, hncx, fun h => hn4 (h ▸ hcx), fun h => hn3 (h ▸ hcx), ?_⟩
      intro h
      exfalso
      apply h
      rw [hzx]
      exact zero_not_present

/-- The step of `page_insert` at the page directory. -/
theorem insert_level2 {υ : Type} (s : kstate) (pml4 va b e : Nat) (u : υ)
    (hs : buddy_inv s) (hz : zero_ok s) (hb : free_bound s) (hp : path_ok s pml4 va)
    (h4 : s.mem pml4 (PML4_INDEX va) &&& PAGE_PRESENT ≠ 0)
    (h3 : s.mem (pdpt_of s pml4 va) (PDPT_INDEX va) &&& PAGE_PRESENT ≠ 0) :
    ptbl_alloc (pdir_of s pml4 va) (PAGE_DIR_INDEX va) b e u s = none ∨
    ∃ s1, ptbl_alloc (pdir_of s pml4 va) (PAGE_DIR_INDEX va) b e u s = some (0, u, s1) ∧
      buddy_inv s1 ∧ zero_ok s1 ∧ free_bound s1 ∧ path_ok s1 pml4 va ∧
      s1.mem pml4 (PML4_INDEX va) &&& PAGE_PRESENT ≠ 0 ∧
      s1.mem (pdpt_of s1 pml4 va) (PDPT_INDEX va) &&& PAGE_PRESENT ≠ 0 ∧
      s1.mem (pdir_of s1 pml4 va) (PAGE_DIR_INDEX va) &&& PAGE_PRESENT ≠ 0 ∧
      s1.mem pml4 (PML4_INDEX va) = s.mem pml4 (PML4_INDEX va) ∧
      s1.mem (pdpt_of s pml4 va) (PDPT_INDEX va) =
        s.mem (pdpt_of s pml4 va) (PDPT_INDEX va) := by
  obtain ⟨hn4, hp3⟩ := hp
  obtain ⟨hn3, hd3, hp2⟩ := hp3 h4
  obtain ⟨hh3, hn2, hd24, hd23, hp1⟩ := hp2 h3
  rcases ptbl_alloc_step s (pdir_of s pml4 va) (PAGE_DIR_INDEX va) b e u hs hz hb hn2 with
    hn | ⟨s1, he, i1, z1, b1, hc, hpres, hrest⟩
  · exact Or.inl hn
  · right
    refine ⟨s1, he, i1, z1, b1, ?_⟩
    rcases hrest with rfl | ⟨_, hh, hcx, hncx, hzx, hmem⟩
    · exact ⟨⟨hn4, hp3⟩, h4, h3, hpres, rfl, rfl⟩
    · have m4 : s1.mem pml4 (PML4_INDEX va) = s.mem pml4 (PML4_INDEX va) :=
        hmem _ _ (fun h => hd24 h.1.symm) (fun h => hn4 (h ▸ hcx))
      have t3 : pdpt_of s1 pml4 va = pdpt_of s pml4 va := by unfold pdpt_of; rw [m4]
      have m3 : s1.mem (pdpt_of s pml4 va) (PDPT_INDEX va) =
          s.mem (pdpt_of s pml4 va) (PDPT_INDEX va) :=
        hmem _ _ (fun h => hd23 h.1.symm) (fun h => hn3 (h ▸ hcx))
      have t2 : pdir_of s1 pml4 va = pdir_of s pml4 va := by unfold pdir_of; rw [t3, m3]
      refine ⟨⟨fun h => hn4 (hc _ h), fun _ => ?_⟩, by rw [m4]; exact h4,
        by rw [t3, m3]; exact h3, by rw [t2]; exact hpres, m4, m3⟩
      rw [t3]
      refine ⟨fun h => hn3 (hc _ h), hd3, fun _ => ?_⟩
      rw [t2, m3]
      refine ⟨hh3, fun h => hn2 (hc _ h), hd24, hd23, fun _ => ?_⟩
      have t1 : ptbl_of s1 pml4 va =
          entry_table (s1.mem (pdir_of s pml4 va) (PAGE_DIR_INDEX va)) := by
        unfold ptbl_of; rw [t2]
      rw [t1]
      exact ⟨hh, hncx, fun h => hn4 (h ▸ hcx), fun h => hn3 (h ▸ hcx), fun h => hn2 (h ▸ hcx)⟩

theorem and_then_ok {υ : Type} (u : υ) (s : kstate) (rest : υ → kstate → walk_result υ) :
    and_then (some (0, u, s)) rest = rest u s := by
  simp [and_then]

theorem and_then_none {υ : Type} (rest : υ → kstate → walk_result υ) :
    and_then none rest = none := rfl

theorem insert_pml4e_none (tbl idx b e : Nat) (u : insert_info) (s : kstate)
    (h : ptbl_alloc tbl idx b e u s = none) : insert_pml4e tbl idx b e u s = none := by
  unfold insert_pml4e; rw [h]

theorem insert_pml4e_some (tbl idx b e : Nat) (u : insert_info) (s : kstate) (r : Int)
    (u1 : insert_info) (s1 : kstate) (h : ptbl_alloc tbl idx b e u s = some (r, u1, s1)) :
    insert_pml4e tbl idx b e u s = some (0, u1, s1) := by
  unfold insert_pml4e; rw [h]

theorem insert_pdpte_none (tbl idx b e : Nat) (u : insert_info) (s : kstate)
    (h : ptbl_alloc tbl idx b e u s = none) : insert_pdpte tbl idx b e u s = none := by
  unfold insert_pdpte; rw [h]

theorem insert_pdpte_some (tbl idx b e : Nat) (u : insert_info) (s : kstate) (r : Int)
    (u1 : insert_info) (s1 : kstate) (h : ptbl_alloc tbl idx b e u s = some (r, u1, s1)) :
    insert_pdpte tbl idx b e u s = some (0, u1, s1) := by
  unfold insert_pdpte; rw [h]

theorem insert_pde_none (tbl idx b e : Nat) (u : insert_info) (s : kstate)
    (h : ptbl_alloc tbl idx b e u s = none) : insert_pde tbl idx b e u s = none := by
  unfold insert_pde; rw [h]

theorem insert_pde_some (tbl idx b e : Nat) (u : insert_info) (s : kstate) (r : Int)
    (u1 : insert_info) (s1 : kstate) (h : ptbl_alloc tbl idx b e u s = some (r, u1, s1)) :
    insert_pde tbl idx b e u s = some (0, u1, s1) := by
  unfold insert_pde; rw [h]

/-- The walk of `page_insert` over a well-formed path: it panics, or it makes the three
tables of the path present, calls `insert_pte` on the leaf entry and returns 0. -/
theorem page_insert_spec (s : kstate) (pml4 p va flags : Nat)
    (hs : buddy_inv s) (hz : zero_ok s) (hb : free_bound s) (hp : path_ok s pml4 va)
    (hva : canonical va) :
    page_insert s pml4 p va flags = none ∨
    ∃ s3 r u s4, path_ok s3 pml4 va ∧
      s3.mem pml4 (PML4_INDEX va) &&& PAGE_PRESENT ≠ 0 ∧
      s3.mem (pdpt_of s3 pml4 va) (PDPT_INDEX va) &&& PAGE_PRESENT ≠ 0 ∧
      s3.mem (pdir_of s3 pml4 va) (PAGE_DIR_INDEX va) &&& PAGE_PRESENT ≠ 0 ∧
      insert_pte (ptbl_of s3 pml4 va) (PAGE_TABLE_INDEX va) va (va + 4091)
        { pml4 := pml4, page := p, flags := flags } s3 = some (r, u, s4) ∧
      page_insert s pml4 p va flags = some (0, s4) := by
  unfold page_insert
  simp only
  rw [walk_page_range_one _ _ _ _ _ hva]
  generalize hw : page_walker.mk (some insert_pte) (some insert_pde) (some insert_pdpte)
    (some insert_pml4e) none none none none none = w
  have w1 : w.pte_callback = some insert_pte := by rw [← hw]
  have w2 : w.pde_callback = some insert_pde := by rw [← hw]
  have w3 : w.pdpte_callback = some insert_pdpte := by rw [← hw]
  have w4 : w.pml4e_callback = some insert_pml4e := by rw [← hw]
  have wh : w.pt_hole_callback = none := by rw [← hw]
  have v1 : w.pte_unmap = none := by rw [← hw]
  have v2 : w.pde_unmap = none := by rw [← hw]
  have v3 : w.pdpte_unmap = none := by rw [← hw]
  have v4 : w.pml4e_unmap = none := by rw [← hw]
  have e4 : va + 4095 - 1 = va + 4094 := by omega
  have e3 : va + 4094 - 1 = va + 4093 := by omega
  have e2 : va + 4093 - 1 = va + 4092 := by omega
  have e1 : va + 4092 - 1 = va + 4091 := by omega
  rw [pml4_walk_one w pml4 va (va + 4095) _ s hva (by omega) (le_refl _), w4, v4, wh, e4]
  simp only [call_cb, call_hole]
  rcases insert_level4 s pml4 va va (va + 4094)
      ({ pml4 := pml4, page := p, flags := flags } : insert_info) hs hz hb hp with
    hn | ⟨s1, he1, i1, z1, b1, p1, q4⟩
  · left
    rw [insert_pml4e_none _ _ _ _ _ _ hn]
    rfl
  rw [insert_pml4e_some _ _ _ _ _ _ _ _ _ he1]
  simp only [and_then_ok]
  rw [if_pos q4, pdpt_walk_one w _ va (va + 4094) _ s1 hva (by omega) (by omega),
    w3, v3, wh, e3]
  simp only [call_cb, call_hole]
  rcases insert_level3 s1 pml4 va va (va + 4093)
      ({ pml4 := pml4, page := p, flags := flags } : insert_info) i1 z1 b1 p1 q4 with
    hn | ⟨s2, he2, i2, z2, b2, p2, r4, r3, m41⟩
  · left
    unfold pdpt_of at hn
    rw [insert_pdpte_none _ _ _ _ _ _ hn]
    rfl
  have he2' := he2
  unfold pdpt_of at he2'
  rw [insert_pdpte_some _ _ _ _ _ _ _ _ _ he2']
  simp only [and_then_ok]
  have hd3 : entry_table (s1.mem pml4 (PML4_INDEX va)) = pdpt_of s2 pml4 va := by
    unfold pdpt_of; rw [m41]
  rw [hd3]
  have hh3 := ((p2.2 r4).2.2 r3).1
  rw [if_pos r3, if_pos (not_not.mpr hh3),
    pdir_walk_one w _ va (va + 4093) _ s2 hva (by omega) (by omega), w2, v2, wh, e2]
  simp only [call_cb, call_hole]
  have hd2 : entry_table (s2.mem (pdpt_of s2 pml4 va) (PDPT_INDEX va)) = pdir_of s2 pml4 va :=
    rfl
  rw [hd2]
  rcases insert_level2 s2 pml4 va va (va + 4092)
      ({ pml4 := pml4, page := p, flags := flags } : insert_info) i2 z2 b2 p2 r4 r3 with
    hn | ⟨s3, he3, i3, z3, b3, p3, t4, t3, t2, m42, m32⟩
  · left
    rw [insert_pde_none _ _ _ _ _ _ hn]
    rfl
  rw [insert_pde_some _ _ _ _ _ _ _ _ _ he3]
  simp only [and_then_ok]
  have hd2' : pdir_of s2 pml4 va = pdir_of s3 pml4 va := by
    have h1 : pdpt_of s3 pml4 va = pdpt_of s2 pml4 va := by unfold pdpt_of; rw [m42]
    unfold pdir_of
    rw [h1, m32]
  rw [hd2']
  have hh2 := ((((p3.2 t4).2.2 t3).2.2.2.2) t2).1
  rw [if_pos t2, if_pos (not_not.mpr hh2),
    ptbl_walk_one w _ va (va + 4092) _ s3 hva (by omega) (by omega), w1, v1, wh, e1]
  simp only [call_cb, call_hole]
  have hd1 : entry_table (s3.mem (pdir_of s3 pml4 va) (PAGE_DIR_INDEX va)) =
      ptbl_of s3 pml4 va := rfl
  rw [hd1]
  cases hi : insert_pte (ptbl_of s3 pml4 va) (PAGE_TABLE_INDEX va) va (va + 4091)
      ({ pml4 := pml4, page := p, flags := flags } : insert_info) s3 with
  | none => left; rfl
  | some v =>
    obtain ⟨r, u, s4⟩ := v
    right
    have hr := (insert_pte_mem _ _ _ _ _ _ _ _ _ hi).1
    subst hr
    refine ⟨s3, 0, u, s4, p3, t4, t3, t2, hi, ?_⟩
    simp [and_then]

/-- The walk of `page_lookup` over a path whose four entries are present: it finds the leaf
entry. -/
theorem page_lookup_resolved (s : kstate) (pml4 va : Nat)
    (es : Option (Option (Nat × Nat))) (hva : canonical va)
    (h4 : s.mem pml4 (PML4_INDEX va) &&& PAGE_PRESENT ≠ 0)
    (h3 : s.mem (pdpt_of s pml4 va) (PDPT_INDEX va) &&& PAGE_PRESENT ≠ 0)
    (hh3 : s.mem (pdpt_of s pml4 va) (PDPT_INDEX va) &&& PAGE_HUGE = 0)
    (h2 : s.mem (pdir_of s pml4 va) (PAGE_DIR_INDEX va) &&& PAGE_PRESENT ≠ 0)
    (hh2 : s.mem (pdir_of s pml4 va) (PAGE_DIR_INDEX va) &&& PAGE_HUGE = 0)
    (h1 : s.mem (ptbl_of s pml4 va) (PAGE_TABLE_INDEX va) &&& PAGE_PRESENT ≠ 0) :
    page_lookup s pml4 va es =
      page_lookup_result s es
        (some (0, some (ptbl_of s pml4 va, PAGE_TABLE_INDEX va), s)) := by
  unfold page_lookup
  simp only
  rw [walk_page_range_one _ _ _ _ _ hva]
  generalize hw : page_walker.mk (some lookup_pte) (some lookup_pde) none none
    none none none none none = w
  have w1 : w.pte_callback = some lookup_pte := by rw [← hw]
  have w2 : w.pde_callback = some lookup_pde := by rw [← hw]
  have w3 : w.pdpte_callback = none := by rw [← hw]
  have w4 : w.pml4e_callback = none := by rw [← hw]
  have wh : w.pt_hole_callback = none := by rw [← hw]
  have v1 : w.pte_unmap = none := by rw [← hw]
  have v2 : w.pde_unmap = none := by rw [← hw]
  have v3 : w.pdpte_unmap = none := by rw [← hw]
  have v4 : w.pml4e_unmap = none := by rw [← hw]
  have e4 : va + 4095 - 1 = va + 4094 := by omega
  have e3 : va + 4094 - 1 = va + 4093 := by omega
  have e2 : va + 4093 - 1 = va + 4092 := by omega
  have e1 : va + 4092 - 1 = va + 4091 := by omega
  have hd3 : entry_table (s.mem pml4 (PML4_INDEX va)) = pdpt_of s pml4 va := rfl
  have hd2 : entry_table (s.mem (pdpt_of s pml4 va) (PDPT_INDEX va)) = pdir_of s pml4 va :=
    rfl
  have hd1 : entry_table (s.mem (pdir_of s pml4 va) (PAGE_DIR_INDEX va)) =
      ptbl_of s pml4 va := rfl
  rw [pml4_walk_one w pml4 va (va + 4095) _ s hva (by omega) (le_refl _), w4, v4, wh, e4]
  simp only [call_cb, call_hole, and_then_ok]
  rw [if_pos h4, hd3, pdpt_walk_one w _ va (va + 4094) _ s hva (by omega) (by omega),
    w3, v3, wh, e3]
  simp only [call_cb, call_hole, and_then_ok]
  rw [if_pos h3, if_pos (not_not.mpr hh3), hd2,
    pdir_walk_one w _ va (va + 4093) _ s hva (by omega) (by omega), w2, v2, wh, e2]
  simp only [call_cb, call_hole, and_then_ok, lookup_pde]
  rw [if_pos h2, if_pos (not_not.mpr hh2), hd1,
    ptbl_walk_one w _ va (va + 4092) _ s hva (by omega) (by omega), w1, v1, wh, e1]
  simp only [call_cb, call_hole, and_then_ok, lookup_pte]
  rw [if_pos h1]
  simp only [and_then_ok]
  rw [if_pos h1]
  simp only [and_then_ok]

/-- C4: on a well-formed page table (the allocator invariant holds, the zeroed flags of the
free frames tell the truth, the free frames and the frame `p` lie below the limit of
physical addresses, the tables on the path of `va` are distinct frames in use and no entry
of the path maps a huge page), for a canonical page-aligned `va` and flags without address
bits: after `page_insert(pml4, p, va, flags)` returns 0, `page_lookup(pml4, va, NULL)`
returns `p`, the leaf entry of `va` equals `page2pa(p) | flags | PAGE_PRESENT`, and it is
the entry `page_lookup` stores for a caller that asks for it. -/
theorem page_insert_then_lookup (s s' : kstate) (pml4 p va flags : Nat)
    (hs : buddy_inv s) (hz : zero_ok s) (hb : free_bound s) (hp : path_ok s pml4 va)
    (hva : canonical va) (hf : PAGE_ADDR flags = 0) (hpa : page2pa p < USER_LIM)
    (hins : page_insert s pml4 p va flags = some (0, s')) :
    page_lookup s' pml4 va none = some (some p, none) ∧
    s'.mem (ptbl_of s' pml4 va) (PAGE_TABLE_INDEX va) =
      page2pa p ||| flags ||| PAGE_PRESENT ∧
    ∀ g, page_lookup s' pml4 va (some (some g)) =
      some (some p, some (some (ptbl_of s' pml4 va, PAGE_TABLE_INDEX va))) := by
  rcases page_insert_spec s pml4 p va flags hs hz hb hp hva with
    hn | ⟨s3, r, u, s4, p3, t4, t3, t2, hi, he⟩
  · rw [hn] at hins; simp at hins
  rw [he] at hins
  simp only [Option.some.injEq, Prod.mk.injEq, true_and] at hins
  subst hins
  obtain ⟨_, hleaf, hmem⟩ := insert_pte_mem _ _ _ _ _ _ _ _ _ hi
  simp only at hleaf
  obtain ⟨_, hd3, hq3⟩ := p3.2 t4
  obtain ⟨hh3, _, hd24, hd23, hq2⟩ := hq3 t3
  obtain ⟨hh2, _, hd14, hd13, hd12⟩ := hq2 t2
  have m4 : s4.mem pml4 (PML4_INDEX va) = s3.mem pml4 (PML4_INDEX va) :=
    hmem _ _ (fun h => hd14 h.1.symm)
  have e3 : pdpt_of s4 pml4 va = pdpt_of s3 pml4 va := by unfold pdpt_of; rw [m4]
  have m3 : s4.mem (pdpt_of s3 pml4 va) (PDPT_INDEX va) =
      s3.mem (pdpt_of s3 pml4 va) (PDPT_INDEX va) :=
    hmem _ _ (fun h => hd13 h.1.symm)
  have e2 : pdir_of s4 pml4 va = pdir_of s3 pml4 va := by unfold pdir_of; rw [e3, m3]
  have m2 : s4.mem (pdir_of s3 pml4 va) (PAGE_DIR_INDEX va) =
      s3.mem (pdir_of s3 pml4 va) (PAGE_DIR_INDEX va) :=
    hmem _ _ (fun h => hd12 h.1.symm)
  have e1 : ptbl_of s4 pml4 va = ptbl_of s3 pml4 va := by unfold ptbl_of; rw [e2, m2]
  obtain ⟨b1, b2⟩ := leaf_entry_bits p flags hpa hf
  have hleaf4 : s4.mem (ptbl_of s4 pml4 va) (PAGE_TABLE_INDEX va) =
      page2pa p ||| flags ||| PAGE_PRESENT := by rw [e1]; exact hleaf
  have hres : ∀ es, page_lookup s4 pml4 va es =
      page_lookup_result s4 es
        (some (0, some (ptbl_of s4 pml4 va, PAGE_TABLE_INDEX va), s4)) := fun es =>
    page_lookup_resolved s4 pml4 va es hva (by rw [m4]; exact t4)
      (by rw [e3, m3]; exact t3) (by rw [e3, m3]; exact hh3)
      (by rw [e2, m2]; exact t2) (by rw [e2, m2]; exact hh2)
      (by rw [hleaf4]; exact b1)
  have hse : sign_extend (page2pa p) = page2pa p := by
    unfold sign_extend; rw [if_pos hpa]
  have hnk : ¬ page2pa p ≥ KERNEL_VMA := by
    unfold USER_LIM at hpa; unfold KERNEL_VMA; omega
  have hpp : pa2page (page2pa p) = p := by
    unfold pa2page page2pa PAGE_SIZE; omega
  refine ⟨?_, hleaf4, fun g => ?_⟩
  · rw [hres]
    simp only [page_lookup_result, hleaf4, b2, hse, hnk, hpp]
    simp [hpp]
  · rw [hres]
    simp only [page_lookup_result, hleaf4, b2, hse, hpp]
    simp

theorem one_frame_list (k : Nat) :
    one_frame_state.buddy_free_list k = if k = 0 then [2] else [] := rfl

theorem two_free_list : ∀ k : Nat,
    two_free_state.buddy_free_list k = if k = 0 then [4, 2] else []
  | 0 => rfl
  | _ + 1 => rfl

theorem three_free_list : ∀ k : Nat,
    three_free_state.buddy_free_list k = if k = 0 then [6, 4, 2] else []
  | 0 => rfl
  | _ + 1 => rfl

theorem three_free_covered (f : Nat) (h : covered three_free_state f) :
    f = 6 ∨ f = 4 ∨ f = 2 := by
  obtain ⟨k, q, hq, hb⟩ := h
  rw [three_free_list] at hq
  by_cases hk : k = 0
  · simp only [hk, if_true, List.mem_cons, List.mem_singleton, List.not_mem_nil, or_false]
      at hq
    rw [hk] at hb
    unfold in_block at hb
    omega
  · simp [hk] at hq

theorem three_free_reachable : reachable three_free_state := by
  have h0 : reachable boot_state :=
    reachable.boot _ ⟨fun _ => rfl, fun _ => ⟨rfl, rfl, rfl⟩⟩
  have c0 : ¬ covered boot_state 2 := by
    rintro ⟨k, q, hq, _⟩
    simp [boot_state] at hq
  have h1 : reachable one_frame_state := reachable.free _ _ 2 h0 c0 rfl
  have c1 : ¬ covered one_frame_state 4 := by
    rintro ⟨k, q, hq, hb⟩
    rw [one_frame_list] at hq
    by_cases hk : k = 0
    · simp only [hk, if_true, List.mem_singleton] at hq
      rw [hq, hk] at hb
      unfold in_block at hb
      omega
    · simp [hk] at hq
  have h2 : reachable two_free_state := reachable.free _ _ 4 h1 c1 rfl
  have c2 : ¬ covered two_free_state 6 := by
    rintro ⟨k, q, hq, hb⟩
    rw [two_free_list] at hq
    by_cases hk : k = 0
    · simp only [hk, if_true, List.mem_cons, List.mem_singleton, List.not_mem_nil, or_false]
        at hq
      rw [hk] at hb
      unfold in_block at hb
      omega
    · simp [hk] at hq
  exact reachable.free _ _ 6 h2 c2 rfl

theorem inserted_eq : page_insert three_free_state 1 8 0x1000 PAGE_WRITE =
    some (0, inserted_state) := by
  have h1 : inserted.map (fun r => r.1) = some 0 := rfl
  have h2 : page_insert three_free_state 1 8 0x1000 PAGE_WRITE = inserted := rfl
  rw [h2]
  unfold inserted_state
  cases h : inserted with
  | none => rw [h] at h1; simp at h1
  | some v =>
    obtain ⟨r, s1⟩ := v
    rw [h] at h1
    simp only [Option.map_some', Option.some.injEq] at h1
    simp only [Option.map_some', Option.getD_some]
    rw [h1]

/-- Witness of `page_insert_then_lookup`: with the frames 2, 4 and 6 free and frame 1 an
empty root table, mapping frame 8 at 0x1000 allocates the three tables of the path; the
lookup returns frame 8. -/
theorem page_insert_then_lookup_witness :
    (buddy_inv three_free_state ∧ zero_ok three_free_state ∧ free_bound three_free_state ∧
      path_ok three_free_state 1 0x1000 ∧ canonical 0x1000 ∧ PAGE_ADDR PAGE_WRITE = 0 ∧
      page2pa 8 < USER_LIM ∧
      page_insert three_free_state 1 8 0x1000 PAGE_WRITE = some (0, inserted_state)) ∧
    page_lookup inserted_state 1 0x1000 none = some (some 8, none) ∧
    inserted_state.mem (ptbl_of inserted_state 1 0x1000) (PAGE_TABLE_INDEX 0x1000) =
      page2pa 8 ||| PAGE_WRITE ||| PAGE_PRESENT ∧
    page_lookup inserted_state 1 0x1000 (some (some (0, 0))) =
      some (some 8, some (some (ptbl_of inserted_state 1 0x1000, PAGE_TABLE_INDEX 0x1000))) := by
  have h1 : buddy_inv three_free_state := (reachable_inv _ three_free_reachable).1
  have h2 : zero_ok three_free_state := fun f _ _ i => rfl
  have h3 : free_bound three_free_state := by
    intro f hf
    unfold page2pa PAGE_SIZE USER_LIM
    rcases three_free_covered f hf with h | h | h <;> omega
  have h4 : path_ok three_free_state 1 0x1000 := by
    refine ⟨fun h => ?_, fun h => (h rfl).elim⟩
    rcases three_free_covered 1 h with h | h | h <;> omega
  have h5 : canonical 0x1000 := by
    unfold canonical PAGE_SIZE USER_LIM
    omega
  have h6 : PAGE_ADDR PAGE_WRITE = 0 := by decide
  have h7 : page2pa 8 < USER_LIM := by decide
  have r := page_insert_then_lookup three_free_state inserted_state 1 8 0x1000 PAGE_WRITE
    h1 h2 h3 h4 h5 h6 h7 inserted_eq
  exact ⟨⟨h1, h2, h3, h4, h5, h6, h7, inserted_eq⟩, r.1, r.2.1, r.2.2 (0, 0)⟩

/-! ## Splitting a VMA -/

/-- On a tree of consecutive disjoint ranges whose list follows it, `insert_vma` of a range
that meets none of them returns 0 and puts the VMA at its place in the tree and in the
list. -/
theorem insert_vma_ok (t : task) (new : Nat)
    (hch : t.task_rb.inorder.Pairwise (fun a b => (t.vmas a).vm_end ≤ (t.vmas b).vm_base))
    (hrg : ∀ a ∈ t.task_rb.inorder, (t.vmas a).vm_base ≤ (t.vmas a).vm_end)
    (hnd : t.task_rb.inorder.Nodup)
    (hl : t.task_mmap = t.task_rb.inorder)
    (hno : ∀ w ∈ t.task_rb.inorder, ¬ vma_overlap (t.vmas new) (t.vmas w)) :
    ∃ t' k1 k2, insert_vma t new = (0, t') ∧ t'.vmas = t.vmas ∧
      t'.next_vma = t.next_vma ∧ t'.task_pml4 = t.task_pml4 ∧
      t.task_rb.inorder = k1 ++ k2 ∧ t'.task_rb.inorder = k1 ++ new :: k2 ∧
      t'.task_mmap = k1 ++ new :: k2 ∧
      (∀ a ∈ k1, (t.vmas a).vm_end ≤ (t.vmas new).vm_base) ∧
      (∀ b ∈ k2, (t.vmas new).vm_end ≤ (t.vmas b).vm_base) := by
  have h := insert_vma_walk_spec t.vmas new t.task_rb hch hrg
  cases hw : insert_vma_walk t.vmas new t.task_rb with
  | none =>
    rw [hw] at h
    obtain ⟨w, hw1, hw2⟩ := h
    exact absurd hw2 (hno w hw1)
  | some res =>
    obtain ⟨tr', last⟩ := res
    rw [hw] at h
    obtain ⟨_, k1, k2, e1, e2, h1, h2, h3⟩ := h
    rw [e1] at hnd
    have hdis := (List.nodup_append.1 hnd).2.2
    cases last with
    | none =>
      simp only at h3
      refine ⟨{ t with task_rb := tr', task_mmap := new :: t.task_mmap }, k1, k2, ?_, rfl, rfl,
        rfl, e1, e2, ?_, h1, h2⟩
      · simp [insert_vma, hw, rb_balance]
      · show new :: t.task_mmap = k1 ++ new :: k2
        rw [hl, e1, h3.1, h3.2]; rfl
    | some pd =>
      obtain ⟨p, d⟩ := pd
      cases d with
      | true =>
        obtain ⟨l1', e⟩ := h3
        refine ⟨{ t with task_rb := tr',
                         task_mmap := list_insert_after p new t.task_mmap }, k1, k2, ?_, rfl,
          rfl, rfl, e1, e2, ?_, h1, h2⟩
        · simp [insert_vma, hw, rb_balance]
        · show list_insert_after p new t.task_mmap = k1 ++ new :: k2
          have hp : p ∉ l1' := by
            have := (List.nodup_append.1 hnd).1
            rw [e] at this
            have h4 := (List.nodup_append.1 this).2.2
            intro hc
            exact h4 hc (List.mem_singleton_self p)
          rw [hl, e1, e]
          have : l1' ++ [p] ++ k2 = l1' ++ p :: k2 := by simp
          rw [this, list_insert_after_spec p new l1' k2 hp]
          simp
      | false =>
        obtain ⟨l2', e⟩ := h3
        refine ⟨{ t with task_rb := tr',
                         task_mmap := list_insert_before p new t.task_mmap }, k1, k2, ?_, rfl,
          rfl, rfl, e1, e2, ?_, h1, h2⟩
        · simp [insert_vma, hw, rb_balance]
        · show list_insert_before p new t.task_mmap = k1 ++ new :: k2
          have hp : p ∉ k1 := by
            intro hc
            exact hdis hc (by rw [e]; exact List.mem_cons_self _ _)
          rw [hl, e1, e, list_insert_before_spec p new k1 l2' hp]

/-- At an address below `USER_LIM` that lies in no VMA, `find_free_vma` succeeds and
describes a free gap. -/
theorem find_free_vma_gap (t : task) (a : Nat) (ha : a < USER_LIM)
    (hfree : ∀ v ∈ t.task_rb.inorder, a < (t.vmas v).vm_end → a < (t.vmas v).vm_base) :
    (find_free_vma t a).1 = 0 ∧ (find_free_vma t a).2.vm_type = VMA_FREE := by
  unfold find_free_vma
  simp only
  rw [if_neg (by omega)]
  cases hf : find_vma t a with
  | none =>
    simp only
    cases t.task_mmap.getLast? <;> exact ⟨rfl, rfl⟩
  | some v =>
    simp only
    unfold find_vma at hf
    have hv := List.mem_of_find?_eq_some hf
    have hp := List.find?_some hf
    simp only [decide_eq_true_eq] at hp
    rw [if_pos (hfree v hv hp)]
    cases list_prev t.task_mmap v <;> exact ⟨rfl, rfl⟩

/-- At a non-null address below `USER_LIM` that lies in no VMA, `add_vma` creates the VMA
right there. -/
theorem add_vma_at_gap (t : task) (name a size flags : Nat) (h0 : a ≠ 0) (ha : a < USER_LIM)
    (hfree : ∀ v ∈ t.task_rb.inorder, a < (t.vmas v).vm_end → a < (t.vmas v).vm_base) :
    add_vma t name a size flags = some (create_vma t name a size flags) := by
  obtain ⟨h1, h2⟩ := find_free_vma_gap t a ha hfree
  unfold add_vma
  simp only [if_neg h0]
  have : add_vma_loop true name size flags (t.task_mmap.length + 2) t a =
      some (some (create_vma t name a size flags)) := by
    show add_vma_loop true name size flags (t.task_mmap.length + 1 + 1) t a = _
    rw [add_vma_loop]
    simp only [h0, decide_False, Bool.and_false, Bool.false_eq_true, if_false]
    rw [h1, h2]
    simp
  rw [this]

/-- The page roundings leave a page-aligned address alone. -/
theorem ROUNDDOWN_aligned (a : Nat) (h : a % PAGE_SIZE = 0) : ROUNDDOWN a = a := by
  unfold ROUNDDOWN; omega

theorem ROUNDUP_aligned (a : Nat) (h : a % PAGE_SIZE = 0) (hl : a ≤ USER_LIM) :
    ROUNDUP a = a := by
  unfold ROUNDUP ROUNDDOWN
  unfold PAGE_SIZE USER_LIM WORD at *
  omega

/-- A split inside a page-aligned VMA below `USER_LIM`, at a page-aligned address, on a
well-formed task whose next heap cell is not in use: `split_vma` returns the new cell, which
holds the part behind the address with the name and the flags of the VMA and sits right
behind it in the tree and in the list; the VMA ends at the address, and nothing else
changes. -/
theorem split_vma_spec (t : task) (lhs a : Nat)
    (ho : tree_ordered t) (hd : vmas_disjoint t) (hl : list_matches_tree t)
    (hv : lhs ∈ t.task_rb.inorder) (hfr : t.next_vma ∉ t.task_rb.inorder)
    (hb : (t.vmas lhs).vm_base < a) (he : a < (t.vmas lhs).vm_end)
    (haa : a % PAGE_SIZE = 0) (hea : (t.vmas lhs).vm_end % PAGE_SIZE = 0)
    (hlim : (t.vmas lhs).vm_end ≤ USER_LIM) :
    ∃ t' l1 l2, split_vma t lhs a = some (some t.next_vma, t') ∧
      t.task_rb.inorder = l1 ++ lhs :: l2 ∧
      t'.task_rb.inorder = l1 ++ lhs :: t.next_vma :: l2 ∧
      t'.task_mmap = l1 ++ lhs :: t.next_vma :: l2 ∧
      (t'.vmas = fun i =>
        if i = t.next_vma then
          { vm_name := (t.vmas lhs).vm_name, vm_base := a, vm_end := (t.vmas lhs).vm_end,
            vm_flags := (t.vmas lhs).vm_flags, vm_src := 0, vm_len := 0,
            rmap := t.next_vma + 1 }
        else if i = lhs then { t.vmas lhs with vm_end := a }
        else t.vmas i) ∧
      t'.next_vma = t.next_vma + 2 ∧ t'.task_pml4 = t.task_pml4 := by
  have hch := chain_of_ordered_disjoint t ho hd
  have hnd : t.task_rb.inorder.Nodup := by
    unfold tree_ordered at ho
    exact ho.imp (fun h => by intro e; rw [e] at h; exact lt_irrefl _ h)
  have hne : t.next_vma ≠ lhs := fun e => hfr (e ▸ hv)
  obtain ⟨l1, l2, hsplit⟩ := List.append_of_mem hv
  -- the task after the cut
  obtain ⟨t1, ht1⟩ : ∃ t1 : task, t1 =
      { t with vmas := fun i => if i = lhs then { t.vmas i with vm_end := a }
                                else t.vmas i } := ⟨_, rfl⟩
  have ht1l : t1.vmas lhs = { t.vmas lhs with vm_end := a } := by rw [ht1]; simp
  have ht1o : ∀ v, v ≠ lhs → t1.vmas v = t.vmas v := fun v hv => by rw [ht1]; simp [hv]
  have ht1r : t1.task_rb = t.task_rb := by rw [ht1]
  have ht1m : t1.task_mmap = t.task_mmap := by rw [ht1]
  have ht1n : t1.next_vma = t.next_vma := by rw [ht1]
  have ht1p : t1.task_pml4 = t.task_pml4 := by rw [ht1]
  have hsv : split_vma t lhs a = add_vma t1 (t1.vmas lhs).vm_name a
      (((t.vmas lhs).vm_end + WORD - a) % WORD) (t1.vmas lhs).vm_flags := by
    rw [ht1]
    unfold split_vma
    simp only
    rw [if_neg (by omega), if_neg (by omega)]
  have hbefore : ∀ x ∈ l1, (t.vmas x).vm_end ≤ (t.vmas lhs).vm_base := by
    intro x hx
    rw [hsplit] at hch
    exact (List.pairwise_append.1 hch).2.2 x hx lhs (List.mem_cons_self _ _)
  have hafter : ∀ y ∈ l2, (t.vmas lhs).vm_end ≤ (t.vmas y).vm_base := by
    intro y hy
    rw [hsplit] at hch
    exact (List.pairwise_cons.1 (List.pairwise_append.1 hch).2.1).1 y hy
  have hl1 : ∀ x ∈ l1, x ≠ lhs := by
    intro x hx e
    rw [hsplit] at hnd
    exact (List.nodup_append.1 hnd).2.2 hx (e ▸ List.mem_cons_self _ _)
  have hl2 : ∀ y ∈ l2, y ≠ lhs := by
    intro y hy e
    rw [hsplit] at hnd
    have := (List.nodup_cons.1 (List.nodup_append.1 hnd).2.1).1
    exact this (e ▸ hy)
  have hrg := hd.1
  have hmem : ∀ v, v ∈ t.task_rb.inorder ↔ v ∈ l1 ∨ v = lhs ∨ v ∈ l2 := by
    intro v; rw [hsplit]; simp
  -- the address is free after the cut
  have hfree : ∀ v ∈ t1.task_rb.inorder, a < (t1.vmas v).vm_end → a < (t1.vmas v).vm_base := by
    intro v hv1 hlt
    rw [ht1r] at hv1
    rcases (hmem v).1 hv1 with h | h | h
    · rw [ht1o v (hl1 v h)] at hlt
      have := hbefore v h
      omega
    · rw [h, ht1l] at hlt
      simp at hlt
    · rw [ht1o v (hl2 v h)]
      have := hafter v h
      omega
  have hsz : ((t.vmas lhs).vm_end + WORD - a) % WORD = (t.vmas lhs).vm_end - a := by
    unfold USER_LIM at hlim; unfold WORD; omega
  have hadd := add_vma_at_gap t1 (t1.vmas lhs).vm_name a ((t.vmas lhs).vm_end - a)
    (t1.vmas lhs).vm_flags (by omega) (by omega) hfree
  -- the cell of the new VMA
  obtain ⟨t2, ht2⟩ : ∃ t2 : task, t2 =
      { t1 with next_vma := t1.next_vma + 2,
                vmas := fun i => if i = t1.next_vma then
                  ⟨(t1.vmas lhs).vm_name, a, (t.vmas lhs).vm_end, (t1.vmas lhs).vm_flags, 0, 0,
                    t1.next_vma + 1⟩ else t1.vmas i,
                rmap_vmas := fun r =>
                  if r = t1.next_vma + 1 then [t1.next_vma] else t1.rmap_vmas r } := ⟨_, rfl⟩
  have ht2n : t2.vmas t.next_vma =
      ⟨(t.vmas lhs).vm_name, a, (t.vmas lhs).vm_end, (t.vmas lhs).vm_flags, 0, 0,
        t.next_vma + 1⟩ := by rw [ht2]; simp [ht1n, ht1l]
  have ht2o : ∀ v, v ≠ t.next_vma → t2.vmas v = t1.vmas v := fun v hv => by
    rw [ht2]; simp [ht1n, hv]
  have ht2r : t2.task_rb = t.task_rb := by rw [ht2]; exact ht1r
  have ht2m : t2.task_mmap = t.task_mmap := by rw [ht2]; exact ht1m
  have ht2x : t2.next_vma = t.next_vma + 2 := by rw [ht2]; simp [ht1n]
  have ht2p : t2.task_pml4 = t.task_pml4 := by rw [ht2]; exact ht1p
  have hin : ∀ v ∈ t.task_rb.inorder, v ≠ t.next_vma := fun v hv e => hfr (e ▸ hv)
  have hcreate : create_vma t1 (t1.vmas lhs).vm_name a ((t.vmas lhs).vm_end - a)
      (t1.vmas lhs).vm_flags =
      (match insert_vma t2 t.next_vma with
       | (ret, t3) => if ret < 0 then (none, t3) else (some t.next_vma, t3)) := by
    rw [ht2, ← ht1n]
    unfold create_vma
    have e1 : ROUNDDOWN a = a := ROUNDDOWN_aligned a haa
    have e2 : ROUNDUP ((a + ((t.vmas lhs).vm_end - a)) % WORD) = (t.vmas lhs).vm_end := by
      have : (a + ((t.vmas lhs).vm_end - a)) % WORD = (t.vmas lhs).vm_end := by
        unfold USER_LIM at hlim; unfold WORD; omega
      rw [this]
      exact ROUNDUP_aligned _ hea hlim
    simp only [e1, e2]
  -- the insertion
  have hch2 : t2.task_rb.inorder.Pairwise
      (fun x y => (t2.vmas x).vm_end ≤ (t2.vmas y).vm_base) := by
    rw [ht2r]
    refine List.Pairwise.imp_of_mem ?_ hch
    intro x y hx hy hxy
    rw [ht2o x (hin x hx), ht2o y (hin y hy)]
    have hyb : (t1.vmas y).vm_base = (t.vmas y).vm_base := by
      by_cases e : y = lhs
      · rw [e, ht1l]
      · rw [ht1o y e]
    rw [hyb]
    by_cases e : x = lhs
    · rw [e, ht1l]
      rw [e] at hxy
      show a ≤ _
      omega
    · rw [ht1o x e]; exact hxy
  have hrg2 : ∀ x ∈ t2.task_rb.inorder, (t2.vmas x).vm_base ≤ (t2.vmas x).vm_end := by
    intro x hx
    have hx' : x ∈ t.task_rb.inorder := by rw [← ht2r]; exact hx
    rw [ht2o x (hin x hx')]
    by_cases e : x = lhs
    · rw [e, ht1l]
      show (t.vmas lhs).vm_base ≤ a
      omega
    · rw [ht1o x e]; exact hrg x hx'
  have hno2 : ∀ w ∈ t2.task_rb.inorder,
      ¬ vma_overlap (t2.vmas t.next_vma) (t2.vmas w) := by
    intro w hw
    have hw' : w ∈ t.task_rb.inorder := by rw [← ht2r]; exact hw
    rw [ht2n, ht2o w (hin w hw')]
    unfold vma_overlap
    rcases (hmem w).1 hw' with h | h | h
    · rw [ht1o w (hl1 w h)]
      have := hbefore w h
      simp only
      omega
    · rw [h, ht1l]
      simp only
      omega
    · rw [ht1o w (hl2 w h)]
      have := hafter w h
      simp only
      omega
  obtain ⟨t3, k1, k2, hins, hvm, hnx, hpm, hk, htr, hli, hk1, hk2⟩ :=
    insert_vma_ok t2 t.next_vma hch2 hrg2 (by rw [ht2r]; exact hnd)
      (by rw [ht2r, ht2m]; exact hl) hno2
  rw [ht2r] at hk
  -- the place of the new VMA is right behind the VMA that was cut
  have hk' : l1 ++ lhs :: l2 = k1 ++ k2 := by rw [← hsplit]; exact hk
  have hlhs1 : lhs ∈ k1 := by
    have : lhs ∈ k1 ++ k2 := by rw [← hk']; simp
    rcases List.mem_append.1 this with h | h
    · exact h
    · have := hk2 lhs h
      rw [ht2n, ht2o lhs hne.symm, ht1l] at this
      simp only at this
      omega
  have hl2k : ∀ y ∈ l2, y ∉ k1 := by
    intro y hy hc
    have h1 := hk1 y hc
    have hy' : y ∈ t.task_rb.inorder := (hmem y).2 (Or.inr (Or.inr hy))
    rw [ht2n, ht2o y (hin y hy'), ht1o y (hl2 y hy)] at h1
    have h2 := hafter y hy
    have h3 := hrg y hy'
    simp only at h1
    omega
  have hpart : k1 = l1 ++ [lhs] ∧ k2 = l2 := by
    rcases List.append_eq_append_iff.1 hk' with ⟨a', e1, e2⟩ | ⟨c', e1, e2⟩
    · -- k1 = l1 ++ a', lhs :: l2 = a' ++ k2
      cases a' with
      | nil =>
        exfalso
        simp only [List.append_nil] at e1
        rw [e1] at hlhs1
        exact hl1 lhs hlhs1 rfl
      | cons x a'' =>
        simp only [List.cons_append, List.cons.injEq] at e2
        obtain ⟨ex, e2⟩ := e2
        cases a'' with
        | nil =>
          simp only [List.nil_append] at e2
          exact ⟨by rw [e1, ex], e2.symm⟩
        | cons z a3 =>
          exfalso
          have hz2 : z ∈ l2 := by rw [e2]; simp
          have hz1 : z ∈ k1 := by rw [e1]; simp
          exact hl2k z hz2 hz1
    · -- l1 = k1 ++ c', k2 = c' ++ lhs :: l2
      exfalso
      have : lhs ∈ l1 := by rw [e1]; exact List.mem_append_left _ hlhs1
      exact hl1 lhs this rfl
  refine ⟨t3, l1, l2, ?_, hsplit, ?_, ?_, ?_, ?_, ?_⟩
  · rw [hsv, hsz, hadd, hcreate, hins]
    simp
  · rw [htr, hpart.1, hpart.2]; simp
  · rw [hli, hpart.1, hpart.2]; simp
  · rw [hvm]
    funext i
    by_cases e : i = t.next_vma
    · rw [e, ht2n]; simp
    · rw [ht2o i e]
      simp only [e, if_false]
      by_cases e' : i = lhs
      · rw [e', ht1l]; simp
      · rw [ht1o i e']; simp [e']
  · rw [hnx, ht2x]
  · rw [hpm, ht2p]

/-- C11: a split of a VMA at an address that is no page boundary fails.  The VMA
[0x1000, 0x3000) split at 0x1800 is cut back to [0x1000, 0x1800) first; `create_vma` rounds
the base of the new VMA down to 0x1000, `insert_vma` rejects it, and `split_vma` returns
`NULL`: the range [0x1800, 0x3000) is left without a VMA.  `do_protect_vma` hands the base
it gets to `split_vma` as it is, so a change of protection from 0x1800 on returns -1 and
leaves the same task behind. -/
theorem split_vma_unaligned_fails :
    unaligned_split = some (none, [(0x1000, 0x1800, 3)]) ∧
    unaligned_protect = some (-1, [(0x1000, 0x1800, 3)]) := by
  exact ⟨rfl, rfl⟩

/-- A split at a page boundary: on a well-formed task (tree ordered by base, VMAs
pairwise disjoint, list following the tree, next heap cell not in use), for a VMA `[b, e)`
with `e` page-aligned and not above `USER_LIM` and a page-aligned `a` with `b < a < e`,
`split_vma(task, vma, a)` returns a new VMA with base `a`, end `e` and the flags and the
name of the VMA, cuts the VMA back to `[b, a)` without touching its other fields, leaves
every other VMA as it was and adds nothing else to the list; the two VMAs cover exactly
`[b, e)`. -/
theorem split_vma_at_page_boundary (t : task) (lhs a : Nat)
    (ho : tree_ordered t) (hd : vmas_disjoint t) (hl : list_matches_tree t)
    (hv : lhs ∈ t.task_rb.inorder) (hfr : t.next_vma ∉ t.task_rb.inorder)
    (hb : (t.vmas lhs).vm_base < a) (he : a < (t.vmas lhs).vm_end)
    (haa : a % PAGE_SIZE = 0) (hea : (t.vmas lhs).vm_end % PAGE_SIZE = 0)
    (hlim : (t.vmas lhs).vm_end ≤ USER_LIM) :
    ∃ r t', split_vma t lhs a = some (some r, t') ∧ r ∉ t.task_mmap ∧
      t'.vmas lhs = { t.vmas lhs with vm_end := a } ∧
      (t'.vmas r).vm_base = a ∧ (t'.vmas r).vm_end = (t.vmas lhs).vm_end ∧
      (t'.vmas r).vm_flags = (t.vmas lhs).vm_flags ∧
      (t'.vmas r).vm_name = (t.vmas lhs).vm_name ∧
      (∀ v, v ≠ lhs → v ≠ r → t'.vmas v = t.vmas v) ∧
      (∀ v, v ∈ t'.task_mmap ↔ v = r ∨ v ∈ t.task_mmap) ∧
      t'.task_mmap = t'.task_rb.inorder ∧
      (∀ x, ((t.vmas lhs).vm_base ≤ x ∧ x < (t.vmas lhs).vm_end) ↔
        (((t'.vmas lhs).vm_base ≤ x ∧ x < (t'.vmas lhs).vm_end) ∨
          ((t'.vmas r).vm_base ≤ x ∧ x < (t'.vmas r).vm_end))) := by
  obtain ⟨t', l1, l2, hs, hin, htr, hli, hvm, _, _⟩ :=
    split_vma_spec t lhs a ho hd hl hv hfr hb he haa hea hlim
  have hne : lhs ≠ t.next_vma := fun e => hfr (e ▸ hv)
  have e1 : t'.vmas lhs = { t.vmas lhs with vm_end := a } := by rw [hvm]; simp [hne]
  have e2 : t'.vmas t.next_vma = ⟨(t.vmas lhs).vm_name, a, (t.vmas lhs).vm_end,
      (t.vmas lhs).vm_flags, 0, 0, t.next_vma + 1⟩ := by rw [hvm]; simp
  refine ⟨t.next_vma, t', hs, by rw [hl]; exact hfr, e1, by rw [e2], by rw [e2], by rw [e2],
    by rw [e2], ?_, ?_, by rw [hli, htr], ?_⟩
  · intro v h1 h2
    rw [hvm]; simp [h1, h2]
  · intro v
    rw [hli, hl, hin]
    simp only [List.mem_append, List.mem_cons]
    tauto
  · intro x
    rw [e1, e2]
    simp only
    constructor
    · intro h
      by_cases hx : x < a
      · exact Or.inl ⟨h.1, hx⟩
      · exact Or.inr ⟨by omega, h.2⟩
    · rintro (h | h)
      · exact ⟨h.1, by omega⟩
      · exact ⟨by omega, h.2⟩

/-- Witness of `split_vma_at_page_boundary`: the VMA [0x1000, 0x3000) of `one_vma_task`
split at 0x2000. -/
theorem split_vma_at_page_boundary_witness :
    (tree_ordered one_vma_task ∧ vmas_disjoint one_vma_task ∧
      list_matches_tree one_vma_task ∧ 1 ∈ one_vma_task.task_rb.inorder ∧
      one_vma_task.next_vma ∉ one_vma_task.task_rb.inorder) ∧
    ∃ r t', split_vma one_vma_task 1 0x2000 = some (some r, t') ∧ r ∉ one_vma_task.task_mmap ∧
      t'.vmas 1 = { one_vma_task.vmas 1 with vm_end := 0x2000 } ∧
      (t'.vmas r).vm_base = 0x2000 ∧ (t'.vmas r).vm_end = (one_vma_task.vmas 1).vm_end ∧
      (t'.vmas r).vm_flags = (one_vma_task.vmas 1).vm_flags ∧
      (t'.vmas r).vm_name = (one_vma_task.vmas 1).vm_name ∧
      (∀ v, v ≠ 1 → v ≠ r → t'.vmas v = one_vma_task.vmas v) ∧
      (∀ v, v ∈ t'.task_mmap ↔ v = r ∨ v ∈ one_vma_task.task_mmap) ∧
      t'.task_mmap = t'.task_rb.inorder ∧
      (∀ x, ((one_vma_task.vmas 1).vm_base ≤ x ∧ x < (one_vma_task.vmas 1).vm_end) ↔
        (((t'.vmas 1).vm_base ≤ x ∧ x < (t'.vmas 1).vm_end) ∨
          ((t'.vmas r).vm_base ≤ x ∧ x < (t'.vmas r).vm_end))) := by
  have ho : tree_ordered one_vma_task := by unfold tree_ordered; decide
  have hd : vmas_disjoint one_vma_task := by unfold vmas_disjoint; decide
  have hl : list_matches_tree one_vma_task := rfl
  have hv : 1 ∈ one_vma_task.task_rb.inorder := by decide
  have hfr : one_vma_task.next_vma ∉ one_vma_task.task_rb.inorder := by decide
  exact ⟨⟨ho, hd, hl, hv, hfr⟩,
    split_vma_at_page_boundary one_vma_task 1 0x2000 ho hd hl hv hfr (by decide) (by decide)
      (by decide) (by decide) (by decide)⟩

/-- On a well-formed task, for a VMA `[b, e)` with `e` page-aligned and not above
`USER_LIM` and a page-aligned `a` with `b < a < e`: `r = split_vma(task, v, a)` followed by
`merge_vma(task, v, r)` returns `v`, the list and the in-order sequence of the tree are the
original ones, and every VMA of the task, `v` included, has all its fields back (base, end,
flags, name, `vm_src`, `vm_len`). -/
theorem split_then_merge_restores (t : task) (lhs a : Nat)
    (ho : tree_ordered t) (hd : vmas_disjoint t) (hl : list_matches_tree t)
    (hv : lhs ∈ t.task_rb.inorder) (hfr : t.next_vma ∉ t.task_rb.inorder)
    (hb : (t.vmas lhs).vm_base < a) (he : a < (t.vmas lhs).vm_end)
    (haa : a % PAGE_SIZE = 0) (hea : (t.vmas lhs).vm_end % PAGE_SIZE = 0)
    (hlim : (t.vmas lhs).vm_end ≤ USER_LIM) :
    ∃ r t1, split_vma t lhs a = some (some r, t1) ∧
      (merge_vma t1 lhs r).1 = some lhs ∧
      (merge_vma t1 lhs r).2.task_mmap = t.task_mmap ∧
      (merge_vma t1 lhs r).2.task_rb.inorder = t.task_rb.inorder ∧
      (merge_vma t1 lhs r).2.vmas lhs = t.vmas lhs ∧
      ∀ v ∈ t.task_mmap, (merge_vma t1 lhs r).2.vmas v = t.vmas v := by
  obtain ⟨t1, l1, l2, hs, hin, htr, hli, hvm, _, _⟩ :=
    split_vma_spec t lhs a ho hd hl hv hfr hb he haa hea hlim
  have hne : lhs ≠ t.next_vma := fun e => hfr (e ▸ hv)
  have e1 : t1.vmas lhs = { t.vmas lhs with vm_end := a } := by rw [hvm]; simp [hne]
  have e2 : t1.vmas t.next_vma = ⟨(t.vmas lhs).vm_name, a, (t.vmas lhs).vm_end,
      (t.vmas lhs).vm_flags, 0, 0, t.next_vma + 1⟩ := by rw [hvm]; simp
  have hn1 : t.next_vma ∉ l1 := fun h => hfr (by rw [hin]; simp [h])
  have hn2 : t.next_vma ∉ l2 := fun h => hfr (by rw [hin]; simp [h])
  have hfilt : (l1 ++ lhs :: t.next_vma :: l2).filter (fun v => v != t.next_vma) =
      l1 ++ lhs :: l2 := by
    rw [List.filter_append, List.filter_cons, List.filter_cons]
    have f1 : l1.filter (fun v => v != t.next_vma) = l1 :=
      List.filter_eq_self.2 (fun x hx => by
        have : x ≠ t.next_vma := fun e => hn1 (e ▸ hx)
        simp [this])
    have f2 : l2.filter (fun v => v != t.next_vma) = l2 :=
      List.filter_eq_self.2 (fun x hx => by
        have : x ≠ t.next_vma := fun e => hn2 (e ▸ hx)
        simp [this])
    rw [f1, f2]
    simp [hne]
  have hm : merge_vma t1 lhs t.next_vma =
      (some lhs, remove_vma
        { t1 with vmas := fun i => if i = lhs then
            { t1.vmas i with vm_end := (t1.vmas t.next_vma).vm_end } else t1.vmas i }
        t.next_vma) := by
    unfold merge_vma
    rw [e1, e2]
    simp
  refine ⟨t.next_vma, t1, hs, by rw [hm], ?_, ?_, ?_, ?_⟩
  · rw [hm]
    show t1.task_mmap.filter (fun x => x != t.next_vma) = t.task_mmap
    rw [hli, hfilt, hl, hin]
  · rw [hm]
    show (rb_remove t1.task_rb t.next_vma).inorder = t.task_rb.inorder
    rw [inorder_rb_remove, htr, hfilt, hin]
  · rw [hm]
    show (if lhs = lhs then { t1.vmas lhs with vm_end := (t1.vmas t.next_vma).vm_end }
      else t1.vmas lhs) = t.vmas lhs
    rw [if_pos rfl, e1, e2]
  · intro v hvm'
    rw [hm]
    show (if v = lhs then { t1.vmas v with vm_end := (t1.vmas t.next_vma).vm_end }
      else t1.vmas v) = t.vmas v
    by_cases e : v = lhs
    · rw [if_pos e, e, e1, e2]
    · rw [if_neg e, hvm]
      have : v ≠ t.next_vma := fun h => hfr (by rw [← hl, ← h]; exact hvm')
      simp [this, e]

/-- Witness of `split_then_merge_restores`: the VMA [0x1000, 0x3000) of `one_vma_task`
split at 0x2000 and merged again. -/
theorem split_then_merge_restores_witness :
    (tree_ordered one_vma_task ∧ vmas_disjoint one_vma_task ∧
      list_matches_tree one_vma_task) ∧
    ∃ r t1, split_vma one_vma_task 1 0x2000 = some (some r, t1) ∧
      (merge_vma t1 1 r).1 = some 1 ∧
      (merge_vma t1 1 r).2.task_mmap = one_vma_task.task_mmap ∧
      (merge_vma t1 1 r).2.task_rb.inorder = one_vma_task.task_rb.inorder ∧
      (merge_vma t1 1 r).2.vmas 1 = one_vma_task.vmas 1 ∧
      ∀ v ∈ one_vma_task.task_mmap, (merge_vma t1 1 r).2.vmas v = one_vma_task.vmas v := by
  have ho : tree_ordered one_vma_task := by unfold tree_ordered; decide
  have hd : vmas_disjoint one_vma_task := by unfold vmas_disjoint; decide
  have hl : list_matches_tree one_vma_task := rfl
  exact ⟨⟨ho, hd, hl⟩,
    split_then_merge_restores one_vma_task 1 0x2000 ho hd hl (by decide) (by decide)
      (by decide) (by decide) (by decide) (by decide) (by decide)⟩

/-- C12: a split and a merge do not restore a VMA whose end is no page boundary.  On the
VMA [0x1000, 0x3000), `do_protect_vma` from 0x2800 on fails in `split_vma` (the defect of
C11: the address is no page boundary) and leaves the VMA cut back to [0x1000, 0x2800).  `split_vma` of that VMA at the page boundary 0x2000 returns the VMA 5,
with the ranges [0x1000, 0x2000) and [0x2000, 0x3000): `create_vma` has rounded the end up.
`merge_vma` of the two returns the VMA 1, which is now [0x1000, 0x3000), not
[0x1000, 0x2800). -/
theorem split_then_merge_rounds_end_up :
    split_merge_unaligned_end =
      some (-1, [(0x1000, 0x2800, 3)], 5, [(0x1000, 0x2000, 3), (0x2000, 0x3000, 3)], some 1,
        [(0x1000, 0x3000, 3)]) := by
  rfl

/-! ## mmap, munmap, mprotect -/

set_option maxRecDepth 100000 in
/-- C13: `sys_mmap` with `MAP_FIXED` removes the whole VMA that contains `addr`, not only
the part the new mapping overlaps.  On a task without VMAs,
`mmap(0x10000, 0x2000, PROT_READ, MAP_PRIVATE | MAP_ANONYMOUS)` returns 0x10000 and leaves
the VMA [0x10000, 0x12000) with the flags 1; then `mmap(0x11000, 0x1000,
PROT_READ | PROT_WRITE, MAP_PRIVATE | MAP_ANONYMOUS | MAP_FIXED)` returns 0x11000 and leaves
the single VMA [0x11000, 0x12000) with the flags 3: the page at 0x10000 is mapped no
more. -/
theorem mmap_fixed_drops_whole_vma :
    mmap_view first_fixed_mmap = some (0x10000, [(0x10000, 0x12000, 1)]) ∧
    mmap_view second_fixed_mmap = some (0x11000, [(0x11000, 0x12000, 3)]) := by
  constructor <;> rfl

set_option maxRecDepth 100000 in
/-- C14: `check_permissions` compares the 64-bit sum `addr + len` with `USER_LIM`, so a
length that makes the sum wrap passes.  On a task without VMAs,
`mmap(0x2000, 2^64 - 0x1000, PROT_READ, MAP_PRIVATE | MAP_ANONYMOUS)`, whose range ends far
beyond `USER_LIM`, does not return `MAP_FAILED` but 0x2000, and creates a VMA with the base
0x2000 and the end 0x1000. -/
theorem mmap_wrapped_range_accepted :
    USER_LIM < 0x2000 + (WORD - 0x1000) ∧ 0x2000 ≠ MAP_FAILED ∧
    mmap_view wrapped_mmap = some (0x2000, [(0x2000, 0x1000, 1)]) := by
  refine ⟨by decide, by decide, ?_⟩
  rfl

set_option maxRecDepth 100000 in
/-- C15: `do_remove_vma` changes a leaf entry outside the range it removes.  The VMA
[0x1000, 0x3000) has the page at 0x1000 swapped out (its leaf entry is 0x15002, not present)
and the page at 0x2000 present.  Removing [0x2000, 0x3000) returns 0 and leaves the VMA
[0x1000, 0x2000) with its flags, but the page table of both pages holds no present entry
any more and is freed: the leaf entry of 0x1000 is gone with it. -/
theorem munmap_drops_swapped_neighbour :
    munmap_next_to_swapped = some (some 0x15002, 0, [(0x1000, 0x2000, 3)], none, none) := by
  rfl

set_option maxRecDepth 100000 in
/-- C16: `do_protect_vma` splits the VMA at `base` only, so the new protection reaches to
the end of the VMA.  On the VMA [0x10000, 0x13000) with the flags `VM_READ`, the call for
[0x11000, 0x12000) with `VM_READ | VM_WRITE` returns 0 and leaves [0x10000, 0x11000) with
the flags 1 and [0x11000, 0x13000) with the flags 3: the page at 0x12000, outside the
range, is writable too. -/
theorem mprotect_reaches_end_of_vma :
    protect_middle_page =
      some (0, [(0x10000, 0x11000, 1), (0x11000, 0x13000, 3)]) := by
  rfl

set_option maxRecDepth 100000 in
/-- C17: in `do_populate_vma` the length `vm_len - offset` of the copy is unsigned, so for a
page that starts behind the source (`offset > vm_len`) it wraps and a whole page of source
bytes is copied.  The VMA [0x400000, 0x403000) is backed by 0x1800 bytes at 0x100000; the
page at 0x402000, at offset 0x2000, should be zero, but holds the bytes of the kernel image
at 0x102000 to 0x102fff, which lie behind the source: its bytes 0, 0x7ff and 0xfff are
59, 98 and 138. -/
theorem populate_copies_past_source :
    (busy_image 0x102000, busy_image 0x1027ff, busy_image 0x102fff) = (59, 98, 138) ∧
    populate_exec_page 0x402000 = some (0, some (59, 98, 138)) := by
  constructor <;> rfl

/-! ## Fork -/

set_option maxRecDepth 100000 in
/-- C19: `copy_page_range` gives a writable page the flags
`PAGE_PRESENT | PAGE_NO_EXEC | PAGE_USER` in parent and child, whatever its flags were.  The
page at 0x1000 of a VMA that is readable, writable and executable has the leaf entry 0x15007
in the parent (frame 21, `PAGE_NO_EXEC` clear); after `copy_page_range` both the entry of
the parent and the entry of the child are 0x8000000000015005: `PAGE_WRITE` is clear, and
`PAGE_NO_EXEC` is set although it was clear. -/
theorem fork_sets_no_exec :
    fork_rwx_page =
      some (some 0x15007, 0, some 0x8000000000015005, some 0x8000000000015005) := by
  rfl

set_option maxRecDepth 100000 in
/-- C20: `task_clone` links the child on the list of children of the parent inside the loop
over the VMAs of the parent.  For a parent without a VMA the clone succeeds (the child has
the PID 2 and records the parent PID 1), the list of children of the parent stays empty, and
`sys_waitpid(2)` by the parent is refused with `-ECHILD`. -/
theorem fork_without_vma_not_registered :
    fork_without_vma = some (some 2, some [], some 1, some (wait_start.refused (-ECHILD))) := by
  rfl

/-! ## The copy-on-write fault -/

/-- A VMA found for an address is found for the start of its page too, when the VMAs of the
task start and end at page boundaries. -/
theorem task_find_vma_page (t : task) (va v : Nat)
    (hal : ∀ x ∈ t.task_rb.inorder,
      (t.vmas x).vm_base % PAGE_SIZE = 0 ∧ (t.vmas x).vm_end % PAGE_SIZE = 0)
    (h : task_find_vma t va = some v) : task_find_vma t (ROUNDDOWN va) = some v := by
  have key : ∀ l : List Nat, (∀ x ∈ l, (t.vmas x).vm_end % PAGE_SIZE = 0) →
      l.find? (fun x => decide (va < (t.vmas x).vm_end)) = some v →
      l.find? (fun x => decide (ROUNDDOWN va < (t.vmas x).vm_end)) = some v := by
    intro l
    induction l with
    | nil => intro _ h; simp at h
    | cons x l ih =>
      intro ha hf
      have hx := ha x (List.mem_cons_self _ _)
      rw [List.find?_cons] at hf ⊢
      by_cases hlt : va < (t.vmas x).vm_end
      · have h2 : ROUNDDOWN va < (t.vmas x).vm_end := by unfold ROUNDDOWN; omega
        simp only [hlt, decide_True] at hf
        simp only [h2, decide_True]
        exact hf
      · have h2 : ¬ ROUNDDOWN va < (t.vmas x).vm_end := by
          unfold ROUNDDOWN PAGE_SIZE at *; omega
        simp only [hlt, decide_False] at hf
        simp only [h2, decide_False]
        exact ih (fun y hy => ha y (List.mem_cons_of_mem _ hy)) hf
  unfold task_find_vma at h ⊢
  cases hf : find_vma t va with
  | none => rw [hf] at h; simp at h
  | some w =>
    rw [hf] at h
    simp only at h
    by_cases hb : (t.vmas w).vm_base ≤ va
    · rw [if_pos hb] at h
      simp only [Option.some.injEq] at h
      subst h
      unfold find_vma at hf
      have hm : w ∈ t.task_rb.inorder := List.mem_of_find?_eq_some hf
      have hf2 : find_vma t (ROUNDDOWN va) = some w := by
        unfold find_vma
        exact key _ (fun x hx => (hal x hx).2) hf
      rw [hf2]
      simp only
      have h3 := (hal w hm).1
      have hb2 : (t.vmas w).vm_base ≤ ROUNDDOWN va := by
        unfold ROUNDDOWN PAGE_SIZE at *; omega
      rw [if_pos hb2]
    · rw [if_neg hb] at h; simp at h

theorem or_and_self_right (x y : Nat) : (x ||| y) &&& y = y := by
  apply Nat.eq_of_testBit_eq
  intro i
  simp only [Nat.testBit_and, Nat.testBit_or]
  cases Nat.testBit x i <;> cases Nat.testBit y i <;> rfl

/-- The flags `convert_flags_from_vma_to_pages` returns have no address bit. -/
theorem convert_flags_no_addr (f : Nat) :
    PAGE_ADDR (convert_flags_from_vma_to_pages f ||| PAGE_USER) = 0 := by
  unfold convert_flags_from_vma_to_pages
  simp only
  split_ifs <;> decide

/-- On an entry that is present `ptbl_alloc` does nothing. -/
theorem ptbl_alloc_present {υ : Type} (s : kstate) (tbl idx b e : Nat) (u : υ)
    (h : s.mem tbl idx &&& PAGE_PRESENT ≠ 0) : ptbl_alloc tbl idx b e u s = some (0, u, s) := by
  unfold ptbl_alloc
  rw [if_pos h]

/-- The walk of `page_insert` over a path whose three tables are present: it allocates
nothing and calls `insert_pte` on the leaf entry. -/
theorem page_insert_resolved (s : kstate) (pml4 p va flags : Nat) (hva : canonical va)
    (h4 : s.mem pml4 (PML4_INDEX va) &&& PAGE_PRESENT ≠ 0)
    (h3 : s.mem (pdpt_of s pml4 va) (PDPT_INDEX va) &&& PAGE_PRESENT ≠ 0)
    (hh3 : s.mem (pdpt_of s pml4 va) (PDPT_INDEX va) &&& PAGE_HUGE = 0)
    (h2 : s.mem (pdir_of s pml4 va) (PAGE_DIR_INDEX va) &&& PAGE_PRESENT ≠ 0)
    (hh2 : s.mem (pdir_of s pml4 va) (PAGE_DIR_INDEX va) &&& PAGE_HUGE = 0)
    (u : insert_info) (s4 : kstate)
    (hi : insert_pte (ptbl_of s pml4 va) (PAGE_TABLE_INDEX va) va (va + 4091)
      { pml4 := pml4, page := p, flags := flags } s = some (0, u, s4)) :
    page_insert s pml4 p va flags = some (0, s4) := by
  unfold page_insert
  simp only
  rw [walk_page_range_one _ _ _ _ _ hva]
  generalize hw : page_walker.mk (some insert_pte) (some insert_pde) (some insert_pdpte)
    (some insert_pml4e) none none none none none = w
  have w1 : w.pte_callback = some insert_pte := by rw [← hw]
  have w2 : w.pde_callback = some insert_pde := by rw [← hw]
  have w3 : w.pdpte_callback = some insert_pdpte := by rw [← hw]
  have w4 : w.pml4e_callback = some insert_pml4e := by rw [← hw]
  have wh : w.pt_hole_callback = none := by rw [← hw]
  have v1 : w.pte_unmap = none := by rw [← hw]
  have v2 : w.pde_unmap = none := by rw [← hw]
  have v3 : w.pdpte_unmap = none := by rw [← hw]
  have v4 : w.pml4e_unmap = none := by rw [← hw]
  have e4 : va + 4095 - 1 = va + 4094 := by omega
  have e3 : va + 4094 - 1 = va + 4093 := by omega
  have e2 : va + 4093 - 1 = va + 4092 := by omega
  have e1 : va + 4092 - 1 = va + 4091 := by omega
  have hd3 : entry_table (s.mem pml4 (PML4_INDEX va)) = pdpt_of s pml4 va := rfl
  have hd2 : entry_table (s.mem (pdpt_of s pml4 va) (PDPT_INDEX va)) = pdir_of s pml4 va :=
    rfl
  have hd1 : entry_table (s.mem (pdir_of s pml4 va) (PAGE_DIR_INDEX va)) =
      ptbl_of s pml4 va := rfl
  rw [pml4_walk_one w pml4 va (va + 4095) _ s hva (by omega) (le_refl _), w4, v4, wh, e4]
  simp only [call_cb, call_hole]
  rw [insert_pml4e_some _ _ _ _ _ _ _ _ _ (ptbl_alloc_present s _ _ _ _ _ h4)]
  simp only [and_then_ok]
  rw [if_pos h4, hd3, pdpt_walk_one w _ va (va + 4094) _ s hva (by omega) (by omega),
    w3, v3, wh, e3]
  simp only [call_cb, call_hole]
  rw [insert_pdpte_some _ _ _ _ _ _ _ _ _ (ptbl_alloc_present s _ _ _ _ _ h3)]
  simp only [and_then_ok]
  rw [if_pos h3, if_pos (not_not.mpr hh3), hd2,
    pdir_walk_one w _ va (va + 4093) _ s hva (by omega) (by omega), w2, v2, wh, e2]
  simp only [call_cb, call_hole]
  rw [insert_pde_some _ _ _ _ _ _ _ _ _ (ptbl_alloc_present s _ _ _ _ _ h2)]
  simp only [and_then_ok]
  rw [if_pos h2, if_pos (not_not.mpr hh2), hd1,
    ptbl_walk_one w _ va (va + 4092) _ s hva (by omega) (by omega), w1, v1, wh, e1]
  simp only [call_cb, call_hole]
  rw [hi]
  simp [and_then]

theorem add_swap_page_mem (s : kstate) (p : Nat) : (add_swap_page s p).mem = s.mem := by
  unfold add_swap_page; split_ifs <;> rfl

theorem add_swap_page_pages (s : kstate) (p : Nat) : (add_swap_page s p).pages = s.pages := by
  unfold add_swap_page; split_ifs <;> rfl

theorem add_swap_page_lists (s : kstate) (p : Nat) :
    (add_swap_page s p).buddy_free_list = s.buddy_free_list := by
  unfold add_swap_page; split_ifs <;> rfl

theorem add_swap_page_task (s : kstate) (p : Nat) :
    (add_swap_page s p).cur_task = s.cur_task := by
  unfold add_swap_page; split_ifs <;> rfl

/-- What `insert_pte` does on a present entry whose frame keeps a reference, for a user
mapping in the current task: the old frame loses one reference, the new frame gains one, and
the entry names the new frame. -/
theorem insert_pte_replace (s : kstate) (t : task) (tbl idx base end_ v old : Nat)
    (info : insert_info)
    (hold : old = pa2page (PAGE_ADDR (s.mem tbl idx)))
    (hp : s.mem tbl idx &&& PAGE_PRESENT ≠ 0)
    (hr : 2 ≤ (s.pages old).pp_ref) (hr16 : (s.pages old).pp_ref < 65536)
    (hne : info.page ≠ old) (hu : info.flags &&& PAGE_USER ≠ 0)
    (hc : s.cur_task = some t) (hb : base < USER_LIM) (hv : task_find_vma t base = some v) :
    ∃ s', insert_pte tbl idx base end_ info s = some (0, info, s') ∧
      s'.mem tbl idx = page2pa info.page ||| info.flags ||| PAGE_PRESENT ∧
      (∀ f i, ¬ (f = tbl ∧ i = idx) → s'.mem f i = s.mem f i) ∧
      (s'.pages old).pp_ref + 1 = (s.pages old).pp_ref ∧
      (s'.pages info.page).pp_ref = ((s.pages info.page).pp_ref + 1) % 65536 ∧
      (∀ q, q ≠ old → q ≠ info.page → (s'.pages q).pp_ref = (s.pages q).pp_ref) ∧
      s'.buddy_free_list = s.buddy_free_list ∧ s'.cur_task = s.cur_task := by
  obtain ⟨s1, hs1⟩ : ∃ s1, s1 =
      set_page s old (fun p => { p with pp_ref := (p.pp_ref + 65535) % 65536 }) := ⟨_, rfl⟩
  have hd : page_decref s old = some s1 := by
    unfold page_decref
    simp only
    rw [← hs1]
    have h0 : (s1.pages old).pp_ref ≠ 0 := by
      rw [hs1]
      simp only [set_page, if_true]
      omega
    rw [if_neg h0]
  have c1 : s1.cur_task = some t := by rw [hs1]; exact hc
  have m1 : s1.mem = s.mem := by rw [hs1]; rfl
  have l1 : s1.buddy_free_list = s.buddy_free_list := by rw [hs1]; rfl
  have p1o : (s1.pages old).pp_ref + 1 = (s.pages old).pp_ref := by
    rw [hs1]
    simp only [set_page, if_true]
    omega
  have p1q : ∀ q, q ≠ old → s1.pages q = s.pages q := by
    intro q hq
    rw [hs1]
    simp only [set_page, if_neg hq]
  unfold insert_pte
  simp only
  rw [if_pos hp, ← hold, hd]
  simp only
  rw [if_pos hu, c1]
  simp only
  rw [if_neg (not_not.mpr hb), hv]
  simp only
  refine ⟨_, rfl, ?_, ?_, ?_, ?_, ?_, ?_, ?_⟩
  · simp [set_entry]
  · intro f i hfi
    simp only [set_entry, if_neg hfi, set_page, add_swap_page_mem]
    rw [m1]
  · simp only [set_entry, set_page, add_swap_page_pages, if_neg (Ne.symm hne)]
    exact p1o
  · simp only [set_entry, set_page, add_swap_page_pages, if_true]
    rw [p1q _ hne]
  · intro q h1 h2
    simp only [set_entry, set_page, add_swap_page_pages, if_neg h2]
    rw [p1q _ h1]
  · simp only [set_entry, set_page, add_swap_page_lists]
    exact l1
  · simp only [set_entry, set_page, add_swap_page_task]
    rw [c1, hc]

theorem mru_swap_page_mem (s : kstate) (p : Nat) : (mru_swap_page s p).mem = s.mem := by
  unfold mru_swap_page; rw [add_swap_page_mem]; rfl

theorem mru_swap_page_pages (s : kstate) (p : Nat) : (mru_swap_page s p).pages = s.pages := by
  unfold mru_swap_page; rw [add_swap_page_pages]; rfl

theorem mru_swap_page_lists (s : kstate) (p : Nat) :
    (mru_swap_page s p).buddy_free_list = s.buddy_free_list := by
  unfold mru_swap_page; rw [add_swap_page_lists]; rfl

theorem mru_swap_page_task (s : kstate) (p : Nat) :
    (mru_swap_page s p).cur_task = s.cur_task := by
  unfold mru_swap_page; rw [add_swap_page_task]; rfl

/-- The lookup of the fault handler on a page that is present: it returns the frame of the
leaf entry and stores the entry. -/
theorem fault_lookup (s : kstate) (pml4 va : Nat) (hva : canonical va)
    (hp : path_ok s pml4 va)
    (h4 : s.mem pml4 (PML4_INDEX va) &&& PAGE_PRESENT ≠ 0)
    (h3 : s.mem (pdpt_of s pml4 va) (PDPT_INDEX va) &&& PAGE_PRESENT ≠ 0)
    (h2 : s.mem (pdir_of s pml4 va) (PAGE_DIR_INDEX va) &&& PAGE_PRESENT ≠ 0)
    (h1 : leaf_entry s pml4 va &&& PAGE_PRESENT ≠ 0)
    (hpa : PAGE_ADDR (leaf_entry s pml4 va) < USER_LIM) :
    page_lookup s pml4 va (some (some (0, 0))) =
      some (some (entry_table (leaf_entry s pml4 va)),
        some (some (ptbl_of s pml4 va, PAGE_TABLE_INDEX va))) := by
  obtain ⟨_, hq3⟩ := hp
  obtain ⟨_, _, hq2⟩ := hq3 h4
  obtain ⟨hh3, _, _, _, hq1⟩ := hq2 h3
  obtain ⟨hh2, _⟩ := hq1 h2
  rw [page_lookup_resolved s pml4 va _ hva h4 h3 hh3 h2 hh2 h1]
  unfold leaf_entry at hpa ⊢
  have hse : sign_extend (PAGE_ADDR (s.mem (ptbl_of s pml4 va) (PAGE_TABLE_INDEX va))) =
      PAGE_ADDR (s.mem (ptbl_of s pml4 va) (PAGE_TABLE_INDEX va)) := by
    unfold sign_extend; rw [if_pos hpa]
  simp only [page_lookup_result, hse]
  simp [entry_table, pa2page]

/-- The tables on the path of `va` are the same in two states that agree on the entries of
`va` in the root table, the PDPT and the page directory. -/
theorem path_congr (s s' : kstate) (pml4 va : Nat)
    (m4 : s'.mem pml4 (PML4_INDEX va) = s.mem pml4 (PML4_INDEX va))
    (m3 : s'.mem (pdpt_of s pml4 va) (PDPT_INDEX va) =
      s.mem (pdpt_of s pml4 va) (PDPT_INDEX va))
    (m2 : s'.mem (pdir_of s pml4 va) (PAGE_DIR_INDEX va) =
      s.mem (pdir_of s pml4 va) (PAGE_DIR_INDEX va)) :
    pdpt_of s' pml4 va = pdpt_of s pml4 va ∧ pdir_of s' pml4 va = pdir_of s pml4 va ∧
      ptbl_of s' pml4 va = ptbl_of s pml4 va := by
  have e3 : pdpt_of s' pml4 va = pdpt_of s pml4 va := by unfold pdpt_of; rw [m4]
  have e2 : pdir_of s' pml4 va = pdir_of s pml4 va := by unfold pdir_of; rw [e3, m3]
  have e1 : ptbl_of s' pml4 va = ptbl_of s pml4 va := by unfold ptbl_of; rw [e2, m2]
  exact ⟨e3, e2, e1⟩

/-- C18: the copy-on-write fault.  The kernel state is well formed (the allocator invariant
holds, free frames have no reference and lie below the limit of physical addresses, a free
frame is left), the faulting task is the current task and its VMAs start and end at page
boundaries.  The task faults at the user address `va` inside a VMA with `VM_WRITE`; the
tables on the path of the page are well formed and present, the leaf entry is present and
not writable, and its frame, which is not the page table of the entry, has a reference count
between 1 and 65535.  Then `task_page_fault_handler` returns 0 and: if the count is 1, the
leaf entry gains `PAGE_WRITE` and nothing else changes in memory or in the counts; otherwise
the leaf entry names a frame `new` that was free and is in use now (the only frame that left
the free lists), it is present and writable, the contents of `new` equal the contents of the
old frame, the count of the old frame dropped by exactly 1, the count of `new` is 1, the
contents of the old frame are unchanged, and no word of memory outside `new` and the leaf
entry changed, so every other entry of every page table is unchanged. -/
theorem copy_on_write_fault (image : Nat → Nat) (s : kstate) (t : task) (va flags vma : Nat)
    (hs : buddy_inv s) (hfr : ∀ f, covered s f → (s.pages f).pp_ref = 0)
    (hfb : free_bound s)
    (hfree : ∃ k, k < BUDDY_MAX_ORDER ∧ s.buddy_free_list k ≠ [])
    (hcur : s.cur_task = some t)
    (hal : ∀ x ∈ t.task_rb.inorder,
      (t.vmas x).vm_base % PAGE_SIZE = 0 ∧ (t.vmas x).vm_end % PAGE_SIZE = 0)
    (hlim : va < USER_LIM) (hv : task_find_vma t va = some vma)
    (hw : (t.vmas vma).vm_flags &&& VM_WRITE ≠ 0)
    (hp : path_ok s t.task_pml4 (ROUNDDOWN va))
    (h4 : s.mem t.task_pml4 (PML4_INDEX (ROUNDDOWN va)) &&& PAGE_PRESENT ≠ 0)
    (h3 : s.mem (pdpt_of s t.task_pml4 (ROUNDDOWN va)) (PDPT_INDEX (ROUNDDOWN va))
      &&& PAGE_PRESENT ≠ 0)
    (h2 : s.mem (pdir_of s t.task_pml4 (ROUNDDOWN va)) (PAGE_DIR_INDEX (ROUNDDOWN va))
      &&& PAGE_PRESENT ≠ 0)
    (h1 : leaf_entry s t.task_pml4 (ROUNDDOWN va) &&& PAGE_PRESENT ≠ 0)
    (hnw : leaf_entry s t.task_pml4 (ROUNDDOWN va) &&& PAGE_WRITE = 0)
    (hpa : PAGE_ADDR (leaf_entry s t.task_pml4 (ROUNDDOWN va)) < USER_LIM)
    (hself : entry_table (leaf_entry s t.task_pml4 (ROUNDDOWN va)) ≠
      ptbl_of s t.task_pml4 (ROUNDDOWN va))
    (href : 1 ≤ (s.pages (entry_table (leaf_entry s t.task_pml4 (ROUNDDOWN va)))).pp_ref)
    (hr16 : (s.pages (entry_table (leaf_entry s t.task_pml4 (ROUNDDOWN va)))).pp_ref < 65536) :
    ((s.pages (entry_table (leaf_entry s t.task_pml4 (ROUNDDOWN va)))).pp_ref = 1 →
      ∃ s', task_page_fault_handler image s t va flags = some (0, s', t) ∧
        leaf_entry s' t.task_pml4 (ROUNDDOWN va) =
          leaf_entry s t.task_pml4 (ROUNDDOWN va) ||| PAGE_WRITE ∧
        (∀ f i, ¬ (f = ptbl_of s t.task_pml4 (ROUNDDOWN va) ∧
            i = PAGE_TABLE_INDEX (ROUNDDOWN va)) → s'.mem f i = s.mem f i) ∧
        (∀ q, (s'.pages q).pp_ref = (s.pages q).pp_ref) ∧
        ∀ x, covered s' x ↔ covered s x) ∧
    ((s.pages (entry_table (leaf_entry s t.task_pml4 (ROUNDDOWN va)))).pp_ref ≠ 1 →
      ∃ new s', task_page_fault_handler image s t va flags = some (0, s', t) ∧
        covered s new ∧ (∀ x, covered s' x ↔ (covered s x ∧ x ≠ new)) ∧
        entry_table (leaf_entry s' t.task_pml4 (ROUNDDOWN va)) = new ∧
        leaf_entry s' t.task_pml4 (ROUNDDOWN va) &&& PAGE_PRESENT ≠ 0 ∧
        leaf_entry s' t.task_pml4 (ROUNDDOWN va) &&& PAGE_WRITE ≠ 0 ∧
        (∀ i, s'.mem new i =
          s.mem (entry_table (leaf_entry s t.task_pml4 (ROUNDDOWN va))) i) ∧
        (s'.pages (entry_table (leaf_entry s t.task_pml4 (ROUNDDOWN va)))).pp_ref + 1 =
          (s.pages (entry_table (leaf_entry s t.task_pml4 (ROUNDDOWN va)))).pp_ref ∧
        (s'.pages new).pp_ref = 1 ∧
        (∀ q, q ≠ new → q ≠ entry_table (leaf_entry s t.task_pml4 (ROUNDDOWN va)) →
          (s'.pages q).pp_ref = (s.pages q).pp_ref) ∧
        (∀ i, s'.mem (entry_table (leaf_entry s t.task_pml4 (ROUNDDOWN va))) i =
          s.mem (entry_table (leaf_entry s t.task_pml4 (ROUNDDOWN va))) i) ∧
        ∀ f i, f ≠ new → ¬ (f = ptbl_of s t.task_pml4 (ROUNDDOWN va) ∧
            i = PAGE_TABLE_INDEX (ROUNDDOWN va)) → s'.mem f i = s.mem f i) := by
  obtain ⟨va', hva'⟩ : ∃ va', va' = ROUNDDOWN va := ⟨_, rfl⟩
  rw [← hva'] at hp h4 h3 h2 h1 hnw hpa hself href hr16 ⊢
  obtain ⟨pml4, hpml4⟩ : ∃ pml4, pml4 = t.task_pml4 := ⟨_, rfl⟩
  rw [← hpml4] at hp h4 h3 h2 h1 hnw hpa hself href hr16 ⊢
  have hcan : canonical va' := by
    rw [hva']
    unfold canonical ROUNDDOWN PAGE_SIZE
    unfold USER_LIM at *
    omega
  have hlim' : va' < USER_LIM := by
    rw [hva']; unfold ROUNDDOWN; omega
  have hv' : task_find_vma t va' = some vma := by
    rw [hva']; exact task_find_vma_page t va vma hal hv
  have hlook := fault_lookup s pml4 va' hcan hp h4 h3 h2 h1 hpa
  obtain ⟨tbl, htbl⟩ : ∃ tbl, tbl = ptbl_of s pml4 va' := ⟨_, rfl⟩
  obtain ⟨idx, hidx⟩ : ∃ idx, idx = PAGE_TABLE_INDEX va' := ⟨_, rfl⟩
  obtain ⟨e, he⟩ : ∃ e, e = leaf_entry s pml4 va' := ⟨_, rfl⟩
  have hmem_e : s.mem tbl idx = e := by rw [he, htbl, hidx]; rfl
  obtain ⟨old, hold⟩ : ∃ old, old = entry_table e := ⟨_, rfl⟩
  rw [← he] at h1 hnw hpa hself href hr16 hlook ⊢
  rw [← hold] at hself href hr16 hlook ⊢
  rw [← htbl] at hself hlook ⊢
  rw [← hidx] at hlook ⊢
  -- the path
  obtain ⟨hn4, hq3⟩ := hp
  obtain ⟨hn3, hd3, hq2⟩ := hq3 h4
  obtain ⟨hh3, hn2, hd24, hd23, hq1⟩ := hq2 h3
  obtain ⟨hh2, hn1, hd14, hd13, hd12⟩ := hq1 h2
  rw [← htbl] at hn1 hd14 hd13 hd12
  -- the handler down to `copy_on_write`
  obtain ⟨s1, hs1⟩ : ∃ s1, s1 = mru_swap_page (add_swap_page s old) old := ⟨_, rfl⟩
  have m1 : s1.mem = s.mem := by rw [hs1, mru_swap_page_mem, add_swap_page_mem]
  have g1 : s1.pages = s.pages := by rw [hs1, mru_swap_page_pages, add_swap_page_pages]
  have l1 : s1.buddy_free_list = s.buddy_free_list := by
    rw [hs1, mru_swap_page_lists, add_swap_page_lists]
  have c1 : s1.cur_task = some t := by rw [hs1, mru_swap_page_task, add_swap_page_task, hcur]
  have hcov1 : ∀ x, covered s1 x ↔ covered s x := covered_congr s s1 l1
  have hcond : s1.mem tbl idx ≠ 0 ∧ (t.vmas vma).vm_flags &&& VM_WRITE ≠ 0 ∧
      ¬ (s1.mem tbl idx &&& PAGE_WRITE ≠ 0) := by
    rw [m1, hmem_e]
    refine ⟨?_, hw, not_not.mpr hnw⟩
    intro h0
    rw [h0] at h1
    exact h1 zero_not_present
  have hhandler : task_page_fault_handler image s t va flags =
      (copy_on_write s1 t va old (tbl, idx) vma).map fun x => (x.1, x.2, t) := by
    unfold task_page_fault_handler
    rw [hv]
    simp only
    rw [← hva', ← hpml4, hlook]
    simp only [Option.some_bind, Option.bind_eq_bind]
    unfold fault_dispatch
    simp only
    rw [← hs1, if_pos hcond]
  rw [hhandler]
  unfold copy_on_write
  simp only
  rw [g1, ← hpml4, ← hva']
  constructor
  · intro hone
    rw [if_pos hone]
    refine ⟨_, rfl, ?_, ?_, ?_, ?_⟩
    · have hfr1 : ∀ f i, ¬ (f = tbl ∧ i = idx) →
          (set_entry s1 tbl idx (s1.mem tbl idx ||| PAGE_WRITE)).mem f i = s.mem f i := by
        intro f i hfi
        simp only [set_entry, if_neg hfi, m1]
      have hpt := (path_congr s _ pml4 va' (hfr1 _ _ (fun h => hd14 h.1.symm))
        (hfr1 _ _ (fun h => hd13 h.1.symm)) (hfr1 _ _ (fun h => hd12 h.1.symm))).2.2
      unfold leaf_entry
      rw [hpt, ← htbl, ← hidx]
      simp only [set_entry, and_self, if_true, m1, hmem_e]
    · intro f i hfi
      simp only [set_entry, if_neg hfi, m1]
    · intro q
      simp only [set_entry, g1]
    · intro x
      exact covered_congr s _ (by simp only [set_entry]; exact l1) x
  · intro hmany
    rw [if_neg hmany]
    have hs1inv : buddy_inv s1 :=
      buddy_inv_congr s s1 l1 (fun p => by rw [g1]) (fun p => by rw [g1]) hs
    rcases page_alloc_spec s1 hs1inv ALLOC_ZERO with
      ⟨_, hempty⟩ | ⟨p, sa, hal_eq, _, hcp, hcov, hmo, _, _, _, hct, hpg⟩
    · obtain ⟨k, hk, hne⟩ := hfree
      exact absurd (by rw [← l1]; exact hempty k hk) hne
    rw [hal_eq]
    simp only
    have hpc : covered s p := (hcov1 p).1 hcp
    have hp4 : p ≠ pml4 := fun h => hn4 (h ▸ hpc)
    have hp3 : p ≠ pdpt_of s pml4 va' := fun h => hn3 (h ▸ hpc)
    have hp2 : p ≠ pdir_of s pml4 va' := fun h => hn2 (h ▸ hpc)
    have hp1 : p ≠ tbl := fun h => hn1 (h ▸ hpc)
    have hpo : p ≠ old := by
      intro h
      have := hfr p hpc
      rw [h] at this
      omega
    obtain ⟨s2, hs2⟩ : ∃ s2 : kstate, s2 =
        { sa with mem := fun f => if f = p then sa.mem old else sa.mem f } := ⟨_, rfl⟩
    rw [← hs2]
    have m2 : ∀ f, f ≠ p → s2.mem f = s.mem f := by
      intro f hf
      rw [hs2]
      simp only [if_neg hf]
      rw [hmo f hf, m1]
    have m2p : s2.mem p = s.mem old := by
      rw [hs2]
      simp only [if_true]
      rw [hmo old (Ne.symm hpo), m1]
    have g2 : ∀ q, (s2.pages q).pp_ref = (s.pages q).pp_ref := by
      intro q
      rw [hs2]
      simp only
      rw [(hpg q).1, g1]
    have c2 : s2.cur_task = some t := by
      rw [hs2]
      simp only
      rw [hct, c1]
    have l2 : s2.buddy_free_list = sa.buddy_free_list := by rw [hs2]
    obtain ⟨t3, t2, t1⟩ := path_congr s s2 pml4 va'
      (by rw [m2 _ (Ne.symm hp4)]) (by rw [m2 _ (Ne.symm hp3)]) (by rw [m2 _ (Ne.symm hp2)])
    rw [← htbl] at t1
    have hm2e : s2.mem tbl idx = e := by rw [m2 _ (Ne.symm hp1)]; exact hmem_e
    have hflags : (convert_flags_from_vma_to_pages (t.vmas vma).vm_flags ||| PAGE_USER)
        &&& PAGE_USER ≠ 0 := by
      rw [or_and_self_right]; decide
    obtain ⟨s', hi, hleaf, hfrm, hro, hrn, hrq, hl', _⟩ :=
      insert_pte_replace s2 t tbl idx va' (va' + 4091) vma old
        { pml4 := pml4, page := p,
          flags := convert_flags_from_vma_to_pages (t.vmas vma).vm_flags ||| PAGE_USER }
        (by rw [hm2e, hold]; rfl) (by rw [hm2e]; exact h1)
        (by rw [g2]; omega) (by rw [g2]; exact hr16) hpo hflags c2 hlim' hv'
    simp only at hleaf hrn hrq
    have hins := page_insert_resolved s2 pml4 p va'
      (convert_flags_from_vma_to_pages (t.vmas vma).vm_flags ||| PAGE_USER) hcan
      (by rw [m2 _ (Ne.symm hp4)]; exact h4)
      (by rw [t3, m2 _ (Ne.symm hp3)]; exact h3)
      (by rw [t3, m2 _ (Ne.symm hp3)]; exact hh3)
      (by rw [t2, m2 _ (Ne.symm hp2)]; exact h2)
      (by rw [t2, m2 _ (Ne.symm hp2)]; exact hh2) _ s'
      (by rw [t1, ← hidx]; exact hi)
    rw [hins]
    obtain ⟨_, _, u1⟩ := path_congr s2 s' pml4 va'
      (hfrm _ _ (fun h => hd14 h.1.symm))
      (by rw [t3]; exact hfrm _ _ (fun h => hd13 h.1.symm))
      (by rw [t2]; exact hfrm _ _ (fun h => hd12 h.1.symm))
    rw [t1] at u1
    have hle : leaf_entry s' pml4 va' = page2pa p |||
        (convert_flags_from_vma_to_pages (t.vmas vma).vm_flags ||| PAGE_USER) |||
        PAGE_PRESENT := by
      unfold leaf_entry
      rw [u1, ← hidx]
      exact hleaf
    obtain ⟨b1, b2⟩ := leaf_entry_bits p
      (convert_flags_from_vma_to_pages (t.vmas vma).vm_flags ||| PAGE_USER) (hfb p hpc)
      (convert_flags_no_addr _)
    refine ⟨p, s', rfl, hpc, ?_, ?_, ?_, ?_, ?_, ?_, ?_, ?_, ?_, ?_⟩
    · intro x
      rw [covered_congr s2 s' hl' x, covered_congr sa s2 l2 x, hcov x, hcov1 x]
    · rw [hle]
      unfold entry_table
      rw [b2]
      exact page2pa_div p
    · rw [hle]; exact b1
    · rw [hle]
      have hbit : ((page2pa p |||
          (convert_flags_from_vma_to_pages (t.vmas vma).vm_flags ||| PAGE_USER) |||
          PAGE_PRESENT) &&& PAGE_WRITE).testBit 1 = true := by
        have bw : Nat.testBit PAGE_WRITE 1 = true := by decide
        unfold convert_flags_from_vma_to_pages
        simp only
        rw [if_pos hw]
        split_ifs <;> simp [Nat.testBit_and, Nat.testBit_or, bw]
      intro h0
      rw [h0] at hbit
      simp at hbit
    · intro i
      rw [hfrm p i (fun h => hp1 h.1), m2p]
    · rw [g2] at hro
      exact hro
    · rw [hrn, g2, hfr p hpc]
    · intro q h1 h2
      rw [hrq q h2 h1, g2]
    · intro i
      rw [hfrm old i (fun h => hself h.1), m2 _ (Ne.symm hpo)]
    · intro f i hf hfi
      rw [hfrm f i hfi, m2 f hf]

theorem shared_page_covered (f : Nat) (h : covered shared_page_state f) :
    f = 6 ∨ f = 4 ∨ f = 2 :=
  three_free_covered f ((covered_congr three_free_state shared_page_state rfl f).1 h)

/-- Witness of `copy_on_write_fault`: on `shared_page_state` the task writes to the address
0x1042; frame 8, mapped at 0x1000, has two references, so the task gets a copy. -/
theorem copy_on_write_fault_witness :
    (buddy_inv shared_page_state ∧
      (∀ f, covered shared_page_state f → (shared_page_state.pages f).pp_ref = 0) ∧
      free_bound shared_page_state ∧
      (∃ k, k < BUDDY_MAX_ORDER ∧ shared_page_state.buddy_free_list k ≠ []) ∧
      shared_page_state.cur_task = some cow_task ∧
      0x1042 < USER_LIM ∧ task_find_vma cow_task 0x1042 = some 1 ∧
      (cow_task.vmas 1).vm_flags &&& VM_WRITE ≠ 0 ∧
      path_ok shared_page_state 1 (ROUNDDOWN 0x1042) ∧
      leaf_entry shared_page_state 1 (ROUNDDOWN 0x1042) = 0x8000000000008005 ∧
      (shared_page_state.pages 8).pp_ref = 2) ∧
    ∃ new s', task_page_fault_handler no_image shared_page_state cow_task 0x1042 VM_WRITE =
        some (0, s', cow_task) ∧
      covered shared_page_state new ∧
      entry_table (leaf_entry s' 1 0x1000) = new ∧
      leaf_entry s' 1 0x1000 &&& PAGE_WRITE ≠ 0 ∧
      (∀ i, s'.mem new i = 0x41) ∧ (∀ i, s'.mem 8 i = 0x41) ∧
      (s'.pages 8).pp_ref = 1 ∧ (s'.pages new).pp_ref = 1 := by
  have e0 : ROUNDDOWN 0x1042 = 0x1000 := by decide
  have hs : buddy_inv shared_page_state := by
    refine buddy_inv_congr three_free_state shared_page_state rfl (fun p => ?_) (fun p => ?_)
      (reachable_inv _ three_free_reachable).1
    · unfold shared_page_state; simp only; split_ifs <;> rfl
    · unfold shared_page_state; simp only; split_ifs <;> rfl
  have hfr : ∀ f, covered shared_page_state f → (shared_page_state.pages f).pp_ref = 0 := by
    intro f hf
    rcases shared_page_covered f hf with h | h | h <;> subst h <;> rfl
  have hfb : free_bound shared_page_state := by
    intro f hf
    unfold page2pa PAGE_SIZE USER_LIM
    rcases shared_page_covered f hf with h | h | h <;> omega
  have hfree : ∃ k, k < BUDDY_MAX_ORDER ∧ shared_page_state.buddy_free_list k ≠ [] :=
    ⟨0, by decide, by
      show three_free_state.buddy_free_list 0 ≠ []
      rw [three_free_list]; simp⟩
  have hal : ∀ x ∈ cow_task.task_rb.inorder,
      (cow_task.vmas x).vm_base % PAGE_SIZE = 0 ∧ (cow_task.vmas x).vm_end % PAGE_SIZE = 0 := by
    intro x hx
    have hx1 : x = 1 := by simpa [cow_task, rb_node.inorder] using hx
    subst hx1
    decide
  have nc : ∀ f, f ≠ 6 → f ≠ 4 → f ≠ 2 → ¬ covered shared_page_state f := by
    intro f h1 h2 h3 hc
    rcases shared_page_covered f hc with h | h | h
    · exact h1 h
    · exact h2 h
    · exact h3 h
  have hp : path_ok shared_page_state 1 (ROUNDDOWN 0x1042) := by
    rw [e0]
    have e3 : pdpt_of shared_page_state 1 0x1000 = 3 := by decide
    have e2 : pdir_of shared_page_state 1 0x1000 = 5 := by decide
    have e1 : ptbl_of shared_page_state 1 0x1000 = 7 := by decide
    unfold path_ok
    rw [e3, e2, e1]
    exact ⟨nc 1 (by decide) (by decide) (by decide), fun _ =>
      ⟨nc 3 (by decide) (by decide) (by decide), by decide, fun _ =>
        ⟨by decide, nc 5 (by decide) (by decide) (by decide), by decide, by decide, fun _ =>
          ⟨by decide, nc 7 (by decide) (by decide) (by decide), by decide, by decide,
            by decide⟩⟩⟩⟩
  have hle : leaf_entry shared_page_state 1 (ROUNDDOWN 0x1042) = 0x8000000000008005 := by
    decide
  have hold : entry_table (leaf_entry shared_page_state 1 (ROUNDDOWN 0x1042)) = 8 := by
    decide
  have r := (copy_on_write_fault no_image shared_page_state cow_task 0x1042 VM_WRITE 1
    hs hfr hfb hfree rfl hal (by decide) (by decide) (by decide) hp (by decide) (by decide)
    (by decide) (by decide) (by decide) (by decide) (by decide) (by decide) (by decide)).2
    (by decide)
  rw [show cow_task.task_pml4 = 1 from rfl, hold, e0] at r
  obtain ⟨new, s', r1, r2, _, r4, _, r6, r7, r8, r9, _, r11, _⟩ := r
  refine ⟨⟨hs, hfr, hfb, hfree, rfl, by decide, by decide, by decide, hp, hle, rfl⟩,
    new, s', r1, r2, r4, r6, fun i => ?_, fun i => ?_, ?_, r9⟩
  · rw [r7 i]; rfl
  · rw [r11 i]; rfl
  · have h2 : (shared_page_state.pages 8).pp_ref = 2 := rfl
    omega

/-! ## Arithmetic of the walking loops -/

theorem or_low_mask (a k : Nat) : a ||| (2 ^ k - 1) = a / 2 ^ k * 2 ^ k + (2 ^ k - 1) := by
  apply Nat.eq_of_testBit_eq
  intro i
  have hlt : 2 ^ k - 1 < 2 ^ k := Nat.sub_lt (Nat.two_pow_pos k) (by decide)
  rw [Nat.mul_comm, Nat.testBit_mul_pow_two_add _ hlt, Nat.testBit_or,
    Nat.testBit_two_pow_sub_one, ← Nat.shiftRight_eq_div_pow, Nat.testBit_shiftRight]
  by_cases h : i < k
  · simp [h]
  · have : k + (i - k) = i := by omega
    simp [h, this]

theorem or_high_mask (y : Nat) (h : y < 2 ^ 64) :
    0xffff000000000000 ||| y = y % 2 ^ 48 + 0xffff000000000000 := by
  apply Nat.eq_of_testBit_eq
  intro i
  have e1 : (0xffff000000000000 : Nat) = 2 ^ 48 * (2 ^ 16 - 1) + 0 := by norm_num
  have hlt : y % 2 ^ 48 < 2 ^ 48 := Nat.mod_lt _ (Nat.two_pow_pos 48)
  have e2 : y % 2 ^ 48 + 0xffff000000000000 = 2 ^ 48 * (2 ^ 16 - 1) + y % 2 ^ 48 := by
    norm_num; omega
  rw [e2, Nat.testBit_mul_pow_two_add _ hlt, Nat.testBit_or]
  nth_rewrite 1 [e1]
  rw [Nat.testBit_mul_pow_two_add _ (Nat.two_pow_pos 48), Nat.testBit_two_pow_sub_one,
    Nat.testBit_mod_two_pow]
  by_cases h48 : i < 48
  · simp [h48]
  · by_cases h64 : i < 64
    · have : i - 48 < 16 := by omega
      simp [h48, this]
    · have hy : y.testBit i = false := by
        apply Nat.testBit_eq_false_of_lt
        exact lt_of_lt_of_le h (Nat.pow_le_pow_right (by decide) (by omega))
      have : ¬ i - 48 < 16 := by omega
      simp [h48, this, hy]

theorem sign_extend_eq (y : Nat) (h : y < 2 ^ 64) :
    sign_extend y = if y < 0x800000000000 then y else y % 2 ^ 48 + 0xffff000000000000 := by
  unfold sign_extend USER_LIM
  rw [or_high_mask y h]

theorem ptbl_end_eq (a : Nat) : ptbl_end a = a / 4096 * 4096 + 4095 := by
  have := or_low_mask a 12
  simpa [ptbl_end, PAGE_SIZE] using this

theorem pdir_end_eq (a : Nat) : pdir_end a = a / 0x200000 * 0x200000 + 0x1fffff := by
  have := or_low_mask a 21
  simpa [pdir_end, PAGE_TABLE_SPAN] using this

theorem pdpt_end_eq (a : Nat) : pdpt_end a = a / 0x40000000 * 0x40000000 + 0x3fffffff := by
  have := or_low_mask a 30
  simpa [pdpt_end, PAGE_DIR_SPAN] using this

theorem pml4_end_eq (a : Nat) :
    pml4_end a = a / 0x8000000000 * 0x8000000000 + 0x7fffffffff := by
  have := or_low_mask a 39
  simpa [pml4_end, PDPT_SPAN] using this

theorem sign_extend_cases (y : Nat) (h : y < 2 ^ 64) :
    (y < 0x800000000000 ∧ sign_extend y = y) ∨
    (0x800000000000 ≤ y ∧ sign_extend y = y % 0x1000000000000 + 0xffff000000000000) := by
  rw [sign_extend_eq y h]
  by_cases hy : y < 0x800000000000
  · left; simp [hy]
  · right; simp [hy]; omega

theorem sign_extend_lt (y : Nat) (h : y < 2 ^ 64) : sign_extend y < 2 ^ 64 := by
  rcases sign_extend_cases y h with ⟨_, h2⟩ | ⟨_, h2⟩ <;> rw [h2] <;> omega

theorem sign_extend_idem (y : Nat) (h : y < 2 ^ 64) :
    sign_extend (sign_extend y) = sign_extend y := by
  rcases sign_extend_cases y h with ⟨_, h2⟩ | ⟨h1, h2⟩
  · rw [h2, h2]
  · rcases sign_extend_cases (sign_extend y) (sign_extend_lt y h) with ⟨h3, _⟩ | ⟨_, h4⟩
    · omega
    · rw [h4, h2]; omega

/-- A sign-extended address stays sign extended when it moves up inside a span that does not
cross the end of the lower half. -/
theorem sign_extend_same_span (a x span : Nat) (ha : a < 2 ^ 64) (hx : sign_extend a = a)
    (hlt : x < 2 ^ 64) (hgt : a < x) (hd : span ∣ 0x800000000000)
    (hspan : x / span = a / span) : sign_extend x = x := by
  rcases sign_extend_cases a ha with ⟨h1, _⟩ | ⟨h1, h2⟩
  · have : x < 0x800000000000 := by
      obtain ⟨c, hc⟩ := hd
      have hpos : 0 < span := by
        rcases Nat.eq_zero_or_pos span with h0 | h0
        · rw [h0] at hc; omega
        · exact h0
      have h3 : a / span < c := by
        apply (Nat.div_lt_iff_lt_mul hpos).2
        rw [Nat.mul_comm, ← hc]; exact h1
      rw [← hspan] at h3
      have h4 := (Nat.div_lt_iff_lt_mul hpos).1 h3
      rw [Nat.mul_comm, ← hc] at h4; exact h4
    rcases sign_extend_cases x hlt with ⟨_, h4⟩ | ⟨h3, _⟩
    · exact h4
    · omega
  · rcases sign_extend_cases x hlt with ⟨h3, _⟩ | ⟨_, h4⟩
    · omega
    · rw [h4]; rw [hx] at h2; omega

theorem ptbl_step (a e : Nat) (ha : a < WORD) (hx : sign_extend a = a)
    (hend : sign_extend ((pdir_end a + 1) % WORD) > e ∨
      sign_extend ((pdir_end a + 1) % WORD) < a)
    (hn : ¬ (sign_extend ((ptbl_end a + 1) % WORD) > e ∨
      sign_extend ((ptbl_end a + 1) % WORD) < a)) :
    sign_extend ((ptbl_end a + 1) % WORD) < WORD ∧
    sign_extend (sign_extend ((ptbl_end a + 1) % WORD)) =
      sign_extend ((ptbl_end a + 1) % WORD) ∧
    (sign_extend ((pdir_end (sign_extend ((ptbl_end a + 1) % WORD)) + 1) % WORD) > e ∨
      sign_extend ((pdir_end (sign_extend ((ptbl_end a + 1) % WORD)) + 1) % WORD) <
        sign_extend ((ptbl_end a + 1) % WORD)) ∧
    PAGE_TABLE_INDEX (sign_extend ((ptbl_end a + 1) % WORD)) = PAGE_TABLE_INDEX a + 1 := by
  simp only [show WORD = 2 ^ 64 from rfl] at ha hend hn ⊢
  by_cases hi : a / 4096 % 512 = 511
  · exfalso
    have h1 : ptbl_end a = pdir_end a := by rw [ptbl_end_eq, pdir_end_eq]; omega
    rw [h1] at hn; exact hn hend
  · have h0 : (ptbl_end a + 1) % 2 ^ 64 = a / 4096 * 4096 + 4096 := by
      rw [ptbl_end_eq]; omega
    have hs : sign_extend (a / 4096 * 4096 + 4096) = a / 4096 * 4096 + 4096 :=
      sign_extend_same_span a _ 0x200000 ha hx (by omega) (by omega) (by norm_num) (by omega)
    have hp : pdir_end (a / 4096 * 4096 + 4096) = pdir_end a := by
      rw [pdir_end_eq, pdir_end_eq]; omega
    rw [h0, hs, hp]
    refine ⟨by omega, hs, ?_, by unfold PAGE_TABLE_INDEX; omega⟩
    rcases hend with h | h
    · left; exact h
    · right; omega

theorem pdir_step (a e : Nat) (ha : a < WORD) (hx : sign_extend a = a)
    (hend : sign_extend ((pdpt_end a + 1) % WORD) > e ∨
      sign_extend ((pdpt_end a + 1) % WORD) < a)
    (hn : ¬ (sign_extend ((pdir_end a + 1) % WORD) > e ∨
      sign_extend ((pdir_end a + 1) % WORD) < a)) :
    sign_extend ((pdir_end a + 1) % WORD) < WORD ∧
    sign_extend (sign_extend ((pdir_end a + 1) % WORD)) =
      sign_extend ((pdir_end a + 1) % WORD) ∧
    (sign_extend ((pdpt_end (sign_extend ((pdir_end a + 1) % WORD)) + 1) % WORD) > e ∨
      sign_extend ((pdpt_end (sign_extend ((pdir_end a + 1) % WORD)) + 1) % WORD) <
        sign_extend ((pdir_end a + 1) % WORD)) ∧
    PAGE_DIR_INDEX (sign_extend ((pdir_end a + 1) % WORD)) = PAGE_DIR_INDEX a + 1 := by
  simp only [show WORD = 2 ^ 64 from rfl] at ha hend hn ⊢
  by_cases hi : a / 0x200000 % 512 = 511
  · exfalso
    have h1 : pdir_end a = pdpt_end a := by rw [pdir_end_eq, pdpt_end_eq]; omega
    rw [h1] at hn; exact hn hend
  · have h0 : (pdir_end a + 1) % 2 ^ 64 = a / 0x200000 * 0x200000 + 0x200000 := by
      rw [pdir_end_eq]; omega
    have hs : sign_extend (a / 0x200000 * 0x200000 + 0x200000) =
        a / 0x200000 * 0x200000 + 0x200000 :=
      sign_extend_same_span a _ 0x40000000 ha hx (by omega) (by omega) (by norm_num)
        (by omega)
    have hp : pdpt_end (a / 0x200000 * 0x200000 + 0x200000) = pdpt_end a := by
      rw [pdpt_end_eq, pdpt_end_eq]; omega
    rw [h0, hs, hp]
    refine ⟨by omega, hs, ?_, by unfold PAGE_DIR_INDEX; omega⟩
    rcases hend with h | h
    · left; exact h
    · right; omega

theorem pdpt_step (a e : Nat) (ha : a < WORD) (hx : sign_extend a = a)
    (hend : sign_extend ((pml4_end a + 1) % WORD) > e ∨
      sign_extend ((pml4_end a + 1) % WORD) < a)
    (hn : ¬ (sign_extend ((pdpt_end a + 1) % WORD) > e ∨
      sign_extend ((pdpt_end a + 1) % WORD) < a)) :
    sign_extend ((pdpt_end a + 1) % WORD) < WORD ∧
    sign_extend (sign_extend ((pdpt_end a + 1) % WORD)) =
      sign_extend ((pdpt_end a + 1) % WORD) ∧
    (sign_extend ((pml4_end (sign_extend ((pdpt_end a + 1) % WORD)) + 1) % WORD) > e ∨
      sign_extend ((pml4_end (sign_extend ((pdpt_end a + 1) % WORD)) + 1) % WORD) <
        sign_extend ((pdpt_end a + 1) % WORD)) ∧
    PDPT_INDEX (sign_extend ((pdpt_end a + 1) % WORD)) = PDPT_INDEX a + 1 := by
  simp only [show WORD = 2 ^ 64 from rfl] at ha hend hn ⊢
  by_cases hi : a / 0x40000000 % 512 = 511
  · exfalso
    have h1 : pdpt_end a = pml4_end a := by rw [pdpt_end_eq, pml4_end_eq]; omega
    rw [h1] at hn; exact hn hend
  · have h0 : (pdpt_end a + 1) % 2 ^ 64 = a / 0x40000000 * 0x40000000 + 0x40000000 := by
      rw [pdpt_end_eq]; omega
    have hs : sign_extend (a / 0x40000000 * 0x40000000 + 0x40000000) =
        a / 0x40000000 * 0x40000000 + 0x40000000 :=
      sign_extend_same_span a _ 0x8000000000 ha hx (by omega) (by omega) (by norm_num)
        (by omega)
    have hp : pml4_end (a / 0x40000000 * 0x40000000 + 0x40000000) = pml4_end a := by
      rw [pml4_end_eq, pml4_end_eq]; omega
    rw [h0, hs, hp]
    refine ⟨by omega, hs, ?_, by unfold PDPT_INDEX; omega⟩
    rcases hend with h | h
    · left; exact h
    · right; omega

theorem pml4_step (a e : Nat) (ha : a < WORD) (hx : sign_extend a = a)
    (hn : ¬ (sign_extend ((pml4_end a + 1) % WORD) > e ∨
      sign_extend ((pml4_end a + 1) % WORD) < a)) :
    sign_extend ((pml4_end a + 1) % WORD) < WORD ∧
    sign_extend (sign_extend ((pml4_end a + 1) % WORD)) =
      sign_extend ((pml4_end a + 1) % WORD) ∧
    PML4_INDEX (sign_extend ((pml4_end a + 1) % WORD)) = PML4_INDEX a + 1 := by
  simp only [show WORD = 2 ^ 64 from rfl] at ha hn ⊢
  have hlt : (pml4_end a + 1) % 2 ^ 64 < 2 ^ 64 := Nat.mod_lt _ (by norm_num)
  refine ⟨sign_extend_lt _ hlt, sign_extend_idem _ hlt, ?_⟩
  have hnn : a ≤ sign_extend ((pml4_end a + 1) % 2 ^ 64) := by omega
  have c0 := sign_extend_cases a ha
  rw [hx] at c0
  have c1 := sign_extend_cases _ hlt
  rw [pml4_end_eq] at c1 hnn ⊢
  unfold PML4_INDEX
  generalize sign_extend ((a / 0x8000000000 * 0x8000000000 + 0x7fffffffff + 1) % 2 ^ 64) = n
    at *
  omega

theorem call_cb_keeps {υ : Type} (R : kstate → kstate → Prop) (hr : ∀ s, R s s)
    (cb : Option (pt_callback υ))
    (h : ∀ f, cb = some f → ∀ tbl idx b e u s r u1 s1,
      f tbl idx b e u s = some (r, u1, s1) → R s s1)
    (tbl idx b e : Nat) (u : υ) (s : kstate) (r : Int) (u1 : υ) (s1 : kstate)
    (hc : call_cb cb tbl idx b e u s = some (r, u1, s1)) : R s s1 := by
  cases cb with
  | none =>
    simp only [call_cb, Option.some.injEq, Prod.mk.injEq] at hc
    rw [← hc.2.2]; exact hr s
  | some f => exact h f rfl tbl idx b e u s r u1 s1 hc

theorem call_hole_keeps {υ : Type} (R : kstate → kstate → Prop) (hr : ∀ s, R s s)
    (cb : Option (hole_callback υ))
    (h : ∀ f, cb = some f → ∀ b e u s r u1 s1, f b e u s = some (r, u1, s1) → R s s1)
    (b e : Nat) (u : υ) (s : kstate) (r : Int) (u1 : υ) (s1 : kstate)
    (hc : call_hole cb b e u s = some (r, u1, s1)) : R s s1 := by
  cases cb with
  | none =>
    simp only [call_hole, Option.some.injEq, Prod.mk.injEq] at hc
    rw [← hc.2.2]; exact hr s
  | some f => exact h f rfl b e u s r u1 s1 hc

theorem and_then_keeps {υ : Type} (R : kstate → kstate → Prop)
    (ht : ∀ a b c, R a b → R b c → R a c) (s : kstate) (x : walk_result υ)
    (rest : υ → kstate → walk_result υ)
    (hx : ∀ r u1 s1, x = some (r, u1, s1) → R s s1)
    (hrest : ∀ u1 s1 r u2 s2, rest u1 s1 = some (r, u2, s2) → R s1 s2)
    (r : Int) (u2 : υ) (s2 : kstate) (h : and_then x rest = some (r, u2, s2)) : R s s2 := by
  cases x with
  | none => simp [and_then] at h
  | some v =>
    obtain ⟨r1, u1, s1⟩ := v
    have h1 := hx r1 u1 s1 rfl
    simp only [and_then] at h
    by_cases hneg : r1 < 0
    · rw [if_pos hneg] at h
      simp only [Option.some.injEq, Prod.mk.injEq] at h
      rw [← h.2.2]; exact h1
    · rw [if_neg hneg] at h
      exact ht _ _ _ h1 (hrest u1 s1 r u2 s2 h)

theorem ptbl_walk_loop_keeps {υ : Type} (R : kstate → kstate → Prop) (hr : ∀ s, R s s)
    (ht : ∀ a b c, R a b → R b c → R a c) (w : page_walker υ) (hw : callbacks_keep R w)
    (ptbl end_ : Nat) : ∀ (fuel addr next : Nat) (u : υ) (s : kstate) (r : Int) (u1 : υ)
      (s1 : kstate), ptbl_walk_loop w ptbl end_ fuel addr next u s = some (r, u1, s1) →
      R s s1 := by
  intro fuel
  induction fuel with
  | zero => intro addr next u s r u1 s1 h; simp [ptbl_walk_loop] at h
  | succ n ih =>
    intro addr next u s r u1 s1 h
    rw [ptbl_walk_loop] at h
    by_cases hc : ¬ next < end_
    · rw [if_pos hc] at h
      simp only [Option.some.injEq, Prod.mk.injEq] at h
      rw [← h.2.2]; exact hr s
    · rw [if_neg hc] at h
      simp only at h
      refine and_then_keeps R ht s _ _ ?_ ?_ r u1 s1 h
      · intro r1 u2 s2 h1
        exact call_cb_keeps R hr _ (fun f hf => hw.1 f (Or.inl hf)) _ _ _ _ _ _ _ _ _ h1
      · intro u2 s2 r2 u3 s3 h2
        refine and_then_keeps R ht s2 _ _ ?_ ?_ r2 u3 s3 h2
        · intro r3 u4 s4 h3
          by_cases hp : s2.mem ptbl (PAGE_TABLE_INDEX addr) &&& PAGE_PRESENT ≠ 0
          · rw [if_pos hp] at h3
            exact call_cb_keeps R hr _
              (fun f hf => hw.1 f (Or.inr (Or.inr (Or.inr (Or.inr (Or.inl hf)))))) _ _ _ _ _ _
              _ _ _ h3
          · rw [if_neg hp] at h3
            exact call_hole_keeps R hr _ (fun f hf => hw.2 f hf) _ _ _ _ _ _ _ h3
        · intro u4 s4 r4 u5 s5 h4
          exact ih _ _ _ _ _ _ _ h4

theorem pdir_walk_loop_keeps {υ : Type} (R : kstate → kstate → Prop) (hr : ∀ s, R s s)
    (ht : ∀ a b c, R a b → R b c → R a c) (w : page_walker υ) (hw : callbacks_keep R w)
    (pdir end_ : Nat) : ∀ (fuel addr next : Nat) (u : υ) (s : kstate) (r : Int) (u1 : υ)
      (s1 : kstate), pdir_walk_loop w pdir end_ fuel addr next u s = some (r, u1, s1) →
      R s s1 := by
  intro fuel
  induction fuel with
  | zero => intro addr next u s r u1 s1 h; simp [pdir_walk_loop] at h
  | succ n ih =>
    intro addr next u s r u1 s1 h
    rw [pdir_walk_loop] at h
    by_cases hc : ¬ next < end_
    · rw [if_pos hc] at h
      simp only [Option.some.injEq, Prod.mk.injEq] at h
      rw [← h.2.2]; exact hr s
    · rw [if_neg hc] at h
      simp only at h
      refine and_then_keeps R ht s _ _ ?_ ?_ r u1 s1 h
      · intro r1 u2 s2 h1
        exact call_cb_keeps R hr _ (fun f hf => hw.1 f (Or.inr (Or.inl hf))) _ _ _ _ _ _ _ _ _
          h1
      · intro u2 s2 r2 u3 s3 h2
        refine and_then_keeps R ht s2 _ _ ?_ ?_ r2 u3 s3 h2
        · intro r3 u4 s4 h3
          by_cases hp : s2.mem pdir (PAGE_DIR_INDEX addr) &&& PAGE_PRESENT ≠ 0
          · rw [if_pos hp] at h3
            by_cases hh : ¬ (s2.mem pdir (PAGE_DIR_INDEX addr) &&& PAGE_HUGE ≠ 0)
            · rw [if_pos hh] at h3
              refine and_then_keeps R ht s2 _ _ ?_ ?_ r3 u4 s4 h3
              · intro r5 u5 s5 h5
                exact ptbl_walk_loop_keeps R hr ht w hw _ _ _ _ _ _ _ _ _ _ h5
              · intro u5 s5 r6 u6 s6 h6
                exact call_cb_keeps R hr _
                  (fun f hf => hw.1 f (Or.inr (Or.inr (Or.inr (Or.inr (Or.inr (Or.inl hf)))))))
                  _ _ _ _ _ _ _ _ _ h6
            · rw [if_neg hh] at h3
              simp only [Option.some.injEq, Prod.mk.injEq] at h3
              rw [← h3.2.2]; exact hr s2
          · rw [if_neg hp] at h3
            exact call_hole_keeps R hr _ (fun f hf => hw.2 f hf) _ _ _ _ _ _ _ h3
        · intro u4 s4 r4 u5 s5 h4
          exact ih _ _ _ _ _ _ _ h4

theorem pdpt_walk_loop_keeps {υ : Type} (R : kstate → kstate → Prop) (hr : ∀ s, R s s)
    (ht : ∀ a b c, R a b → R b c → R a c) (w : page_walker υ) (hw : callbacks_keep R w)
    (pdpt end_ : Nat) : ∀ (fuel addr next : Nat) (u : υ) (s : kstate) (r : Int) (u1 : υ)
      (s1 : kstate), pdpt_walk_loop w pdpt end_ fuel addr next u s = some (r, u1, s1) →
      R s s1 := by
  intro fuel
  induction fuel with
  | zero => intro addr next u s r u1 s1 h; simp [pdpt_walk_loop] at h
  | succ n ih =>
    intro addr next u s r u1 s1 h
    rw [pdpt_walk_loop] at h
    by_cases hc : ¬ next < end_
    · rw [if_pos hc] at h
      simp only [Option.some.injEq, Prod.mk.injEq] at h
      rw [← h.2.2]; exact hr s
    · rw [if_neg hc] at h
      simp only at h
      refine and_then_keeps R ht s _ _ ?_ ?_ r u1 s1 h
      · intro r1 u2 s2 h1
        exact call_cb_keeps R hr _ (fun f hf => hw.1 f (Or.inr (Or.inr (Or.inl hf)))) _ _ _ _
          _ _ _ _ _ h1
      · intro u2 s2 r2 u3 s3 h2
        refine and_then_keeps R ht s2 _ _ ?_ ?_ r2 u3 s3 h2
        · intro r3 u4 s4 h3
          by_cases hp : s2.mem pdpt (PDPT_INDEX addr) &&& PAGE_PRESENT ≠ 0
          · rw [if_pos hp] at h3
            by_cases hh : ¬ (s2.mem pdpt (PDPT_INDEX addr) &&& PAGE_HUGE ≠ 0)
            · rw [if_pos hh] at h3
              refine and_then_keeps R ht s2 _ _ ?_ ?_ r3 u4 s4 h3
              · intro r5 u5 s5 h5
                exact pdir_walk_loop_keeps R hr ht w hw _ _ _ _ _ _ _ _ _ _ h5
              · intro u5 s5 r6 u6 s6 h6
                exact call_cb_keeps R hr _
                  (fun f hf => hw.1 f
                    (Or.inr (Or.inr (Or.inr (Or.inr (Or.inr (Or.inr (Or.inl hf))))))))
                  _ _ _ _ _ _ _ _ _ h6
            · rw [if_neg hh] at h3
              simp only [Option.some.injEq, Prod.mk.injEq] at h3
              rw [← h3.2.2]; exact hr s2
          · rw [if_neg hp] at h3
            exact call_hole_keeps R hr _ (fun f hf => hw.2 f hf) _ _ _ _ _ _ _ h3
        · intro u4 s4 r4 u5 s5 h4
          exact ih _ _ _ _ _ _ _ h4

/-- A walk relates the state it returns to the state it started from by every reflexive and
transitive relation that each of its callbacks keeps. -/
theorem pml4_walk_range_keeps {υ : Type} (R : kstate → kstate → Prop) (hr : ∀ s, R s s)
    (ht : ∀ a b c, R a b → R b c → R a c) (w : page_walker υ) (hw : callbacks_keep R w)
    (pml4 base end_ : Nat) (u : υ) (s : kstate) (r : Int) (u1 : υ) (s1 : kstate)
    (h : pml4_walk_range w pml4 base end_ u s = some (r, u1, s1)) : R s s1 := by
  have key : ∀ (fuel addr next : Nat) (u : υ) (s : kstate) (r : Int) (u1 : υ)
      (s1 : kstate), pml4_walk_loop w pml4 end_ fuel addr next u s = some (r, u1, s1) →
      R s s1 := by
    intro fuel
    induction fuel with
    | zero => intro addr next u s r u1 s1 h; simp [pml4_walk_loop] at h
    | succ n ih =>
      intro addr next u s r u1 s1 h
      rw [pml4_walk_loop] at h
      by_cases hc : ¬ next < end_
      · rw [if_pos hc] at h
        simp only [Option.some.injEq, Prod.mk.injEq] at h
        rw [← h.2.2]; exact hr s
      · rw [if_neg hc] at h
        simp only at h
        refine and_then_keeps R ht s _ _ ?_ ?_ r u1 s1 h
        · intro r1 u2 s2 h1
          exact call_cb_keeps R hr _ (fun f hf => hw.1 f (Or.inr (Or.inr (Or.inr (Or.inl hf)))))
            _ _ _ _ _ _ _ _ _ h1
        · intro u2 s2 r2 u3 s3 h2
          refine and_then_keeps R ht s2 _ _ ?_ ?_ r2 u3 s3 h2
          · intro r3 u4 s4 h3
            by_cases hp : s2.mem pml4 (PML4_INDEX addr) &&& PAGE_PRESENT ≠ 0
            · rw [if_pos hp] at h3
              refine and_then_keeps R ht s2 _ _ ?_ ?_ r3 u4 s4 h3
              · intro r5 u5 s5 h5
                exact pdpt_walk_loop_keeps R hr ht w hw _ _ _ _ _ _ _ _ _ _ h5
              · intro u5 s5 r6 u6 s6 h6
                exact call_cb_keeps R hr _
                  (fun f hf => hw.1 f
                    (Or.inr (Or.inr (Or.inr (Or.inr (Or.inr (Or.inr (Or.inr hf))))))))
                  _ _ _ _ _ _ _ _ _ h6
            · rw [if_neg hp] at h3
              exact call_hole_keeps R hr _ (fun f hf => hw.2 f hf) _ _ _ _ _ _ _ h3
          · intro u4 s4 r4 u5 s5 h4
            exact ih _ _ _ _ _ _ _ h4
  exact key _ _ _ _ _ _ _ _ h

/-! ## Walks return when their callbacks return -/

theorem call_cb_returns {υ : Type} (cb : Option (pt_callback υ))
    (h : ∀ f, cb = some f → ∀ tbl idx b e u s, (f tbl idx b e u s).isSome = true)
    (tbl idx b e : Nat) (u : υ) (s : kstate) : (call_cb cb tbl idx b e u s).isSome = true := by
  cases cb with
  | none => rfl
  | some f => exact h f rfl tbl idx b e u s

theorem call_hole_returns {υ : Type} (cb : Option (hole_callback υ))
    (h : ∀ f, cb = some f → ∀ b e u s, (f b e u s).isSome = true)
    (b e : Nat) (u : υ) (s : kstate) : (call_hole cb b e u s).isSome = true := by
  cases cb with
  | none => rfl
  | some f => exact h f rfl b e u s

theorem and_then_returns {υ : Type} (r : walk_result υ) (rest : υ → kstate → walk_result υ)
    (hr : r.isSome = true) (hrest : ∀ u s, (rest u s).isSome = true) :
    (and_then r rest).isSome = true := by
  cases r with
  | none => simp at hr
  | some x =>
    obtain ⟨ret, u, s⟩ := x
    unfold and_then
    by_cases h : ret < 0
    · simp [h]
    · simp only [h, if_false]; exact hrest u s

theorem inner_limit (n e a : Nat) (hpos : ¬ (n > e ∨ n < a) → 0 < n) :
    n > (if n > e ∨ n < a then e else n) - 1 ∨ n < a := by
  by_cases h : n > e ∨ n < a
  · rw [if_pos h]
    rcases h with h | h
    · left; omega
    · right; exact h
  · rw [if_neg h]
    have := hpos h
    left; omega

theorem ptbl_walk_loop_returns {υ : Type} (w : page_walker υ) (hw : callbacks_return w)
    (ptbl end_ : Nat) : ∀ (fuel addr next : Nat) (u : υ) (s : kstate), addr < WORD →
      sign_extend addr = addr →
      (sign_extend ((pdir_end addr + 1) % WORD) > end_ ∨
        sign_extend ((pdir_end addr + 1) % WORD) < addr) →
      513 - PAGE_TABLE_INDEX addr ≤ fuel →
      (ptbl_walk_loop w ptbl end_ fuel addr next u s).isSome = true := by
  intro fuel
  induction fuel with
  | zero =>
    intro addr next u s _ _ _ hf
    unfold PAGE_TABLE_INDEX at hf; omega
  | succ n ih =>
    intro addr next u s ha hx hend hf
    rw [ptbl_walk_loop]
    by_cases hc : ¬ next < end_
    · rw [if_pos hc]; rfl
    · rw [if_neg hc]
      dsimp only
      refine and_then_returns _ _ (call_cb_returns _ (fun f hf => hw.1 f (Or.inl hf)) _ _ _ _
        _ _) ?_
      intro u1 s1
      refine and_then_returns _ _ ?_ ?_
      · by_cases hp : s1.mem ptbl (PAGE_TABLE_INDEX addr) &&& PAGE_PRESENT ≠ 0
        · rw [if_pos hp]
          exact call_cb_returns _
            (fun f hf => hw.1 f (Or.inr (Or.inr (Or.inr (Or.inr (Or.inl hf)))))) _ _ _ _ _ _
        · rw [if_neg hp]
          exact call_hole_returns _ (fun f hf => hw.2 f hf) _ _ _ _
      · intro u2 s2
        by_cases hn : sign_extend ((ptbl_end addr + 1) % WORD) > end_ ∨
            sign_extend ((ptbl_end addr + 1) % WORD) < addr
        · rw [if_pos hn]
          have hpos : n = (n - 1) + 1 := by unfold PAGE_TABLE_INDEX at hf; omega
          rw [hpos, ptbl_walk_loop, if_pos (Nat.lt_irrefl end_)]; rfl
        · rw [if_neg hn]
          obtain ⟨h1, h2, h3, h4⟩ := ptbl_step addr end_ ha hx hend hn
          exact ih _ _ _ _ h1 h2 h3 (by omega)

theorem pdir_walk_loop_returns {υ : Type} (w : page_walker υ) (hw : callbacks_return w)
    (pdir end_ : Nat) : ∀ (fuel addr next : Nat) (u : υ) (s : kstate), addr < WORD →
      sign_extend addr = addr →
      (sign_extend ((pdpt_end addr + 1) % WORD) > end_ ∨
        sign_extend ((pdpt_end addr + 1) % WORD) < addr) →
      513 - PAGE_DIR_INDEX addr ≤ fuel →
      (pdir_walk_loop w pdir end_ fuel addr next u s).isSome = true := by
  intro fuel
  induction fuel with
  | zero =>
    intro addr next u s _ _ _ hf
    unfold PAGE_DIR_INDEX at hf; omega
  | succ n ih =>
    intro addr next u s ha hx hend hf
    rw [pdir_walk_loop]
    by_cases hc : ¬ next < end_
    · rw [if_pos hc]; rfl
    · rw [if_neg hc]
      dsimp only
      refine and_then_returns _ _ (call_cb_returns _
        (fun f hf => hw.1 f (Or.inr (Or.inl hf))) _ _ _ _ _ _) ?_
      intro u1 s1
      refine and_then_returns _ _ ?_ ?_
      · by_cases hp : s1.mem pdir (PAGE_DIR_INDEX addr) &&& PAGE_PRESENT ≠ 0
        · rw [if_pos hp]
          by_cases hh : ¬ (s1.mem pdir (PAGE_DIR_INDEX addr) &&& PAGE_HUGE ≠ 0)
          · rw [if_pos hh]
            refine and_then_returns _ _ ?_ ?_
            · unfold ptbl_walk_range
              rw [hx]
              refine ptbl_walk_loop_returns w hw _ _ _ _ _ _ _ ha hx ?_ ?_
              · apply inner_limit
                intro hn
                have h4 := (pdir_step addr end_ ha hx hend hn).2.2.2
                unfold PAGE_DIR_INDEX at h4
                omega
              · unfold WALK_FUEL; omega
            · intro u2 s2
              exact call_cb_returns _
                (fun f hf => hw.1 f (Or.inr (Or.inr (Or.inr (Or.inr (Or.inr (Or.inl hf)))))))
                _ _ _ _ _ _
          · rw [if_neg hh]; rfl
        · rw [if_neg hp]
          exact call_hole_returns _ (fun f hf => hw.2 f hf) _ _ _ _
      · intro u2 s2
        by_cases hn : sign_extend ((pdir_end addr + 1) % WORD) > end_ ∨
            sign_extend ((pdir_end addr + 1) % WORD) < addr
        · rw [if_pos hn]
          have hpos : n = (n - 1) + 1 := by unfold PAGE_DIR_INDEX at hf; omega
          rw [hpos, pdir_walk_loop, if_pos (Nat.lt_irrefl end_)]; rfl
        · rw [if_neg hn]
          obtain ⟨h1, h2, h3, h4⟩ := pdir_step addr end_ ha hx hend hn
          exact ih _ _ _ _ h1 h2 h3 (by omega)

theorem pdpt_walk_loop_returns {υ : Type} (w : page_walker υ) (hw : callbacks_return w)
    (pdpt end_ : Nat) : ∀ (fuel addr next : Nat) (u : υ) (s : kstate), addr < WORD →
      sign_extend addr = addr →
      (sign_extend ((pml4_end addr + 1) % WORD) > end_ ∨
        sign_extend ((pml4_end addr + 1) % WORD) < addr) →
      513 - PDPT_INDEX addr ≤ fuel →
      (pdpt_walk_loop w pdpt end_ fuel addr next u s).isSome = true := by
  intro fuel
  induction fuel with
  | zero =>
    intro addr next u s _ _ _ hf
    unfold PDPT_INDEX at hf; omega
  | succ n ih =>
    intro addr next u s ha hx hend hf
    rw [pdpt_walk_loop]
    by_cases hc : ¬ next < end_
    · rw [if_pos hc]; rfl
    · rw [if_neg hc]
      dsimp only
      refine and_then_returns _ _ (call_cb_returns _
        (fun f hf => hw.1 f (Or.inr (Or.inr (Or.inl hf)))) _ _ _ _ _ _) ?_
      intro u1 s1
      refine and_then_returns _ _ ?_ ?_
      · by_cases hp : s1.mem pdpt (PDPT_INDEX addr) &&& PAGE_PRESENT ≠ 0
        · rw [if_pos hp]
          by_cases hh : ¬ (s1.mem pdpt (PDPT_INDEX addr) &&& PAGE_HUGE ≠ 0)
          · rw [if_pos hh]
            refine and_then_returns _ _ ?_ ?_
            · unfold pdir_walk_range
              rw [hx]
              refine pdir_walk_loop_returns w hw _ _ _ _ _ _ _ ha hx ?_ ?_
              · apply inner_limit
                intro hn
                have h4 := (pdpt_step addr end_ ha hx hend hn).2.2.2
                unfold PDPT_INDEX at h4
                omega
              · unfold WALK_FUEL; omega
            · intro u2 s2
              exact call_cb_returns _
                (fun f hf => hw.1 f
                  (Or.inr (Or.inr (Or.inr (Or.inr (Or.inr (Or.inr (Or.inl hf))))))))
                _ _ _ _ _ _
          · rw [if_neg hh]; rfl
        · rw [if_neg hp]
          exact call_hole_returns _ (fun f hf => hw.2 f hf) _ _ _ _
      · intro u2 s2
        by_cases hn : sign_extend ((pdpt_end addr + 1) % WORD) > end_ ∨
            sign_extend ((pdpt_end addr + 1) % WORD) < addr
        · rw [if_pos hn]
          have hpos : n = (n - 1) + 1 := by unfold PDPT_INDEX at hf; omega
          rw [hpos, pdpt_walk_loop, if_pos (Nat.lt_irrefl end_)]; rfl
        · rw [if_neg hn]
          obtain ⟨h1, h2, h3, h4⟩ := pdpt_step addr end_ ha hx hend hn
          exact ih _ _ _ _ h1 h2 h3 (by omega)

theorem pml4_walk_loop_returns {υ : Type} (w : page_walker υ) (hw : callbacks_return w)
    (pml4 end_ : Nat) : ∀ (fuel addr next : Nat) (u : υ) (s : kstate), addr < WORD →
      sign_extend addr = addr → 513 - PML4_INDEX addr ≤ fuel →
      (pml4_walk_loop w pml4 end_ fuel addr next u s).isSome = true := by
  intro fuel
  induction fuel with
  | zero =>
    intro addr next u s _ _ hf
    unfold PML4_INDEX at hf; omega
  | succ n ih =>
    intro addr next u s ha hx hf
    rw [pml4_walk_loop]
    by_cases hc : ¬ next < end_
    · rw [if_pos hc]; rfl
    · rw [if_neg hc]
      dsimp only
      refine and_then_returns _ _ (call_cb_returns _
        (fun f hf => hw.1 f (Or.inr (Or.inr (Or.inr (Or.inl hf))))) _ _ _ _ _ _) ?_
      intro u1 s1
      refine and_then_returns _ _ ?_ ?_
      · by_cases hp : s1.mem pml4 (PML4_INDEX addr) &&& PAGE_PRESENT ≠ 0
        · rw [if_pos hp]
          refine and_then_returns _ _ ?_ ?_
          · unfold pdpt_walk_range
            rw [hx]
            refine pdpt_walk_loop_returns w hw _ _ _ _ _ _ _ ha hx ?_ ?_
            · apply inner_limit
              intro hn
              have h4 := (pml4_step addr end_ ha hx hn).2.2
              unfold PML4_INDEX at h4
              omega
            · unfold WALK_FUEL; omega
          · intro u2 s2
            exact call_cb_returns _
              (fun f hf => hw.1 f
                (Or.inr (Or.inr (Or.inr (Or.inr (Or.inr (Or.inr (Or.inr hf))))))))
              _ _ _ _ _ _
        · rw [if_neg hp]
          exact call_hole_returns _ (fun f hf => hw.2 f hf) _ _ _ _
      · intro u2 s2
        by_cases hn : sign_extend ((pml4_end addr + 1) % WORD) > end_ ∨
            sign_extend ((pml4_end addr + 1) % WORD) < addr
        · rw [if_pos hn]
          have hpos : n = (n - 1) + 1 := by unfold PML4_INDEX at hf; omega
          rw [hpos, pml4_walk_loop, if_pos (Nat.lt_irrefl end_)]; rfl
        · rw [if_neg hn]
          obtain ⟨h1, h2, h4⟩ := pml4_step addr end_ ha hx hn
          exact ih _ _ _ _ h1 h2 (by omega)

/-- A walk of any range of a PML4, started at a sign-extended address, returns when the
callbacks of the walker return: each of its loops ends within the 512 entries of a table. -/
theorem pml4_walk_range_returns {υ : Type} (w : page_walker υ) (hw : callbacks_return w)
    (pml4 base end_ : Nat) (u : υ) (s : kstate) (hb : base < WORD)
    (hx : sign_extend base = base) :
    (pml4_walk_range w pml4 base end_ u s).isSome = true := by
  unfold pml4_walk_range
  rw [hx]
  exact pml4_walk_loop_returns w hw pml4 end_ _ _ _ _ _ hb hx (by unfold WALK_FUEL; omega)

/-! ## The OOM killer picks the first user task of the highest score -/

theorem read_all_pte_returns :
    callbacks_return ({ pte_callback := some read_all_pte } : page_walker Int) := by
  constructor
  · intro cb h tbl idx b e u s
    simp at h
    subst h
    unfold read_all_pte
    by_cases hp : s.mem tbl idx &&& PAGE_PRESENT ≠ 0
    · rw [if_pos hp]; rfl
    · rw [if_neg hp]; rfl
  · intro cb h
    simp at h

theorem read_all_pte_keeps :
    callbacks_keep Eq ({ pte_callback := some read_all_pte } : page_walker Int) := by
  constructor
  · intro cb h tbl idx b e u s r u1 s1 hcb
    simp at h
    subst h
    unfold read_all_pte at hcb
    by_cases hp : s.mem tbl idx &&& PAGE_PRESENT ≠ 0
    · rw [if_pos hp] at hcb
      simp only [Option.some.injEq, Prod.mk.injEq] at hcb
      exact hcb.2.2
    · rw [if_neg hp] at hcb
      simp only [Option.some.injEq, Prod.mk.injEq] at hcb
      exact hcb.2.2
  · intro cb h
    simp at h

/-- The walk of `get_oom_score` returns for every state, root table and limit, and leaves the
state as it was. -/
theorem get_oom_score_returns (s : kstate) (lim : Nat) (t : task) :
    ∃ sc, get_oom_score s lim t = some (sc, s) := by
  unfold get_oom_score walk_all_pages
  have h1 := pml4_walk_range_returns _ read_all_pte_returns t.task_pml4 0 lim (0 : Int) s
    (by unfold WORD; norm_num) (by unfold sign_extend USER_LIM; simp)
  obtain ⟨⟨r, u1, s1⟩, h2⟩ := Option.isSome_iff_exists.1 h1
  have h3 : s = s1 := pml4_walk_range_keeps Eq (fun _ => rfl) (fun _ _ _ h h' => h.trans h') _
    read_all_pte_keeps _ _ _ _ _ _ _ _ h2
  rw [h2, ← h3]
  exact ⟨_, rfl⟩

theorem pid2task_in_table (st : system) (cur pid : Nat) (hp : 0 < pid)
    (hlt : pid < st.pid_max) :
    pid2task st cur pid false = pid_lookup.found ((st.tasks pid).map fun _ => pid) := by
  unfold pid2task
  have h1 : ¬ ((pid : Int) = 0) := by omega
  have h2 : ¬ ((pid : Int) ≥ st.pid_max) := by omega
  have h3 : ¬ ((pid : Int) < 0) := by omega
  rw [if_neg h1, if_neg h2, if_neg h3, Int.toNat_ofNat]
  cases st.tasks pid with
  | none => rfl
  | some t => simp

theorem oom_kill_body_spec (st : system) (cur lim pid : Nat) (highest : Int)
    (victim : Option Nat) (hp : 0 < pid) (hlt : pid < st.pid_max)
    (hI : oom_scanned st lim pid highest victim) :
    ∃ h1 v1, oom_kill_body st cur lim pid highest victim st.k = some (h1, v1, st.k) ∧
      oom_scanned st lim (pid + 1) h1 v1 := by
  obtain ⟨i0, i1, i2, i3⟩ := hI
  unfold oom_kill_body
  rw [pid2task_in_table st cur pid hp hlt]
  cases ht : st.tasks pid with
  | none =>
    refine ⟨highest, victim, rfl, i0, i1, ?_, ?_⟩
    · intro q u hq hq1 hu hty
      rcases Nat.lt_succ_iff_lt_or_eq.1 hq1 with h | h
      · exact i2 q u hq h hu hty
      · rw [h, ht] at hu; cases hu
    · intro v hv
      obtain ⟨a, b, c, d⟩ := i3 v hv
      exact ⟨a, by omega, c, d⟩
  | some t =>
    simp only [Option.map_some']
    rw [ht]
    simp only
    by_cases hk : t.task_type = task_type.kernel
    · rw [if_pos hk]
      refine ⟨highest, victim, rfl, i0, i1, ?_, ?_⟩
      · intro q u hq hq1 hu hty
        rcases Nat.lt_succ_iff_lt_or_eq.1 hq1 with h | h
        · exact i2 q u hq h hu hty
        · rw [h, ht] at hu
          cases hu
          rw [hk] at hty; cases hty
      · intro v hv
        obtain ⟨a, b, c, d⟩ := i3 v hv
        exact ⟨a, by omega, c, d⟩
    · rw [if_neg hk]
      have hu : t.task_type = task_type.user := by
        cases hty : t.task_type with
        | user => rfl
        | kernel => exact absurd hty hk
      obtain ⟨sc, hsc⟩ := get_oom_score_returns st.k lim t.vm
      rw [hsc]
      simp only [Option.map_some']
      by_cases hneg : sc < 0
      · rw [if_pos hneg]
        refine ⟨highest, victim, rfl, i0, i1, ?_, ?_⟩
        · intro q u hq hq1 hu1 hty
          rcases Nat.lt_succ_iff_lt_or_eq.1 hq1 with h | h
          · exact i2 q u hq h hu1 hty
          · rw [h, ht] at hu1
            cases hu1
            exact ⟨sc, hsc, by omega, fun he => by omega⟩
        · intro v hv
          obtain ⟨a, b, c, d⟩ := i3 v hv
          exact ⟨a, by omega, c, d⟩
      · rw [if_neg hneg]
        by_cases hgt : sc > highest
        · rw [if_pos hgt]
          refine ⟨sc, some pid, rfl, by omega, fun h => Option.noConfusion h, ?_, ?_⟩
          · intro q u hq hq1 hu1 hty
            rcases Nat.lt_succ_iff_lt_or_eq.1 hq1 with h | h
            · obtain ⟨sq, e1, e2, _⟩ := i2 q u hq h hu1 hty
              exact ⟨sq, e1, by omega, fun he => by omega⟩
            · rw [h, ht] at hu1
              cases hu1
              refine ⟨sc, hsc, le_refl _, fun _ v hv => ?_⟩
              cases hv
              omega
          · intro v hv
            cases hv
            exact ⟨hp, by omega, by omega, t, ht, hu, hsc⟩
        · rw [if_neg hgt]
          refine ⟨highest, victim, rfl, i0, i1, ?_, ?_⟩
          · intro q u hq hq1 hu1 hty
            rcases Nat.lt_succ_iff_lt_or_eq.1 hq1 with h | h
            · exact i2 q u hq h hu1 hty
            · rw [h, ht] at hu1
              cases hu1
              refine ⟨sc, hsc, by omega, fun _ v hv => ?_⟩
              have := (i3 v hv).2.1
              omega
          · intro v hv
            obtain ⟨a, b, c, d⟩ := i3 v hv
            exact ⟨a, by omega, c, d⟩

theorem oom_kill_loop_spec (st : system) (cur lim : Nat) :
    ∀ (n pid : Nat) (highest : Int) (victim : Option Nat), 0 < pid →
      pid + n ≤ max st.pid_max 1 → oom_scanned st lim pid highest victim →
      ∃ h1 v1, oom_kill_loop st cur lim n pid highest victim st.k = some (h1, v1, st.k) ∧
        oom_scanned st lim (pid + n) h1 v1 := by
  intro n
  induction n with
  | zero =>
    intro pid highest victim _ _ hI
    exact ⟨highest, victim, rfl, hI⟩
  | succ n ih =>
    intro pid highest victim hp hle hI
    have hlt : pid < st.pid_max := by
      rcases Nat.le_total st.pid_max 1 with h | h
      · rw [max_eq_right h] at hle; omega
      · rw [max_eq_left h] at hle; omega
    obtain ⟨h1, v1, e1, hI1⟩ := oom_kill_body_spec st cur lim pid highest victim hp hlt hI
    rw [oom_kill_loop, e1]
    simp only [Option.some_bind]
    obtain ⟨h2, v2, e2, hI2⟩ := ih (pid + 1) h1 v1 (by omega) (by omega) hI1
    refine ⟨h2, v2, e2, ?_⟩
    rw [show pid + (n + 1) = pid + 1 + n by omega]
    exact hI2

theorem oom_score_of_iff (s : kstate) (lim : Nat) (t : task) (sc : Int) :
    oom_score_of s lim t = some sc ↔ get_oom_score s lim t = some (sc, s) := by
  obtain ⟨sc1, h⟩ := get_oom_score_returns s lim t
  unfold oom_score_of
  rw [h]
  simp

theorem oom_kill_loop_result (st : system) (cur lim : Nat) :
    ∃ h1 v1, oom_kill st cur lim = v1 ∧ oom_scanned st lim (1 + (st.pid_max - 1)) h1 v1 := by
  have h0 : oom_scanned st lim 1 0 none :=
    ⟨le_refl _, fun _ => rfl, fun q u hq hq1 => by omega, fun v hv => Option.noConfusion hv⟩
  have hle : 1 + (st.pid_max - 1) ≤ max st.pid_max 1 := by
    rcases Nat.le_total st.pid_max 1 with h | h
    · rw [max_eq_right h]; omega
    · rw [max_eq_left h]; omega
  obtain ⟨h1, v1, e1, hI⟩ := oom_kill_loop_spec st cur lim (st.pid_max - 1) 1 0 none
    (by decide) hle h0
  refine ⟨h1, v1, ?_, hI⟩
  unfold oom_kill
  rw [e1]
  rfl

/-- C26: `oom_kill` hands a user task of the highest OOM score to `task_destroy`.  A task
it picks is a user task of the PID table, whatever the table holds, so that no kernel task is
picked; and when some user task of the table has a positive score, `oom_kill` picks a task
(its assertion holds): a user task whose score is not lower than the score of any user task
of the table, and the one of the lowest PID among the user tasks of that score.  The score of
every task exists: the walk of `get_oom_score` returns for every state and limit. -/
theorem oom_kill_destroys_highest_score (st : system) (cur lim : Nat) :
    (∀ victim, oom_kill st cur lim = some victim →
      ∃ t, st.tasks victim = some t ∧ t.task_type = task_type.user) ∧
    ((∃ pid u sc, 0 < pid ∧ pid < st.pid_max ∧ st.tasks pid = some u ∧
        u.task_type = task_type.user ∧ oom_score_of st.k lim u.vm = some sc ∧ 0 < sc) →
      ∃ victim t top, oom_kill st cur lim = some victim ∧ 0 < victim ∧
        victim < st.pid_max ∧ st.tasks victim = some t ∧ t.task_type = task_type.user ∧
        oom_score_of st.k lim t.vm = some top ∧
        ∀ pid u, 0 < pid → pid < st.pid_max → st.tasks pid = some u →
          u.task_type = task_type.user →
          ∃ sc, oom_score_of st.k lim u.vm = some sc ∧ sc ≤ top ∧
            (sc = top → victim ≤ pid)) := by
  obtain ⟨h1, v1, e1, i0, i1, i2, i3⟩ := oom_kill_loop_result st cur lim
  constructor
  · intro victim hv
    rw [e1] at hv
    obtain ⟨_, _, _, t, ht, hty, _⟩ := i3 victim hv
    exact ⟨t, ht, hty⟩
  · rintro ⟨pid, u, sc, hp, hlt, hu, hty, hsc, hpos⟩
    obtain ⟨sc1, g1, g2, _⟩ := i2 pid u hp (by omega) hu hty
    rw [(oom_score_of_iff _ _ _ _).1 hsc] at g1
    simp only [Option.some.injEq, Prod.mk.injEq, and_true] at g1
    have hh : 0 < h1 := by omega
    cases hv1 : v1 with
    | none => have := i1 hv1; omega
    | some v =>
      obtain ⟨a, b, c, t, ht, hty1, hs⟩ := i3 v hv1
      refine ⟨v, t, h1, by rw [e1, hv1], a, by omega, ht, hty1,
        (oom_score_of_iff _ _ _ _).2 hs, ?_⟩
      intro q w hq hq1 hw hwt
      obtain ⟨sq, f1, f2, f3⟩ := i2 q w hq (by omega) hw hwt
      exact ⟨sq, (oom_score_of_iff _ _ _ _).2 f1, f2, fun he => f3 he v hv1⟩

set_option maxRecDepth 100000 in
/-- The kernel task of `oom_system` has the score 40, its user tasks have the scores 10, 20
and 30. -/
theorem oom_system_scores : oom_scores 0x200000 = [some 40, some 10, some 20, some 30] := by
  rfl

set_option maxRecDepth 100000 in
/-- In `oom_system`, with the user tasks 2, 3 and 4 of 10, 20 and 30 present entries and the
kernel task 1 of 40, walked up to the limit 0x200000 that covers the page table of each
task, task 4 is the one handed to `task_destroy`. -/
theorem oom_kill_destroys_highest_score_witness :
    oom_kill oom_system 1 0x200000 = some 4 ∧
    ∃ victim t top, oom_kill oom_system 1 0x200000 = some victim ∧ 0 < victim ∧
      victim < oom_system.pid_max ∧ oom_system.tasks victim = some t ∧
      t.task_type = task_type.user ∧ oom_score_of oom_system.k 0x200000 t.vm = some top ∧
      ∀ pid u, 0 < pid → pid < oom_system.pid_max → oom_system.tasks pid = some u →
        u.task_type = task_type.user →
        ∃ sc, oom_score_of oom_system.k 0x200000 u.vm = some sc ∧ sc ≤ top ∧
          (sc = top → victim ≤ pid) :=
  ⟨by rfl,
    (oom_kill_destroys_highest_score oom_system 1 0x200000).2
      ⟨4, { vm := { empty_task with task_pml4 := 40 }, task_pid := 4, task_ppid := 0,
            task_children := [], task_zombies := [], task_type := task_type.user },
        30, by decide, by decide, by rfl, by rfl, by rfl, by decide⟩⟩

/-! ## Wait, exit and kill -/

set_option maxRecDepth 100000 in
/-- C21: `make_zombie_or_free` wakes a waiting parent whatever child exits.  The task 1 forks
the children 2 and 3 and blocks in `waitpid(2)`: it is off the run queue and `task_wait` is
child 2.  When child 3 exits, the parent is put on the run queue and its saved return
register holds 3, the PID of the child it did not wait for. -/
theorem waiting_parent_woken_by_other_child :
    other_child_exits =
      some (wait_result.blocks, ([2, 3], some ([3, 2], [], some 2, 0)), 3,
        ([2, 1], some ([2], [3], some 2, 3))) := by
  rfl

set_option maxRecDepth 100000 in
/-- C22: a wait on a zombie does not always return its PID.  When the only child, 2, has
exited, it is a zombie of the parent and off the list of its children, and `waitpid(2)`
returns `-ECHILD`.  When child 3 of two children has exited, `wait` frees the zombie and
blocks, whereas `waitpid(3)` returns 3. -/
theorem wait_on_zombie_child :
    wait_for_only_child =
      some (2, ([], some ([], [2], none, 0)), true, wait_result.returns (-ECHILD)) ∧
    wait_with_zombie (-1) =
      some (3, ([2], some ([2], [3], none, 0)), wait_result.blocks, false,
        ([2], some ([2], [], some 1, 0))) ∧
    wait_with_zombie 3 =
      some (3, ([2], some ([2], [3], none, 0)), wait_result.returns 3, false,
        ([2], some ([2], [], some 3, 0))) := by
  refine ⟨by rfl, by rfl, by rfl⟩

set_option maxRecDepth 100000 in
/-- C23: a clone that is freed again leaves two frames allocated.  With 16 free frames
before `task_clone`, 14 are free after it and still 14 after `task_free` of the child, whose
slot in the PID table is cleared: the root table of the child, frame 17, keeps its reference
and is not free, and frame 16, the root table `task_alloc` had set up before `task_clone`
replaced it, is not free either. -/
theorem clone_then_free_leaks_root_tables :
    clone_then_free = some (some 2, 16, 14, 14, false, some (17, 1, false)) := by
  rfl

/-- C24: a negative PID passes the only bound check of `pid2task`, `pid >= pid_max`, and the
PID table is read at the negative index: for every system, caller and negative PID,
`sys_kill` reads `tasks[pid]` outside the table. -/
theorem sys_kill_negative_pid_indexes_table (st : system) (cur n : Nat) :
    sys_kill st cur (-((n : Int) + 1)) = kill_result.outside (-((n : Int) + 1)) := by
  have h1 : ¬ (-((n : Int) + 1) = 0) := by omega
  have h2 : ¬ (-((n : Int) + 1) ≥ (st.pid_max : Int)) := by omega
  have h3 : -((n : Int) + 1) < 0 := by omega
  simp only [sys_kill, pid2task, if_neg h1, if_neg h2, if_pos h3]

/-! ## madvise -/

set_option maxRecDepth 100000 in
/-- C25: `madvise(addr, len, MADV_WILLNEED)` reaches the assertion of `populate_pte` and the
panic for a page without a VMA.  The task maps the page at 0x1000.  Both ranges pass
`check_permissions`.  After a write to the page has brought it in,
`madvise(0x1000, 0x1000, MADV_WILLNEED)` stops at the assertion that the entry is not
present; on the untouched page, `madvise(0x1000, 0x2000, MADV_WILLNEED)` stops at the panic
for the page at 0x2000, which no VMA covers; `madvise(0x1000, 0x1000, MADV_WILLNEED)` on the
untouched page returns 0. -/
theorem madvise_willneed_reaches_assertion :
    check_permissions 0x1000 0x1000 0 0 = 0 ∧ check_permissions 0x1000 0x2000 0 0 = 0 ∧
    madvise_after_mmap true 0x1000 = some (0x1000, 0, [(0x1000, 0x2000, 3)], true, none) ∧
    madvise_after_mmap false 0x2000 = some (0x1000, 0, [(0x1000, 0x2000, 3)], false, none) ∧
    madvise_after_mmap false 0x1000 =
      some (0x1000, 0, [(0x1000, 0x2000, 3)], false, some 0) := by
  refine ⟨by rfl, by rfl, by rfl, by rfl, by rfl⟩

/-! ## The run queue -/

/-- C27: the run queue hands out the task that was added last.  `queue_add_task` links a
task at the tail (`FAIR_SCHEDULER` is 0) and `queue_pop_task` takes the task at the tail:
for every queue and task, a pop right after an add returns that task and leaves the queue as
it was before; after the tasks 1, 2 and 3 are added to an empty queue in this order, three
pops return 3, 2 and 1. -/
theorem run_queue_pops_last_added :
    (∀ (jiffies : Nat → Nat) (q : List Nat) (t : Nat),
      queue_pop_task (queue_add_task jiffies q t) = (some t, q)) ∧
    (∀ jiffies : Nat → Nat,
      let q3 := queue_add_task jiffies (queue_add_task jiffies (queue_add_task jiffies [] 1) 2) 3
      queue_pop_task q3 = (some 3, [1, 2]) ∧
      queue_pop_task (queue_pop_task q3).2 = (some 2, [1]) ∧
      queue_pop_task (queue_pop_task (queue_pop_task q3).2).2 = (some 1, [])) := by
  constructor
  · intro jiffies q t
    simp [queue_pop_task, queue_add_task, FAIR_SCHEDULER, list_add_tail, list_pop_tail]
  · intro jiffies
    simp [queue_pop_task, queue_add_task, FAIR_SCHEDULER, list_add_tail, list_pop_tail]

/-! ## Swapping in -/

set_option maxRecDepth 100000 in
/-- C28: `swap_in` never returns 0 and never makes the entry present: the `return -1` behind
`if (ret < 0)` is not part of the `if`.  For every state, disk and entry the return value is
not 0.  On `swapped_state`, with a disk that is ready and whose read succeeds, `swap_in` on
the entry of the swapped page (0x15002: the disk address and `PAGE_WRITE`) returns -1, the
swap lock is still held, and the entry is unchanged. -/
theorem swap_in_returns_before_update :
    (∀ (s : kstate) (d : disk) (entry : Nat × Nat),
      (swap_in s d entry).map Prod.fst ≠ some 0) ∧
    swap_in_swapped_page = some (0x15002, -1, true, 0x15002) := by
  constructor
  · intro s d entry
    unfold swap_in
    cases h : page_alloc s ALLOC_ZERO with
    | none => simp
    | some r =>
      obtain ⟨p, s1⟩ := r
      cases p with
      | none => simp
      | some swap_page =>
        by_cases hr : ¬ d.ready = true
        · simp [hr, EAGAIN]
        · simp [hr]
  · rfl

/-! ## Empty VMAs -/

set_option maxRecDepth 100000 in
/-- C30: a VMA of size 0 is accepted, and a VMA of the same base can follow it on the list.
`mmap(0x1000, 0, PROT_READ, ...)` returns 0x1000 and `mmap(0x1000, 0x1000, PROT_READ |
PROT_WRITE, ...)` returns 0x1000; the list of the task then holds the VMAs [0x1000, 0x1000)
and [0x1000, 0x2000), in this order and as in the tree: two VMAs of the base 0x1000.  The
same two calls of `create_vma` on the empty task give the same list. -/
theorem empty_vma_shares_base :
    empty_then_page =
      some (0x1000, 0x1000, [(0x1000, 0x1000, 1), (0x1000, 0x2000, 3)], [1, 3], [1, 3]) ∧
    create_empty_then_page = [(0x1000, 0x1000, 1), (0x1000, 0x2000, 3)] := by
  refine ⟨by rfl, by rfl⟩

/-! ## The free memory the OOM and swap threads look at -/

/-- C35: `get_total_free_memory` returns the bytes of the blocks of the highest order only,
not the sum over the orders: it ends with `return free_memory`, the value of the last round
of its loop, where `total_free_memory` holds the sum.  With frame 2 as the only free frame
the sum over the orders is 4096 bytes, which is `count_total_free_pages() * PAGE_SIZE`, and
`get_total_free_memory` returns 0. -/
theorem get_total_free_memory_returns_last_order :
    (∀ s : kstate, get_total_free_memory s =
      (2 ^ (BUDDY_MAX_ORDER - 1) * (s.buddy_free_list (BUDDY_MAX_ORDER - 1)).length *
        PAGE_SIZE) % WORD) ∧
    summed_free_memory one_frame_state = 4096 ∧
    count_total_free_pages one_frame_state * PAGE_SIZE = 4096 ∧
    get_total_free_memory one_frame_state = 0 := by
  refine ⟨fun s => rfl, by rfl, by rfl, by rfl⟩

/-! ## Buddies on the free lists -/

theorem xor_eq_buddy_of (k q : Nat) (hq : 2 ^ k ∣ q) : q ^^^ 2 ^ k = buddy_of q k := by
  have he := two_pow_pos' k
  have key : ∀ m : Nat, (2 ^ k * 2 * m) ^^^ 2 ^ k = 2 ^ k * 2 * m + 2 ^ k := by
    intro m
    apply Nat.eq_of_testBit_eq
    intro i
    have e1 : 2 ^ k * 2 * m + 2 ^ k = 2 ^ k * (2 * m + 1) := by ring
    have e2 : 2 ^ k * 2 * m = 2 ^ k * (2 * m) := by ring
    rw [Nat.testBit_xor, e1, e2, Nat.testBit_mul_pow_two, Nat.testBit_mul_pow_two,
      Nat.testBit_two_pow]
    by_cases hik : k ≤ i
    · by_cases hik2 : k = i
      · subst hik2
        simp [Nat.testBit_zero]
        omega
      · have h1 : i - k = (i - k - 1) + 1 := by omega
        simp only [hik, decide_True, Bool.true_and, hik2, decide_False, Bool.xor_false]
        rw [h1, Nat.testBit_succ, Nat.testBit_succ]
        congr 1
        omega
    · have : ¬ k = i := by omega
      simp [hik, this]
  rcases buddy_cases (2 ^ k) q he hq with ⟨_, hd⟩ | ⟨h0, hle, hd⟩
  · rw [buddy_of_even k q hd]
    obtain ⟨m, rfl⟩ := hd
    exact key m
  · have hb : buddy_of q k = q - 2 ^ k := by unfold buddy_of; rw [if_neg h0]
    rw [hb]
    obtain ⟨m, hm⟩ := hd
    have hq2 : q = 2 ^ k * 2 * m + 2 ^ k := by omega
    have := key m
    rw [hq2, ← this, Nat.xor_assoc, Nat.xor_self, Nat.xor_zero, this]
    omega

/-- C32: in every state the allocator reaches from initialisation by `page_alloc` and by
`page_free` of frames that are in use, every block on the free list of an order `k` starts
at a frame index that is a multiple of `2^k`, and for `k < BUDDY_MAX_ORDER - 1` no two blocks
on the list of order `k` are buddies of each other: if `i` is on the list, `i XOR 2^k` is
not. -/
theorem free_lists_hold_no_buddies (s : kstate) (hr : reachable s) (k : Nat) :
    (∀ q ∈ s.buddy_free_list k, q % 2 ^ k = 0) ∧
    (k < BUDDY_MAX_ORDER - 1 →
      ∀ i ∈ s.buddy_free_list k, ∀ j ∈ s.buddy_free_list k, j ≠ i ^^^ 2 ^ k) := by
  obtain ⟨hinv, _⟩ := reachable_inv s hr
  constructor
  · intro q hq
    exact Nat.mod_eq_zero_of_dvd (hinv.align k q hq)
  · intro hk i hi j hj e
    have h1 : k + 1 < BUDDY_MAX_ORDER := by omega
    have h2 := hinv.nobuddy k i h1 hi
    rw [← xor_eq_buddy_of k i (hinv.align k i hi), ← e] at h2
    exact h2 hj

/-- With the frames 2 and 3 freed, which merge into one block of order 1, and for the order
0 and the order 1. -/
theorem free_lists_hold_no_buddies_witness :
    reachable two_frames_state ∧
    ((∀ q ∈ two_frames_state.buddy_free_list 1, q % 2 ^ 1 = 0) ∧
      ((1 : Nat) < BUDDY_MAX_ORDER - 1 →
        ∀ i ∈ two_frames_state.buddy_free_list 1, ∀ j ∈ two_frames_state.buddy_free_list 1,
          j ≠ i ^^^ 2 ^ 1)) ∧
    two_frames_state.buddy_free_list 1 = [2] ∧ two_frames_state.buddy_free_list 0 = [] :=
  ⟨two_frames_reachable, free_lists_hold_no_buddies two_frames_state two_frames_reachable 1,
    rfl, rfl⟩

/-! ## Reverse maps across a split, mapping and removing a page, swapping out, late exits -/

set_option maxRecDepth 100000 in
/-- C31: the reverse map does not stay complete across `split_vma`.  On `two_pages_touched`
the VMA [0x1000, 0x3000) of the task, VMA 1 with the reverse map 2, has both pages present;
frame 20 backs the page at 0x2000, its `rmap` is the reverse map 2, and `rmap_walk` on the
frame visits the two leaf entries of the VMA, the one of 0x2000 among them.  `split_vma` at
0x2000 returns the new right-hand VMA 3 = [0x2000, 0x3000), which `create_vma` gives the new
reverse map 4; the list of the reverse map 2 of the frame still holds VMA 1 alone, now
[0x1000, 0x2000), so `rmap_walk` on frame 20 visits the entry of 0x1000 only and no longer
the entry that names the frame. -/
theorem split_vma_leaves_rmap_behind :
    split_touched_vma =
      some (1, some 3, [(4096, 8192, 3), (8192, 12288, 3)], some 20, 2, 2, some 4, [1],
        some [(18, 1, 4096), (18, 2, 8192)], some [(18, 1, 4096)]) := by
  rfl

set_option maxRecDepth 100000 in
/-- C37: a non-present entry that holds a disk address equal to the physical address of the
victim trips the assertion of `update_pte_swap_out`.  On `two_pages_touched` the swap list
is [20, 19].  The first `swap_out` takes frame 19 to the disk address 0x14000: it returns 0,
the entry of 0x1000 becomes non-present with 0x14000 in its address field, the entry of
0x2000 is unchanged, and frame 19 is free with no reference.  The second `swap_out` takes
frame 20, whose physical address is 0x14000: the walk of its reverse map reaches the entry
of 0x1000, whose address field equals the address of the frame, and
`assert(*entry & PAGE_PRESENT)` fails.  This holds with `PAGE_MASK` the twelve low bits and
with `PAGE_MASK` the twelve low bits and `PAGE_NO_EXEC`. -/
theorem swap_out_asserts_on_disk_address :
    swap_out_twice (PAGE_SIZE - 1) =
      some ([20, 19], (0, [20], 0x14006, 0x8000000000014007, 0, true), none) ∧
    swap_out_twice (PAGE_NO_EXEC ||| (PAGE_SIZE - 1)) =
      some ([20, 19], (0, [20], 0x8000000000014006, 0x8000000000014007, 0, true), none) := by
  refine ⟨by rfl, by rfl⟩

set_option maxRecDepth 100000 in
/-- C40: a child that exits enqueues its parent although the parent no longer waits.  In
`exit_after_wakeup` the parent 1 blocks in `waitpid(3)`; child 3 exits, puts the parent on
the run queue and counts it in `nuser_tasks`, 3; the parent is taken from the run queue and
runs, its `task_wait` still set; child 2 exits and puts the running parent on the run queue
again, overwrites its return value with 2 and raises `nuser_tasks` to 4.  In
`exit_after_immediate_wait` child 3 has exited before `waitpid(3)`, which returns 3 at once
and leaves `task_wait` set; child 2 exits and puts the running parent on the run queue, with
`nuser_tasks` raised from 3 to 4. -/
theorem child_exit_enqueues_running_parent :
    exit_after_wakeup =
      some (wait_result.blocks, (2, [2, 3], some ([3, 2], [], some 3, 0)),
        3, (3, [2, 1], some ([2], [3], some 3, 3)),
        1, (3, [2], some ([2], [3], some 3, 3)),
        2, (4, [1], some ([], [2, 3], some 3, 2))) ∧
    exit_after_immediate_wait =
      some (wait_result.returns 3, (3, [2], some ([2], [], some 3, 0)),
        2, (4, [1], some ([], [2], some 3, 2))) := by
  refine ⟨by rfl, by rfl⟩

set_option maxRecDepth 100000 in
/-- C36: `get_page` returns a frame whose entry has `PAGE_ACCESSED` set.  On
`two_pages_touched` the swap list is [20, 19] and the task has accessed both pages.  With
the VMA of the task in one piece, `get_page` calls `check_clock` three times: the frames 19
and 20 are passed over, their entries lose `PAGE_ACCESSED`, and frame 19, the tail of the
list, is returned after the full round; two calls do not suffice.  With the VMA split at
0x2000, the reverse map of frame 20 lists the left-hand VMA alone, the walk of `check_clock`
does not reach the entry of 0x2000, and `get_page` returns frame 20 after two calls although
its entry has `PAGE_ACCESSED` set, and leaves the bit set. -/
theorem get_page_returns_accessed_frame :
    get_page_of_two false 3 = some (some 19, [20], 0x8000000000013007, 0x8000000000014007) ∧
    get_page_of_two false 2 = none ∧
    get_page_of_two true 2 = some (some 20, [19], 0x8000000000013007, 0x8000000000014027) ∧
    get_page_of_two true 1 = none := by
  refine ⟨by rfl, by rfl, by rfl, by rfl⟩

/-! ## The scheduler: the counter of the local run queue -/

@[simp] theorem cur_cpu_set_cpu (s : sched_state) (f : cpuinfo → cpuinfo) :
    cur_cpu (set_cpu s f) = f (cur_cpu s) := by
  simp [cur_cpu, set_cpu]

theorem same_frame_refl (s : sched_state) : same_frame s s :=
  ⟨fun _ _ => rfl, rfl, rfl, rfl, rfl, rfl, rfl⟩

theorem same_frame_trans {s s1 s2 : sched_state} (h1 : same_frame s s1)
    (h2 : same_frame s1 s2) : same_frame s s2 :=
  ⟨fun i hi => by rw [h2.others i (by rw [h1.this_cpu]; exact hi), h1.others i hi],
    by rw [h2.this_cpu, h1.this_cpu], by rw [h2.ncpus, h1.ncpus],
    by rw [h2.nuser_tasks, h1.nuser_tasks], by rw [h2.nkernel_tasks, h1.nkernel_tasks],
    by rw [h2.jiffies, h1.jiffies], by rw [h2.status, h1.status]⟩

theorem same_frame_set_cpu (s : sched_state) (f : cpuinfo → cpuinfo) :
    same_frame s (set_cpu s f) :=
  ⟨fun i hi => by simp [set_cpu, hi], rfl, rfl, rfl, rfl, rfl, rfl⟩

theorem same_frame_set_runq (s : sched_state) (q : List Nat) :
    same_frame s { s with runq := q } :=
  ⟨fun _ _ => rfl, rfl, rfl, rfl, rfl, rfl, rfl⟩

theorem queue_add_task_eq (j : Nat → Nat) (q : List Nat) (t : Nat) :
    queue_add_task j q t = q ++ [t] := by
  simp [queue_add_task, FAIR_SCHEDULER, list_add_tail]

theorem queue_pop_task_nil : queue_pop_task [] = (none, []) := rfl

theorem queue_pop_task_cons (q : List Nat) (h : q ≠ []) :
    ∃ t q', queue_pop_task q = (some t, q') ∧ q'.length + 1 = q.length ∧ q = q' ++ [t] := by
  have h1 : q.getLast? = some (q.getLast h) := List.getLast?_eq_getLast q h
  refine ⟨q.getLast h, q.dropLast, ?_, ?_, ?_⟩
  · simp [queue_pop_task, list_pop_tail, h1]
  · rw [List.length_dropLast]
    have : 0 < q.length := List.length_pos.mpr h
    omega
  · exact (List.dropLast_append_getLast h).symm

theorem queue_pop_task_some (q q' : List Nat) (t : Nat) (h : queue_pop_task q = (some t, q')) :
    q'.length + 1 = q.length ∧ q = q' ++ [t] := by
  by_cases hq : q = []
  · subst hq; simp [queue_pop_task, list_pop_tail] at h
  · obtain ⟨t2, q2, h2, h3, h4⟩ := queue_pop_task_cons q hq
    rw [h2] at h
    simp only [Prod.mk.injEq, Option.some.injEq] at h
    rw [← h.2, ← h.1]; exact ⟨h3, h4⟩

theorem queue_pop_task_none (q q' : List Nat) (h : queue_pop_task q = (none, q')) :
    q = [] ∧ q' = [] := by
  by_cases hq : q = []
  · subst hq; simp [queue_pop_task, list_pop_tail] at h; exact ⟨rfl, h⟩
  · obtain ⟨t2, q2, h2, _, _⟩ := queue_pop_task_cons q hq
    rw [h2] at h
    simp at h

theorem local_runq_len_set_inc (s : sched_state) (h : (cur_cpu s).runq_len + 1 < WORD) :
    local_runq_len_set INC s =
      some (set_cpu s fun c => { c with runq_len := c.runq_len + 1 }) := by
  have h1 : ((((cur_cpu s).runq_len : Int) + 1) % (WORD : Int)).toNat =
      (cur_cpu s).runq_len + 1 := by
    rw [Int.emod_eq_of_lt (by omega) (by exact_mod_cast h)]
    exact_mod_cast Int.toNat_natCast ((cur_cpu s).runq_len + 1)
  have h2 : (set_cpu s fun c => { c with runq_len := (((c.runq_len : Int) + INC) % WORD).toNat })
      = set_cpu s fun c => { c with runq_len := c.runq_len + 1 } := by
    unfold set_cpu
    congr 1
    funext i
    by_cases hi : i = s.this_cpu
    · subst hi
      simp only [if_true]
      have h3 := h1
      unfold cur_cpu at h3
      simp only [INC]
      rw [h3]
    · simp [hi]
  unfold local_runq_len_set
  simp only [h2]
  simp [INC, DEC]

theorem local_runq_len_set_dec (s : sched_state) (h1 : 1 ≤ (cur_cpu s).runq_len)
    (h : (cur_cpu s).runq_len ≤ WORD) :
    local_runq_len_set DEC s =
      some (set_cpu s fun c => { c with runq_len := c.runq_len - 1 }) := by
  have h4 : ((((cur_cpu s).runq_len : Int) + -1) % (WORD : Int)).toNat =
      (cur_cpu s).runq_len - 1 := by
    rw [Int.emod_eq_of_lt (by omega) (by omega)]
    omega
  have h2 : (set_cpu s fun c => { c with runq_len := (((c.runq_len : Int) + DEC) % WORD).toNat })
      = set_cpu s fun c => { c with runq_len := c.runq_len - 1 } := by
    unfold set_cpu
    congr 1
    funext i
    by_cases hi : i = s.this_cpu
    · subst hi
      simp only [if_true]
      have h3 := h4
      unfold cur_cpu at h3
      simp only [DEC]
      rw [h3]
    · simp [hi]
  unfold local_runq_len_set
  simp only [h2]
  have : ¬ (cur_cpu s).runq_len < 1 := by omega
  simp [this]

theorem local_runq_len_set_dec_none (s : sched_state) (h1 : (cur_cpu s).runq_len < 1) :
    local_runq_len_set DEC s = none := by
  unfold local_runq_len_set
  simp [h1]

theorem queues_shift_refl (tfc : Nat) (s : sched_state) : queues_shift tfc s s 0 0 :=
  ⟨same_frame_refl s, rfl, rfl, rfl, rfl, rfl, fun h => absurd h (by omega), le_max_left _ _,
    fun _ h => h⟩

theorem queues_shift_trans {tfc : Nat} {s s1 s2 : sched_state} {a1 b1 a2 b2 : Nat}
    (h1 : queues_shift tfc s s1 a1 b1) (h2 : queues_shift tfc s1 s2 a2 b2) :
    queues_shift tfc s s2 (a1 + a2) (b1 + b2) := by
  have hl1 := h1.local_len
  have hl2 := h2.local_len
  have hg1 := h1.global_len
  have hg2 := h2.global_len
  have hc1 := h1.counter
  have hc2 := h2.counter
  have hb1 := h1.bound
  have hb2 := h2.bound
  refine ⟨same_frame_trans h1.frame h2.frame, by rw [h2.nextq, h1.nextq],
    by rw [h2.cpu_task, h1.cpu_task], by omega, by omega, by omega, ?_, ?_,
    fun t ht => h1.pool t (h2.pool t ht)⟩
  · intro hb
    by_cases hb2p : 0 < b2
    · exact h2.share hb2p
    · have hb1p : 0 < b1 := by omega
      have := h1.share hb1p
      omega
  · rcases le_max_iff.mp hb2 with h | h
    · rcases le_max_iff.mp hb1 with h3 | h3
      · exact le_max_of_le_left (le_trans h h3)
      · exact le_max_of_le_right (le_trans h h3)
    · exact le_max_of_le_right h

theorem migrate_in_loop_shift (tfc : Nat) (htfc : tfc < WORD) :
    ∀ (fuel : Nat) (s s' : sched_state), migrate_in_loop tfc fuel s = some s' →
      ∃ a, queues_shift tfc s s' a 0 ∧
        ((cur_cpu s).runq_len < tfc → s.runq ≠ [] → 0 < a) := by
  intro fuel
  induction fuel with
  | zero => intro s s' h; simp [migrate_in_loop] at h
  | succ n ih =>
    intro s s' h
    unfold migrate_in_loop at h
    by_cases hr : (cur_cpu s).runq_len < tfc
    · simp only [hr, if_true] at h
      rcases hq : queue_pop_task s.runq with ⟨_ | t, q⟩
      · rw [hq] at h
        simp only [Option.some.injEq] at h
        subst h
        refine ⟨0, queues_shift_refl tfc s, fun _ hne => ?_⟩
        exact absurd (queue_pop_task_none _ _ hq).1 hne
      · rw [hq] at h
        simp only [] at h
        obtain ⟨hlen, happ⟩ := queue_pop_task_some _ _ _ hq
        have hinc := local_runq_len_set_inc
          (set_cpu { s with runq := q } fun c =>
            { c with runq := queue_add_task s.jiffies c.runq t })
          (by simp only [cur_cpu_set_cpu]; show (cur_cpu s).runq_len + 1 < WORD; omega)
        rw [hinc] at h
        simp only [Option.some_bind] at h
        obtain ⟨a, hs, _⟩ := ih _ _ h
        have h1 : queues_shift tfc s
            (set_cpu (set_cpu { s with runq := q } fun c =>
              { c with runq := queue_add_task s.jiffies c.runq t }) fun c =>
                { c with runq_len := c.runq_len + 1 }) 1 0 := by
          refine ⟨?_, ?_, ?_, ?_, ?_, ?_, fun hb => absurd hb (by omega), ?_, ?_⟩
          · exact same_frame_trans (same_frame_set_runq s q)
              (same_frame_trans (same_frame_set_cpu _ _) (same_frame_set_cpu _ _))
          · simp only [cur_cpu_set_cpu]; rfl
          · simp only [cur_cpu_set_cpu]; rfl
          · simp only [cur_cpu_set_cpu, queue_add_task_eq, List.length_append,
              List.length_singleton]; rfl
          · show q.length + 1 = s.runq.length + 0
            omega
          · simp only [cur_cpu_set_cpu]; rfl
          · simp only [cur_cpu_set_cpu]
            show (cur_cpu s).runq_len + 1 ≤ max (cur_cpu s).runq_len tfc
            exact le_max_of_le_right hr
          · intro x hx
            simp only [cur_cpu_set_cpu, queue_add_task_eq, List.mem_append,
              List.mem_singleton] at hx
            have hx2 : (x ∈ (cur_cpu s).runq ∨ x = t) ∨ x ∈ q := hx
            rw [happ]
            simp only [List.mem_append, List.mem_singleton]
            tauto
        have h2 := queues_shift_trans h1 hs
        refine ⟨1 + a, h2, fun _ _ => by omega⟩
    · simp only [hr, if_false, Option.some.injEq] at h
      subst h
      exact ⟨0, queues_shift_refl tfc s, fun h => absurd h hr⟩

theorem migrate_in_loop_returns (tfc : Nat) (htfc : tfc < WORD) :
    ∀ (fuel : Nat) (s : sched_state), s.runq.length < fuel →
      ∃ s', migrate_in_loop tfc fuel s = some s' := by
  intro fuel
  induction fuel with
  | zero => intro s h; omega
  | succ n ih =>
    intro s hf
    unfold migrate_in_loop
    by_cases hr : (cur_cpu s).runq_len < tfc
    · simp only [hr, if_true]
      rcases hq : queue_pop_task s.runq with ⟨_ | t, q⟩
      · exact ⟨s, rfl⟩
      · simp only []
        obtain ⟨hlen, _⟩ := queue_pop_task_some _ _ _ hq
        have hinc := local_runq_len_set_inc
          (set_cpu { s with runq := q } fun c =>
            { c with runq := queue_add_task s.jiffies c.runq t })
          (by simp only [cur_cpu_set_cpu]; show (cur_cpu s).runq_len + 1 < WORD; omega)
        rw [hinc]
        simp only [Option.some_bind]
        apply ih
        show q.length < n
        omega
    · simp only [hr, if_false]
      exact ⟨s, rfl⟩

theorem migrate_out_loop_shift (tfc : Nat) :
    ∀ (fuel : Nat) (s s' : sched_state), (cur_cpu s).runq_len ≤ WORD →
      migrate_out_loop tfc fuel s = some s' → ∃ b, queues_shift tfc s s' 0 b := by
  intro fuel
  induction fuel with
  | zero => intro s s' _ h; simp [migrate_out_loop] at h
  | succ n ih =>
    intro s s' hw h
    unfold migrate_out_loop at h
    by_cases hr : (cur_cpu s).runq_len > tfc
    · simp only [hr, if_true] at h
      rcases hq : queue_pop_task (cur_cpu s).runq with ⟨_ | t, q⟩
      · rw [hq] at h
        simp only [cur_cpu_set_cpu] at h
        split at h
        · exact absurd h (by simp)
        · cases hd : local_runq_len_set DEC (set_cpu s fun c => { c with runq := q }) with
          | none => rw [hd] at h; simp at h
          | some s2 => rw [hd] at h; simp at h
      · rw [hq] at h
        simp only [cur_cpu_set_cpu] at h
        obtain ⟨hlen, happ⟩ := queue_pop_task_some _ _ _ hq
        have h1r : 1 ≤ (cur_cpu s).runq_len := by omega
        have hge : ¬ ¬ (cur_cpu s).runq_len ≥ 1 := by omega
        simp only [hge, if_false] at h
        have hdec := local_runq_len_set_dec (set_cpu s fun c => { c with runq := q })
          (by simp only [cur_cpu_set_cpu]; exact h1r)
          (by simp only [cur_cpu_set_cpu]; exact hw)
        rw [hdec] at h
        simp only [Option.some_bind] at h
        obtain ⟨b, hs⟩ := ih _ _ (by
          show (cur_cpu _).runq_len ≤ WORD
          simp only [cur_cpu, set_cpu, if_true]
          have : (s.cpus s.this_cpu).runq_len ≤ WORD := hw
          omega) h
        have h1 : queues_shift tfc s
            { (set_cpu (set_cpu s fun c => { c with runq := q }) fun c =>
                { c with runq_len := c.runq_len - 1 }) with
              runq := queue_add_task
                (set_cpu (set_cpu s fun c => { c with runq := q }) fun c =>
                  { c with runq_len := c.runq_len - 1 }).jiffies
                (set_cpu (set_cpu s fun c => { c with runq := q }) fun c =>
                  { c with runq_len := c.runq_len - 1 }).runq t } 0 1 := by
          refine ⟨?_, ?_, ?_, ?_, ?_, ?_, fun _ => ?_, ?_, ?_⟩
          · exact same_frame_trans (same_frame_set_cpu _ _)
              (same_frame_trans (same_frame_set_cpu _ _) (same_frame_set_runq _ _))
          · simp [cur_cpu, set_cpu]
          · simp [cur_cpu, set_cpu]
          · simp only [cur_cpu, set_cpu, if_true]
            exact hlen
          · simp only [queue_add_task_eq, List.length_append, List.length_singleton]; rfl
          · simp only [cur_cpu, set_cpu, if_true]
            have : 1 ≤ (s.cpus s.this_cpu).runq_len := h1r
            omega
          · simp only [cur_cpu, set_cpu, if_true]
            have : (s.cpus s.this_cpu).runq_len > tfc := hr
            omega
          · simp only [cur_cpu, set_cpu, if_true]
            exact le_max_of_le_left (Nat.sub_le _ _)
          · intro x hx
            simp only [cur_cpu, set_cpu, if_true, queue_add_task_eq, List.mem_append,
              List.mem_singleton] at hx
            have happ2 : (s.cpus s.this_cpu).runq = q ++ [t] := happ
            simp only [cur_cpu]
            rw [happ2]
            simp only [List.mem_append, List.mem_singleton]
            tauto
        exact ⟨1 + b, queues_shift_trans h1 hs⟩
    · simp only [hr, if_false, Option.some.injEq] at h
      subst h
      exact ⟨0, queues_shift_refl tfc s⟩

theorem migrate_out_loop_returns (tfc : Nat) :
    ∀ (fuel : Nat) (s : sched_state), (cur_cpu s).runq.length < fuel →
      (cur_cpu s).runq_len ≤ (cur_cpu s).runq.length → (cur_cpu s).runq_len ≤ WORD →
      ∃ s', migrate_out_loop tfc fuel s = some s' := by
  intro fuel
  induction fuel with
  | zero => intro s h; omega
  | succ n ih =>
    intro s hf hle hw
    unfold migrate_out_loop
    by_cases hr : (cur_cpu s).runq_len > tfc
    · simp only [hr, if_true]
      have hne : (cur_cpu s).runq ≠ [] := by
        intro h0
        rw [h0] at hle
        simp at hle
        omega
      obtain ⟨t, q, hq, hlen, _⟩ := queue_pop_task_cons _ hne
      rw [hq]
      simp only [cur_cpu_set_cpu]
      have h1r : 1 ≤ (cur_cpu s).runq_len := by omega
      have hge : ¬ ¬ (cur_cpu s).runq_len ≥ 1 := by omega
      simp only [hge, if_false]
      have hdec := local_runq_len_set_dec (set_cpu s fun c => { c with runq := q })
        (by simp only [cur_cpu_set_cpu]; exact h1r)
        (by simp only [cur_cpu_set_cpu]; exact hw)
      rw [hdec]
      simp only [Option.some_bind]
      apply ih
      · simp only [cur_cpu, set_cpu, if_true]
        have : (s.cpus s.this_cpu).runq.length < n + 1 := hf
        have : q.length + 1 = (s.cpus s.this_cpu).runq.length := hlen
        omega
      · simp only [cur_cpu, set_cpu, if_true]
        have : (s.cpus s.this_cpu).runq_len ≤ (s.cpus s.this_cpu).runq.length := hle
        have : q.length + 1 = (s.cpus s.this_cpu).runq.length := hlen
        omega
      · simp only [cur_cpu, set_cpu, if_true]
        have : (s.cpus s.this_cpu).runq_len ≤ WORD := hw
        omega
    · simp only [hr, if_false]
      exact ⟨s, rfl⟩

theorem range_sum_update (g g' : Nat → Nat) (k : Nat) (h : ∀ i, i ≠ k → g' i = g i) :
    ∀ n, (n ≤ k → ((List.range n).map g').sum = ((List.range n).map g).sum) ∧
      (k < n → ((List.range n).map g').sum + g k = ((List.range n).map g).sum + g' k) := by
  intro n
  induction n with
  | zero => exact ⟨fun _ => rfl, fun h0 => absurd h0 (by omega)⟩
  | succ n ih =>
    simp only [List.range_succ, List.map_append, List.sum_append, List.map_cons, List.map_nil,
      List.sum_cons, List.sum_nil, Nat.add_zero]
    constructor
    · intro hn
      rw [ih.1 (by omega), h n (by omega)]
    · intro hn
      by_cases hk : k = n
      · subst hk
        rw [ih.1 (le_refl _)]
        omega
      · have := ih.2 (by omega)
        rw [h n (fun h0 => hk h0.symm)]
        omega

theorem sum_cpus_update (f : cpuinfo → Nat) (s s' : sched_state)
    (ho : ∀ i, i ≠ s.this_cpu → s'.cpus i = s.cpus i) (hn : s'.ncpus = s.ncpus)
    (ht : s.this_cpu < s.ncpus) :
    sum_cpus s' f + f (cur_cpu s) = sum_cpus s f + f (s'.cpus s.this_cpu) := by
  unfold sum_cpus
  rw [hn]
  exact (range_sum_update (fun i => f (s.cpus i)) (fun i => f (s'.cpus i)) s.this_cpu
    (fun i hi => by simp only [ho i hi]) s.ncpus).2 ht

theorem migrate_tasks_runq_shift (tfc : Nat) (htfc : tfc < WORD) (fuel : Nat)
    (s s' : sched_state) (hw : (cur_cpu s).runq_len ≤ WORD)
    (h : migrate_tasks_runq fuel tfc s = some s') :
    ∃ a b, queues_shift tfc s s' a b ∧ ((cur_cpu s).runq_len < tfc → s.runq ≠ [] → 0 < a) := by
  unfold migrate_tasks_runq at h
  cases h1 : migrate_in_loop tfc fuel s with
  | none => rw [h1] at h; simp at h
  | some s1 =>
    rw [h1] at h
    simp only [Option.some_bind] at h
    obtain ⟨a, hs1, ha⟩ := migrate_in_loop_shift tfc htfc fuel s s1 h1
    have hb1 := hs1.bound
    obtain ⟨b, hs2⟩ := migrate_out_loop_shift tfc fuel s1 s' (by
      rcases le_max_iff.mp hb1 with h3 | h3 <;> omega) h
    have := queues_shift_trans hs1 hs2
    exact ⟨a + 0, 0 + b, this, fun h5 h6 => by have := ha h5 h6; omega⟩

theorem migrate_tasks_runq_returns (tfc : Nat) (htfc : tfc < WORD) (fuel : Nat)
    (s : sched_state) (hw : (cur_cpu s).runq_len ≤ WORD)
    (hle : (cur_cpu s).runq_len ≤ (cur_cpu s).runq.length)
    (hf : (cur_cpu s).runq.length + s.runq.length < fuel) :
    ∃ s', migrate_tasks_runq fuel tfc s = some s' := by
  unfold migrate_tasks_runq
  obtain ⟨s1, h1⟩ := migrate_in_loop_returns tfc htfc fuel s (by omega)
  rw [h1]
  simp only [Option.some_bind]
  obtain ⟨a, hs1, _⟩ := migrate_in_loop_shift tfc htfc fuel s s1 h1
  have hb1 := hs1.bound
  have hl := hs1.local_len
  have hg := hs1.global_len
  have hc := hs1.counter
  exact migrate_out_loop_returns tfc fuel s1 (by omega) (by omega)
    (by rcases le_max_iff.mp hb1 with h3 | h3 <;> omega)

theorem move_nextq_to_runq_spec (s : sched_state) (h : (cur_cpu s).runq = []) :
    cur_cpu (move_nextq_to_runq s) =
        { cur_cpu s with runq := (cur_cpu s).nextq, nextq := [] } ∧
      same_frame s (move_nextq_to_runq s) ∧ (move_nextq_to_runq s).runq = s.runq := by
  unfold move_nextq_to_runq list_head
  cases hn : (cur_cpu s).nextq with
  | nil =>
    simp only [List.head?_nil]
    refine ⟨?_, same_frame_refl s, trivial⟩
    rcases hc : cur_cpu s with ⟨r, n, l, t⟩
    rw [hc] at h hn
    simp only at h hn
    subst h; subst hn
    rfl
  | cons x xs =>
    simp only [List.head?_cons]
    refine ⟨?_, same_frame_set_cpu _ _, rfl⟩
    simp only [cur_cpu_set_cpu, hn]

theorem task_run_runs (lim : Nat) (s s' : sched_state) (task : Nat)
    (h : task_run lim s task = some (sched_result.runs s')) :
    cur_cpu s' = { cur_cpu s with cpu_task := some task } ∧
      (∀ i, i ≠ s.this_cpu → s'.cpus i = s.cpus i) ∧ s'.this_cpu = s.this_cpu ∧
      s'.ncpus = s.ncpus ∧ s'.runq = s.runq ∧ s'.nuser_tasks = s.nuser_tasks ∧
      s'.nkernel_tasks = s.nkernel_tasks := by
  unfold task_run at h
  rcases hc : (cur_cpu s).cpu_task with _ | cur
  · simp only [hc] at h
    split at h
    · exact absurd h (by simp)
    · split at h
      · exact absurd h (by simp)
      · simp only [Option.some.injEq, sched_result.runs.injEq] at h
        subst h
        refine ⟨by simp [cur_cpu, set_cpu], fun i hi => by simp [set_cpu, hi], rfl, rfl, rfl,
          rfl, rfl⟩
  · simp only [hc] at h
    by_cases h1 : s.status cur = task_status.running
    · simp only [h1, if_true] at h
      split at h
      · exact absurd h (by simp)
      · split at h
        · exact absurd h (by simp)
        · simp only [Option.some.injEq, sched_result.runs.injEq] at h
          subst h
          refine ⟨by simp [cur_cpu, set_cpu], fun i hi => by simp [set_cpu, hi], rfl, rfl, rfl,
            rfl, rfl⟩
    · simp only [h1, if_false] at h
      by_cases h2 : s.status cur = task_status.dying ∨ s.status cur = task_status.not_runnable
      · simp only [h2, if_true] at h
        exact absurd h (by simp)
      · simp only [h2, if_false] at h
        split at h
        · exact absurd h (by simp)
        · split at h
          · exact absurd h (by simp)
          · simp only [Option.some.injEq, sched_result.runs.injEq] at h
            subst h
            refine ⟨by simp [cur_cpu, set_cpu], fun i hi => by simp [set_cpu, hi], rfl, rfl,
              rfl, rfl, rfl⟩

theorem try_run_next_task_empty (lim : Nat) (s : sched_state) (h : (cur_cpu s).runq = []) :
    try_run_next_task lim s = some none := by
  unfold try_run_next_task
  simp [h]

theorem try_run_next_task_pops (lim : Nat) (s : sched_state) (h : (cur_cpu s).runq ≠ [])
    (h1 : 1 ≤ (cur_cpu s).runq_len) (hw : (cur_cpu s).runq_len ≤ WORD) :
    ∃ task q, queue_pop_task (cur_cpu s).runq = (some task, q) ∧
      q.length + 1 = (cur_cpu s).runq.length ∧ task ∈ (cur_cpu s).runq ∧
      try_run_next_task lim s =
        (task_run lim (set_cpu (set_cpu s fun c => { c with runq := q }) fun c =>
          { c with runq_len := c.runq_len - 1 }) task).map some := by
  obtain ⟨t, q, hq, hlen, happ⟩ := queue_pop_task_cons _ h
  refine ⟨t, q, hq, hlen, by rw [happ]; simp, ?_⟩
  unfold try_run_next_task
  simp only [h, if_false, hq, cur_cpu_set_cpu]
  have hge : ¬ ¬ (cur_cpu s).runq_len ≥ 1 := by omega
  simp only [hge, if_false]
  rw [local_runq_len_set_dec (set_cpu s fun c => { c with runq := q })
    (by simp only [cur_cpu_set_cpu]; exact h1) (by simp only [cur_cpu_set_cpu]; exact hw)]
  rfl

theorem shift_keeps_counter {tfc : Nat} {s s' : sched_state} {a b : Nat}
    (h : queues_shift tfc s s' a b) (hc : (cur_cpu s).runq_len = (cur_cpu s).runq.length) :
    (cur_cpu s').runq_len = (cur_cpu s').runq.length := by
  have h1 := h.local_len
  have h2 := h.counter
  omega

theorem shift_keeps_task {tfc : Nat} {s s' : sched_state} {a b : Nat}
    (h : queues_shift tfc s s' a b) (hc : (cur_cpu s).runq_len = (cur_cpu s).runq.length)
    (ht : 0 < tfc) (hne : (cur_cpu s).runq ≠ []) : (cur_cpu s').runq ≠ [] := by
  have h1 := h.local_len
  have h2 := h.counter
  have h3 := h.share
  have h4 : 0 < (cur_cpu s).runq.length := List.length_pos.mpr hne
  apply List.length_pos.mp
  by_cases hb : 0 < b
  · have := h3 hb
    omega
  · omega

theorem migrate_tasks_spec (fgl : Option Bool) (lf tfc : Nat) (s s' : sched_state)
    (htfc : tfc < WORD) (hr : (cur_cpu s).runq = []) (hinv : runq_len_ok (cur_cpu s))
    (hw : (cur_cpu s).runq_len ≤ WORD) (h : migrate_tasks fgl lf tfc s = some s') :
    same_frame s s' ∧ (cur_cpu s').nextq = [] ∧
      (cur_cpu s').cpu_task = (cur_cpu s).cpu_task ∧
      (cur_cpu s').runq.length + s'.runq.length = (cur_cpu s).nextq.length + s.runq.length ∧
      (cur_cpu s').runq_len = (cur_cpu s').runq.length ∧
      (0 < tfc → (cur_cpu s).nextq ≠ [] → (cur_cpu s').runq ≠ []) ∧
      (0 < tfc → fgl ≠ some false → s.runq ≠ [] → (cur_cpu s').runq ≠ []) ∧
      (cur_cpu s').runq_len ≤ max (cur_cpu s).runq_len tfc := by
  obtain ⟨hc1, hf1, hg1⟩ := move_nextq_to_runq_spec s hr
  have hrl1 : (cur_cpu (move_nextq_to_runq s)).runq_len = (cur_cpu s).runq_len := by
    rw [hc1]
  have hq1 : (cur_cpu (move_nextq_to_runq s)).runq = (cur_cpu s).nextq := by rw [hc1]
  have hn1 : (cur_cpu (move_nextq_to_runq s)).nextq = [] := by rw [hc1]
  have ht1 : (cur_cpu (move_nextq_to_runq s)).cpu_task = (cur_cpu s).cpu_task := by rw [hc1]
  have hi : (cur_cpu s).runq_len = (cur_cpu s).nextq.length := by
    have := hinv
    unfold runq_len_ok at this
    rw [hr] at this
    simpa using this
  have hi1 : (cur_cpu (move_nextq_to_runq s)).runq_len =
      (cur_cpu (move_nextq_to_runq s)).runq.length := by rw [hrl1, hq1, hi]
  -- the case without a migration
  have stay : s' = move_nextq_to_runq s →
      (fgl ≠ some false → (cur_cpu s).runq_len = tfc) →
      same_frame s s' ∧ (cur_cpu s').nextq = [] ∧
      (cur_cpu s').cpu_task = (cur_cpu s).cpu_task ∧
      (cur_cpu s').runq.length + s'.runq.length = (cur_cpu s).nextq.length + s.runq.length ∧
      (cur_cpu s').runq_len = (cur_cpu s').runq.length ∧
      (0 < tfc → (cur_cpu s).nextq ≠ [] → (cur_cpu s').runq ≠ []) ∧
      (0 < tfc → fgl ≠ some false → s.runq ≠ [] → (cur_cpu s').runq ≠ []) ∧
      (cur_cpu s').runq_len ≤ max (cur_cpu s).runq_len tfc := by
    intro he hsame
    subst he
    refine ⟨hf1, hn1, ht1, by rw [hq1, hg1], hi1, fun _ hne => by rw [hq1]; exact hne,
      fun ht hl _ => ?_, by rw [hrl1]; exact le_max_left _ _⟩
    have := hsame hl
    apply List.length_pos.mp
    rw [hq1]
    omega
  -- the case with a migration
  have move : migrate_tasks_runq lf tfc (move_nextq_to_runq s) = some s' →
      same_frame s s' ∧ (cur_cpu s').nextq = [] ∧
      (cur_cpu s').cpu_task = (cur_cpu s).cpu_task ∧
      (cur_cpu s').runq.length + s'.runq.length = (cur_cpu s).nextq.length + s.runq.length ∧
      (cur_cpu s').runq_len = (cur_cpu s').runq.length ∧
      (0 < tfc → (cur_cpu s).nextq ≠ [] → (cur_cpu s').runq ≠ []) ∧
      (0 < tfc → fgl ≠ some false → s.runq ≠ [] → (cur_cpu s').runq ≠ []) ∧
      (cur_cpu s').runq_len ≤ max (cur_cpu s).runq_len tfc := by
    intro hm
    obtain ⟨a, b, hs, ha⟩ := migrate_tasks_runq_shift tfc htfc lf _ s' (by rw [hrl1]; exact hw) hm
    have hl := hs.local_len
    have hg := hs.global_len
    have hc := hs.counter
    have hsh := hs.share
    rw [hq1] at hl
    rw [hg1] at hg
    refine ⟨same_frame_trans hf1 hs.frame, by rw [hs.nextq, hn1], by rw [hs.cpu_task, ht1],
      by omega, shift_keeps_counter hs hi1,
      fun ht hne => shift_keeps_task hs hi1 ht (by rw [hq1]; exact hne),
      fun ht _ hne => ?_, by rw [← hrl1]; exact hs.bound⟩
    by_cases hlt : (cur_cpu (move_nextq_to_runq s)).runq_len < tfc
    · have hpos := ha hlt (by rw [hg1]; exact hne)
      have hk := shift_keeps_counter hs hi1
      apply List.length_pos.mp
      by_cases hb : 0 < b
      · have := hsh hb
        omega
      · omega
    · apply shift_keeps_task hs hi1 ht
      apply List.length_pos.mp
      rw [← hi1]
      omega
  unfold migrate_tasks at h
  cases fgl with
  | none =>
    simp only [BKL_migrate_tasks] at h
    by_cases hne : (cur_cpu (move_nextq_to_runq s)).runq_len ≠ tfc
    · rw [if_pos hne] at h
      exact move h
    · rw [if_neg hne] at h
      simp only [Option.some.injEq] at h
      exact stay h.symm (fun _ => by rw [← hrl1]; exact not_not.mp hne)
  | some trylock =>
    simp only [FGL_migrate_tasks] at h
    by_cases heq : (cur_cpu (move_nextq_to_runq s)).runq_len = tfc
    · simp only [heq, if_true, Option.some.injEq] at h
      exact stay h.symm (fun _ => by rw [← hrl1]; exact heq)
    · simp only [heq, if_false] at h
      cases trylock with
      | true =>
        simp only [if_true] at h
        exact move h
      | false =>
        simp only [Bool.false_eq_true, if_false, Option.some.injEq] at h
        exact stay h.symm (fun hl => absurd rfl hl)

theorem migrate_tasks_returns (fgl : Option Bool) (lf tfc : Nat) (s : sched_state)
    (htfc : tfc < WORD) (hr : (cur_cpu s).runq = []) (hinv : runq_len_ok (cur_cpu s))
    (hw : (cur_cpu s).runq_len ≤ WORD)
    (hf : (cur_cpu s).nextq.length + s.runq.length < lf) :
    ∃ s', migrate_tasks fgl lf tfc s = some s' := by
  obtain ⟨hc1, hf1, hg1⟩ := move_nextq_to_runq_spec s hr
  have hrl1 : (cur_cpu (move_nextq_to_runq s)).runq_len = (cur_cpu s).runq_len := by
    rw [hc1]
  have hq1 : (cur_cpu (move_nextq_to_runq s)).runq = (cur_cpu s).nextq := by rw [hc1]
  have hi : (cur_cpu s).runq_len = (cur_cpu s).nextq.length := by
    have := hinv
    unfold runq_len_ok at this
    rw [hr] at this
    simpa using this
  have hm := migrate_tasks_runq_returns tfc htfc lf (move_nextq_to_runq s)
    (by rw [hrl1]; exact hw) (by rw [hrl1, hq1, hi]) (by rw [hq1, hg1]; exact hf)
  unfold migrate_tasks
  cases fgl with
  | none =>
    simp only [BKL_migrate_tasks]
    split
    · exact hm
    · exact ⟨_, rfl⟩
  | some trylock =>
    simp only [FGL_migrate_tasks]
    split
    · exact ⟨_, rfl⟩
    · split
      · exact hm
      · exact ⟨_, rfl⟩

theorem move_cur_task_to_nextq_spec (lim : Nat) (s s1 : sched_state)
    (hw : (cur_cpu s).runq_len + 1 < WORD) (h : move_cur_task_to_nextq lim s = some s1) :
    same_frame s s1 ∧ s1.runq = s.runq ∧ (cur_cpu s1).runq = (cur_cpu s).runq ∧
      (cur_cpu s1).cpu_task = (cur_cpu s).cpu_task ∧
      (cur_cpu s1).nextq.length =
        (cur_cpu s).nextq.length + (if (cur_cpu s).cpu_task ≠ none then 1 else 0) ∧
      (cur_cpu s1).runq_len =
        (cur_cpu s).runq_len + (if (cur_cpu s).cpu_task ≠ none then 1 else 0) ∧
      ((cur_cpu s).cpu_task ≠ none → (cur_cpu s1).nextq ≠ []) ∧
      ((cur_cpu s).cpu_task = none → (cur_cpu s1).nextq = (cur_cpu s).nextq) := by
  unfold move_cur_task_to_nextq at h
  rcases hc : (cur_cpu s).cpu_task with _ | cur
  · simp only [hc, Option.some.injEq] at h
    subst h
    simp [hc, same_frame_refl]
  · simp only [hc] at h
    split at h
    · exact absurd h (by simp)
    · rw [local_runq_len_set_inc _ (by simp only [cur_cpu_set_cpu]; exact hw)] at h
      simp only [Option.some.injEq] at h
      subst h
      refine ⟨same_frame_trans (same_frame_set_cpu _ _) (same_frame_set_cpu _ _), rfl, ?_, ?_,
        ?_, ?_, ?_, ?_⟩
      · simp only [cur_cpu_set_cpu]
      · simp only [cur_cpu_set_cpu, hc]
      · simp [cur_cpu_set_cpu, queue_add_task_eq]
      · simp [cur_cpu_set_cpu]
      · intro _
        simp [cur_cpu_set_cpu, queue_add_task_eq]
      · intro h0
        exact absurd h0 (by simp)

theorem move_cur_task_to_nextq_returns (lim : Nat) (s : sched_state)
    (hw : (cur_cpu s).runq_len + 1 < WORD)
    (hp : ∀ cur, (cur_cpu s).cpu_task = some cur → 0 < cur ∧ cur ≤ lim) :
    ∃ s1, move_cur_task_to_nextq lim s = some s1 := by
  unfold move_cur_task_to_nextq
  rcases hc : (cur_cpu s).cpu_task with _ | cur
  · exact ⟨s, rfl⟩
  · simp only []
    have := hp cur hc
    have h2 : ¬ ¬ (cur > 0 ∧ cur ≤ lim) := not_not.mpr this
    rw [if_neg h2]
    rw [local_runq_len_set_inc _ (by simp only [cur_cpu_set_cpu]; exact hw)]
    exact ⟨_, rfl⟩

theorem task_foreach_cpu_pos (nuser ncpus : Nat) (h1 : 0 < nuser) (h2 : 0 < ncpus)
    (h3 : nuser + ncpus ≤ WORD) :
    0 < (nuser + (ncpus - 1)) % WORD / ncpus ∧ (nuser + (ncpus - 1)) % WORD / ncpus < WORD := by
  have h4 : (nuser + (ncpus - 1)) % WORD = nuser + (ncpus - 1) := Nat.mod_eq_of_lt (by omega)
  rw [h4]
  constructor
  · exact Nat.div_pos (by omega) h2
  · exact lt_of_le_of_lt (Nat.div_le_self _ _) (by omega)

/-- What a call of `sched_yield` that ends in a task has done on the CPU and the global run
queue. -/
theorem sched_yield_local (lim : Nat) (fgl : Option Bool) (lf : Nat) :
    ∀ (fuel : Nat) (s s' : sched_state), 0 < s.ncpus → runq_len_ok (cur_cpu s) →
      (cur_cpu s).runq_len + 1 < WORD → 0 < s.nuser_tasks → s.nuser_tasks + s.ncpus ≤ WORD →
      sched_yield lim fgl lf fuel s = some (sched_result.runs s') →
      (∀ i, i ≠ s.this_cpu → s'.cpus i = s.cpus i) ∧ s'.this_cpu = s.this_cpu ∧
        s'.ncpus = s.ncpus ∧ runq_len_ok (cur_cpu s') ∧ (cur_cpu s').cpu_task ≠ none ∧
        (cur_cpu s').runq.length + (cur_cpu s').nextq.length + 1 + s'.runq.length =
          (cur_cpu s).runq.length + (cur_cpu s).nextq.length +
            (if (cur_cpu s).cpu_task ≠ none then 1 else 0) + s.runq.length := by
  intro fuel
  induction fuel with
  | zero => intro s s' _ _ _ _ _ h; simp [sched_yield] at h
  | succ n ih =>
    intro s s' hn hinv hw hnu hnw h
    unfold sched_yield at h
    by_cases he : s.nuser_tasks = s.nkernel_tasks
    · rw [if_pos he] at h
      simp at h
    rw [if_neg he] at h
    cases hm : move_cur_task_to_nextq lim s with
    | none => rw [hm] at h; simp at h
    | some s1 =>
      rw [hm] at h
      simp only [Option.some_bind] at h
      obtain ⟨hf1, hg1, hq1, ht1, hnl1, hrl1, hne1, hsame1⟩ :=
        move_cur_task_to_nextq_spec lim s s1 hw hm
      obtain ⟨c, hc⟩ : ∃ c, c = (if (cur_cpu s).cpu_task ≠ none then 1 else 0) := ⟨_, rfl⟩
      rw [← hc] at hnl1 hrl1
      have hc1 : c ≤ 1 := by rw [hc]; split <;> omega
      have hinv0 : (cur_cpu s).runq_len = (cur_cpu s).runq.length + (cur_cpu s).nextq.length :=
        hinv
      have hinv1 : runq_len_ok (cur_cpu s1) := by
        unfold runq_len_ok
        rw [hrl1, hq1, hnl1]
        omega
      -- what a pop followed by `task_run` gives
      have pop : ∀ (s2 : sched_state), (cur_cpu s2).runq ≠ [] → runq_len_ok (cur_cpu s2) →
          (cur_cpu s2).runq_len ≤ WORD →
          try_run_next_task lim s2 = some (some (sched_result.runs s')) →
          (∀ i, i ≠ s2.this_cpu → s'.cpus i = s2.cpus i) ∧ s'.this_cpu = s2.this_cpu ∧
            s'.ncpus = s2.ncpus ∧ runq_len_ok (cur_cpu s') ∧ (cur_cpu s').cpu_task ≠ none ∧
            (cur_cpu s').runq.length + 1 = (cur_cpu s2).runq.length ∧
            (cur_cpu s').nextq = (cur_cpu s2).nextq ∧ s'.runq = s2.runq := by
        intro s2 hne hi2 hw2 htry
        have hi2n : (cur_cpu s2).runq_len = (cur_cpu s2).runq.length + (cur_cpu s2).nextq.length :=
          hi2
        have hpos : 0 < (cur_cpu s2).runq.length := List.length_pos.mpr hne
        obtain ⟨t, q, _, hlen, _, heq⟩ := try_run_next_task_pops lim s2 hne (by omega) hw2
        rw [heq] at htry
        cases htr : task_run lim (set_cpu (set_cpu s2 fun c => { c with runq := q }) fun c =>
            { c with runq_len := c.runq_len - 1 }) t with
        | none => rw [htr] at htry; simp at htry
        | some r =>
          rw [htr] at htry
          simp only [Option.map_some', Option.some.injEq] at htry
          subst htry
          obtain ⟨hcpu, hoth, hthis, hnc, hgr, _, _⟩ := task_run_runs _ _ _ _ htr
          simp only [cur_cpu_set_cpu] at hcpu
          refine ⟨fun i hi => ?_, hthis, hnc, ?_, ?_, ?_, ?_, hgr⟩
          · rw [hoth i hi]
            simp [set_cpu, hi]
          · unfold runq_len_ok
            rw [hcpu]
            simp only
            omega
          · rw [hcpu]; simp
          · rw [hcpu]; exact hlen
          · rw [hcpu]
      by_cases hq : (cur_cpu s1).runq = []
      · rw [try_run_next_task_empty lim s1 hq] at h
        simp only [Option.some_bind] at h
        have hn1 : s1.ncpus ≠ 0 := by rw [hf1.ncpus]; omega
        rw [if_neg hn1] at h
        obtain ⟨htp, htw⟩ := task_foreach_cpu_pos s1.nuser_tasks s1.ncpus
          (by rw [hf1.nuser_tasks]; exact hnu) (by rw [hf1.ncpus]; exact hn)
          (by rw [hf1.nuser_tasks, hf1.ncpus]; exact hnw)
        cases hmig : migrate_tasks fgl lf ((s1.nuser_tasks + (s1.ncpus - 1)) % WORD / s1.ncpus)
            s1 with
        | none => rw [hmig] at h; simp at h
        | some s2 =>
          rw [hmig] at h
          simp only [Option.some_bind] at h
          obtain ⟨hf2, hn2, ht2, hl2, hrl2, hkeep2, _, hb2⟩ :=
            migrate_tasks_spec fgl lf _ s1 s2 htw hq hinv1 (by omega) hmig
          have hinv2 : runq_len_ok (cur_cpu s2) := by
            unfold runq_len_ok
            rw [hrl2, hn2]
            simp
          have hle2 : (cur_cpu s2).runq_len ≤ WORD := by
            rcases le_max_iff.mp hb2 with h3 | h3
            · omega
            · omega
          have hq0 : (cur_cpu s).runq = [] := by rw [← hq1]; exact hq
          by_cases hq2 : (cur_cpu s2).runq = []
          · rw [try_run_next_task_empty lim s2 hq2] at h
            simp only [Option.some_bind] at h
            have hnil : (cur_cpu s1).nextq = [] := by
              by_contra hne
              exact hkeep2 htp hne hq2
            have hcn : (cur_cpu s).cpu_task = none := by
              by_contra hne
              exact hne1 hne hnil
            have hc0 : c = 0 := by rw [hc]; simp [hcn]
            have hw2 : (cur_cpu s2).runq_len + 1 < WORD := by
              rw [hrl2, hq2]
              simp [WORD]
            obtain ⟨ho, hth, hnc, hi', hct', hsum⟩ := ih s2 s'
              (by rw [hf2.ncpus, hf1.ncpus]; exact hn) hinv2 hw2
              (by rw [hf2.nuser_tasks, hf1.nuser_tasks]; exact hnu)
              (by rw [hf2.nuser_tasks, hf1.nuser_tasks, hf2.ncpus, hf1.ncpus]; exact hnw) h
            refine ⟨fun i hi => ?_, by rw [hth, hf2.this_cpu, hf1.this_cpu],
              by rw [hnc, hf2.ncpus, hf1.ncpus], hi', hct', ?_⟩
            · rw [ho i (by rw [hf2.this_cpu, hf1.this_cpu]; exact hi),
                hf2.others i (by rw [hf1.this_cpu]; exact hi), hf1.others i hi]
            · rw [ht2, ht1, hcn] at hsum
              simp only [ne_eq, not_true_eq_false, if_false] at hsum
              rw [← hc]
              have e1 : (cur_cpu s1).nextq.length = 0 := by rw [hnil]; rfl
              have e2 : (cur_cpu s2).runq.length = 0 := by rw [hq2]; rfl
              have e3 : (cur_cpu s2).nextq.length = 0 := by rw [hn2]; rfl
              have e4 : (cur_cpu s).runq.length = 0 := by rw [hq0]; rfl
              have e5 : s1.runq.length = s.runq.length := by rw [hg1]
              omega
          · cases hr2 : try_run_next_task lim s2 with
            | none => rw [hr2] at h; simp at h
            | some r2 =>
              rw [hr2] at h
              simp only [Option.some_bind] at h
              cases r2 with
              | none =>
                have hpos : 0 < (cur_cpu s2).runq.length := List.length_pos.mpr hq2
                have hi2n : (cur_cpu s2).runq_len =
                    (cur_cpu s2).runq.length + (cur_cpu s2).nextq.length := hinv2
                obtain ⟨t, q, _, _, _, heq⟩ :=
                  try_run_next_task_pops lim s2 hq2 (by omega) hle2
                rw [heq] at hr2
                cases htr : task_run lim (set_cpu (set_cpu s2 fun c => { c with runq := q })
                    fun c => { c with runq_len := c.runq_len - 1 }) t with
                | none => rw [htr] at hr2; simp at hr2
                | some r => rw [htr] at hr2; simp at hr2
              | some r =>
                simp only [Option.some.injEq] at h
                subst h
                obtain ⟨ho, hth, hnc, hi', hct', hlen', hnq', hg'⟩ :=
                  pop s2 hq2 hinv2 hle2 hr2
                refine ⟨fun i hi => ?_, by rw [hth, hf2.this_cpu, hf1.this_cpu],
                  by rw [hnc, hf2.ncpus, hf1.ncpus], hi', hct', ?_⟩
                · rw [ho i (by rw [hf2.this_cpu, hf1.this_cpu]; exact hi),
                    hf2.others i (by rw [hf1.this_cpu]; exact hi), hf1.others i hi]
                · rw [hnq', hn2, hg', hq0, ← hc]
                  simp only [List.length_nil]
                  rw [hg1] at hl2
                  omega
      · cases hr1 : try_run_next_task lim s1 with
        | none => rw [hr1] at h; simp at h
        | some r1 =>
          rw [hr1] at h
          simp only [Option.some_bind] at h
          cases r1 with
          | none =>
            have hpos : 0 < (cur_cpu s1).runq.length := List.length_pos.mpr hq
            have hi1n : (cur_cpu s1).runq_len =
                (cur_cpu s1).runq.length + (cur_cpu s1).nextq.length := hinv1
            obtain ⟨t, q, _, _, _, heq⟩ :=
              try_run_next_task_pops lim s1 hq (by omega) (by omega)
            rw [heq] at hr1
            cases htr : task_run lim (set_cpu (set_cpu s1 fun c => { c with runq := q })
                fun c => { c with runq_len := c.runq_len - 1 }) t with
            | none => rw [htr] at hr1; simp at hr1
            | some r => rw [htr] at hr1; simp at hr1
          | some r =>
            simp only [Option.some.injEq] at h
            subst h
            obtain ⟨ho, hth, hnc, hi', hct', hlen', hnq', hg'⟩ :=
              pop s1 hq hinv1 (by omega) hr1
            refine ⟨fun i hi => ?_, by rw [hth, hf1.this_cpu], by rw [hnc, hf1.ncpus], hi',
              hct', ?_⟩
            · rw [ho i (by rw [hf1.this_cpu]; exact hi), hf1.others i hi]
            · rw [hnq', hnl1, hg', hg1, ← hc]
              rw [hq1] at hlen'
              omega

theorem migrate_tasks_pool (fgl : Option Bool) (lf tfc : Nat) (s s' : sched_state)
    (htfc : tfc < WORD) (hr : (cur_cpu s).runq = []) (hw : (cur_cpu s).runq_len ≤ WORD)
    (h : migrate_tasks fgl lf tfc s = some s') :
    ∀ t, t ∈ (cur_cpu s').runq → t ∈ (cur_cpu s).nextq ∨ t ∈ s.runq := by
  obtain ⟨hc1, _, hg1⟩ := move_nextq_to_runq_spec s hr
  have hrl1 : (cur_cpu (move_nextq_to_runq s)).runq_len = (cur_cpu s).runq_len := by
    rw [hc1]
  have hq1 : (cur_cpu (move_nextq_to_runq s)).runq = (cur_cpu s).nextq := by rw [hc1]
  have stay : s' = move_nextq_to_runq s →
      ∀ t, t ∈ (cur_cpu s').runq → t ∈ (cur_cpu s).nextq ∨ t ∈ s.runq := by
    intro he t ht
    subst he
    rw [hq1] at ht
    exact Or.inl ht
  have move : migrate_tasks_runq lf tfc (move_nextq_to_runq s) = some s' →
      ∀ t, t ∈ (cur_cpu s').runq → t ∈ (cur_cpu s).nextq ∨ t ∈ s.runq := by
    intro hm t ht
    obtain ⟨a, b, hs, _⟩ := migrate_tasks_runq_shift tfc htfc lf _ s' (by rw [hrl1]; exact hw) hm
    have := hs.pool t (Or.inl ht)
    rw [hq1, hg1] at this
    exact this
  unfold migrate_tasks at h
  cases fgl with
  | none =>
    simp only [BKL_migrate_tasks] at h
    split at h
    · exact move h
    · simp only [Option.some.injEq] at h
      exact stay h.symm
  | some trylock =>
    simp only [FGL_migrate_tasks] at h
    split at h
    · simp only [Option.some.injEq] at h
      exact stay h.symm
    · split at h
      · exact move h
      · simp only [Option.some.injEq] at h
        exact stay h.symm

theorem move_cur_task_to_nextq_mem (lim : Nat) (s s1 : sched_state)
    (hw : (cur_cpu s).runq_len + 1 < WORD) (h : move_cur_task_to_nextq lim s = some s1) :
    ∀ t, t ∈ (cur_cpu s1).nextq → t ∈ (cur_cpu s).nextq ∨ (cur_cpu s).cpu_task = some t := by
  unfold move_cur_task_to_nextq at h
  rcases hc : (cur_cpu s).cpu_task with _ | cur
  · simp only [hc, Option.some.injEq] at h
    subst h
    exact fun t ht => Or.inl ht
  · simp only [hc] at h
    split at h
    · exact absurd h (by simp)
    · rw [local_runq_len_set_inc _ (by simp only [cur_cpu_set_cpu]; exact hw)] at h
      simp only [Option.some.injEq] at h
      subst h
      intro t ht
      simp only [cur_cpu_set_cpu, queue_add_task_eq, List.mem_append, List.mem_singleton] at ht
      rcases ht with ht | ht
      · exact Or.inl ht
      · exact Or.inr (by rw [ht])

theorem task_run_returns (lim : Nat) (s : sched_state) (task : Nat)
    (hst : ∀ t, s.status t = task_status.running ∨ s.status t = task_status.runnable)
    (hp : 0 < task ∧ task ≤ lim) :
    ∃ s', task_run lim s task = some (sched_result.runs s') := by
  have hnd : ∀ t, ¬ s.status t = task_status.dying := by
    intro t h
    rcases hst t with h1 | h1 <;> rw [h1] at h <;> cases h
  have hnn : ∀ t, ¬ s.status t = task_status.not_runnable := by
    intro t h
    rcases hst t with h1 | h1 <;> rw [h1] at h <;> cases h
  have hpp : ¬ ¬ (task > 0 ∧ task ≤ lim) := not_not.mpr hp
  unfold task_run
  rcases hc : (cur_cpu s).cpu_task with _ | cur
  · simp only []
    rw [if_neg (by simpa [set_cpu] using hnd task), if_neg hpp]
    exact ⟨_, rfl⟩
  · simp only []
    by_cases h1 : s.status cur = task_status.running
    · simp only [h1, if_true]
      have h2 : ¬ (if task = cur then task_status.runnable else s.status task) =
          task_status.dying := by
        split
        · intro h; cases h
        · exact hnd task
      rw [if_neg (by simpa [set_cpu] using h2), if_neg hpp]
      exact ⟨_, rfl⟩
    · simp only [h1, if_false]
      rw [if_neg (by simp [hnd cur, hnn cur])]
      simp only []
      rw [if_neg (by simpa [set_cpu] using hnd task), if_neg hpp]
      exact ⟨_, rfl⟩

theorem try_run_next_task_returns (lim : Nat) (s : sched_state) (h : (cur_cpu s).runq ≠ [])
    (h1 : 1 ≤ (cur_cpu s).runq_len) (hw : (cur_cpu s).runq_len ≤ WORD)
    (hst : ∀ t, s.status t = task_status.running ∨ s.status t = task_status.runnable)
    (hp : ∀ t, t ∈ (cur_cpu s).runq → 0 < t ∧ t ≤ lim) :
    ∃ s', try_run_next_task lim s = some (some (sched_result.runs s')) := by
  obtain ⟨t, q, _, _, hmem, heq⟩ := try_run_next_task_pops lim s h h1 hw
  obtain ⟨s', hs'⟩ := task_run_returns lim
    (set_cpu (set_cpu s fun c => { c with runq := q }) fun c =>
      { c with runq_len := c.runq_len - 1 }) t hst (hp t hmem)
  exact ⟨s', by rw [heq, hs']; rfl⟩

/-- With a task at hand, one call of `sched_yield` ends in a task. -/
theorem sched_yield_returns (lim : Nat) (fgl : Option Bool) (lf : Nat) (s : sched_state)
    (hn : 0 < s.ncpus) (hinv : runq_len_ok (cur_cpu s))
    (hw : (cur_cpu s).runq_len + 1 < WORD) (hnu : 0 < s.nuser_tasks)
    (hnw : s.nuser_tasks + s.ncpus ≤ WORD) (hne : s.nuser_tasks ≠ s.nkernel_tasks)
    (hst : ∀ t, s.status t = task_status.running ∨ s.status t = task_status.runnable)
    (hp : ∀ t, t ∈ (cur_cpu s).runq ∨ t ∈ (cur_cpu s).nextq ∨ t ∈ s.runq ∨
      (cur_cpu s).cpu_task = some t → 0 < t ∧ t ≤ lim)
    (hav : (cur_cpu s).cpu_task ≠ none ∨ (cur_cpu s).runq ≠ [] ∨ (cur_cpu s).nextq ≠ [] ∨
      (s.runq ≠ [] ∧ fgl ≠ some false))
    (hlf : (cur_cpu s).nextq.length + 1 + s.runq.length < lf) :
    ∃ s', sched_yield lim fgl lf 1 s = some (sched_result.runs s') := by
  unfold sched_yield
  rw [if_neg hne]
  obtain ⟨s1, hm⟩ := move_cur_task_to_nextq_returns lim s hw
    (fun cur hc => hp cur (Or.inr (Or.inr (Or.inr hc))))
  rw [hm]
  simp only [Option.some_bind]
  obtain ⟨hf1, hg1, hq1, ht1, hnl1, hrl1, hne1, hsame1⟩ :=
    move_cur_task_to_nextq_spec lim s s1 hw hm
  have hmem1 := move_cur_task_to_nextq_mem lim s s1 hw hm
  obtain ⟨c, hc⟩ : ∃ c, c = (if (cur_cpu s).cpu_task ≠ none then 1 else 0) := ⟨_, rfl⟩
  rw [← hc] at hnl1 hrl1
  have hc1 : c ≤ 1 := by rw [hc]; split <;> omega
  have hinv0 : (cur_cpu s).runq_len = (cur_cpu s).runq.length + (cur_cpu s).nextq.length :=
    hinv
  have hinv1 : runq_len_ok (cur_cpu s1) := by
    unfold runq_len_ok
    rw [hrl1, hq1, hnl1]
    omega
  have hinv1n : (cur_cpu s1).runq_len = (cur_cpu s1).runq.length + (cur_cpu s1).nextq.length :=
    hinv1
  by_cases hq : (cur_cpu s1).runq = []
  · rw [try_run_next_task_empty lim s1 hq]
    simp only [Option.some_bind]
    have hn1 : s1.ncpus ≠ 0 := by rw [hf1.ncpus]; omega
    rw [if_neg hn1]
    obtain ⟨htp, htw⟩ := task_foreach_cpu_pos s1.nuser_tasks s1.ncpus
      (by rw [hf1.nuser_tasks]; exact hnu) (by rw [hf1.ncpus]; exact hn)
      (by rw [hf1.nuser_tasks, hf1.ncpus]; exact hnw)
    obtain ⟨s2, hmig⟩ := migrate_tasks_returns fgl lf
      ((s1.nuser_tasks + (s1.ncpus - 1)) % WORD / s1.ncpus) s1 htw hq hinv1 (by omega)
      (by rw [hnl1, hg1]; omega)
    rw [hmig]
    simp only [Option.some_bind]
    obtain ⟨hf2, hn2, ht2, hl2, hrl2, hkeep2, hpull2, hb2⟩ :=
      migrate_tasks_spec fgl lf _ s1 s2 htw hq hinv1 (by omega) hmig
    have hpool2 := migrate_tasks_pool fgl lf _ s1 s2 htw hq (by omega) hmig
    have hle2 : (cur_cpu s2).runq_len ≤ WORD := by
      rcases le_max_iff.mp hb2 with h3 | h3
      · omega
      · omega
    have hq0 : (cur_cpu s).runq = [] := by rw [← hq1]; exact hq
    have hq2 : (cur_cpu s2).runq ≠ [] := by
      rcases hav with h | h | h | h
      · exact hkeep2 htp (hne1 h)
      · exact absurd hq0 h
      · apply hkeep2 htp
        apply List.length_pos.mp
        have := List.length_pos.mpr h
        omega
      · exact hpull2 htp h.2 (by rw [hg1]; exact h.1)
    have hpos : 0 < (cur_cpu s2).runq.length := List.length_pos.mpr hq2
    obtain ⟨s', hs'⟩ := try_run_next_task_returns lim s2 hq2 (by omega) hle2
      (by rw [hf2.status, hf1.status]; exact hst)
      (fun t ht => by
        rcases hpool2 t ht with h | h
        · rcases hmem1 t h with h3 | h3
          · exact hp t (Or.inr (Or.inl h3))
          · exact hp t (Or.inr (Or.inr (Or.inr h3)))
        · rw [hg1] at h
          exact hp t (Or.inr (Or.inr (Or.inl h))))
    rw [hs']
    exact ⟨s', rfl⟩
  · have hpos : 0 < (cur_cpu s1).runq.length := List.length_pos.mpr hq
    obtain ⟨s', hs'⟩ := try_run_next_task_returns lim s1 hq (by omega) (by omega)
      (by rw [hf1.status]; exact hst)
      (fun t ht => by rw [hq1] at ht; exact hp t (Or.inl ht))
    rw [hs']
    exact ⟨s', rfl⟩

/-- C39: on a CPU whose counter `runq_len` equals the number of tasks on its run queue and
its next queue, with the counter below the range of its type, every function of the
scheduler keeps the equality and leaves the other CPUs as they are.  `sched_init_mp`
establishes it.  `move_cur_task_to_nextq` returns with it whenever the PID of the current
task passes the assertion.  In `try_run_next_task` with a task on the run queue the pop gives
a task, the decrement does not underflow, and the equality holds when `task_run` is called and
when it has dropped into the task.  `move_nextq_to_runq` on an empty run queue makes the next
queue the run queue, in the same order, and empties the next queue.  `migrate_tasks_runq`
keeps the equality whenever it returns, and when the next queue is empty, as it is behind
`move_nextq_to_runq`, it returns: no pop gives `NULL` and no decrement underflows. -/
theorem runq_len_counts_both_queues (lim : Nat) (s : sched_state)
    (hinv : runq_len_ok (cur_cpu s)) (hw : (cur_cpu s).runq_len + 1 < WORD) :
    (∀ s0, runq_len_ok (cur_cpu (sched_init_mp s0)) ∧ same_frame s0 (sched_init_mp s0)) ∧
    ((∀ cur, (cur_cpu s).cpu_task = some cur → 0 < cur ∧ cur ≤ lim) →
      ∃ s', move_cur_task_to_nextq lim s = some s' ∧ runq_len_ok (cur_cpu s') ∧
        same_frame s s') ∧
    ((cur_cpu s).runq ≠ [] →
      ∃ task q s2, queue_pop_task (cur_cpu s).runq = (some task, q) ∧
        local_runq_len_set DEC (set_cpu s fun c => { c with runq := q }) = some s2 ∧
        runq_len_ok (cur_cpu s2) ∧ same_frame s s2 ∧
        try_run_next_task lim s = (task_run lim s2 task).map some ∧
        ∀ s', task_run lim s2 task = some (sched_result.runs s') →
          runq_len_ok (cur_cpu s') ∧ ∀ i, i ≠ s.this_cpu → s'.cpus i = s.cpus i) ∧
    ((cur_cpu s).runq = [] →
      (cur_cpu (move_nextq_to_runq s)).runq = (cur_cpu s).nextq ∧
        (cur_cpu (move_nextq_to_runq s)).nextq = [] ∧
        runq_len_ok (cur_cpu (move_nextq_to_runq s)) ∧
        same_frame s (move_nextq_to_runq s)) ∧
    (∀ tfc fuel, tfc < WORD →
      (∀ s', migrate_tasks_runq fuel tfc s = some s' →
        runq_len_ok (cur_cpu s') ∧ same_frame s s') ∧
      ((cur_cpu s).nextq = [] → (cur_cpu s).runq.length + s.runq.length < fuel →
        ∃ s', migrate_tasks_runq fuel tfc s = some s')) := by
  have hinv0 : (cur_cpu s).runq_len = (cur_cpu s).runq.length + (cur_cpu s).nextq.length :=
    hinv
  refine ⟨fun s0 => ⟨?_, same_frame_set_cpu _ _⟩, fun hp => ?_, fun hne => ?_, fun hq => ?_,
    fun tfc fuel htfc => ⟨fun s' h => ?_, fun hn hf => ?_⟩⟩
  · unfold sched_init_mp runq_len_ok
    simp only [cur_cpu_set_cpu, List.length_nil]
  · obtain ⟨s1, hm⟩ := move_cur_task_to_nextq_returns lim s hw hp
    obtain ⟨hf1, _, hq1, _, hnl1, hrl1, _, _⟩ := move_cur_task_to_nextq_spec lim s s1 hw hm
    refine ⟨s1, hm, ?_, hf1⟩
    unfold runq_len_ok
    rw [hrl1, hq1, hnl1]
    omega
  · have hpos : 0 < (cur_cpu s).runq.length := List.length_pos.mpr hne
    obtain ⟨t, q, hq, hlen, _, heq⟩ := try_run_next_task_pops lim s hne (by omega) (by omega)
    have hdec := local_runq_len_set_dec (set_cpu s fun c => { c with runq := q })
      (by simp only [cur_cpu_set_cpu]; omega) (by simp only [cur_cpu_set_cpu]; omega)
    have hi2 : runq_len_ok (cur_cpu (set_cpu (set_cpu s fun c => { c with runq := q })
        fun c => { c with runq_len := c.runq_len - 1 })) := by
      unfold runq_len_ok
      simp only [cur_cpu_set_cpu]
      omega
    refine ⟨t, q, _, hq, hdec, hi2, same_frame_trans (same_frame_set_cpu _ _)
      (same_frame_set_cpu _ _), heq, fun s' hr => ?_⟩
    obtain ⟨hcpu, hoth, _, _, _, _, _⟩ := task_run_runs _ _ _ _ hr
    constructor
    · have hi2n := hi2
      unfold runq_len_ok at hi2n ⊢
      rw [hcpu]
      exact hi2n
    · intro i hi
      rw [hoth i hi]
      simp [set_cpu, hi]
  · obtain ⟨hc1, hf1, _⟩ := move_nextq_to_runq_spec s hq
    refine ⟨by rw [hc1], by rw [hc1], ?_, hf1⟩
    unfold runq_len_ok
    rw [hc1]
    simp only [List.length_nil, Nat.add_zero]
    rw [hinv0, hq]
    simp
  · obtain ⟨a, b, hs, _⟩ := migrate_tasks_runq_shift tfc htfc fuel s s' (by omega) h
    have h1 := hs.local_len
    have h2 := hs.counter
    refine ⟨?_, hs.frame⟩
    unfold runq_len_ok
    rw [hs.nextq]
    omega
  · exact migrate_tasks_runq_returns tfc htfc fuel s (by omega)
      (by rw [hinv0, hn]; simp) hf

/-- On `booted_state`, where the CPU has no current task, `move_cur_task_to_nextq` returns
and `migrate_tasks_runq` with the share 2 returns, both with the counter equal to the number
of the tasks on the two local queues. -/
theorem runq_len_counts_both_queues_witness :
    (∃ s', move_cur_task_to_nextq 64 booted_state = some s' ∧ runq_len_ok (cur_cpu s') ∧
      same_frame booted_state s') ∧
    ∃ s', migrate_tasks_runq 8 2 booted_state = some s' ∧ runq_len_ok (cur_cpu s') :=
  ⟨(runq_len_counts_both_queues 64 booted_state (by decide) (by decide)).2.1
      (fun cur h => by simp [booted_state, cur_cpu] at h),
    (((runq_len_counts_both_queues 64 booted_state (by decide) (by decide)).2.2.2.2
        2 8 (by decide)).2 (by decide) (by decide)).elim
      fun s' h => ⟨s', h,
        (((runq_len_counts_both_queues 64 booted_state (by decide) (by decide)).2.2.2.2
          2 8 (by decide)).1 s' h).1⟩⟩

set_option maxRecDepth 100000 in
/-- C38, as stated: the quantity of the specification is not conserved by `sched_yield`,
because `runq_len` counts the tasks of the next queue as well.  On `booted_state` the first
`sched_yield` of CPU 0 pulls the tasks 4 and 3 from the global run queue and runs task 3; the
quantity is 4 before and after.  The second `sched_yield` puts task 3 on the next queue and
runs task 4: no task was created, destroyed, blocked or woken, the run queue is empty, the
next queue holds one task and `runq_len` is 1, and the quantity is 5.  The tasks on the
queues and the CPUs are 4 throughout. -/
theorem sched_yield_changes_counted_tasks :
    ((yields 1 booted_state).map fun s => (sched_view s, counted_tasks s, held_tasks s)) =
      some ((([4], [], 1, some 3), ([], [], 0, none), [1, 2]), 4, 4) ∧
    ((yields 2 booted_state).map fun s => (sched_view s, counted_tasks s, held_tasks s)) =
      some ((([], [3], 1, some 4), ([], [], 0, none), [1, 2]), 5, 4) := by
  refine ⟨by rfl, by rfl⟩

/-- C38, amended: with the length of the local run queue in place of `runq_len`, the sum
over the CPUs of the tasks on the run queue, on the next queue and the current task, plus the
length of the global run queue, is the same before `sched_yield` and after the next task has
been selected by `task_run`.  The CPU is one of the `ncpus` CPUs, its counter counts its two
queues, `nuser_tasks` is positive and differs from `nkernel_tasks`, every task is running or
runnable and has a PID within `PIDMAP_LIM`, and a task is at hand for the CPU: then one call
of `sched_yield` ends in a task, and whenever a call ends in a task the sum is as before. -/
theorem sched_yield_conserves_held_tasks (lim : Nat) (fgl : Option Bool) (lf : Nat)
    (s : sched_state) (ht : s.this_cpu < s.ncpus) (hinv : runq_len_ok (cur_cpu s))
    (hw : (cur_cpu s).runq_len + 1 < WORD) (hnu : 0 < s.nuser_tasks)
    (hnw : s.nuser_tasks + s.ncpus ≤ WORD) (hne : s.nuser_tasks ≠ s.nkernel_tasks)
    (hst : ∀ t, s.status t = task_status.running ∨ s.status t = task_status.runnable)
    (hp : ∀ t, t ∈ (cur_cpu s).runq ∨ t ∈ (cur_cpu s).nextq ∨ t ∈ s.runq ∨
      (cur_cpu s).cpu_task = some t → 0 < t ∧ t ≤ lim)
    (hav : (cur_cpu s).cpu_task ≠ none ∨ (cur_cpu s).runq ≠ [] ∨ (cur_cpu s).nextq ≠ [] ∨
      (s.runq ≠ [] ∧ fgl ≠ some false))
    (hlf : (cur_cpu s).nextq.length + 1 + s.runq.length < lf) :
    (∃ s', sched_yield lim fgl lf 1 s = some (sched_result.runs s')) ∧
    ∀ fuel s', sched_yield lim fgl lf fuel s = some (sched_result.runs s') →
      held_tasks s' = held_tasks s := by
  refine ⟨sched_yield_returns lim fgl lf s (by omega) hinv hw hnu hnw hne hst hp hav hlf,
    fun fuel s' h => ?_⟩
  obtain ⟨ho, hth, hnc, _, hct, hsum⟩ :=
    sched_yield_local lim fgl lf fuel s s' (by omega) hinv hw hnu hnw h
  have hu := sum_cpus_update
    (fun c => c.runq.length + c.nextq.length + if c.cpu_task ≠ none then 1 else 0) s s' ho hnc ht
  have hcur : s'.cpus s.this_cpu = cur_cpu s' := by
    unfold cur_cpu
    rw [hth]
  rw [hcur] at hu
  simp only [] at hu
  rw [if_pos hct] at hu
  unfold held_tasks
  omega

/-- On `booted_state` the first `sched_yield` of CPU 0 ends in a task, and the tasks on the
queues and the CPUs are as many as before. -/
theorem sched_yield_conserves_held_tasks_witness :
    (∃ s', sched_yield 64 none 8 1 booted_state = some (sched_result.runs s')) ∧
    ∀ fuel s', sched_yield 64 none 8 fuel booted_state = some (sched_result.runs s') →
      held_tasks s' = held_tasks booted_state :=
  sched_yield_conserves_held_tasks 64 none 8 booted_state (by decide) (by decide) (by decide)
    (by decide) (by decide) (by decide) (fun _ => Or.inr rfl)
    (fun t h => by
      simp only [booted_state, cur_cpu, List.not_mem_nil, false_or, List.mem_cons, or_false,
        reduceCtorEq] at h
      omega)
    (Or.inr (Or.inr (Or.inr ⟨by decide, by decide⟩))) (by decide)

/-! ## The walking loops visit every page once -/

theorem ptbl_next (a e : Nat) (ha : a < WORD) (hx : sign_extend a = a)
    (hh : e < USER_LIM ∨ USER_LIM ≤ a) (hew : e < WORD) :
    (¬ (sign_extend ((ptbl_end a + 1) % WORD) > e ∨
        sign_extend ((ptbl_end a + 1) % WORD) < a) ∧
      sign_extend ((ptbl_end a + 1) % WORD) = a / 4096 * 4096 + 4096 ∧
      a / 4096 * 4096 + 4096 ≤ e) ∨
    ((sign_extend ((ptbl_end a + 1) % WORD) > e ∨
        sign_extend ((ptbl_end a + 1) % WORD) < a) ∧ e < a / 4096 * 4096 + 4096) := by
  simp only [show WORD = 2 ^ 64 from rfl, show USER_LIM = 0x800000000000 from rfl]
    at ha hh hew ⊢
  have c0 := sign_extend_cases a ha
  rw [hx] at c0
  rw [ptbl_end_eq]
  have hle : a / 4096 * 4096 + 4096 ≤ 2 ^ 64 := by omega
  rcases Nat.eq_or_lt_of_le hle with hb | hb
  · have h0 : (a / 4096 * 4096 + (4096 - 1) + 1) % 2 ^ 64 = 0 := by omega
    rw [h0]
    have hs0 : sign_extend 0 = 0 := by decide
    rw [hs0]
    right
    omega
  · have h0 : (a / 4096 * 4096 + (4096 - 1) + 1) % 2 ^ 64 = a / 4096 * 4096 + 4096 := by
      omega
    rw [h0]
    have c1 := sign_extend_cases (a / 4096 * 4096 + 4096) hb
    generalize sign_extend (a / 4096 * 4096 + 4096) = n at *
    rcases c1 with ⟨c2, c3⟩ | ⟨c2, c3⟩
    · subst c3
      by_cases hc : a / 4096 * 4096 + 4096 ≤ e
      · left; omega
      · right; omega
    · rcases c0 with c0 | c0
      · have hb2 : a / 4096 * 4096 + 4096 = 0x800000000000 := by omega
        right
        omega
      · have hn : n = a / 4096 * 4096 + 4096 := by omega
        subst hn
        by_cases hc : a / 4096 * 4096 + 4096 ≤ e
        · left; omega
        · right; omega

theorem pdir_next (a e : Nat) (ha : a < WORD) (hx : sign_extend a = a)
    (hh : e < USER_LIM ∨ USER_LIM ≤ a) (hew : e < WORD) :
    (¬ (sign_extend ((pdir_end a + 1) % WORD) > e ∨
        sign_extend ((pdir_end a + 1) % WORD) < a) ∧
      sign_extend ((pdir_end a + 1) % WORD) = a / 0x200000 * 0x200000 + 0x200000 ∧
      a / 0x200000 * 0x200000 + 0x200000 ≤ e) ∨
    ((sign_extend ((pdir_end a + 1) % WORD) > e ∨
        sign_extend ((pdir_end a + 1) % WORD) < a) ∧ e < a / 0x200000 * 0x200000 + 0x200000) := by
  simp only [show WORD = 2 ^ 64 from rfl, show USER_LIM = 0x800000000000 from rfl]
    at ha hh hew ⊢
  have c0 := sign_extend_cases a ha
  rw [hx] at c0
  rw [pdir_end_eq]
  have hle : a / 0x200000 * 0x200000 + 0x200000 ≤ 2 ^ 64 := by omega
  rcases Nat.eq_or_lt_of_le hle with hb | hb
  · have h0 : (a / 0x200000 * 0x200000 + (0x200000 - 1) + 1) % 2 ^ 64 = 0 := by omega
    rw [h0]
    have hs0 : sign_extend 0 = 0 := by decide
    rw [hs0]
    right
    omega
  · have h0 : (a / 0x200000 * 0x200000 + (0x200000 - 1) + 1) % 2 ^ 64 = a / 0x200000 * 0x200000 + 0x200000 := by
      omega
    rw [h0]
    have c1 := sign_extend_cases (a / 0x200000 * 0x200000 + 0x200000) hb
    generalize sign_extend (a / 0x200000 * 0x200000 + 0x200000) = n at *
    rcases c1 with ⟨c2, c3⟩ | ⟨c2, c3⟩
    · subst c3
      by_cases hc : a / 0x200000 * 0x200000 + 0x200000 ≤ e
      · left; omega
      · right; omega
    · rcases c0 with c0 | c0
      · have hb2 : a / 0x200000 * 0x200000 + 0x200000 = 0x800000000000 := by omega
        right
        omega
      · have hn : n = a / 0x200000 * 0x200000 + 0x200000 := by omega
        subst hn
        by_cases hc : a / 0x200000 * 0x200000 + 0x200000 ≤ e
        · left; omega
        · right; omega

theorem pdpt_next (a e : Nat) (ha : a < WORD) (hx : sign_extend a = a)
    (hh : e < USER_LIM ∨ USER_LIM ≤ a) (hew : e < WORD) :
    (¬ (sign_extend ((pdpt_end a + 1) % WORD) > e ∨
        sign_extend ((pdpt_end a + 1) % WORD) < a) ∧
      sign_extend ((pdpt_end a + 1) % WORD) = a / 0x40000000 * 0x40000000 + 0x40000000 ∧
      a / 0x40000000 * 0x40000000 + 0x40000000 ≤ e) ∨
    ((sign_extend ((pdpt_end a + 1) % WORD) > e ∨
        sign_extend ((pdpt_end a + 1) % WORD) < a) ∧ e < a / 0x40000000 * 0x40000000 + 0x40000000) := by
  simp only [show WORD = 2 ^ 64 from rfl, show USER_LIM = 0x800000000000 from rfl]
    at ha hh hew ⊢
  have c0 := sign_extend_cases a ha
  rw [hx] at c0
  rw [pdpt_end_eq]
  have hle : a / 0x40000000 * 0x40000000 + 0x40000000 ≤ 2 ^ 64 := by omega
  rcases Nat.eq_or_lt_of_le hle with hb | hb
  · have h0 : (a / 0x40000000 * 0x40000000 + (0x40000000 - 1) + 1) % 2 ^ 64 = 0 := by omega
    rw [h0]
    have hs0 : sign_extend 0 = 0 := by decide
    rw [hs0]
    right
    omega
  · have h0 : (a / 0x40000000 * 0x40000000 + (0x40000000 - 1) + 1) % 2 ^ 64 = a / 0x40000000 * 0x40000000 + 0x40000000 := by
      omega
    rw [h0]
    have c1 := sign_extend_cases (a / 0x40000000 * 0x40000000 + 0x40000000) hb
    generalize sign_extend (a / 0x40000000 * 0x40000000 + 0x40000000) = n at *
    rcases c1 with ⟨c2, c3⟩ | ⟨c2, c3⟩
    · subst c3
      by_cases hc : a / 0x40000000 * 0x40000000 + 0x40000000 ≤ e
      · left; omega
      · right; omega
    · rcases c0 with c0 | c0
      · have hb2 : a / 0x40000000 * 0x40000000 + 0x40000000 = 0x800000000000 := by omega
        right
        omega
      · have hn : n = a / 0x40000000 * 0x40000000 + 0x40000000 := by omega
        subst hn
        by_cases hc : a / 0x40000000 * 0x40000000 + 0x40000000 ≤ e
        · left; omega
        · right; omega

theorem pml4_next (a e : Nat) (ha : a < WORD) (hx : sign_extend a = a)
    (hh : e < USER_LIM ∨ USER_LIM ≤ a) (hew : e < WORD) :
    (¬ (sign_extend ((pml4_end a + 1) % WORD) > e ∨
        sign_extend ((pml4_end a + 1) % WORD) < a) ∧
      sign_extend ((pml4_end a + 1) % WORD) = a / 0x8000000000 * 0x8000000000 + 0x8000000000 ∧
      a / 0x8000000000 * 0x8000000000 + 0x8000000000 ≤ e) ∨
    ((sign_extend ((pml4_end a + 1) % WORD) > e ∨
        sign_extend ((pml4_end a + 1) % WORD) < a) ∧ e < a / 0x8000000000 * 0x8000000000 + 0x8000000000) := by
  simp only [show WORD = 2 ^ 64 from rfl, show USER_LIM = 0x800000000000 from rfl]
    at ha hh hew ⊢
  have c0 := sign_extend_cases a ha
  rw [hx] at c0
  rw [pml4_end_eq]
  have hle : a / 0x8000000000 * 0x8000000000 + 0x8000000000 ≤ 2 ^ 64 := by omega
  rcases Nat.eq_or_lt_of_le hle with hb | hb
  · have h0 : (a / 0x8000000000 * 0x8000000000 + (0x8000000000 - 1) + 1) % 2 ^ 64 = 0 := by omega
    rw [h0]
    have hs0 : sign_extend 0 = 0 := by decide
    rw [hs0]
    right
    omega
  · have h0 : (a / 0x8000000000 * 0x8000000000 + (0x8000000000 - 1) + 1) % 2 ^ 64 = a / 0x8000000000 * 0x8000000000 + 0x8000000000 := by
      omega
    rw [h0]
    have c1 := sign_extend_cases (a / 0x8000000000 * 0x8000000000 + 0x8000000000) hb
    generalize sign_extend (a / 0x8000000000 * 0x8000000000 + 0x8000000000) = n at *
    rcases c1 with ⟨c2, c3⟩ | ⟨c2, c3⟩
    · subst c3
      by_cases hc : a / 0x8000000000 * 0x8000000000 + 0x8000000000 ≤ e
      · left; omega
      · right; omega
    · rcases c0 with c0 | c0
      · have hb2 : a / 0x8000000000 * 0x8000000000 + 0x8000000000 = 0x800000000000 := by omega
        right
        omega
      · have hn : n = a / 0x8000000000 * 0x8000000000 + 0x8000000000 := by omega
        subst hn
        by_cases hc : a / 0x8000000000 * 0x8000000000 + 0x8000000000 ≤ e
        · left; omega
        · right; omega

theorem span_pages_nil (a e : Nat) (h : e ≤ a) : span_pages a e = [] := by
  unfold span_pages PAGE_SIZE
  have : (e + 4 - a) / 4096 = 0 := by omega
  rw [this]
  rfl

theorem span_pages_one (a e : Nat) (h1 : a + 4092 ≤ e) (h2 : e < a + 4096) :
    span_pages a e = [a] := by
  unfold span_pages PAGE_SIZE
  have : (e + 4 - a) / 4096 = 1 := by omega
  rw [this]
  rfl

theorem span_pages_cons (a e : Nat) (h : a + 4096 ≤ e) :
    span_pages a e = a :: span_pages (a + 4096) e := by
  unfold span_pages PAGE_SIZE
  have : (e + 4 - a) / 4096 = (e + 4 - (a + 4096)) / 4096 + 1 := by omega
  rw [this, List.range_succ_eq_map]
  simp only [List.map_cons, List.map_map, Nat.zero_mul, Nat.add_zero]
  congr 1
  apply List.map_congr_left
  intro i _
  simp only [Function.comp]
  rw [Nat.succ_mul]
  omega

theorem span_pages_append (a b e : Nat) (hab : a ≤ b) (hb : 0 < b)
    (hd : (b - a) % 4096 = 0) (hbe : b ≤ e + 4) :
    span_pages a e = span_pages a (b - 1) ++ span_pages b e := by
  unfold span_pages PAGE_SIZE
  have h1 : (e + 4 - a) / 4096 = (b - 1 + 4 - a) / 4096 + (e + 4 - b) / 4096 := by omega
  have h2 : (b - 1 + 4 - a) / 4096 * 4096 = b - a := by omega
  rw [h1, List.range_add, List.map_append, List.map_map]
  congr 1
  apply List.map_congr_left
  intro i _
  simp only [Function.comp]
  rw [Nat.add_mul, h2]
  omega

theorem span_pages_shrink (a e : Nat) (ha : a % 4096 = 0) (he : 4093 ≤ e % 4096) :
    span_pages a (e - 1) = span_pages a e := by
  unfold span_pages PAGE_SIZE
  have : (e - 1 + 4 - a) / 4096 = (e + 4 - a) / 4096 := by omega
  rw [this]

theorem mem_span_pages (a e p : Nat) (h : p ∈ span_pages a e) :
    a ≤ p ∧ p + 4092 ≤ e ∧ (p - a) % 4096 = 0 := by
  unfold span_pages PAGE_SIZE at h
  simp only [List.mem_map, List.mem_range] at h
  obtain ⟨i, hi, hp⟩ := h
  subst hp
  have h1 : i + 1 ≤ (e + 4 - a) / 4096 := hi
  have h2 : (i + 1) * 4096 ≤ e + 4 - a := (Nat.le_div_iff_mul_le (by norm_num)).mp h1
  rw [Nat.succ_mul] at h2
  refine ⟨by omega, by omega, ?_⟩
  have : a + i * 4096 - a = i * 4096 := by omega
  rw [this]
  exact Nat.mul_mod_left i 4096

theorem and_then_nonneg {υ : Type} (x : walk_result υ) (rest : υ → kstate → walk_result υ)
    (r : Int) (u : υ) (s : kstate) (h : and_then x rest = some (r, u, s)) (hr : 0 ≤ r) :
    ∃ r1 u1 s1, x = some (r1, u1, s1) ∧ 0 ≤ r1 ∧ rest u1 s1 = some (r, u, s) := by
  cases x with
  | none => simp [and_then] at h
  | some v =>
    obtain ⟨r1, u1, s1⟩ := v
    simp only [and_then] at h
    by_cases hneg : r1 < 0
    · rw [if_pos hneg] at h
      simp only [Option.some.injEq, Prod.mk.injEq] at h
      omega
    · rw [if_neg hneg] at h
      exact ⟨r1, u1, s1, rfl, by omega, h⟩

theorem call_cb_log {υ : Type} (log : υ → List (Nat × Nat × Nat))
    (cb : Option (pt_callback υ))
    (h : ∀ f, cb = some f → ∀ tbl idx b e u s r u1 s1,
      f tbl idx b e u s = some (r, u1, s1) → log u1 = log u)
    (tbl idx b e : Nat) (u : υ) (s : kstate) (r : Int) (u1 : υ) (s1 : kstate)
    (hc : call_cb cb tbl idx b e u s = some (r, u1, s1)) : log u1 = log u := by
  cases cb with
  | none =>
    simp only [call_cb, Option.some.injEq, Prod.mk.injEq] at hc
    rw [← hc.2.1]
  | some f => exact h f rfl tbl idx b e u s r u1 s1 hc

theorem call_hole_log {υ : Type} (log : υ → List (Nat × Nat × Nat))
    (cb : Option (hole_callback υ))
    (h : ∀ f, cb = some f → ∀ b e u s r u1 s1, f b e u s = some (r, u1, s1) → log u1 = log u)
    (b e : Nat) (u : υ) (s : kstate) (r : Int) (u1 : υ) (s1 : kstate)
    (hc : call_hole cb b e u s = some (r, u1, s1)) : log u1 = log u := by
  cases cb with
  | none =>
    simp only [call_hole, Option.some.injEq, Prod.mk.injEq] at hc
    rw [← hc.2.1]
  | some f => exact h f rfl b e u s r u1 s1 hc

theorem call_pte_log {υ : Type} (log : υ → List (Nat × Nat × Nat)) (w : page_walker υ)
    (hrec : records log w) (tbl idx b e : Nat) (u : υ) (s : kstate) (r : Int) (u1 : υ)
    (s1 : kstate) (hc : call_cb w.pte_callback tbl idx b e u s = some (r, u1, s1)) :
    log u1 = log u ++ [(tbl, idx, b)] := by
  obtain ⟨f, hf, hlog⟩ := hrec.1
  rw [hf] at hc
  exact hlog tbl idx b e u s r u1 s1 hc

/-- The loop of `ptbl_walk_range` calls the leaf callback once on the entry of each page from
`a` to `e`, in ascending order. -/
theorem ptbl_walk_loop_log {υ : Type} (log : υ → List (Nat × Nat × Nat)) (w : page_walker υ)
    (hrec : records log w) (ptbl e : Nat) (he : 4092 ≤ e % 4096) (hew : e < WORD) :
    ∀ (fuel a : Nat) (u : υ) (s : kstate) (r : Int) (u1 : υ) (s1 : kstate),
      a % 4096 = 0 → a < WORD → sign_extend a = a → (e < USER_LIM ∨ USER_LIM ≤ a) →
      ptbl_walk_loop w ptbl e fuel a a u s = some (r, u1, s1) → 0 ≤ r →
      log u1 = log u ++ (span_pages a e).map fun p => (ptbl, PAGE_TABLE_INDEX p, p) := by
  intro fuel
  induction fuel with
  | zero => intro a u s r u1 s1 _ _ _ _ h; simp [ptbl_walk_loop] at h
  | succ n ih =>
    intro a u s r u1 s1 ha haw hx hh h hr
    rw [ptbl_walk_loop] at h
    by_cases hc : ¬ a < e
    · rw [if_pos hc] at h
      simp only [Option.some.injEq, Prod.mk.injEq] at h
      rw [span_pages_nil a e (by omega), ← h.2.1]
      simp
    · rw [if_neg hc] at h
      simp only at h
      have hae : a < e := not_not.mp hc
      have hstep : ∀ next2, (next2 = e ∧ e < a + 4096 ∨
            next2 = a + 4096 ∧ a + 4096 ≤ e ∧ sign_extend (a + 4096) = a + 4096) →
          and_then (call_cb w.pte_callback ptbl (PAGE_TABLE_INDEX a) a (next2 - 1) u s)
            (fun u1 s1 =>
              and_then
                (if s1.mem ptbl (PAGE_TABLE_INDEX a) &&& PAGE_PRESENT ≠ 0 then
                  call_cb w.pte_unmap ptbl (PAGE_TABLE_INDEX a) a (next2 - 1) u1 s1
                else call_hole w.pt_hole_callback a (next2 - 1) u1 s1)
                fun u2 s2 => ptbl_walk_loop w ptbl e n next2 next2 u2 s2) =
            some (r, u1, s1) →
          log u1 = log u ++ (span_pages a e).map fun p => (ptbl, PAGE_TABLE_INDEX p, p) := by
        intro next2 hn2 h
        obtain ⟨r1, u2, s2, h1, _, h2⟩ := and_then_nonneg _ _ _ _ _ h hr
        obtain ⟨r3, u3, s3, h3, _, h4⟩ := and_then_nonneg _ _ _ _ _ h2 hr
        have l1 := call_pte_log log w hrec _ _ _ _ _ _ _ _ _ h1
        have l2 : log u3 = log u2 := by
          by_cases hp : s2.mem ptbl (PAGE_TABLE_INDEX a) &&& PAGE_PRESENT ≠ 0
          · rw [if_pos hp] at h3
            exact call_cb_log log _
              (fun f hf => hrec.2.1 f (Or.inr (Or.inr (Or.inr (Or.inl hf))))) _ _ _ _ _ _ _ _ _
              h3
          · rw [if_neg hp] at h3
            exact call_hole_log log _ (fun f hf => hrec.2.2 f hf) _ _ _ _ _ _ _ h3
        rcases hn2 with ⟨hn, hlt⟩ | ⟨hn, hle, hs⟩
        · subst hn
          cases n with
          | zero => simp [ptbl_walk_loop] at h4
          | succ m =>
            rw [ptbl_walk_loop, if_pos (by omega)] at h4
            simp only [Option.some.injEq, Prod.mk.injEq] at h4
            rw [← h4.2.1, l2, l1, span_pages_one a next2 (by omega) hlt]
            simp
        · subst hn
          have := ih (a + 4096) u3 s3 r u1 s1 (by omega)
            (by simp only [show WORD = 2 ^ 64 from rfl] at hew ⊢; omega) hs
            (by rcases hh with h0 | h0
                · exact Or.inl h0
                · right; omega) h4 hr
          rw [this, l2, l1, span_pages_cons a e hle]
          simp
      rcases ptbl_next a e haw hx hh hew with ⟨hnc, hv, hle⟩ | ⟨hcl, hlt⟩
      · rw [if_neg hnc] at h
        have ha2 : a / 4096 * 4096 + 4096 = a + 4096 := by omega
        rw [ha2] at hv hle
        rw [hv] at h
        refine hstep (a + 4096) (Or.inr ⟨rfl, hle, ?_⟩) h
        have hlt2 : (ptbl_end a + 1) % WORD < 2 ^ 64 := Nat.mod_lt _ (by decide)
        have := sign_extend_idem _ hlt2
        rw [hv] at this
        exact this
      · rw [if_pos hcl] at h
        have ha2 : a / 4096 * 4096 + 4096 = a + 4096 := by omega
        rw [ha2] at hlt
        exact hstep e (Or.inl ⟨rfl, hlt⟩) h

theorem pdpt_of_same (s : kstate) (pml4 p a : Nat)
    (h : p / 0x8000000000 = a / 0x8000000000) : pdpt_of s pml4 p = pdpt_of s pml4 a := by
  unfold pdpt_of PML4_INDEX
  rw [h]

theorem pdir_of_same (s : kstate) (pml4 p a : Nat)
    (h : p / 0x40000000 = a / 0x40000000) : pdir_of s pml4 p = pdir_of s pml4 a := by
  have h1 : p / 0x8000000000 = a / 0x8000000000 := by omega
  unfold pdir_of PDPT_INDEX
  rw [pdpt_of_same s pml4 p a h1, h]

theorem ptbl_of_same (s : kstate) (pml4 p a : Nat)
    (h : p / 0x200000 = a / 0x200000) : ptbl_of s pml4 p = ptbl_of s pml4 a := by
  have h1 : p / 0x40000000 = a / 0x40000000 := by omega
  unfold ptbl_of PAGE_DIR_INDEX
  rw [pdir_of_same s pml4 p a h1, h]

theorem tables_grow_refl (pml4 lo hi : Nat) (s : kstate) : tables_grow pml4 lo hi s s :=
  fun _ _ _ _ => ⟨rfl, fun _ => ⟨rfl, fun _ => rfl⟩⟩

theorem tables_grow_pdpt_of {pml4 lo hi : Nat} {s s1 : kstate} (h : tables_grow pml4 lo hi s s1)
    (va : Nat) (hlo : lo ≤ va) (hhi : va ≤ hi)
    (h4 : s.mem pml4 (PML4_INDEX va) &&& PAGE_PRESENT ≠ 0) :
    s1.mem pml4 (PML4_INDEX va) = s.mem pml4 (PML4_INDEX va) ∧
      pdpt_of s1 pml4 va = pdpt_of s pml4 va := by
  have e := (h va hlo hhi h4).1
  exact ⟨e, by unfold pdpt_of; rw [e]⟩

theorem tables_grow_pdir_of {pml4 lo hi : Nat} {s s1 : kstate} (h : tables_grow pml4 lo hi s s1)
    (va : Nat) (hlo : lo ≤ va) (hhi : va ≤ hi)
    (h4 : s.mem pml4 (PML4_INDEX va) &&& PAGE_PRESENT ≠ 0)
    (h3 : s.mem (pdpt_of s pml4 va) (PDPT_INDEX va) &&& PAGE_PRESENT ≠ 0) :
    s1.mem (pdpt_of s1 pml4 va) (PDPT_INDEX va) = s.mem (pdpt_of s pml4 va) (PDPT_INDEX va) ∧
      pdir_of s1 pml4 va = pdir_of s pml4 va := by
  have e4 := (tables_grow_pdpt_of h va hlo hhi h4).2
  have e := ((h va hlo hhi h4).2 h3).1
  rw [← e4] at e
  exact ⟨by rw [e, e4], by unfold pdir_of; rw [e, e4]⟩

theorem tables_grow_ptbl_of {pml4 lo hi : Nat} {s s1 : kstate} (h : tables_grow pml4 lo hi s s1)
    (va : Nat) (hlo : lo ≤ va) (hhi : va ≤ hi) (hp : path_present s pml4 va) :
    path_present s1 pml4 va ∧ ptbl_of s1 pml4 va = ptbl_of s pml4 va := by
  obtain ⟨h4, h3, h2⟩ := hp
  obtain ⟨e4, p4⟩ := tables_grow_pdpt_of h va hlo hhi h4
  obtain ⟨e3, p3⟩ := tables_grow_pdir_of h va hlo hhi h4 h3
  have e2 := ((h va hlo hhi h4).2 h3).2 h2
  rw [← p3] at e2
  refine ⟨⟨by rw [e4]; exact h4, by rw [e3]; exact h3, by rw [e2, p3]; exact h2⟩, ?_⟩
  unfold ptbl_of
  rw [e2, p3]

theorem tables_grow_trans (pml4 lo hi : Nat) (a b c : kstate)
    (h1 : tables_grow pml4 lo hi a b) (h2 : tables_grow pml4 lo hi b c) :
    tables_grow pml4 lo hi a c := by
  intro va hlo hhi h4
  obtain ⟨e4, p4⟩ := tables_grow_pdpt_of h1 va hlo hhi h4
  have h4b : b.mem pml4 (PML4_INDEX va) &&& PAGE_PRESENT ≠ 0 := by rw [e4]; exact h4
  obtain ⟨f4, q4⟩ := tables_grow_pdpt_of h2 va hlo hhi h4b
  refine ⟨by rw [f4, e4], fun h3 => ?_⟩
  obtain ⟨e3, p3⟩ := tables_grow_pdir_of h1 va hlo hhi h4 h3
  have h3b : b.mem (pdpt_of b pml4 va) (PDPT_INDEX va) &&& PAGE_PRESENT ≠ 0 := by
    rw [e3]; exact h3
  obtain ⟨f3, q3⟩ := tables_grow_pdir_of h2 va hlo hhi h4b h3b
  have f3a := f3
  rw [q4, p4] at f3a
  have e3a := e3
  rw [p4] at e3a
  refine ⟨f3a.trans e3a, fun h2p => ?_⟩
  have e2 := ((h1 va hlo hhi h4).2 h3).2 h2p
  have h2b : b.mem (pdir_of b pml4 va) (PAGE_DIR_INDEX va) &&& PAGE_PRESENT ≠ 0 := by
    rw [p3, e2]; exact h2p
  have f2 := ((h2 va hlo hhi h4b).2 h3b).2 h2b
  rw [p3] at f2
  exact f2.trans e2

theorem path_present_same (s : kstate) (pml4 p a : Nat) (h : p / 0x200000 = a / 0x200000) :
    path_present s pml4 p = path_present s pml4 a := by
  have h1 : p / 0x40000000 = a / 0x40000000 := by omega
  have h2 : p / 0x8000000000 = a / 0x8000000000 := by omega
  unfold path_present
  rw [pdpt_of_same s pml4 p a h2, pdir_of_same s pml4 p a h1]
  unfold PML4_INDEX PDPT_INDEX PAGE_DIR_INDEX
  rw [h, h1, h2]

/-- The loop of `pdir_walk_range` calls the leaf callback once on the entry of each page from
`a` to `e`, in ascending order, when `pde_callback` leaves the page tables present. -/
theorem pdir_walk_loop_visits {υ : Type} (log : υ → List (Nat × Nat × Nat))
    (w : page_walker υ) (hrec : records log w) (pml4 lo hi : Nat)
    (hkeep : callbacks_keep (tables_grow pml4 lo hi) w) (s0 : kstate)
    (hfill : tables_filled w pml4 lo hi s0) (pdir e : Nat) (he : 4093 ≤ e % 4096)
    (hew : e < WORD) (hhi : e ≤ hi) :
    ∀ (fuel a : Nat) (u : υ) (s : kstate) (r : Int) (u1 : υ) (s1 : kstate),
      a % 4096 = 0 → a < WORD → sign_extend a = a → (e < USER_LIM ∨ USER_LIM ≤ a) →
      lo ≤ a → e < a / 0x40000000 * 0x40000000 + 0x40000000 →
      tables_grow pml4 lo hi s0 s → s.mem pml4 (PML4_INDEX a) &&& PAGE_PRESENT ≠ 0 →
      s.mem (pdpt_of s pml4 a) (PDPT_INDEX a) &&& PAGE_PRESENT ≠ 0 →
      pdir = pdir_of s pml4 a →
      pdir_walk_loop w pdir e fuel a a u s = some (r, u1, s1) → 0 ≤ r →
      log u1 = log u ++
          (span_pages a e).map (fun p => (ptbl_of s1 pml4 p, PAGE_TABLE_INDEX p, p)) ∧
        ∀ p, p ∈ span_pages a e → path_present s1 pml4 p := by
  intro fuel
  induction fuel with
  | zero => intro a u s r u1 s1 _ _ _ _ _ _ _ _ _ _ h; simp [pdir_walk_loop] at h
  | succ n ih =>
    intro a u s r u1 s1 ha haw hx hh hlo hsp hk h4p h3p hpd h hr
    rw [pdir_walk_loop] at h
    by_cases hc : ¬ a < e
    · rw [if_pos hc] at h
      simp only [Option.some.injEq, Prod.mk.injEq] at h
      rw [span_pages_nil a e (by omega), ← h.2.1]
      simp
    · rw [if_neg hc] at h
      simp only at h
      have hae : a < e := not_not.mp hc
      have hw64 : WORD = 2 ^ 64 := rfl
      have hstep : ∀ next2, (next2 = e ∧ e < a / 0x200000 * 0x200000 + 0x200000 ∨
            next2 = a / 0x200000 * 0x200000 + 0x200000 ∧
              a / 0x200000 * 0x200000 + 0x200000 ≤ e ∧
              sign_extend (a / 0x200000 * 0x200000 + 0x200000) =
                a / 0x200000 * 0x200000 + 0x200000) →
          and_then (call_cb w.pde_callback pdir (PAGE_DIR_INDEX a) a (next2 - 1) u s)
            (fun u1 s1 =>
              and_then
                (if s1.mem pdir (PAGE_DIR_INDEX a) &&& PAGE_PRESENT ≠ 0 then
                  (if ¬ (s1.mem pdir (PAGE_DIR_INDEX a) &&& PAGE_HUGE ≠ 0) then
                    and_then
                      (ptbl_walk_range w (entry_table (s1.mem pdir (PAGE_DIR_INDEX a))) a
                        (next2 - 1) u1 s1)
                      fun u2 s2 => call_cb w.pde_unmap pdir (PAGE_DIR_INDEX a) a (next2 - 1)
                        u2 s2
                  else some (0, u1, s1))
                else call_hole w.pt_hole_callback a (next2 - 1) u1 s1)
                fun u3 s3 => pdir_walk_loop w pdir e n next2 next2 u3 s3) =
            some (r, u1, s1) →
          log u1 = log u ++
              (span_pages a e).map (fun p => (ptbl_of s1 pml4 p, PAGE_TABLE_INDEX p, p)) ∧
            ∀ p, p ∈ span_pages a e → path_present s1 pml4 p := by
        intro next2 hn2 h
        have hn2le : next2 ≤ e ∧ next2 ≤ a / 0x200000 * 0x200000 + 0x200000 ∧ a < next2 ∧
            4092 ≤ (next2 - 1) % 4096 := by
          rcases hn2 with ⟨hn, hlt⟩ | ⟨hn, hle, _⟩
          · subst hn; omega
          · subst hn; omega
        have hahi : a ≤ hi := by omega
        obtain ⟨r1, u2, s2, h1, hr1, h2⟩ := and_then_nonneg _ _ _ _ _ h hr
        obtain ⟨r3, u3, s3, h3, hr3, h4⟩ := and_then_nonneg _ _ _ _ _ h2 hr
        have l1 : log u2 = log u :=
          call_cb_log log _ (fun f hf => hrec.2.1 f (Or.inl hf)) _ _ _ _ _ _ _ _ _ h1
        have k1 : tables_grow pml4 lo hi s s2 :=
          call_cb_keeps _ (tables_grow_refl pml4 lo hi) _
            (fun f hf => hkeep.1 f (Or.inr (Or.inl hf))) _ _ _ _ _ _ _ _ _ h1
        have hfa := (hfill a hlo hahi s hk a (next2 - 1) u r1 u2 s2 hr1).2.2 h4p h3p
          (by rw [← hpd]; exact h1)
        rw [← hpd] at hfa
        obtain ⟨hp, hnh⟩ := hfa
        rw [if_pos hp, if_pos hnh] at h3
        obtain ⟨r5, u5, s5, h5, hr5, h6⟩ := and_then_nonneg _ _ _ _ _ h3 hr3
        -- the path of `a` in `s2`
        obtain ⟨e4, p4⟩ := tables_grow_pdpt_of k1 a hlo hahi h4p
        obtain ⟨e3, p3⟩ := tables_grow_pdir_of k1 a hlo hahi h4p h3p
        have hpath2 : path_present s2 pml4 a :=
          ⟨by rw [e4]; exact h4p, by rw [e3]; exact h3p, by rw [p3, ← hpd]; exact hp⟩
        have htbl : entry_table (s2.mem pdir (PAGE_DIR_INDEX a)) = ptbl_of s2 pml4 a := by
          unfold ptbl_of
          rw [p3, ← hpd]
        rw [htbl] at h5
        unfold ptbl_walk_range at h5
        rw [hx] at h5
        have l5 := ptbl_walk_loop_log log w hrec (ptbl_of s2 pml4 a) (next2 - 1) hn2le.2.2.2
          (by omega) _ a u2 s2 r5 u5 s5 ha haw hx
          (by rcases hh with h0 | h0
              · left; omega
              · exact Or.inr h0) h5 hr5
        have k5 : tables_grow pml4 lo hi s2 s5 :=
          ptbl_walk_loop_keeps _ (tables_grow_refl pml4 lo hi)
            (tables_grow_trans pml4 lo hi) w hkeep _ _ _ _ _ _ _ _ _ _ h5
        have l6 : log u3 = log u5 :=
          call_cb_log log _
            (fun f hf => hrec.2.1 f (Or.inr (Or.inr (Or.inr (Or.inr (Or.inl hf)))))) _ _ _ _ _ _
            _ _ _ h6
        have k6 : tables_grow pml4 lo hi s5 s3 :=
          call_cb_keeps _ (tables_grow_refl pml4 lo hi) _
            (fun f hf => hkeep.1 f
              (Or.inr (Or.inr (Or.inr (Or.inr (Or.inr (Or.inl hf))))))) _ _ _ _ _ _ _ _ _ h6
        have k23 := tables_grow_trans _ _ _ _ _ _ k5 k6
        have k3 : tables_grow pml4 lo hi s s3 := tables_grow_trans _ _ _ _ _ _ k1 k23
        have k03 := tables_grow_trans _ _ _ _ _ _ hk k3
        have k31 : tables_grow pml4 lo hi s3 s1 :=
          pdir_walk_loop_keeps _ (tables_grow_refl pml4 lo hi)
            (tables_grow_trans pml4 lo hi) w hkeep _ _ _ _ _ _ _ _ _ _ h4
        have k21 := tables_grow_trans _ _ _ _ _ _ k23 k31
        -- the pages of the first table, seen from the final state
        have hsub : ∀ p, p ∈ span_pages a (next2 - 1) →
            path_present s1 pml4 p ∧ ptbl_of s1 pml4 p = ptbl_of s2 pml4 a := by
          intro p hp
          obtain ⟨m1, m2, _⟩ := mem_span_pages _ _ _ hp
          have hdiv : p / 0x200000 = a / 0x200000 := by omega
          have hp2 : path_present s2 pml4 p := by
            rw [path_present_same s2 pml4 p a hdiv]; exact hpath2
          obtain ⟨q1, q2⟩ := tables_grow_ptbl_of k21 p (by omega) (by omega) hp2
          exact ⟨q1, by rw [q2, ptbl_of_same s2 pml4 p a hdiv]⟩
        have hmap : (span_pages a (next2 - 1)).map
              (fun p => (ptbl_of s2 pml4 a, PAGE_TABLE_INDEX p, p)) =
            (span_pages a (next2 - 1)).map
              (fun p => (ptbl_of s1 pml4 p, PAGE_TABLE_INDEX p, p)) := by
          apply List.map_congr_left
          intro p hp
          rw [(hsub p hp).2]
        rw [hmap] at l5
        rcases hn2 with ⟨hn, hlt⟩ | ⟨hn, hle, hs⟩
        · subst hn
          cases n with
          | zero => simp [pdir_walk_loop] at h4
          | succ m =>
            rw [pdir_walk_loop, if_pos (by omega)] at h4
            simp only [Option.some.injEq, Prod.mk.injEq] at h4
            rw [← span_pages_shrink a next2 ha he]
            refine ⟨by rw [← h4.2.1, l6, l5, l1], fun p hp => (hsub p hp).1⟩
        · subst hn
          have hb1 : (a / 0x200000 * 0x200000 + 0x200000) / 0x40000000 = a / 0x40000000 := by
            omega
          have hb2 : (a / 0x200000 * 0x200000 + 0x200000) / 0x8000000000 =
              a / 0x8000000000 := by omega
          obtain ⟨f4, g4⟩ := tables_grow_pdpt_of k3 a hlo hahi h4p
          obtain ⟨f3, g3⟩ := tables_grow_pdir_of k3 a hlo hahi h4p h3p
          have i4 : PML4_INDEX (a / 0x200000 * 0x200000 + 0x200000) = PML4_INDEX a := by
            unfold PML4_INDEX; rw [hb2]
          have i3 : PDPT_INDEX (a / 0x200000 * 0x200000 + 0x200000) = PDPT_INDEX a := by
            unfold PDPT_INDEX; rw [hb1]
          obtain ⟨hl, hpp⟩ := ih (a / 0x200000 * 0x200000 + 0x200000) u3 s3 r u1 s1 (by omega)
            (by omega) hs
            (by rcases hh with h0 | h0
                · exact Or.inl h0
                · right; omega) (by omega) (by omega) k03
            (by rw [i4, f4]; exact h4p)
            (by rw [pdpt_of_same s3 pml4 _ a hb2, i3, f3]; exact h3p)
            (by rw [pdir_of_same s3 pml4 _ a hb1, g3]; exact hpd) h4 hr
          rw [span_pages_append a (a / 0x200000 * 0x200000 + 0x200000) e (by omega) (by omega)
              (by omega) (by omega)]
          refine ⟨?_, fun p hp => ?_⟩
          · rw [hl, l6, l5, l1]
            simp
          · rcases List.mem_append.mp hp with hp1 | hp1
            · exact (hsub p hp1).1
            · exact hpp p hp1
      rcases pdir_next a e haw hx hh hew with ⟨hnc, hv, hle⟩ | ⟨hcl, hlt⟩
      · rw [if_neg hnc] at h
        have hlt2 : (pdir_end a + 1) % WORD < 2 ^ 64 := Nat.mod_lt _ (by decide)
        have hid := sign_extend_idem _ hlt2
        rw [hv] at h hid
        exact hstep _ (Or.inr ⟨rfl, hle, hid⟩) h
      · rw [if_pos hcl] at h
        exact hstep e (Or.inl ⟨rfl, hlt⟩) h

/-- The loop of `pdpt_walk_range` calls the leaf callback once on the entry of each page from
`a` to `e`, in ascending order, when the level callbacks leave the tables present. -/
theorem pdpt_walk_loop_visits {υ : Type} (log : υ → List (Nat × Nat × Nat))
    (w : page_walker υ) (hrec : records log w) (pml4 lo hi : Nat)
    (hkeep : callbacks_keep (tables_grow pml4 lo hi) w) (s0 : kstate)
    (hfill : tables_filled w pml4 lo hi s0) (pdpt e : Nat) (he : 4094 ≤ e % 4096)
    (hew : e < WORD) (hhi : e ≤ hi) :
    ∀ (fuel a : Nat) (u : υ) (s : kstate) (r : Int) (u1 : υ) (s1 : kstate),
      a % 4096 = 0 → a < WORD → sign_extend a = a → (e < USER_LIM ∨ USER_LIM ≤ a) →
      lo ≤ a → e < a / 0x8000000000 * 0x8000000000 + 0x8000000000 →
      tables_grow pml4 lo hi s0 s → s.mem pml4 (PML4_INDEX a) &&& PAGE_PRESENT ≠ 0 →
      pdpt = pdpt_of s pml4 a →
      pdpt_walk_loop w pdpt e fuel a a u s = some (r, u1, s1) → 0 ≤ r →
      log u1 = log u ++
          (span_pages a e).map (fun p => (ptbl_of s1 pml4 p, PAGE_TABLE_INDEX p, p)) ∧
        ∀ p, p ∈ span_pages a e → path_present s1 pml4 p := by
  intro fuel
  induction fuel with
  | zero => intro a u s r u1 s1 _ _ _ _ _ _ _ _ _ h; simp [pdpt_walk_loop] at h
  | succ n ih =>
    intro a u s r u1 s1 ha haw hx hh hlo hsp hk h4p hpd h hr
    rw [pdpt_walk_loop] at h
    by_cases hc : ¬ a < e
    · rw [if_pos hc] at h
      simp only [Option.some.injEq, Prod.mk.injEq] at h
      rw [span_pages_nil a e (by omega), ← h.2.1]
      simp
    · rw [if_neg hc] at h
      simp only at h
      have hae : a < e := not_not.mp hc
      have hw64 : WORD = 2 ^ 64 := rfl
      have hstep : ∀ next2, (next2 = e ∧ e < a / 0x40000000 * 0x40000000 + 0x40000000 ∨
            next2 = a / 0x40000000 * 0x40000000 + 0x40000000 ∧
              a / 0x40000000 * 0x40000000 + 0x40000000 ≤ e ∧
              sign_extend (a / 0x40000000 * 0x40000000 + 0x40000000) =
                a / 0x40000000 * 0x40000000 + 0x40000000) →
          and_then (call_cb w.pdpte_callback pdpt (PDPT_INDEX a) a (next2 - 1) u s)
            (fun u1 s1 =>
              and_then
                (if s1.mem pdpt (PDPT_INDEX a) &&& PAGE_PRESENT ≠ 0 then
                  (if ¬ (s1.mem pdpt (PDPT_INDEX a) &&& PAGE_HUGE ≠ 0) then
                    and_then
                      (pdir_walk_range w (entry_table (s1.mem pdpt (PDPT_INDEX a))) a
                        (next2 - 1) u1 s1)
                      fun u2 s2 => call_cb w.pdpte_unmap pdpt (PDPT_INDEX a) a (next2 - 1)
                        u2 s2
                  else some (0, u1, s1))
                else call_hole w.pt_hole_callback a (next2 - 1) u1 s1)
                fun u3 s3 => pdpt_walk_loop w pdpt e n next2 next2 u3 s3) =
            some (r, u1, s1) →
          log u1 = log u ++
              (span_pages a e).map (fun p => (ptbl_of s1 pml4 p, PAGE_TABLE_INDEX p, p)) ∧
            ∀ p, p ∈ span_pages a e → path_present s1 pml4 p := by
        intro next2 hn2 h
        have hn2le : next2 ≤ e ∧ next2 ≤ a / 0x40000000 * 0x40000000 + 0x40000000 ∧
            a < next2 ∧ 4093 ≤ (next2 - 1) % 4096 := by
          rcases hn2 with ⟨hn, hlt⟩ | ⟨hn, hle, _⟩
          · subst hn; omega
          · subst hn; omega
        have hahi : a ≤ hi := by omega
        obtain ⟨r1, u2, s2, h1, hr1, h2⟩ := and_then_nonneg _ _ _ _ _ h hr
        obtain ⟨r3, u3, s3, h3, hr3, h4⟩ := and_then_nonneg _ _ _ _ _ h2 hr
        have l1 : log u2 = log u :=
          call_cb_log log _ (fun f hf => hrec.2.1 f (Or.inr (Or.inl hf))) _ _ _ _ _ _ _ _ _ h1
        have k1 : tables_grow pml4 lo hi s s2 :=
          call_cb_keeps _ (tables_grow_refl pml4 lo hi) _
            (fun f hf => hkeep.1 f (Or.inr (Or.inr (Or.inl hf)))) _ _ _ _ _ _ _ _ _ h1
        have k02 := tables_grow_trans _ _ _ _ _ _ hk k1
        have hfa := (hfill a hlo hahi s hk a (next2 - 1) u r1 u2 s2 hr1).2.1 h4p
          (by rw [← hpd]; exact h1)
        rw [← hpd] at hfa
        obtain ⟨hp, hnh⟩ := hfa
        rw [if_pos hp, if_pos hnh] at h3
        obtain ⟨r5, u5, s5, h5, hr5, h6⟩ := and_then_nonneg _ _ _ _ _ h3 hr3
        obtain ⟨e4, p4⟩ := tables_grow_pdpt_of k1 a hlo hahi h4p
        have htbl : entry_table (s2.mem pdpt (PDPT_INDEX a)) = pdir_of s2 pml4 a := by
          unfold pdir_of
          rw [p4, ← hpd]
        rw [htbl] at h5
        unfold pdir_walk_range at h5
        rw [hx] at h5
        obtain ⟨l5, pp5⟩ := pdir_walk_loop_visits log w hrec pml4 lo hi hkeep s0 hfill
          (pdir_of s2 pml4 a) (next2 - 1) hn2le.2.2.2 (by omega) (by omega) _ a u2 s2 r5 u5 s5
          ha haw hx
          (by rcases hh with h0 | h0
              · left; omega
              · exact Or.inr h0) hlo (by omega) k02 (by rw [e4]; exact h4p)
          (by rw [p4, ← hpd]; exact hp) rfl h5 hr5
        have k5 : tables_grow pml4 lo hi s2 s5 :=
          pdir_walk_loop_keeps _ (tables_grow_refl pml4 lo hi)
            (tables_grow_trans pml4 lo hi) w hkeep _ _ _ _ _ _ _ _ _ _ h5
        have l6 : log u3 = log u5 :=
          call_cb_log log _
            (fun f hf => hrec.2.1 f
              (Or.inr (Or.inr (Or.inr (Or.inr (Or.inr (Or.inl hf))))))) _ _ _ _ _ _ _ _ _ h6
        have k6 : tables_grow pml4 lo hi s5 s3 :=
          call_cb_keeps _ (tables_grow_refl pml4 lo hi) _
            (fun f hf => hkeep.1 f
              (Or.inr (Or.inr (Or.inr (Or.inr (Or.inr (Or.inr (Or.inl hf)))))))) _ _ _ _ _ _ _
            _ _ h6
        have k23 := tables_grow_trans _ _ _ _ _ _ k5 k6
        have k3 : tables_grow pml4 lo hi s s3 := tables_grow_trans _ _ _ _ _ _ k1 k23
        have k03 := tables_grow_trans _ _ _ _ _ _ hk k3
        have k31 : tables_grow pml4 lo hi s3 s1 :=
          pdpt_walk_loop_keeps _ (tables_grow_refl pml4 lo hi)
            (tables_grow_trans pml4 lo hi) w hkeep _ _ _ _ _ _ _ _ _ _ h4
        have k51 := tables_grow_trans _ _ _ _ _ _ k6 k31
        have hsub : ∀ p, p ∈ span_pages a (next2 - 1) →
            path_present s1 pml4 p ∧ ptbl_of s1 pml4 p = ptbl_of s5 pml4 p := by
          intro p hp
          obtain ⟨m1, m2, _⟩ := mem_span_pages _ _ _ hp
          exact tables_grow_ptbl_of k51 p (by omega) (by omega) (pp5 p hp)
        have hmap : (span_pages a (next2 - 1)).map
              (fun p => (ptbl_of s5 pml4 p, PAGE_TABLE_INDEX p, p)) =
            (span_pages a (next2 - 1)).map
              (fun p => (ptbl_of s1 pml4 p, PAGE_TABLE_INDEX p, p)) := by
          apply List.map_congr_left
          intro p hp
          rw [(hsub p hp).2]
        rw [hmap] at l5
        rcases hn2 with ⟨hn, hlt⟩ | ⟨hn, hle, hs⟩
        · subst hn
          cases n with
          | zero => simp [pdpt_walk_loop] at h4
          | succ m =>
            rw [pdpt_walk_loop, if_pos (by omega)] at h4
            simp only [Option.some.injEq, Prod.mk.injEq] at h4
            rw [← span_pages_shrink a next2 ha (by omega)]
            refine ⟨by rw [← h4.2.1, l6, l5, l1], fun p hp => (hsub p hp).1⟩
        · subst hn
          have hb2 : (a / 0x40000000 * 0x40000000 + 0x40000000) / 0x8000000000 =
              a / 0x8000000000 := by omega
          obtain ⟨f4, g4⟩ := tables_grow_pdpt_of k3 a hlo hahi h4p
          have i4 : PML4_INDEX (a / 0x40000000 * 0x40000000 + 0x40000000) = PML4_INDEX a := by
            unfold PML4_INDEX; rw [hb2]
          obtain ⟨hl, hpp⟩ := ih (a / 0x40000000 * 0x40000000 + 0x40000000) u3 s3 r u1 s1
            (by omega) (by omega) hs
            (by rcases hh with h0 | h0
                · exact Or.inl h0
                · right; omega) (by omega) (by omega) k03
            (by rw [i4, f4]; exact h4p)
            (by rw [pdpt_of_same s3 pml4 _ a hb2, g4]; exact hpd) h4 hr
          rw [span_pages_append a (a / 0x40000000 * 0x40000000 + 0x40000000) e (by omega)
              (by omega) (by omega) (by omega)]
          refine ⟨?_, fun p hp => ?_⟩
          · rw [hl, l6, l5, l1]
            simp
          · rcases List.mem_append.mp hp with hp1 | hp1
            · exact (hsub p hp1).1
            · exact hpp p hp1
      rcases pdpt_next a e haw hx hh hew with ⟨hnc, hv, hle⟩ | ⟨hcl, hlt⟩
      · rw [if_neg hnc] at h
        have hlt2 : (pdpt_end a + 1) % WORD < 2 ^ 64 := Nat.mod_lt _ (by decide)
        have hid := sign_extend_idem _ hlt2
        rw [hv] at h hid
        exact hstep _ (Or.inr ⟨rfl, hle, hid⟩) h
      · rw [if_pos hcl] at h
        exact hstep e (Or.inl ⟨rfl, hlt⟩) h

theorem pml4_walk_loop_keeps {υ : Type} (R : kstate → kstate → Prop) (hr : ∀ s, R s s)
    (ht : ∀ a b c, R a b → R b c → R a c) (w : page_walker υ) (hw : callbacks_keep R w)
    (pml4 end_ : Nat) : ∀ (fuel addr next : Nat) (u : υ) (s : kstate) (r : Int) (u1 : υ)
      (s1 : kstate), pml4_walk_loop w pml4 end_ fuel addr next u s = some (r, u1, s1) →
      R s s1 := by
  intro fuel
  induction fuel with
  | zero => intro addr next u s r u1 s1 h; simp [pml4_walk_loop] at h
  | succ n ih =>
    intro addr next u s r u1 s1 h
    rw [pml4_walk_loop] at h
    by_cases hc : ¬ next < end_
    · rw [if_pos hc] at h
      simp only [Option.some.injEq, Prod.mk.injEq] at h
      rw [← h.2.2]; exact hr s
    · rw [if_neg hc] at h
      simp only at h
      refine and_then_keeps R ht s _ _ ?_ ?_ r u1 s1 h
      · intro r1 u2 s2 h1
        exact call_cb_keeps R hr _ (fun f hf => hw.1 f (Or.inr (Or.inr (Or.inr (Or.inl hf)))))
          _ _ _ _ _ _ _ _ _ h1
      · intro u2 s2 r2 u3 s3 h2
        refine and_then_keeps R ht s2 _ _ ?_ ?_ r2 u3 s3 h2
        · intro r3 u4 s4 h3
          by_cases hp : s2.mem pml4 (PML4_INDEX addr) &&& PAGE_PRESENT ≠ 0
          · rw [if_pos hp] at h3
            refine and_then_keeps R ht s2 _ _ ?_ ?_ r3 u4 s4 h3
            · intro r5 u5 s5 h5
              exact pdpt_walk_loop_keeps R hr ht w hw _ _ _ _ _ _ _ _ _ _ h5
            · intro u5 s5 r6 u6 s6 h6
              exact call_cb_keeps R hr _
                (fun f hf => hw.1 f
                  (Or.inr (Or.inr (Or.inr (Or.inr (Or.inr (Or.inr (Or.inr hf))))))))
                _ _ _ _ _ _ _ _ _ h6
          · rw [if_neg hp] at h3
            exact call_hole_keeps R hr _ (fun f hf => hw.2 f hf) _ _ _ _ _ _ _ h3
        · intro u4 s4 r4 u5 s5 h4
          exact ih _ _ _ _ _ _ _ h4

/-- The loop of `pml4_walk_range` calls the leaf callback once on the entry of each page from
`a` to `e`, in ascending order, when the level callbacks leave the tables present. -/
theorem pml4_walk_loop_visits {υ : Type} (log : υ → List (Nat × Nat × Nat))
    (w : page_walker υ) (hrec : records log w) (pml4 lo hi : Nat)
    (hkeep : callbacks_keep (tables_grow pml4 lo hi) w) (s0 : kstate)
    (hfill : tables_filled w pml4 lo hi s0) (e : Nat) (he : 4095 ≤ e % 4096)
    (hew : e < WORD) (hhi : e ≤ hi) :
    ∀ (fuel a : Nat) (u : υ) (s : kstate) (r : Int) (u1 : υ) (s1 : kstate),
      a % 4096 = 0 → a < WORD → sign_extend a = a → (e < USER_LIM ∨ USER_LIM ≤ a) →
      lo ≤ a → tables_grow pml4 lo hi s0 s →
      pml4_walk_loop w pml4 e fuel a a u s = some (r, u1, s1) → 0 ≤ r →
      log u1 = log u ++
          (span_pages a e).map (fun p => (ptbl_of s1 pml4 p, PAGE_TABLE_INDEX p, p)) ∧
        ∀ p, p ∈ span_pages a e → path_present s1 pml4 p := by
  intro fuel
  induction fuel with
  | zero => intro a u s r u1 s1 _ _ _ _ _ _ h; simp [pml4_walk_loop] at h
  | succ n ih =>
    intro a u s r u1 s1 ha haw hx hh hlo hk h hr
    rw [pml4_walk_loop] at h
    by_cases hc : ¬ a < e
    · rw [if_pos hc] at h
      simp only [Option.some.injEq, Prod.mk.injEq] at h
      rw [span_pages_nil a e (by omega), ← h.2.1]
      simp
    · rw [if_neg hc] at h
      simp only at h
      have hae : a < e := not_not.mp hc
      have hw64 : WORD = 2 ^ 64 := rfl
      have hstep : ∀ next2, (next2 = e ∧ e < a / 0x8000000000 * 0x8000000000 + 0x8000000000 ∨
            next2 = a / 0x8000000000 * 0x8000000000 + 0x8000000000 ∧
              a / 0x8000000000 * 0x8000000000 + 0x8000000000 ≤ e ∧
              sign_extend (a / 0x8000000000 * 0x8000000000 + 0x8000000000) =
                a / 0x8000000000 * 0x8000000000 + 0x8000000000) →
          and_then (call_cb w.pml4e_callback pml4 (PML4_INDEX a) a (next2 - 1) u s)
            (fun u1 s1 =>
              and_then
                (if s1.mem pml4 (PML4_INDEX a) &&& PAGE_PRESENT ≠ 0 then
                  and_then
                    (pdpt_walk_range w (entry_table (s1.mem pml4 (PML4_INDEX a))) a
                      (next2 - 1) u1 s1)
                    fun u2 s2 => call_cb w.pml4e_unmap pml4 (PML4_INDEX a) a (next2 - 1) u2 s2
                else call_hole w.pt_hole_callback a (next2 - 1) u1 s1)
                fun u3 s3 => pml4_walk_loop w pml4 e n next2 next2 u3 s3) =
            some (r, u1, s1) →
          log u1 = log u ++
              (span_pages a e).map (fun p => (ptbl_of s1 pml4 p, PAGE_TABLE_INDEX p, p)) ∧
            ∀ p, p ∈ span_pages a e → path_present s1 pml4 p := by
        intro next2 hn2 h
        have hn2le : next2 ≤ e ∧ next2 ≤ a / 0x8000000000 * 0x8000000000 + 0x8000000000 ∧
            a < next2 ∧ 4094 ≤ (next2 - 1) % 4096 := by
          rcases hn2 with ⟨hn, hlt⟩ | ⟨hn, hle, _⟩
          · subst hn; omega
          · subst hn; omega
        have hahi : a ≤ hi := by omega
        obtain ⟨r1, u2, s2, h1, hr1, h2⟩ := and_then_nonneg _ _ _ _ _ h hr
        obtain ⟨r3, u3, s3, h3, hr3, h4⟩ := and_then_nonneg _ _ _ _ _ h2 hr
        have l1 : log u2 = log u :=
          call_cb_log log _ (fun f hf => hrec.2.1 f (Or.inr (Or.inr (Or.inl hf)))) _ _ _ _ _ _
            _ _ _ h1
        have k1 : tables_grow pml4 lo hi s s2 :=
          call_cb_keeps _ (tables_grow_refl pml4 lo hi) _
            (fun f hf => hkeep.1 f (Or.inr (Or.inr (Or.inr (Or.inl hf))))) _ _ _ _ _ _ _ _ _ h1
        have k02 := tables_grow_trans _ _ _ _ _ _ hk k1
        have hp := (hfill a hlo hahi s hk a (next2 - 1) u r1 u2 s2 hr1).1 h1
        rw [if_pos hp] at h3
        obtain ⟨r5, u5, s5, h5, hr5, h6⟩ := and_then_nonneg _ _ _ _ _ h3 hr3
        have htbl : entry_table (s2.mem pml4 (PML4_INDEX a)) = pdpt_of s2 pml4 a := rfl
        rw [htbl] at h5
        unfold pdpt_walk_range at h5
        rw [hx] at h5
        obtain ⟨l5, pp5⟩ := pdpt_walk_loop_visits log w hrec pml4 lo hi hkeep s0 hfill
          (pdpt_of s2 pml4 a) (next2 - 1) hn2le.2.2.2 (by omega) (by omega) _ a u2 s2 r5 u5 s5
          ha haw hx
          (by rcases hh with h0 | h0
              · left; omega
              · exact Or.inr h0) hlo (by omega) k02 hp rfl h5 hr5
        have k5 : tables_grow pml4 lo hi s2 s5 :=
          pdpt_walk_loop_keeps _ (tables_grow_refl pml4 lo hi)
            (tables_grow_trans pml4 lo hi) w hkeep _ _ _ _ _ _ _ _ _ _ h5
        have l6 : log u3 = log u5 :=
          call_cb_log log _
            (fun f hf => hrec.2.1 f
              (Or.inr (Or.inr (Or.inr (Or.inr (Or.inr (Or.inr hf))))))) _ _ _ _ _ _ _ _ _ h6
        have k6 : tables_grow pml4 lo hi s5 s3 :=
          call_cb_keeps _ (tables_grow_refl pml4 lo hi) _
            (fun f hf => hkeep.1 f
              (Or.inr (Or.inr (Or.inr (Or.inr (Or.inr (Or.inr (Or.inr hf)))))))) _ _ _ _ _ _ _
            _ _ h6
        have k23 := tables_grow_trans _ _ _ _ _ _ k5 k6
        have k03 := tables_grow_trans _ _ _ _ _ _ k02 k23
        have k31 : tables_grow pml4 lo hi s3 s1 :=
          pml4_walk_loop_keeps _ (tables_grow_refl pml4 lo hi)
            (tables_grow_trans pml4 lo hi) w hkeep _ _ _ _ _ _ _ _ _ _ h4
        have k51 := tables_grow_trans _ _ _ _ _ _ k6 k31
        have hsub : ∀ p, p ∈ span_pages a (next2 - 1) →
            path_present s1 pml4 p ∧ ptbl_of s1 pml4 p = ptbl_of s5 pml4 p := by
          intro p hp
          obtain ⟨m1, m2, _⟩ := mem_span_pages _ _ _ hp
          exact tables_grow_ptbl_of k51 p (by omega) (by omega) (pp5 p hp)
        have hmap : (span_pages a (next2 - 1)).map
              (fun p => (ptbl_of s5 pml4 p, PAGE_TABLE_INDEX p, p)) =
            (span_pages a (next2 - 1)).map
              (fun p => (ptbl_of s1 pml4 p, PAGE_TABLE_INDEX p, p)) := by
          apply List.map_congr_left
          intro p hp
          rw [(hsub p hp).2]
        rw [hmap] at l5
        rcases hn2 with ⟨hn, hlt⟩ | ⟨hn, hle, hs⟩
        · subst hn
          cases n with
          | zero => simp [pml4_walk_loop] at h4
          | succ m =>
            rw [pml4_walk_loop, if_pos (by omega)] at h4
            simp only [Option.some.injEq, Prod.mk.injEq] at h4
            rw [← span_pages_shrink a next2 ha (by omega)]
            refine ⟨by rw [← h4.2.1, l6, l5, l1], fun p hp => (hsub p hp).1⟩
        · subst hn
          obtain ⟨hl, hpp⟩ := ih (a / 0x8000000000 * 0x8000000000 + 0x8000000000) u3 s3 r u1 s1
            (by omega) (by omega) hs
            (by rcases hh with h0 | h0
                · exact Or.inl h0
                · right; omega) (by omega) k03 h4 hr
          rw [span_pages_append a (a / 0x8000000000 * 0x8000000000 + 0x8000000000) e (by omega)
              (by omega) (by omega) (by omega)]
          refine ⟨?_, fun p hp => ?_⟩
          · rw [hl, l6, l5, l1]
            simp
          · rcases List.mem_append.mp hp with hp1 | hp1
            · exact (hsub p hp1).1
            · exact hpp p hp1
      rcases pml4_next a e haw hx hh hew with ⟨hnc, hv, hle⟩ | ⟨hcl, hlt⟩
      · rw [if_neg hnc] at h
        have hlt2 : (pml4_end a + 1) % WORD < 2 ^ 64 := Nat.mod_lt _ (by decide)
        have hid := sign_extend_idem _ hlt2
        rw [hv] at h hid
        exact hstep _ (Or.inr ⟨rfl, hle, hid⟩) h
      · rw [if_pos hcl] at h
        exact hstep e (Or.inl ⟨rfl, hlt⟩) h

theorem record_pte_records :
    records id ({ pte_callback := some record_pte } : page_walker (List (Nat × Nat × Nat))) := by
  refine ⟨⟨record_pte, rfl, ?_⟩, ?_, ?_⟩
  · intro tbl idx b e u s r u1 s1 h
    simp only [record_pte, Option.some.injEq, Prod.mk.injEq] at h
    rw [← h.2.1]
    rfl
  · intro cb h
    simp at h
  · intro cb h
    simp at h

theorem record_pte_keeps (R : kstate → kstate → Prop) (hr : ∀ s, R s s) :
    callbacks_keep R ({ pte_callback := some record_pte } :
      page_walker (List (Nat × Nat × Nat))) := by
  constructor
  · intro cb h tbl idx b e u s r u1 s1 hcb
    simp at h
    subst h
    simp only [record_pte, Option.some.injEq, Prod.mk.injEq] at hcb
    rw [← hcb.2.2]
    exact hr s
  · intro cb h
    simp at h

/-- Tables that are present stay present under callbacks that leave present entries above
the leaf level as they are. -/
theorem tables_present_filled {υ : Type} (w : page_walker υ) (pml4 lo hi : Nat) (s0 : kstate)
    (hpres : tables_present s0 pml4 lo hi)
    (hkeep : callbacks_keep (tables_grow pml4 lo hi) w) : tables_filled w pml4 lo hi s0 := by
  intro va hlo hhi s hg b e u r u1 s1 _
  obtain ⟨p4, p3, n3, p2, n2⟩ := hpres va hlo hhi
  obtain ⟨e4, q4⟩ := tables_grow_pdpt_of hg va hlo hhi p4
  obtain ⟨e3, q3⟩ := tables_grow_pdir_of hg va hlo hhi p4 p3
  have e2 := ((hg va hlo hhi p4).2 p3).2 p2
  rw [← q3] at e2
  have h4s : s.mem pml4 (PML4_INDEX va) &&& PAGE_PRESENT ≠ 0 := by rw [e4]; exact p4
  have h3s : s.mem (pdpt_of s pml4 va) (PDPT_INDEX va) &&& PAGE_PRESENT ≠ 0 := by
    rw [e3]; exact p3
  have h2s : s.mem (pdir_of s pml4 va) (PAGE_DIR_INDEX va) &&& PAGE_PRESENT ≠ 0 := by
    rw [e2, q3]; exact p2
  refine ⟨fun h => ?_, fun _ h => ?_, fun _ _ h => ?_⟩
  · have k : tables_grow pml4 lo hi s s1 :=
      call_cb_keeps _ (tables_grow_refl pml4 lo hi) _
        (fun f hf => hkeep.1 f (Or.inr (Or.inr (Or.inr (Or.inl hf))))) _ _ _ _ _ _ _ _ _ h
    rw [(k va hlo hhi h4s).1]
    exact h4s
  · have k : tables_grow pml4 lo hi s s1 :=
      call_cb_keeps _ (tables_grow_refl pml4 lo hi) _
        (fun f hf => hkeep.1 f (Or.inr (Or.inr (Or.inl hf)))) _ _ _ _ _ _ _ _ _ h
    rw [((k va hlo hhi h4s).2 h3s).1, e3]
    exact ⟨p3, n3⟩
  · have k : tables_grow pml4 lo hi s s1 :=
      call_cb_keeps _ (tables_grow_refl pml4 lo hi) _
        (fun f hf => hkeep.1 f (Or.inr (Or.inl hf))) _ _ _ _ _ _ _ _ _ h
    rw [((k va hlo hhi h4s).2 h3s).2 h2s, e2, q3]
    exact ⟨p2, n2⟩

/-- C34: `walk_page_range` calls the leaf callback exactly once for each 4 KiB page of
`[ROUNDDOWN(base), ROUNDUP(end))`, in ascending order, each time on the leaf entry indexed by
the address of the page, in the page table of that address, and with the address of the page
as `base`.  The range `base < end` lies in one canonical half; all intermediate tables of its
addresses are present, without huge pages, or the level callbacks leave them present; and no
callback changes a present entry above the leaf level.  The calls are read off the user data
of a walker that records them: when the walk runs to its end, with a result that is not
negative, the calls recorded during the walk are those on the pages of the range, one after
the other, each on the page table the address has at the end of the walk; and the walk
returns whenever the callbacks do. -/
theorem walk_page_range_visits_each_page {υ : Type} (log : υ → List (Nat × Nat × Nat))
    (w : page_walker υ) (pml4 base end_ : Nat) (u : υ) (s : kstate) (hrec : records log w)
    (hlt : base < end_)
    (hhalf : end_ ≤ USER_LIM ∨ (KERNEL_VMA ≤ base ∧ end_ ≤ WORD - PAGE_SIZE))
    (htab : tables_present s pml4 (ROUNDDOWN base) (ROUNDUP end_ - 1) ∨
      tables_filled w pml4 (ROUNDDOWN base) (ROUNDUP end_ - 1) s)
    (hkeep : callbacks_keep (tables_grow pml4 (ROUNDDOWN base) (ROUNDUP end_ - 1)) w) :
    (callbacks_return w → (walk_page_range w pml4 base end_ u s).isSome = true) ∧
    ∀ r u1 s1, walk_page_range w pml4 base end_ u s = some (r, u1, s1) → 0 ≤ r →
      log u1 = log u ++
        (pages_of base end_).map fun p => (ptbl_of s1 pml4 p, PAGE_TABLE_INDEX p, p) := by
  have hfill : tables_filled w pml4 (ROUNDDOWN base) (ROUNDUP end_ - 1) s := by
    rcases htab with h | h
    · exact tables_present_filled w pml4 _ _ s h hkeep
    · exact h
  have hB : ROUNDDOWN base = base - base % 4096 := rfl
  have hU : ROUNDUP end_ = end_ + 4095 - (end_ + 4095) % 4096 := by
    unfold ROUNDUP ROUNDDOWN PAGE_SIZE
    simp only [show WORD = 2 ^ 64 from rfl, show USER_LIM = 0x800000000000 from rfl,
      show KERNEL_VMA = 0xFFFF800000000000 from rfl, show PAGE_SIZE = 4096 from rfl] at hhalf ⊢
    have : (end_ + 4096 - 1) % 2 ^ 64 = end_ + 4095 := by omega
    rw [this]
  simp only [show WORD = 2 ^ 64 from rfl, show USER_LIM = 0x800000000000 from rfl,
    show KERNEL_VMA = 0xFFFF800000000000 from rfl, show PAGE_SIZE = 4096 from rfl] at hhalf
  have hE : (ROUNDUP end_ + WORD - 1) % WORD = ROUNDUP end_ - 1 := by
    rw [hU]
    simp only [show WORD = 2 ^ 64 from rfl]
    omega
  have hBw : ROUNDDOWN base < WORD := by
    rw [hB]
    simp only [show WORD = 2 ^ 64 from rfl]
    omega
  have hx : sign_extend (ROUNDDOWN base) = ROUNDDOWN base := by
    have c := sign_extend_cases (ROUNDDOWN base) hBw
    rw [hB] at c ⊢
    rcases hhalf with h0 | h0
    · rcases c with ⟨_, c2⟩ | ⟨c1, _⟩
      · exact c2
      · omega
    · rcases c with ⟨c1, _⟩ | ⟨_, c2⟩
      · omega
      · rw [c2]; omega
  constructor
  · intro hret
    unfold walk_page_range
    exact pml4_walk_range_returns w hret pml4 _ _ u s hBw hx
  · intro r u1 s1 h hr
    unfold walk_page_range pml4_walk_range at h
    rw [hE, hx] at h
    have hl := (pml4_walk_loop_visits log w hrec pml4 (ROUNDDOWN base) (ROUNDUP end_ - 1)
      hkeep s hfill (ROUNDUP end_ - 1) (by rw [hU]; omega)
      (by rw [hU]; simp only [show WORD = 2 ^ 64 from rfl]; omega) (le_refl _) _
      (ROUNDDOWN base) u s r u1 s1 (by rw [hB]; omega) hBw hx
      (by simp only [show USER_LIM = 0x800000000000 from rfl]
          rw [hU, hB]
          rcases hhalf with h0 | h0
          · left; omega
          · right; omega) (le_refl _) (tables_grow_refl _ _ _ _) h hr).1
    have hsp : span_pages (ROUNDDOWN base) (ROUNDUP end_ - 1) = pages_of base end_ := by
      unfold span_pages pages_of
      have : (ROUNDUP end_ - 1 + 4 - ROUNDDOWN base) / PAGE_SIZE =
          (ROUNDUP end_ - ROUNDDOWN base) / PAGE_SIZE := by
        rw [hU, hB]
        simp only [show PAGE_SIZE = 4096 from rfl]
        omega
      rw [this]
    rw [hl, hsp]

set_option maxRecDepth 100000 in
/-- On `two_tables_state` the walk of `[0x1ff000, 0x201000)` with the recording callback
returns 0 and has called the callback on the entry 511 of the table in frame 4 and on the
entry 0 of the table in frame 5, the entries of the two pages of the range. -/
theorem walk_page_range_visits_each_page_witness :
    ((walk_page_range { pte_callback := some record_pte } 1 0x1ff000 0x201000 []
        two_tables_state).map fun r => (r.1, r.2.1)) =
      some (0, [(4, 511, 0x1ff000), (5, 0, 0x200000)]) ∧
    ∀ r u1 s1, walk_page_range { pte_callback := some record_pte } 1 0x1ff000 0x201000 []
        two_tables_state = some (r, u1, s1) → 0 ≤ r →
      id u1 = id [] ++ (pages_of 0x1ff000 0x201000).map fun p =>
        (ptbl_of s1 1 p, PAGE_TABLE_INDEX p, p) :=
  ⟨by rfl,
    (walk_page_range_visits_each_page id { pte_callback := some record_pte } 1 0x1ff000
      0x201000 [] two_tables_state record_pte_records (by decide) (Or.inl (by decide))
      (Or.inl fun va h1 h2 => by
        have e1 : ROUNDDOWN 0x1ff000 = 0x1ff000 := by decide
        have e2 : ROUNDUP 0x201000 - 1 = 0x200fff := by decide
        rw [e1] at h1
        rw [e2] at h2
        have i1 : PML4_INDEX va = 0 := by unfold PML4_INDEX; omega
        have i2 : PDPT_INDEX va = 0 := by unfold PDPT_INDEX; omega
        have i3 : PAGE_DIR_INDEX va = 0 ∨ PAGE_DIR_INDEX va = 1 := by
          unfold PAGE_DIR_INDEX; omega
        have p1 : pdpt_of two_tables_state 1 va = 2 := by unfold pdpt_of; rw [i1]; rfl
        have p2 : pdir_of two_tables_state 1 va = 3 := by unfold pdir_of; rw [p1, i2]; rfl
        rw [p1, p2, i1, i2]
        rcases i3 with i3 | i3 <;> rw [i3] <;> decide)
      (record_pte_keeps _ (tables_grow_refl _ _ _))).2⟩

/-! ## Insertion of a VMA: overlap and shared addresses -/

/-- For two ranges that are not empty the interval test of `insert_vma` says that they share
an address. -/
theorem vma_overlap_iff_intersect (a b : vma) (ha : a.vm_base < a.vm_end)
    (hb : b.vm_base < b.vm_end) : vma_overlap a b ↔ ranges_intersect a b := by
  unfold vma_overlap ranges_intersect
  constructor
  · intro h
    by_cases hc : a.vm_base ≤ b.vm_base
    · exact ⟨b.vm_base, hc, h.2, le_refl _, hb⟩
    · exact ⟨a.vm_base, le_refl _, ha, by omega, h.1⟩
  · rintro ⟨x, h1, h2, h3, h4⟩
    omega

/-- C8 (as the code has it): on a task whose tree is ordered by base, whose VMAs are ranges
no two of which overlap and whose list follows the tree, `insert_vma(task, vma)` returns -1
exactly when `vma` overlaps a VMA of the task, where two VMAs overlap when each begins before
the other ends.  On -1 the tree, the list and the cells are unchanged.  Otherwise it returns
0, the VMA is in the tree and in the list, the list is the in-order sequence of the tree and
holds the old members and the new one, and along the list every VMA ends before the later
ones begin (so the list is sorted by base).  For ranges that are not empty, to overlap is to
share an address. -/
theorem insert_vma_rejects_iff_overlap (t : task) (new : Nat)
    (ho : tree_ordered t) (hd : vmas_disjoint t) (hl : list_matches_tree t) :
    (((insert_vma t new).1 = -1 ↔
      ∃ w ∈ t.task_rb.inorder, vma_overlap (t.vmas new) (t.vmas w)) ∧
    ((insert_vma t new).1 = -1 →
      (insert_vma t new).2.task_rb = t.task_rb ∧
      (insert_vma t new).2.task_mmap = t.task_mmap ∧
      (insert_vma t new).2.vmas = t.vmas) ∧
    ((insert_vma t new).1 ≠ -1 →
      (insert_vma t new).1 = 0 ∧
      new ∈ (insert_vma t new).2.task_rb.inorder ∧
      new ∈ (insert_vma t new).2.task_mmap ∧
      (insert_vma t new).2.task_mmap = (insert_vma t new).2.task_rb.inorder ∧
      (∀ v, v ∈ (insert_vma t new).2.task_mmap ↔ v = new ∨ v ∈ t.task_mmap) ∧
      (insert_vma t new).2.vmas = t.vmas ∧
      (insert_vma t new).2.task_mmap.Pairwise
        (fun a b => (t.vmas a).vm_end ≤ (t.vmas b).vm_base) ∧
      ((t.vmas new).vm_base ≤ (t.vmas new).vm_end →
        (insert_vma t new).2.task_mmap.Pairwise
          (fun a b => (t.vmas a).vm_base ≤ (t.vmas b).vm_base)))) ∧
    ∀ w, (t.vmas new).vm_base < (t.vmas new).vm_end →
      (t.vmas w).vm_base < (t.vmas w).vm_end →
      (vma_overlap (t.vmas new) (t.vmas w) ↔ ranges_intersect (t.vmas new) (t.vmas w)) :=
  ⟨insert_vma_overlap_spec t new ho hd hl,
    fun _ h1 h2 => vma_overlap_iff_intersect _ _ h1 h2⟩

/-- Witness of `insert_vma_rejects_iff_overlap`: on `three_vma_task` the free range
[0x5000, 0x6000) is inserted between the VMAs 3 and 5, and the range [0x2000, 0x3800) is
rejected. -/
theorem insert_vma_rejects_iff_overlap_witness :
    (tree_ordered task_with_free_cell ∧ vmas_disjoint task_with_free_cell ∧
      list_matches_tree task_with_free_cell) ∧
    (insert_vma task_with_free_cell 9).1 = 0 ∧
    (insert_vma task_with_free_cell 9).2.task_mmap = [1, 3, 9, 5] ∧
    (insert_vma task_with_taken_cell 9).1 = -1 := by
  have ho : tree_ordered task_with_free_cell := by
    unfold tree_ordered; decide
  have hd : vmas_disjoint task_with_free_cell := by
    unfold vmas_disjoint; decide
  have hl : list_matches_tree task_with_free_cell := rfl
  have ho' : tree_ordered task_with_taken_cell := by
    unfold tree_ordered; decide
  have hd' : vmas_disjoint task_with_taken_cell := by
    unfold vmas_disjoint; decide
  have h := insert_vma_rejects_iff_overlap task_with_free_cell 9 ho hd hl
  have h' := insert_vma_rejects_iff_overlap task_with_taken_cell 9 ho' hd' rfl
  have hne : (insert_vma task_with_free_cell 9).1 ≠ -1 := by
    intro hc
    have := h.1.1.1 hc
    revert this
    decide
  exact ⟨⟨ho, hd, hl⟩, (h.1.2.2 hne).1, by rfl, h'.1.1.2 (by decide)⟩

/-- The claim C8 fails on a task with an empty VMA.  The only VMA of `task_with_empty_vma`
is the empty range [0x2000, 0x2000), which `mmap` with a length of 0 creates: the tree is
ordered, the list follows it, and no two VMAs share an address.  `insert_vma` of the range
[0x1000, 0x3000) returns -1 and leaves the task as it was, although the range shares no
address with a VMA of the task: the empty VMA begins before the new range ends, and the new
range begins before the empty VMA ends. -/
theorem insert_vma_rejects_range_around_empty_vma :
    vma_ranges task_with_empty_vma = [(0x2000, 0x2000, 1)] ∧
    task_with_empty_vma.task_rb.inorder = [1] ∧
    tree_ordered task_with_empty_vma ∧ list_matches_tree task_with_empty_vma ∧
    ((task_with_empty_vma.vmas 3).vm_base, (task_with_empty_vma.vmas 3).vm_end) =
      (0x1000, 0x3000) ∧
    (insert_vma task_with_empty_vma 3).1 = -1 ∧
    vma_ranges (insert_vma task_with_empty_vma 3).2 = [(0x2000, 0x2000, 1)] ∧
    ¬ ∃ w ∈ task_with_empty_vma.task_rb.inorder,
      ranges_intersect (task_with_empty_vma.vmas 3) (task_with_empty_vma.vmas w) := by
  refine ⟨by rfl, by rfl, ?_, by rfl, by rfl, by rfl, by rfl, ?_⟩
  · unfold tree_ordered
    have e : task_with_empty_vma.task_rb.inorder = [1] := rfl
    rw [e]
    exact List.pairwise_singleton _ _
  · rintro ⟨w, hw, x, _, _, h3, h4⟩
    have e : task_with_empty_vma.task_rb.inorder = [1] := rfl
    rw [e] at hw
    simp only [List.mem_singleton] at hw
    subst hw
    have e1 : (task_with_empty_vma.vmas 1).vm_base = 0x2000 := rfl
    have e2 : (task_with_empty_vma.vmas 1).vm_end = 0x2000 := rfl
    omega

/-! ## Allocation with `ALLOC_ZERO` -/

/-- `page_alloc` on a clean state: the state stays clean, the frame returned was free, the
other frames keep their contents, and no reference count changes. -/
theorem page_alloc_clean (s : kstate) (hc : clean s) (flags p : Nat) (s1 : kstate)
    (ha : page_alloc s flags = some (some p, s1)) :
    clean s1 ∧ covered s p ∧ (∀ x, covered s1 x ↔ (covered s x ∧ x ≠ p)) ∧
    (∀ f, f ≠ p → s1.mem f = s.mem f) ∧
    (∀ q, (s1.pages q).pp_ref = (s.pages q).pp_ref) ∧ s1.cur_task = s.cur_task := by
  rcases page_alloc_spec s hc.inv flags with ⟨hn, _⟩ |
    ⟨p', s', e, hinv, hcp, hcov, hmo, _, _, _, hct, hpg⟩
  · rw [hn] at ha; simp at ha
  · rw [e] at ha
    simp only [Option.some.injEq, Prod.mk.injEq] at ha
    obtain ⟨h1, h2⟩ := ha
    subst h1 h2
    refine ⟨⟨hinv, ?_, ?_, ?_⟩, hcp, hcov, hmo, fun q => (hpg q).1, hct⟩
    · intro f hf hz i
      obtain ⟨hf1, hf2⟩ := (hcov f).1 hf
      rw [hmo f hf2]
      exact hc.zero f hf1 (by rw [← (hpg f).2.1]; exact hz) i
    · intro f hf
      exact hc.bound f ((hcov f).1 hf).1
    · intro f hf
      rw [(hpg f).1]
      exact hc.noref f ((hcov f).1 hf).1

theorem table_entry_present (t : Nat) (h : page2pa t < USER_LIM) :
    table_entry t &&& PAGE_PRESENT ≠ 0 ∧ table_entry t &&& PAGE_HUGE = 0 ∧
    entry_table (table_entry t) = t ∧ pa2page (PAGE_ADDR (table_entry t)) = t := by
  obtain ⟨e1, e2, e3⟩ := table_entry_bits t h
  exact ⟨e1, e2, e3, e3⟩

/-- `ptbl_alloc` on an entry that is not present, in a clean state: when it returns, it
returns 0, the entry points to a frame that was free and holds zeroes now, the frame has one
reference, and nothing else changed in memory or in the reference counts. -/
theorem ptbl_alloc_fresh {υ : Type} (s : kstate) (tbl idx b e : Nat) (u : υ) (hc : clean s)
    (ht : ¬ covered s tbl) (hp : s.mem tbl idx &&& PAGE_PRESENT = 0)
    (r : Int) (u1 : υ) (s1 : kstate) (h : ptbl_alloc tbl idx b e u s = some (r, u1, s1)) :
    ∃ t, r = 0 ∧ u1 = u ∧ clean s1 ∧ covered s t ∧
      (∀ x, covered s1 x ↔ (covered s x ∧ x ≠ t)) ∧
      (∀ f i, s1.mem f i = if f = tbl ∧ i = idx then table_entry t
                            else if f = t then 0 else s.mem f i) ∧
      (∀ q, (s1.pages q).pp_ref = if q = t then 1 else (s.pages q).pp_ref) ∧
      s1.cur_task = s.cur_task := by
  rcases page_alloc_spec s hc.inv ALLOC_ZERO with ⟨hn, _⟩ |
    ⟨x, s0, ea, hinv, hcx, hcov, hmo, hmx, _, _, hct, hpg⟩
  · simp [ptbl_alloc, hp, hn] at h
  · have hxt : x ≠ tbl := fun h => ht (h ▸ hcx)
    have hzx : ∀ i, s0.mem x i = 0 := by
      intro i
      rw [hmx]
      split_ifs with hc'
      · rfl
      · have hz2 : (s.pages x).pp_zero = true := by
          by_contra h2
          exact hc' ⟨by decide, by simpa using h2⟩
        exact hc.zero x hcx hz2 i
    let s5 : kstate := set_entry (set_page s0 x
      (fun p => { p with pp_ref := (p.pp_ref + 1) % 65536 })) tbl idx
      (page2pa x ||| (PAGE_PRESENT ||| PAGE_WRITE ||| PAGE_USER))
    have hm5 : ∀ f i, s5.mem f i = if f = tbl ∧ i = idx then
        page2pa x ||| (PAGE_PRESENT ||| PAGE_WRITE ||| PAGE_USER) else s0.mem f i :=
      fun f i => rfl
    have he : ptbl_alloc tbl idx b e u s = some (0, u, s5) := by
      simp only [ptbl_alloc, hp, ne_eq, not_true_eq_false, if_false, ea]
      congr 3
      simp only [s5, set_entry, set_page, and_self, if_true]
      congr 1
      funext f i
      split_ifs <;> rfl
    rw [he] at h
    simp only [Option.some.injEq, Prod.mk.injEq] at h
    obtain ⟨h1, h2, h3⟩ := h
    subst h1 h2 h3
    have hl5 : s5.buddy_free_list = s0.buddy_free_list := rfl
    have hc5 : ∀ y, covered s5 y ↔ (covered s y ∧ y ≠ x) := fun y =>
      Iff.trans (covered_congr s0 s5 hl5 y) (hcov y)
    have hr5 : ∀ q, (s5.pages q).pp_ref = if q = x then 1 else (s.pages q).pp_ref := by
      intro q
      by_cases hq : q = x
      · subst hq
        have : (s5.pages q).pp_ref = ((s0.pages q).pp_ref + 1) % 65536 := by
          simp [s5, set_entry, set_page]
        rw [this, (hpg q).1, hc.noref q hcx]
        simp
      · have : (s5.pages q).pp_ref = (s0.pages q).pp_ref := by
          simp [s5, set_entry, set_page, hq]
        rw [this, (hpg q).1]
        simp [hq]
    have hz5 : ∀ q, (s5.pages q).pp_zero = (s.pages q).pp_zero := by
      intro q
      rw [← (hpg q).2.1]
      simp only [s5, set_entry, set_page]
      split_ifs <;> rfl
    refine ⟨x, rfl, rfl, ⟨?_, ?_, ?_, ?_⟩, hcx, hc5, ?_, hr5, hct⟩
    · refine buddy_inv_congr s0 s5 hl5 ?_ ?_ hinv
      · intro q
        simp only [s5, set_entry, set_page]
        split_ifs <;> rfl
      · intro q
        simp only [s5, set_entry, set_page]
        split_ifs <;> rfl
    · intro f hf hfz i
      obtain ⟨hf1, hf2⟩ := (hc5 f).1 hf
      have hft : f ≠ tbl := fun h => ht (h ▸ hf1)
      rw [hm5, if_neg (fun h => hft h.1), hmo f hf2]
      exact hc.zero f hf1 (by rw [← hz5 f]; exact hfz) i
    · intro f hf
      exact hc.bound f ((hc5 f).1 hf).1
    · intro f hf
      obtain ⟨hf1, hf2⟩ := (hc5 f).1 hf
      rw [hr5, if_neg hf2]
      exact hc.noref f hf1
    · intro f i
      rw [hm5]
      by_cases h1 : f = tbl ∧ i = idx
      · rw [if_pos h1, if_pos h1]; rfl
      · rw [if_neg h1, if_neg h1]
        by_cases h2 : f = x
        · rw [if_pos h2, h2]; exact hzx i
        · rw [if_neg h2, hmo f h2]

/-- `insert_pte` on an entry that is not present: when it returns, it returns 0, the entry
names the frame with the flags and the present bit, the frame has one reference more, and the
free lists, the other reference counts and the rest of memory are unchanged. -/
theorem insert_pte_hole (tbl idx base end_ : Nat) (info : insert_info) (s : kstate) (r : Int)
    (u : insert_info) (s' : kstate) (hp : s.mem tbl idx &&& PAGE_PRESENT = 0)
    (h : insert_pte tbl idx base end_ info s = some (r, u, s')) :
    r = 0 ∧ s'.buddy_free_list = s.buddy_free_list ∧
    (∀ q, (s'.pages q).pp_free = (s.pages q).pp_free ∧
      (s'.pages q).pp_order = (s.pages q).pp_order) ∧
    (∀ q, (s'.pages q).pp_ref =
      if q = info.page then ((s.pages q).pp_ref + 1) % 65536 else (s.pages q).pp_ref) ∧
    ∀ f i, s'.mem f i = if f = tbl ∧ i = idx then
      page2pa info.page ||| info.flags ||| PAGE_PRESENT else s.mem f i := by
  obtain ⟨h0, hm0, hm1⟩ := insert_pte_mem _ _ _ _ _ _ _ _ _ h
  have hmem : ∀ f i, s'.mem f i = if f = tbl ∧ i = idx then
      page2pa info.page ||| info.flags ||| PAGE_PRESENT else s.mem f i := by
    intro f i
    by_cases hfi : f = tbl ∧ i = idx
    · rw [if_pos hfi, hfi.1, hfi.2]; exact hm0
    · rw [if_neg hfi]; exact hm1 f i hfi
  have key : ∃ s2 rm, s2.pages = (set_page s info.page (fun p => { p with rmap := rm })).pages ∧
      s2.buddy_free_list = s.buddy_free_list ∧
      s'.pages = (set_page s2 info.page
        (fun p => { p with pp_ref := (p.pp_ref + 1) % 65536 })).pages ∧
      s'.buddy_free_list = s2.buddy_free_list := by
    by_cases hu : info.flags &&& PAGE_USER = 0
    · simp [insert_pte, hp, hu] at h
      obtain ⟨_, _, h3⟩ := h
      subst h3
      exact ⟨_, 0, rfl, rfl, rfl, rfl⟩
    · cases ht : s.cur_task with
      | none => simp [insert_pte, hp, hu, ht] at h
      | some t =>
        by_cases hb : base < USER_LIM
        · cases hv : task_find_vma t base with
          | none => simp [insert_pte, hp, hu, ht, hb, hv] at h
          | some v =>
            simp [insert_pte, hp, hu, ht, hb, hv] at h
            obtain ⟨_, _, h3⟩ := h
            subst h3
            exact ⟨_, (t.vmas v).rmap, add_swap_page_pages _ _, add_swap_page_lists _ _,
              rfl, rfl⟩
        · simp [insert_pte, hp, hu, ht, hb] at h
  obtain ⟨s2, rm, e1, e2, e3, e4⟩ := key
  refine ⟨h0, e4.trans e2, ?_, ?_, hmem⟩
  · intro q
    rw [e3]
    simp only [set_page]
    rw [e1]
    simp only [set_page]
    split_ifs <;> exact ⟨rfl, rfl⟩
  · intro q
    rw [e3]
    simp only [set_page]
    rw [e1]
    simp only [set_page]
    split_ifs <;> rfl

theorem and_then_some_neg {υ : Type} (r : Int) (u : υ) (s : kstate) (hr : ¬ r < 0)
    (rest : υ → kstate → walk_result υ) : and_then (some (r, u, s)) rest = rest u s := by
  simp [and_then, hr]

/-- `page_insert` of a frame in use on a path whose root entry is not present, in a clean
state: when it returns, it returns 0; it has taken three free frames as the PDPT, the page
directory and the page table of the path; each of them holds its one entry and zeroes and has
one reference; the frame inserted has one reference more. -/
theorem page_insert_fresh (s : kstate) (pml4 p va flags : Nat) (hc : clean s)
    (hroot : ¬ covered s pml4) (hnp : ¬ covered s p) (hva : canonical va)
    (hp4 : s.mem pml4 (PML4_INDEX va) &&& PAGE_PRESENT = 0)
    (r : Int) (s' : kstate) (hi : page_insert s pml4 p va flags = some (r, s')) :
    ∃ t1 t2 t3, r = 0 ∧ covered s t1 ∧ covered s t2 ∧ covered s t3 ∧
      t1 ≠ t2 ∧ t1 ≠ t3 ∧ t2 ≠ t3 ∧ buddy_inv s' ∧
      (∀ x, covered s' x ↔ (covered s x ∧ x ≠ t1 ∧ x ≠ t2 ∧ x ≠ t3)) ∧
      (∀ i, s'.mem pml4 i = if i = PML4_INDEX va then table_entry t1 else s.mem pml4 i) ∧
      (∀ i, s'.mem t1 i = if i = PDPT_INDEX va then table_entry t2 else 0) ∧
      (∀ i, s'.mem t2 i = if i = PAGE_DIR_INDEX va then table_entry t3 else 0) ∧
      (∀ i, s'.mem t3 i =
        if i = PAGE_TABLE_INDEX va then page2pa p ||| flags ||| PAGE_PRESENT else 0) ∧
      (∀ q, (s'.pages q).pp_ref =
        if q = p then ((s.pages q).pp_ref + 1) % 65536
        else if q = t1 ∨ q = t2 ∨ q = t3 then 1 else (s.pages q).pp_ref) := by
  unfold page_insert at hi
  simp only at hi
  rw [walk_page_range_one _ _ _ _ _ hva] at hi
  generalize hw : page_walker.mk (some insert_pte) (some insert_pde) (some insert_pdpte)
    (some insert_pml4e) none none none none none = w at hi
  have w1 : w.pte_callback = some insert_pte := by rw [← hw]
  have w2 : w.pde_callback = some insert_pde := by rw [← hw]
  have w3 : w.pdpte_callback = some insert_pdpte := by rw [← hw]
  have w4 : w.pml4e_callback = some insert_pml4e := by rw [← hw]
  have wh : w.pt_hole_callback = none := by rw [← hw]
  have v1 : w.pte_unmap = none := by rw [← hw]
  have v2 : w.pde_unmap = none := by rw [← hw]
  have v3 : w.pdpte_unmap = none := by rw [← hw]
  have v4 : w.pml4e_unmap = none := by rw [← hw]
  have e4 : va + 4095 - 1 = va + 4094 := by omega
  have e3 : va + 4094 - 1 = va + 4093 := by omega
  have e2 : va + 4093 - 1 = va + 4092 := by omega
  have e1 : va + 4092 - 1 = va + 4091 := by omega
  rw [pml4_walk_one w pml4 va (va + 4095) _ s hva (by omega) (le_refl _), w4, v4, wh, e4] at hi
  simp only [call_cb, call_hole] at hi
  -- the PDPT
  cases h4 : ptbl_alloc pml4 (PML4_INDEX va) va (va + 4094)
      ({ pml4 := pml4, page := p, flags := flags } : insert_info) s with
  | none =>
    rw [insert_pml4e_none _ _ _ _ _ _ h4] at hi
    simp [and_then] at hi
  | some x1 =>
  obtain ⟨r1, u1, s1⟩ := x1
  obtain ⟨t1, _, hu1, c1, ct1, cov1, m1, rf1, _⟩ :=
    ptbl_alloc_fresh s pml4 (PML4_INDEX va) va (va + 4094) _ hc hroot hp4 r1 u1 s1 h4
  subst hu1
  rw [insert_pml4e_some _ _ _ _ _ _ _ _ _ h4] at hi
  simp only [and_then_ok] at hi
  have hb1 := hc.bound t1 ct1
  obtain ⟨tp1, th1, te1, _⟩ := table_entry_present t1 hb1
  have n1 : t1 ≠ pml4 := fun h => hroot (h ▸ ct1)
  have x4 : s1.mem pml4 (PML4_INDEX va) = table_entry t1 := by rw [m1]; simp
  rw [x4, if_pos tp1, te1,
    pdpt_walk_one w _ va (va + 4094) _ s1 hva (by omega) (by omega), w3, v3, wh, e3] at hi
  simp only [call_cb, call_hole] at hi
  -- the page directory
  have nc1 : ¬ covered s1 t1 := fun h => ((cov1 t1).1 h).2 rfl
  have z1 : s1.mem t1 (PDPT_INDEX va) &&& PAGE_PRESENT = 0 := by
    rw [m1, if_neg (fun h => n1 h.1), if_pos rfl]; rfl
  cases h3 : ptbl_alloc t1 (PDPT_INDEX va) va (va + 4093)
      ({ pml4 := pml4, page := p, flags := flags } : insert_info) s1 with
  | none =>
    rw [insert_pdpte_none _ _ _ _ _ _ h3] at hi
    simp [and_then] at hi
  | some x2 =>
  obtain ⟨r2, u2, s2⟩ := x2
  obtain ⟨t2, _, hu2, c2, ct2, cov2, m2, rf2, _⟩ :=
    ptbl_alloc_fresh s1 t1 (PDPT_INDEX va) va (va + 4093) _ c1 nc1 z1 r2 u2 s2 h3
  subst hu2
  rw [insert_pdpte_some _ _ _ _ _ _ _ _ _ h3] at hi
  simp only [and_then_ok] at hi
  have ct2' := (cov1 t2).1 ct2
  have hb2 := hc.bound t2 ct2'.1
  obtain ⟨tp2, th2, te2, _⟩ := table_entry_present t2 hb2
  have n2 : t2 ≠ pml4 := fun h => hroot (h ▸ ct2'.1)
  have n21 : t2 ≠ t1 := ct2'.2
  have x3 : s2.mem t1 (PDPT_INDEX va) = table_entry t2 := by rw [m2]; simp
  rw [x3, if_pos tp2, if_pos (not_not.mpr th2), te2,
    pdir_walk_one w _ va (va + 4093) _ s2 hva (by omega) (by omega), w2, v2, wh, e2] at hi
  simp only [call_cb, call_hole] at hi
  -- the page table
  have nc2 : ¬ covered s2 t2 := fun h => ((cov2 t2).1 h).2 rfl
  have z2 : s2.mem t2 (PAGE_DIR_INDEX va) &&& PAGE_PRESENT = 0 := by
    rw [m2, if_neg (fun h => n21 h.1), if_pos rfl]; rfl
  cases h2 : ptbl_alloc t2 (PAGE_DIR_INDEX va) va (va + 4092)
      ({ pml4 := pml4, page := p, flags := flags } : insert_info) s2 with
  | none =>
    rw [insert_pde_none _ _ _ _ _ _ h2] at hi
    simp [and_then] at hi
  | some x3' =>
  obtain ⟨r3, u3, s3⟩ := x3'
  obtain ⟨t3, _, hu3, c3, ct3, cov3, m3, rf3, _⟩ :=
    ptbl_alloc_fresh s2 t2 (PAGE_DIR_INDEX va) va (va + 4092) _ c2 nc2 z2 r3 u3 s3 h2
  subst hu3
  rw [insert_pde_some _ _ _ _ _ _ _ _ _ h2] at hi
  simp only [and_then_ok] at hi
  have ct3' := (cov2 t3).1 ct3
  have ct3'' := (cov1 t3).1 ct3'.1
  have hb3 := hc.bound t3 ct3''.1
  obtain ⟨tp3, th3, te3, _⟩ := table_entry_present t3 hb3
  have n3 : t3 ≠ pml4 := fun h => hroot (h ▸ ct3''.1)
  have n32 : t3 ≠ t2 := ct3'.2
  have n31 : t3 ≠ t1 := ct3''.2
  have x2 : s3.mem t2 (PAGE_DIR_INDEX va) = table_entry t3 := by rw [m3]; simp
  rw [x2, if_pos tp3, if_pos (not_not.mpr th3), te3,
    ptbl_walk_one w _ va (va + 4092) _ s3 hva (by omega) (by omega), w1, v1, wh, e1] at hi
  simp only [call_cb, call_hole] at hi
  -- the leaf entry
  have z3 : s3.mem t3 (PAGE_TABLE_INDEX va) &&& PAGE_PRESENT = 0 := by
    rw [m3, if_neg (fun h => n32 h.1), if_pos rfl]; rfl
  cases h1 : insert_pte t3 (PAGE_TABLE_INDEX va) va (va + 4091)
      ({ pml4 := pml4, page := p, flags := flags } : insert_info) s3 with
  | none =>
    rw [h1] at hi
    simp [and_then] at hi
  | some x4' =>
  obtain ⟨r4, u4, s4⟩ := x4'
  obtain ⟨hr4, l4, pg4, rf4, m4⟩ := insert_pte_hole _ _ _ _ _ _ _ _ _ z3 h1
  subst hr4
  rw [h1] at hi
  simp only [and_then_ok, ite_self, Option.map_some', Option.some.injEq, Prod.mk.injEq] at hi
  obtain ⟨hr, hs'⟩ := hi
  subst hs'
  have np1 : p ≠ t1 := fun h => hnp (h ▸ ct1)
  have np2 : p ≠ t2 := fun h => hnp (h ▸ ct2'.1)
  have np3 : p ≠ t3 := fun h => hnp (h ▸ ct3''.1)
  refine ⟨t1, t2, t3, hr.symm, ct1, ct2'.1, ct3''.1, n21.symm, n31.symm, n32.symm, ?_, ?_,
    ?_, ?_, ?_, ?_, ?_⟩
  · exact buddy_inv_congr s3 s4 l4 (fun q => (pg4 q).1) (fun q => (pg4 q).2) c3.inv
  · intro x
    rw [covered_congr s3 s4 l4 x, cov3 x, cov2 x, cov1 x]
    constructor
    · rintro ⟨⟨⟨a, b⟩, c⟩, d⟩
      exact ⟨a, b, c, d⟩
    · rintro ⟨a, b, c, d⟩
      exact ⟨⟨⟨a, b⟩, c⟩, d⟩
  · intro i
    rw [m4, if_neg (fun h => n3 h.1.symm), m3, if_neg (fun h => n2 h.1.symm),
      if_neg n3.symm, m2, if_neg (fun h => n1 h.1.symm), if_neg n2.symm, m1]
    by_cases hi4 : i = PML4_INDEX va
    · rw [if_pos ⟨rfl, hi4⟩, if_pos hi4]
    · rw [if_neg (fun h => hi4 h.2), if_neg n1.symm, if_neg hi4]
  · intro i
    rw [m4, if_neg (fun h => n31 h.1.symm), m3, if_neg (fun h => n21 h.1.symm),
      if_neg n31.symm, m2]
    by_cases hi3 : i = PDPT_INDEX va
    · rw [if_pos ⟨rfl, hi3⟩, if_pos hi3]
    · rw [if_neg (fun h => hi3 h.2), if_neg n21.symm, if_neg hi3, m1,
        if_neg (fun h => n1 h.1), if_pos rfl]
  · intro i
    rw [m4, if_neg (fun h => n32 h.1.symm), m3]
    by_cases hi2 : i = PAGE_DIR_INDEX va
    · rw [if_pos ⟨rfl, hi2⟩, if_pos hi2]
    · rw [if_neg (fun h => hi2 h.2), if_neg n32.symm, if_neg hi2, m2,
        if_neg (fun h => n21 h.1), if_pos rfl]
  · intro i
    rw [m4]
    by_cases hi1 : i = PAGE_TABLE_INDEX va
    · rw [if_pos ⟨rfl, hi1⟩, if_pos hi1]
    · rw [if_neg (fun h => hi1 h.2), if_neg hi1, m3, if_neg (fun h => n32 h.1), if_pos rfl]
  · intro q
    rw [rf4]
    show (if q = p then _ else _) = _
    have hq3 : (s3.pages q).pp_ref =
        if q = t1 ∨ q = t2 ∨ q = t3 then 1 else (s.pages q).pp_ref := by
      rw [rf3, rf2, rf1]
      by_cases a3 : q = t3
      · simp [a3]
      · by_cases a2 : q = t2
        · simp [a2, a3]
        · by_cases a1 : q = t1
          · simp [a1, a2, a3]
          · simp [a1, a2, a3]
    by_cases hq : q = p
    · rw [if_pos hq, if_pos hq, hq3, hq,
        if_neg (fun h => h.elim np1 (fun h => h.elim np2 np3))]
    · rw [if_neg hq, if_neg hq, hq3]

/-- `ptbl_free` flags the frame free before it calls `page_free`, which sets the flag again:
the call does the same without the first store. -/
theorem page_free_preset (s : kstate) (p : Nat) :
    page_free (set_page s p (fun q => { q with pp_free := true })) p = page_free s p := by
  have e : set_page (remove_swap_page (set_page s p (fun q => { q with pp_free := true })) p) p
      (fun q => { q with pp_free := true }) =
      set_page (remove_swap_page s p) p (fun q => { q with pp_free := true }) := by
    simp only [set_page, remove_swap_page]
    congr 1
    funext j
    split_ifs <;> rfl
  have er : ((set_page s p (fun q => { q with pp_free := true })).pages p).pp_ref =
      (s.pages p).pp_ref := by
    simp [set_page]
  unfold page_free
  rw [er]
  simp only
  rw [e]

/-- The frame an entry names is the frame `remove_pte` and `ptbl_free` take from it. -/
theorem pa2page_entry (x : Nat) : pa2page (PAGE_ADDR x) = entry_table x := rfl

/-- `remove_pte` on an entry that names a frame in use with one reference: the entry is
cleared and the frame is freed. -/
theorem remove_pte_step (s : kstate) (tbl idx b e info p : Nat) (hs : buddy_inv s)
    (hnc : ¬ covered s p) (href : (s.pages p).pp_ref = 1)
    (hent : (s.mem tbl idx * PAGE_PRESENT) % WORD ≠ 0)
    (hpa : entry_table (s.mem tbl idx) = p) :
    ∃ s', remove_pte tbl idx b e info s = some (0, info, s') ∧ buddy_inv s' ∧
      (∀ x, covered s' x ↔ (covered s x ∨ x = p)) ∧
      (∀ f i, s'.mem f i = if f = tbl ∧ i = idx then 0 else s.mem f i) ∧
      ∀ q, q ≠ p → (s'.pages q).pp_ref = (s.pages q).pp_ref := by
  let s1 : kstate := set_page s p (fun q => { q with pp_ref := (q.pp_ref + 65535) % 65536 })
  have hr1 : (s1.pages p).pp_ref = 0 := by
    simp [s1, set_page, href]
  have hi1 : buddy_inv s1 := by
    refine buddy_inv_congr s s1 rfl ?_ ?_ hs
    · intro q; simp only [s1, set_page]; split_ifs <;> rfl
    · intro q; simp only [s1, set_page]; split_ifs <;> rfl
  have hn1 : ¬ covered s1 p := hnc
  obtain ⟨s2, e2, hi2, hc2, hm2, _, hp2⟩ := page_free_spec s1 p hi1 hn1 hr1
  have hd : page_decref s p = some s2 := by
    unfold page_decref
    simp only
    rw [if_pos hr1]
    exact e2
  refine ⟨set_entry s2 tbl idx 0, ?_, ?_, ?_, ?_, ?_⟩
  · unfold remove_pte
    simp only
    rw [if_neg (not_not.mpr hent), pa2page_entry, hpa, hd]
  · exact buddy_inv_congr s2 _ rfl (fun _ => rfl) (fun _ => rfl) hi2
  · intro x
    exact Iff.trans (covered_congr s2 _ rfl x) (hc2 x)
  · intro f i
    show (if f = tbl ∧ i = idx then 0 else s2.mem f i) = _
    rw [hm2]
    rfl
  · intro q hq
    show (s2.pages q).pp_ref = _
    rw [(hp2 q).1]
    simp [s1, set_page, hq]

/-- `ptbl_free` on an entry that points to a table in use with one reference and without a
present entry: the entry is cleared and the table is freed. -/
theorem ptbl_free_step {υ : Type} (s : kstate) (tbl idx b e : Nat) (u : υ) (t : Nat)
    (hs : buddy_inv s) (hnc : ¬ covered s t) (href : (s.pages t).pp_ref = 1)
    (hpres : s.mem tbl idx &&& PAGE_PRESENT ≠ 0) (het : entry_table (s.mem tbl idx) = t)
    (hemp : ∀ i, s.mem t i &&& PAGE_PRESENT = 0) :
    ∃ s', ptbl_free tbl idx b e u s = some (0, u, s') ∧ buddy_inv s' ∧
      (∀ x, covered s' x ↔ (covered s x ∨ x = t)) ∧
      (∀ f i, s'.mem f i = if f = tbl ∧ i = idx then 0 else s.mem f i) ∧
      ∀ q, q ≠ t → (s'.pages q).pp_ref = (s.pages q).pp_ref := by
  let s1 : kstate := set_entry
    (set_page s t (fun q => { q with pp_ref := (q.pp_ref + 65535) % 65536 })) tbl idx 0
  have hr1 : (s1.pages t).pp_ref = 0 := by
    simp [s1, set_entry, set_page, href]
  have hi1 : buddy_inv s1 := by
    refine buddy_inv_congr s s1 rfl ?_ ?_ hs
    · intro q; simp only [s1, set_entry, set_page]; split_ifs <;> rfl
    · intro q; simp only [s1, set_entry, set_page]; split_ifs <;> rfl
  have hn1 : ¬ covered s1 t := hnc
  obtain ⟨s2, e2, hi2, hc2, hm2, _, hp2⟩ := page_free_spec s1 t hi1 hn1 hr1
  have hany : (List.range PAGE_TABLE_ENTRIES).any
      (fun i => s.mem t i &&& PAGE_PRESENT != 0) = false := by
    rw [List.any_eq_false]
    intro i _
    simp [hemp i]
  refine ⟨s2, ?_, hi2, ?_, ?_, ?_⟩
  · unfold ptbl_free
    simp only
    rw [if_neg (not_not.mpr hpres), het, hany]
    simp only [Bool.false_eq_true, if_false]
    rw [pa2page_entry, het]
    have e3 : set_entry (set_page (set_page s t
          (fun p => { p with pp_ref := (p.pp_ref + 65535) % 65536 })) t
          (fun p => { p with pp_free := true })) tbl idx 0 =
        set_page s1 t (fun p => { p with pp_free := true }) := rfl
    rw [e3, page_free_preset, e2]
  · intro x
    exact hc2 x
  · intro f i
    rw [hm2]
    rfl
  · intro q hq
    rw [(hp2 q).1]
    simp [s1, set_entry, set_page, hq]

/-- The walk of `page_lookup` stops at a root entry that is not present: the lookup returns
`NULL` and stores nothing. -/
theorem page_lookup_hole (s : kstate) (pml4 va : Nat) (es : Option (Option (Nat × Nat)))
    (hva : canonical va) (h4 : s.mem pml4 (PML4_INDEX va) &&& PAGE_PRESENT = 0) :
    page_lookup s pml4 va es = some (none, es) := by
  unfold page_lookup
  simp only
  rw [walk_page_range_one _ _ _ _ _ hva]
  generalize hw : page_walker.mk (some lookup_pte) (some lookup_pde) none none none none
    none none none = w
  have w4 : w.pml4e_callback = none := by rw [← hw]
  have wh : w.pt_hole_callback = none := by rw [← hw]
  have v4 : w.pml4e_unmap = none := by rw [← hw]
  rw [pml4_walk_one w pml4 va (va + 4095) _ s hva (by omega) (le_refl _), w4, v4, wh]
  simp only [call_cb, call_hole, and_then_ok]
  rw [if_neg (not_not.mpr h4)]
  simp only [and_then_ok]
  rfl

/-- `page_remove` of a page whose path consists of three tables that hold nothing but the
path, all frames in use with one reference: the frame of the page and the three tables are
freed and the root entry is cleared. -/
theorem page_remove_fresh (s : kstate) (pml4 va p t1 t2 t3 leaf : Nat) (hs : buddy_inv s)
    (hva : canonical va)
    (d12 : t1 ≠ t2) (d13 : t1 ≠ t3) (d23 : t2 ≠ t3) (dp1 : p ≠ t1) (dp2 : p ≠ t2)
    (dp3 : p ≠ t3) (d01 : pml4 ≠ t1) (d02 : pml4 ≠ t2) (d03 : pml4 ≠ t3)
    (cp : ¬ covered s p) (c1 : ¬ covered s t1) (c2 : ¬ covered s t2) (c3 : ¬ covered s t3)
    (rp : (s.pages p).pp_ref = 1) (r1 : (s.pages t1).pp_ref = 1)
    (r2 : (s.pages t2).pp_ref = 1) (r3 : (s.pages t3).pp_ref = 1)
    (b1 : page2pa t1 < USER_LIM) (b2 : page2pa t2 < USER_LIM) (b3 : page2pa t3 < USER_LIM)
    (m4 : s.mem pml4 (PML4_INDEX va) = table_entry t1)
    (m3 : ∀ i, s.mem t1 i = if i = PDPT_INDEX va then table_entry t2 else 0)
    (m2 : ∀ i, s.mem t2 i = if i = PAGE_DIR_INDEX va then table_entry t3 else 0)
    (m1 : ∀ i, s.mem t3 i = if i = PAGE_TABLE_INDEX va then leaf else 0)
    (hl1 : (leaf * PAGE_PRESENT) % WORD ≠ 0) (hl2 : entry_table leaf = p) :
    ∃ s', page_remove s pml4 va = some s' ∧ buddy_inv s' ∧
      (∀ x, covered s' x ↔ (covered s x ∨ x = p ∨ x = t3 ∨ x = t2 ∨ x = t1)) ∧
      ∀ i, s'.mem pml4 i = if i = PML4_INDEX va then 0 else s.mem pml4 i := by
  obtain ⟨tp1, th1, te1, _⟩ := table_entry_present t1 b1
  obtain ⟨tp2, th2, te2, _⟩ := table_entry_present t2 b2
  obtain ⟨tp3, th3, te3, _⟩ := table_entry_present t3 b3
  have x3 : s.mem t1 (PDPT_INDEX va) = table_entry t2 := by rw [m3, if_pos rfl]
  have x2 : s.mem t2 (PAGE_DIR_INDEX va) = table_entry t3 := by rw [m2, if_pos rfl]
  have x1 : s.mem t3 (PAGE_TABLE_INDEX va) = leaf := by rw [m1, if_pos rfl]
  -- the leaf entry
  obtain ⟨sa, ea, ia, ca, ma, ra⟩ := remove_pte_step s t3 (PAGE_TABLE_INDEX va) va (va + 4091)
    pml4 p hs cp rp (by rw [x1]; exact hl1) (by rw [x1]; exact hl2)
  have za : sa.mem t3 (PAGE_TABLE_INDEX va) = 0 := by rw [ma, if_pos ⟨rfl, rfl⟩]
  -- the page table
  obtain ⟨sb, eb, ib, cb, mb, rb⟩ := ptbl_free_step sa t2 (PAGE_DIR_INDEX va) va (va + 4092)
    pml4 t3 ia (fun h => ((ca t3).1 h).elim c3 (fun h => dp3 h.symm))
    (by rw [ra t3 (fun h => dp3 h.symm)]; exact r3)
    (by rw [ma, if_neg (fun h => d23 h.1), x2]; exact tp3)
    (by rw [ma, if_neg (fun h => d23 h.1), x2]; exact te3)
    (by
      intro i
      rw [ma]
      by_cases hi : i = PAGE_TABLE_INDEX va
      · rw [if_pos ⟨rfl, hi⟩]; rfl
      · rw [if_neg (fun h => hi h.2), m1, if_neg hi]; rfl)
  -- the page directory
  obtain ⟨sc, ec, ic, cc, mc, rc⟩ := ptbl_free_step sb t1 (PDPT_INDEX va) va (va + 4093)
    pml4 t2 ib
    (fun h => ((cb t2).1 h).elim
      (fun h => ((ca t2).1 h).elim c2 (fun h => dp2 h.symm)) (fun h => d23 h))
    (by rw [rb t2 d23, ra t2 (fun h => dp2 h.symm)]; exact r2)
    (by rw [mb, if_neg (fun h => d12 h.1), ma, if_neg (fun h => d13 h.1), x3]; exact tp2)
    (by rw [mb, if_neg (fun h => d12 h.1), ma, if_neg (fun h => d13 h.1), x3]; exact te2)
    (by
      intro i
      rw [mb]
      by_cases hi : i = PAGE_DIR_INDEX va
      · rw [if_pos ⟨rfl, hi⟩]; rfl
      · rw [if_neg (fun h => hi h.2), ma, if_neg (fun h => d23 h.1), m2, if_neg hi]; rfl)
  -- the PDPT
  obtain ⟨sd, ed, id, cd, md, _⟩ := ptbl_free_step sc pml4 (PML4_INDEX va) va (va + 4094)
    pml4 t1 ic
    (fun h => ((cc t1).1 h).elim
      (fun h => ((cb t1).1 h).elim
        (fun h => ((ca t1).1 h).elim c1 (fun h => dp1 h.symm)) (fun h => d13 h))
      (fun h => d12 h))
    (by rw [rc t1 d12, rb t1 d13, ra t1 (fun h => dp1 h.symm)]; exact r1)
    (by
      rw [mc, if_neg (fun h => d01 h.1), mb, if_neg (fun h => d02 h.1), ma,
        if_neg (fun h => d03 h.1), m4]
      exact tp1)
    (by
      rw [mc, if_neg (fun h => d01 h.1), mb, if_neg (fun h => d02 h.1), ma,
        if_neg (fun h => d03 h.1), m4]
      exact te1)
    (by
      intro i
      rw [mc]
      by_cases hi : i = PDPT_INDEX va
      · rw [if_pos ⟨rfl, hi⟩]; rfl
      · rw [if_neg (fun h => hi h.2), mb, if_neg (fun h => d12 h.1), ma,
          if_neg (fun h => d13 h.1), m3, if_neg hi]; rfl)
  refine ⟨sd, ?_, id, ?_, ?_⟩
  · unfold page_remove unmap_page_range
    simp only
    rw [walk_page_range_one _ _ _ _ _ hva]
    generalize hw : page_walker.mk (some remove_pte) (some remove_pde) none none none
      (some ptbl_free) (some ptbl_free) (some ptbl_free) (some ptbl_free) = w
    have w1 : w.pte_callback = some remove_pte := by rw [← hw]
    have w2 : w.pde_callback = some remove_pde := by rw [← hw]
    have w3 : w.pdpte_callback = none := by rw [← hw]
    have w4 : w.pml4e_callback = none := by rw [← hw]
    have wh : w.pt_hole_callback = none := by rw [← hw]
    have v1 : w.pte_unmap = some ptbl_free := by rw [← hw]
    have v2 : w.pde_unmap = some ptbl_free := by rw [← hw]
    have v3 : w.pdpte_unmap = some ptbl_free := by rw [← hw]
    have v4 : w.pml4e_unmap = some ptbl_free := by rw [← hw]
    have e4 : va + 4095 - 1 = va + 4094 := by omega
    have e3 : va + 4094 - 1 = va + 4093 := by omega
    have e2 : va + 4093 - 1 = va + 4092 := by omega
    have e1 : va + 4092 - 1 = va + 4091 := by omega
    rw [pml4_walk_one w pml4 va (va + 4095) _ s hva (by omega) (le_refl _), w4, v4, wh, e4]
    simp only [call_cb, call_hole, and_then_ok]
    rw [m4, if_pos tp1, te1,
      pdpt_walk_one w _ va (va + 4094) _ s hva (by omega) (by omega), w3, v3, wh, e3]
    simp only [call_cb, call_hole, and_then_ok]
    rw [x3, if_pos tp2, if_pos (not_not.mpr th2), te2,
      pdir_walk_one w _ va (va + 4093) _ s hva (by omega) (by omega), w2, v2, wh, e2]
    simp only [call_cb, call_hole, remove_pde, and_then_ok]
    rw [x2, if_pos tp3, if_pos (not_not.mpr th3), te3,
      ptbl_walk_one w _ va (va + 4092) _ s hva (by omega) (by omega), w1, v1, wh, e1]
    simp only [call_cb, call_hole]
    rw [ea]
    simp only [and_then_ok]
    rw [za, if_neg (by simp)]
    simp only [and_then_ok]
    rw [eb]
    simp only [and_then_ok]
    rw [ec]
    simp only [and_then_ok]
    rw [ed]
    simp only [and_then_ok, Option.map_some']
  · intro x
    rw [cd x, cc x, cb x, ca x]
    constructor
    · rintro ((((h | h) | h) | h) | h)
      · exact Or.inl h
      · exact Or.inr (Or.inl h)
      · exact Or.inr (Or.inr (Or.inl h))
      · exact Or.inr (Or.inr (Or.inr (Or.inl h)))
      · exact Or.inr (Or.inr (Or.inr (Or.inr h)))
    · rintro (h | h | h | h | h)
      · exact Or.inl (Or.inl (Or.inl (Or.inl h)))
      · exact Or.inl (Or.inl (Or.inl (Or.inr h)))
      · exact Or.inl (Or.inl (Or.inr h))
      · exact Or.inl (Or.inr h)
      · exact Or.inr h
  · intro i
    rw [md]
    by_cases hi : i = PML4_INDEX va
    · rw [if_pos ⟨rfl, hi⟩, if_pos hi]
    · rw [if_neg (fun h => hi h.2), if_neg hi, mc, if_neg (fun h => d01 h.1), mb,
        if_neg (fun h => d02 h.1), ma, if_neg (fun h => d03 h.1)]

theorem or_one_mod_word (x : Nat) : ((x ||| PAGE_PRESENT) * PAGE_PRESENT) % WORD ≠ 0 := by
  have h1 : (x ||| 1) % 2 = 1 := by
    rw [Nat.or_mod_two_eq_one]
    exact Or.inr rfl
  unfold PAGE_PRESENT WORD
  rw [Nat.mul_one]
  omega

theorem user_va_canonical (va : Nat) (h1 : va % PAGE_SIZE = 0) (h2 : va < USER_LIM) :
    canonical va ∧ PML4_INDEX va < 256 := by
  refine ⟨⟨h1, Or.inl h2⟩, ?_⟩
  unfold PML4_INDEX
  unfold USER_LIM at h2
  omega

/-- A frame is allocated, mapped on the empty user half of a root table and removed again:
when `page_alloc` and `page_insert` return, `page_remove` returns, and the free frames are
the ones of the start. -/
theorem page_insert_remove_spec (s s1 s2 : kstate) (pml4 va flags aflags p : Nat)
    (r : Int) (hs : buddy_inv s) (hz : zero_ok s) (hb : free_bound s)
    (hr : ∀ f, covered s f → (s.pages f).pp_ref = 0)
    (hroot : ¬ covered s pml4) (hemp : ∀ i, i < 256 → s.mem pml4 i = 0)
    (hva : va % PAGE_SIZE = 0) (hlim : va < USER_LIM) (hf : PAGE_ADDR flags = 0)
    (ha : page_alloc s aflags = some (some p, s1))
    (hi : page_insert s1 pml4 p va flags = some (r, s2)) :
    r = 0 ∧ ∃ s3, page_remove s2 pml4 va = some s3 ∧
      count_total_free_pages s3 = count_total_free_pages s ∧
      (∀ i, i < 256 → s3.mem pml4 i = 0) ∧
      page_lookup s3 pml4 va none = some (none, none) := by
  obtain ⟨hcan, hidx⟩ := user_va_canonical va hva hlim
  obtain ⟨c1, cp, cov1, mo1, rf1, _⟩ := page_alloc_clean s ⟨hs, hz, hb, hr⟩ aflags p s1 ha
  have np : p ≠ pml4 := fun h => hroot (h ▸ cp)
  have hroot1 : ¬ covered s1 pml4 := fun h => hroot ((cov1 pml4).1 h).1
  have hnp1 : ¬ covered s1 p := fun h => ((cov1 p).1 h).2 rfl
  have hm1 : ∀ i, s1.mem pml4 i = s.mem pml4 i := fun i => by rw [mo1 pml4 np.symm]
  have hp4 : s1.mem pml4 (PML4_INDEX va) &&& PAGE_PRESENT = 0 := by
    rw [hm1, hemp _ hidx]; rfl
  obtain ⟨t1, t2, t3, hr0, ct1, ct2, ct3, d12, d13, d23, i2, cov2, m4, m3, m2, m1, rf2⟩ :=
    page_insert_fresh s1 pml4 p va flags c1 hroot1 hnp1 hcan hp4 r s2 hi
  have dp1 : p ≠ t1 := fun h => hnp1 (h ▸ ct1)
  have dp2 : p ≠ t2 := fun h => hnp1 (h ▸ ct2)
  have dp3 : p ≠ t3 := fun h => hnp1 (h ▸ ct3)
  have d01 : pml4 ≠ t1 := fun h => hroot1 (h ▸ ct1)
  have d02 : pml4 ≠ t2 := fun h => hroot1 (h ▸ ct2)
  have d03 : pml4 ≠ t3 := fun h => hroot1 (h ▸ ct3)
  have hbp : page2pa p < USER_LIM := hb p cp
  obtain ⟨_, la⟩ := leaf_entry_bits p flags hbp hf
  have hl2 : entry_table (page2pa p ||| flags ||| PAGE_PRESENT) = p := by
    unfold entry_table
    rw [la, page2pa_div]
  obtain ⟨s3, e3, i3, cov3, mm⟩ := page_remove_fresh s2 pml4 va p t1 t2 t3
    (page2pa p ||| flags ||| PAGE_PRESENT) i2 hcan d12 d13 d23 dp1 dp2 dp3 d01 d02 d03
    (fun h => hnp1 ((cov2 p).1 h).1)
    (fun h => ((cov2 t1).1 h).2.1 rfl) (fun h => ((cov2 t2).1 h).2.2.1 rfl)
    (fun h => ((cov2 t3).1 h).2.2.2 rfl)
    (by rw [rf2, if_pos rfl, rf1, hr p cp])
    (by rw [rf2, if_neg dp1.symm, if_pos (Or.inl rfl)])
    (by rw [rf2, if_neg dp2.symm, if_pos (Or.inr (Or.inl rfl))])
    (by rw [rf2, if_neg dp3.symm, if_pos (Or.inr (Or.inr rfl))])
    (c1.bound t1 ct1) (c1.bound t2 ct2) (c1.bound t3 ct3)
    (by rw [m4, if_pos rfl]) m3 m2 m1 (or_one_mod_word _) hl2
  have hcov : ∀ x, covered s3 x ↔ covered s x := by
    intro x
    rw [cov3 x, cov2 x, cov1 x]
    constructor
    · rintro (⟨⟨h, _⟩, _⟩ | h | h | h | h)
      · exact h
      · rw [h]; exact cp
      · rw [h]; exact ((cov1 t3).1 ct3).1
      · rw [h]; exact ((cov1 t2).1 ct2).1
      · rw [h]; exact ((cov1 t1).1 ct1).1
    · intro h
      by_cases a : x = p
      · exact Or.inr (Or.inl a)
      · by_cases b3 : x = t3
        · exact Or.inr (Or.inr (Or.inl b3))
        · by_cases b2 : x = t2
          · exact Or.inr (Or.inr (Or.inr (Or.inl b2)))
          · by_cases b1 : x = t1
            · exact Or.inr (Or.inr (Or.inr (Or.inr b1)))
            · exact Or.inl ⟨⟨h, a⟩, b1, b2, b3⟩
  have hk : ∀ k, count_free_pages s3 k = count_free_pages s k := by
    intro k
    unfold count_free_pages
    rw [canonical_count s3 s i3 hs hcov k]
  have hz3 : ∀ i, i < 256 → s3.mem pml4 i = 0 := by
    intro i hi256
    rw [mm]
    by_cases h : i = PML4_INDEX va
    · rw [if_pos h]
    · rw [if_neg h, m4, if_neg h, hm1, hemp i hi256]
  refine ⟨hr0, s3, e3, ?_, hz3, ?_⟩
  · unfold count_total_free_pages
    simp only [hk]
  · exact page_lookup_hole s3 pml4 va none hcan (by rw [hz3 _ hidx]; rfl)

/-- `ptbl_alloc` returns on a clean state that has a free frame. -/
theorem ptbl_alloc_returns {υ : Type} (s : kstate) (tbl idx b e : Nat) (u : υ) (hc : clean s)
    (x : Nat) (hx : covered s x) :
    ∃ r u1 s1, ptbl_alloc tbl idx b e u s = some (r, u1, s1) := by
  cases h : ptbl_alloc tbl idx b e u s with
  | some v => exact ⟨v.1, v.2.1, v.2.2, rfl⟩
  | none =>
    exfalso
    by_cases hp : s.mem tbl idx &&& PAGE_PRESENT ≠ 0
    · simp [ptbl_alloc, hp] at h
    · rcases page_alloc_spec s hc.inv ALLOC_ZERO with ⟨_, hn⟩ | ⟨y, s0, ea, _⟩
      · obtain ⟨k, q, hq, _⟩ := hx
        rw [hn k (hc.inv.ord k q hq)] at hq
        simp at hq
      · simp [ptbl_alloc, hp, ea] at h

/-- `insert_pte` returns on an entry that is not present, for kernel flags and for a user
address inside a VMA of the current task. -/
theorem insert_pte_returns (tbl idx base end_ : Nat) (info : insert_info) (s : kstate)
    (hp : s.mem tbl idx &&& PAGE_PRESENT = 0)
    (hfl : info.flags &&& PAGE_USER = 0 ∨
      ∃ t v, s.cur_task = some t ∧ base < USER_LIM ∧ task_find_vma t base = some v) :
    ∃ r u s', insert_pte tbl idx base end_ info s = some (r, u, s') := by
  cases h : insert_pte tbl idx base end_ info s with
  | some v => exact ⟨v.1, v.2.1, v.2.2, rfl⟩
  | none =>
    exfalso
    by_cases hu : info.flags &&& PAGE_USER = 0
    · simp [insert_pte, hp, hu] at h
    · rcases hfl with h' | ⟨t, v, ht, hb, hv⟩
      · exact hu h'
      · simp [insert_pte, hp, hu, ht, hb, hv] at h

/-- `page_insert` on a path whose root entry is not present returns, in a clean state with
three free frames, for kernel flags and for a user address inside a VMA of the current
task. -/
theorem page_insert_fresh_returns (s : kstate) (pml4 p va flags : Nat) (hc : clean s)
    (hroot : ¬ covered s pml4) (hva : canonical va)
    (hp4 : s.mem pml4 (PML4_INDEX va) &&& PAGE_PRESENT = 0)
    (f1 f2 f3 : Nat) (d12 : f1 ≠ f2) (d13 : f1 ≠ f3) (d23 : f2 ≠ f3)
    (k1 : covered s f1) (k2 : covered s f2) (k3 : covered s f3)
    (hfl : flags &&& PAGE_USER = 0 ∨
      ∃ t v, s.cur_task = some t ∧ va < USER_LIM ∧ task_find_vma t va = some v) :
    ∃ r s', page_insert s pml4 p va flags = some (r, s') := by
  cases hi : page_insert s pml4 p va flags with
  | some v => exact ⟨v.1, v.2, rfl⟩
  | none =>
  exfalso
  unfold page_insert at hi
  simp only at hi
  rw [walk_page_range_one _ _ _ _ _ hva] at hi
  generalize hw : page_walker.mk (some insert_pte) (some insert_pde) (some insert_pdpte)
    (some insert_pml4e) none none none none none = w at hi
  have w1 : w.pte_callback = some insert_pte := by rw [← hw]
  have w2 : w.pde_callback = some insert_pde := by rw [← hw]
  have w3 : w.pdpte_callback = some insert_pdpte := by rw [← hw]
  have w4 : w.pml4e_callback = some insert_pml4e := by rw [← hw]
  have wh : w.pt_hole_callback = none := by rw [← hw]
  have v1 : w.pte_unmap = none := by rw [← hw]
  have v2 : w.pde_unmap = none := by rw [← hw]
  have v3 : w.pdpte_unmap = none := by rw [← hw]
  have v4 : w.pml4e_unmap = none := by rw [← hw]
  have e4 : va + 4095 - 1 = va + 4094 := by omega
  have e3 : va + 4094 - 1 = va + 4093 := by omega
  have e2 : va + 4093 - 1 = va + 4092 := by omega
  have e1 : va + 4092 - 1 = va + 4091 := by omega
  rw [pml4_walk_one w pml4 va (va + 4095) _ s hva (by omega) (le_refl _), w4, v4, wh, e4] at hi
  simp only [call_cb, call_hole] at hi
  -- the PDPT
  obtain ⟨r1, u1, s1, h4⟩ := ptbl_alloc_returns s pml4 (PML4_INDEX va) va (va + 4094)
    ({ pml4 := pml4, page := p, flags := flags } : insert_info) hc f1 k1
  obtain ⟨t1, _, hu1, c1, ct1, cov1, m1, _, ht1⟩ :=
    ptbl_alloc_fresh s pml4 (PML4_INDEX va) va (va + 4094) _ hc hroot hp4 r1 u1 s1 h4
  subst hu1
  rw [insert_pml4e_some _ _ _ _ _ _ _ _ _ h4] at hi
  simp only [and_then_ok] at hi
  have hb1 := hc.bound t1 ct1
  obtain ⟨tp1, th1, te1, _⟩ := table_entry_present t1 hb1
  have n1 : t1 ≠ pml4 := fun h => hroot (h ▸ ct1)
  have x4 : s1.mem pml4 (PML4_INDEX va) = table_entry t1 := by rw [m1]; simp
  rw [x4, if_pos tp1, te1,
    pdpt_walk_one w _ va (va + 4094) _ s1 hva (by omega) (by omega), w3, v3, wh, e3] at hi
  simp only [call_cb, call_hole] at hi
  -- the page directory
  have nc1 : ¬ covered s1 t1 := fun h => ((cov1 t1).1 h).2 rfl
  have z1 : s1.mem t1 (PDPT_INDEX va) &&& PAGE_PRESENT = 0 := by
    rw [m1, if_neg (fun h => n1 h.1), if_pos rfl]; rfl
  have a1 : ∃ x, covered s1 x := by
    by_cases h : f1 = t1
    · exact ⟨f2, (cov1 f2).2 ⟨k2, fun h' => d12 (h.trans h'.symm)⟩⟩
    · exact ⟨f1, (cov1 f1).2 ⟨k1, h⟩⟩
  obtain ⟨y1, hy1⟩ := a1
  obtain ⟨r2, u2, s2, h3⟩ := ptbl_alloc_returns s1 t1 (PDPT_INDEX va) va (va + 4093)
    ({ pml4 := pml4, page := p, flags := flags } : insert_info) c1 y1 hy1
  obtain ⟨t2, _, hu2, c2, ct2, cov2, m2, _, ht2⟩ :=
    ptbl_alloc_fresh s1 t1 (PDPT_INDEX va) va (va + 4093) _ c1 nc1 z1 r2 u2 s2 h3
  subst hu2
  rw [insert_pdpte_some _ _ _ _ _ _ _ _ _ h3] at hi
  simp only [and_then_ok] at hi
  have ct2' := (cov1 t2).1 ct2
  have hb2 := hc.bound t2 ct2'.1
  obtain ⟨tp2, th2, te2, _⟩ := table_entry_present t2 hb2
  have n21 : t2 ≠ t1 := ct2'.2
  have x3 : s2.mem t1 (PDPT_INDEX va) = table_entry t2 := by rw [m2]; simp
  rw [x3, if_pos tp2, if_pos (not_not.mpr th2), te2,
    pdir_walk_one w _ va (va + 4093) _ s2 hva (by omega) (by omega), w2, v2, wh, e2] at hi
  simp only [call_cb, call_hole] at hi
  -- the page table
  have nc2 : ¬ covered s2 t2 := fun h => ((cov2 t2).1 h).2 rfl
  have z2 : s2.mem t2 (PAGE_DIR_INDEX va) &&& PAGE_PRESENT = 0 := by
    rw [m2, if_neg (fun h => n21 h.1), if_pos rfl]; rfl
  have a2 : ∃ x, covered s2 x := by
    have key : ∀ x, covered s x → x ≠ t1 → x ≠ t2 → covered s2 x :=
      fun x h a b => (cov2 x).2 ⟨(cov1 x).2 ⟨h, a⟩, b⟩
    by_cases h1 : f1 = t1
    · by_cases h2 : f2 = t2
      · exact ⟨f3, key f3 k3 (fun h' => d13 (h1.trans h'.symm))
          (fun h' => d23 (h2.trans h'.symm))⟩
      · exact ⟨f2, key f2 k2 (fun h' => d12 (h1.trans h'.symm)) h2⟩
    · by_cases h2 : f1 = t2
      · by_cases h3 : f2 = t1
        · exact ⟨f3, key f3 k3 (fun h' => d23 (h3.trans h'.symm))
            (fun h' => d13 (h2.trans h'.symm))⟩
        · exact ⟨f2, key f2 k2 h3 (fun h' => d12 (h2.trans h'.symm))⟩
      · exact ⟨f1, key f1 k1 h1 h2⟩
  obtain ⟨y2, hy2⟩ := a2
  obtain ⟨r3, u3, s3, h2⟩ := ptbl_alloc_returns s2 t2 (PAGE_DIR_INDEX va) va (va + 4092)
    ({ pml4 := pml4, page := p, flags := flags } : insert_info) c2 y2 hy2
  obtain ⟨t3, _, hu3, c3, ct3, cov3, m3, _, ht3⟩ :=
    ptbl_alloc_fresh s2 t2 (PAGE_DIR_INDEX va) va (va + 4092) _ c2 nc2 z2 r3 u3 s3 h2
  subst hu3
  rw [insert_pde_some _ _ _ _ _ _ _ _ _ h2] at hi
  simp only [and_then_ok] at hi
  have ct3' := (cov2 t3).1 ct3
  have ct3'' := (cov1 t3).1 ct3'.1
  have hb3 := hc.bound t3 ct3''.1
  obtain ⟨tp3, th3, te3, _⟩ := table_entry_present t3 hb3
  have n32 : t3 ≠ t2 := ct3'.2
  have x2 : s3.mem t2 (PAGE_DIR_INDEX va) = table_entry t3 := by rw [m3]; simp
  rw [x2, if_pos tp3, if_pos (not_not.mpr th3), te3,
    ptbl_walk_one w _ va (va + 4092) _ s3 hva (by omega) (by omega), w1, v1, wh, e1] at hi
  simp only [call_cb, call_hole] at hi
  -- the leaf entry
  have z3 : s3.mem t3 (PAGE_TABLE_INDEX va) &&& PAGE_PRESENT = 0 := by
    rw [m3, if_neg (fun h => n32 h.1), if_pos rfl]; rfl
  have hfl3 : flags &&& PAGE_USER = 0 ∨
      ∃ t v, s3.cur_task = some t ∧ va < USER_LIM ∧ task_find_vma t va = some v := by
    rcases hfl with h | ⟨t, v, a, b, c⟩
    · exact Or.inl h
    · exact Or.inr ⟨t, v, by rw [ht3, ht2, ht1]; exact a, b, c⟩
  obtain ⟨r4, u4, s4, h1⟩ := insert_pte_returns t3 (PAGE_TABLE_INDEX va) va (va + 4091)
    ({ pml4 := pml4, page := p, flags := flags } : insert_info) s3 z3 hfl3
  obtain ⟨hr4, _⟩ := insert_pte_hole _ _ _ _ _ _ _ _ _ z3 h1
  subst hr4
  rw [h1] at hi
  simp [and_then] at hi

/-- A frame can be allocated and mapped on the empty user half of a root table when four
frames are free, for kernel flags and for a user address inside a VMA of the current task. -/
theorem alloc_then_insert_returns (s : kstate) (pml4 va flags aflags : Nat) (hc : clean s)
    (hroot : ¬ covered s pml4) (hemp : ∀ i, i < 256 → s.mem pml4 i = 0)
    (hva : va % PAGE_SIZE = 0) (hlim : va < USER_LIM)
    (f1 f2 f3 f4 : Nat) (d12 : f1 ≠ f2) (d13 : f1 ≠ f3) (d14 : f1 ≠ f4) (d23 : f2 ≠ f3)
    (d24 : f2 ≠ f4) (d34 : f3 ≠ f4)
    (k1 : covered s f1) (k2 : covered s f2) (k3 : covered s f3) (k4 : covered s f4)
    (hfl : flags &&& PAGE_USER = 0 ∨
      ∃ t v, s.cur_task = some t ∧ task_find_vma t va = some v) :
    ∃ p s1 r s2, page_alloc s aflags = some (some p, s1) ∧
      page_insert s1 pml4 p va flags = some (r, s2) := by
  obtain ⟨hcan, hidx⟩ := user_va_canonical va hva hlim
  rcases page_alloc_spec s hc.inv aflags with ⟨_, hn⟩ | ⟨p, s1, ea, _⟩
  · obtain ⟨k, q, hq, _⟩ := k1
    rw [hn k (hc.inv.ord k q hq)] at hq
    simp at hq
  · obtain ⟨c1, cp, cov1, mo1, _, ht1⟩ := page_alloc_clean s hc aflags p s1 ea
    have np : p ≠ pml4 := fun h => hroot (h ▸ cp)
    have hroot1 : ¬ covered s1 pml4 := fun h => hroot ((cov1 pml4).1 h).1
    have hp4 : s1.mem pml4 (PML4_INDEX va) &&& PAGE_PRESENT = 0 := by
      rw [mo1 pml4 np.symm, hemp _ hidx]; rfl
    have hfl1 : flags &&& PAGE_USER = 0 ∨
        ∃ t v, s1.cur_task = some t ∧ va < USER_LIM ∧ task_find_vma t va = some v := by
      rcases hfl with h | ⟨t, v, a, b⟩
      · exact Or.inl h
      · exact Or.inr ⟨t, v, by rw [ht1]; exact a, hlim, b⟩
    have key : ∀ a b c, a ≠ b → a ≠ c → b ≠ c → covered s a → covered s b → covered s c →
        a ≠ p → b ≠ p → c ≠ p → ∃ r s2, page_insert s1 pml4 p va flags = some (r, s2) :=
      fun a b c ab ac bc ka kb kc ap bp cp' =>
        page_insert_fresh_returns s1 pml4 p va flags c1 hroot1 hcan hp4 a b c ab ac bc
          ((cov1 a).2 ⟨ka, ap⟩) ((cov1 b).2 ⟨kb, bp⟩) ((cov1 c).2 ⟨kc, cp'⟩) hfl1
    have fin : ∃ r s2, page_insert s1 pml4 p va flags = some (r, s2) := by
      by_cases h1 : f1 = p
      · exact key f2 f3 f4 d23 d24 d34 k2 k3 k4 (fun h => d12 (h1.trans h.symm))
          (fun h => d13 (h1.trans h.symm)) (fun h => d14 (h1.trans h.symm))
      · by_cases h2 : f2 = p
        · exact key f1 f3 f4 d13 d14 d34 k1 k3 k4 h1 (fun h => d23 (h2.trans h.symm))
            (fun h => d24 (h2.trans h.symm))
        · by_cases h3 : f3 = p
          · exact key f1 f2 f4 d12 d14 d24 k1 k2 k4 h1 h2 (fun h => d34 (h3.trans h.symm))
          · exact key f1 f2 f3 d12 d13 d23 k1 k2 k3 h1 h2 h3
    obtain ⟨r, s2, e⟩ := fin
    exact ⟨p, s1, r, s2, ea, e⟩

/-- C33: in a state in which the allocator invariant holds, the zeroed flags of the free
frames tell the truth, the free frames lie below the limit of physical addresses and have no
reference, for a root table `pml4` in use whose user half is empty, a page-aligned user
address `va` and flags without address bits: whenever `page_alloc` returns a frame `p` and
`page_insert(pml4, p, va, flags)` returns, it returns 0 and `page_remove(pml4, va)` then
returns; behind it `count_total_free_pages()` has the value it had before the `page_alloc`,
the user half of the root table is all zero, and `page_lookup(pml4, va, NULL)` returns
`NULL`.  The two calls do return when four frames are free and the flags are kernel flags or
`va` lies in a VMA of the current task. -/
theorem page_remove_reclaims_tables (s : kstate) (pml4 va flags aflags : Nat)
    (hs : buddy_inv s) (hz : zero_ok s) (hb : free_bound s)
    (hr : ∀ f, covered s f → (s.pages f).pp_ref = 0)
    (hroot : ¬ covered s pml4) (hemp : ∀ i, i < 256 → s.mem pml4 i = 0)
    (hva : va % PAGE_SIZE = 0) (hlim : va < USER_LIM) (hf : PAGE_ADDR flags = 0) :
    (∀ p s1 r s2, page_alloc s aflags = some (some p, s1) →
      page_insert s1 pml4 p va flags = some (r, s2) →
      r = 0 ∧ ∃ s3, page_remove s2 pml4 va = some s3 ∧
        count_total_free_pages s3 = count_total_free_pages s ∧
        (∀ i, i < 256 → s3.mem pml4 i = 0) ∧
        page_lookup s3 pml4 va none = some (none, none)) ∧
    ((∃ f1 f2 f3 f4, f1 ≠ f2 ∧ f1 ≠ f3 ∧ f1 ≠ f4 ∧ f2 ≠ f3 ∧ f2 ≠ f4 ∧ f3 ≠ f4 ∧
        covered s f1 ∧ covered s f2 ∧ covered s f3 ∧ covered s f4) →
      (flags &&& PAGE_USER = 0 ∨
        ∃ t v, s.cur_task = some t ∧ task_find_vma t va = some v) →
      ∃ p s1 r s2, page_alloc s aflags = some (some p, s1) ∧
        page_insert s1 pml4 p va flags = some (r, s2)) := by
  refine ⟨fun p s1 r s2 ha hi =>
    page_insert_remove_spec s s1 s2 pml4 va flags aflags p r hs hz hb hr hroot hemp hva hlim hf
      ha hi, ?_⟩
  rintro ⟨f1, f2, f3, f4, d12, d13, d14, d23, d24, d34, k1, k2, k3, k4⟩ hfl
  exact alloc_then_insert_returns s pml4 va flags aflags ⟨hs, hz, hb, hr⟩ hroot hemp hva hlim
    f1 f2 f3 f4 d12 d13 d14 d23 d24 d34 k1 k2 k3 k4 hfl

theorem four_free_list : ∀ k : Nat,
    four_free_state.buddy_free_list k = if k = 0 then [8, 6, 4, 2] else []
  | 0 => rfl
  | _ + 1 => rfl

theorem four_free_covered (f : Nat) :
    covered four_free_state f ↔ (f = 8 ∨ f = 6 ∨ f = 4 ∨ f = 2) := by
  constructor
  · rintro ⟨k, q, hq, hb⟩
    rw [four_free_list] at hq
    by_cases hk : k = 0
    · simp only [hk, if_true, List.mem_cons, List.mem_singleton, List.not_mem_nil, or_false]
        at hq
      rw [hk] at hb
      unfold in_block at hb
      omega
    · simp [hk] at hq
  · intro h
    refine ⟨0, f, ?_, in_block_self f 0⟩
    rw [four_free_list]
    simp only [if_true, List.mem_cons, List.mem_singleton, List.not_mem_nil, or_false]
    exact h

theorem four_free_reachable : reachable four_free_state := by
  have c : ¬ covered three_free_state 8 := by
    intro h
    rcases three_free_covered 8 h with h | h | h <;> omega
  exact reachable.free _ _ 8 three_free_reachable c rfl

/-- Witness of `page_remove_reclaims_tables`: with the frames 2, 4, 6 and 8 free and frame 1
an empty root table, a frame is allocated, mapped at 0x1000 and removed again; four frames
are free before and behind. -/
theorem page_remove_reclaims_tables_witness :
    (buddy_inv four_free_state ∧ zero_ok four_free_state ∧ free_bound four_free_state ∧
      (∀ f, covered four_free_state f → (four_free_state.pages f).pp_ref = 0) ∧
      ¬ covered four_free_state 1 ∧ (∀ i, i < 256 → four_free_state.mem 1 i = 0) ∧
      0x1000 % PAGE_SIZE = 0 ∧ 0x1000 < USER_LIM ∧ PAGE_ADDR PAGE_WRITE = 0) ∧
    count_total_free_pages four_free_state = 4 ∧
    ∃ p s1 s2 s3, page_alloc four_free_state 0 = some (some p, s1) ∧
      page_insert s1 1 p 0x1000 PAGE_WRITE = some (0, s2) ∧
      page_remove s2 1 0x1000 = some s3 ∧ count_total_free_pages s3 = 4 ∧
      (∀ i, i < 256 → s3.mem 1 i = 0) ∧ page_lookup s3 1 0x1000 none = some (none, none) := by
  obtain ⟨h1, h4⟩ := reachable_inv _ four_free_reachable
  have h2 : zero_ok four_free_state := fun f _ _ i => rfl
  have h3 : free_bound four_free_state := by
    intro f hf
    unfold page2pa PAGE_SIZE USER_LIM
    rcases (four_free_covered f).1 hf with h | h | h | h <;> omega
  have h5 : ¬ covered four_free_state 1 := by
    intro h
    rcases (four_free_covered 1).1 h with h | h | h | h <;> omega
  have h6 : ∀ i, i < 256 → four_free_state.mem 1 i = 0 := fun _ _ => rfl
  have h7 : 0x1000 % PAGE_SIZE = 0 := by decide
  have h8 : 0x1000 < USER_LIM := by decide
  have h9 : PAGE_ADDR PAGE_WRITE = 0 := by decide
  have hc : count_total_free_pages four_free_state = 4 := by rfl
  have t := page_remove_reclaims_tables four_free_state 1 0x1000 PAGE_WRITE 0 h1 h2 h3
    (fun f _ => h4 f) h5 h6 h7 h8 h9
  obtain ⟨p, s1, r, s2, ea, ei⟩ := t.2
    ⟨8, 6, 4, 2, by decide, by decide, by decide, by decide, by decide, by decide,
      (four_free_covered 8).2 (Or.inl rfl), (four_free_covered 6).2 (Or.inr (Or.inl rfl)),
      (four_free_covered 4).2 (Or.inr (Or.inr (Or.inl rfl))),
      (four_free_covered 2).2 (Or.inr (Or.inr (Or.inr rfl)))⟩
    (Or.inl (by decide))
  obtain ⟨hr0, s3, e3, c3, z3, l3⟩ := t.1 p s1 r s2 ea ei
  subst hr0
  exact ⟨⟨h1, h2, h3, fun f _ => h4 f, h5, h6, h7, h8, h9⟩, hc, p, s1, s2, s3, ea, ei, e3,
    c3.trans hc, z3, l3⟩


end Kernel
